import Mathlib

/-!
# Partial tracking (`include/algorithms/util/PartialTracking.hpp`)

A shallow embedding of the class `fluid::algorithm::PartialTracking` and a
verification of statements of its specification.

## Modelling conventions

* `double` values live in a type `R` about which nothing is assumed beyond the
  presence of the operations the code uses (`+ - * /`, unary minus, `<`, `!=`,
  numeric literals).  `exp`, `log`, `pow`, `abs`, the result of `std::sort` and
  the result of the assignment solver (`Munkres.hpp`, not part of the sources
  at hand) are fields of an environment `Env R`.  Every theorem stated for an
  arbitrary `R` therefore holds for every interpretation of the arithmetic.
* `index` (`std::ptrdiff_t`) is modelled by `Int`; signed overflow of `index`
  (undefined behaviour) is not modelled.  The narrowing `static_cast<int>` in
  `assignGreedy` is modelled by `staticCastInt` (two's complement, 32 bits).
* `std::vector` is `List`; pointers into a vector are positions in the list.
* Operations whose C++ behaviour is undefined (reading a vector or matrix out
  of range, `back()` of an empty vector) and a failing `assert` yield `none`.
-/

namespace fluid.algorithm

/-- The struct `SinePeak`. -/
structure SinePeak (R : Type) where
  freq : R
  logMag : R
  assigned : Bool

/-- The struct `SineTrack`. -/
structure SineTrack (R : Type) where
  peaks : List (SinePeak R)
  startFrame : Int
  endFrame : Int
  active : Bool
  assigned : Bool
  trackId : Int

/-- The data members of `PartialTracking` (the solver object `mMunkres` is
represented by `Env.munkres`). -/
@[ext]
structure PartialTracking (R : Type) where
  mMinTrackLength : Int
  mCurrentFrame : Int
  mTracks : List (SineTrack R)
  mInitialized : Bool
  mPrevPeaks : List (SinePeak R)
  mPrevTracks : List Int
  mZetaA : R
  mVarA : R
  mZetaF : R
  mVarF : R
  mDelta : R
  mPrevMaxAmp : R
  mLastTrackId : Int
  mBirthLowThreshold : R
  mBirthHighThreshold : R
  mBirthRange : R

/-- What the code takes from outside the class: the `<cmath>` functions, the
order in which `std::sort` leaves the candidate list, and the assignment that
`mMunkres.init(N, M); mMunkres.process(cost, assignment)` writes (row `i` of
the `N × M` matrix `cost` is given the value `munkres N M cost i`). -/
structure Env (R : Type) where
  exp : R → R
  log : R → R
  pow : R → R → R
  abs : R → R
  sort : List (R × Nat × Nat) → List (R × Nat × Nat)
  munkres : Nat → Nat → List (List R) → Nat → Int

/-- The conversion `static_cast<int>(x)` of an `index` to a 32-bit `int`. -/
def staticCastInt (x : Int) : Int :=
  (x + 2147483648) % 4294967296 - 2147483648

section Model

variable {R : Type} [NatCast R] [OfScientific R] [Add R] [Sub R] [Mul R] [Div R] [Neg R]
  [LT R] [DecidableRel (LT.lt : R → R → Prop)] [BEq R]

/-- The member initialisers of the class: the state of a default-constructed
object. -/
def PartialTracking.fresh : PartialTracking R where
  mMinTrackLength := 15
  mCurrentFrame := 0
  mTracks := []
  mInitialized := false
  mPrevPeaks := []
  mPrevTracks := []
  mZetaA := ((0 : Nat) : R)
  mVarA := ((0 : Nat) : R)
  mZetaF := ((0 : Nat) : R)
  mVarF := ((0 : Nat) : R)
  mDelta := ((0 : Nat) : R)
  mPrevMaxAmp := ((0 : Nat) : R)
  mLastTrackId := 1
  mBirthLowThreshold := -(24.0 : R)
  mBirthHighThreshold := -(60.0 : R)
  mBirthRange := (36.0 : R)

/-- The method `init()`. -/
def PartialTracking.init (s : PartialTracking R) : PartialTracking R :=
  { s with
    mCurrentFrame := 0
    mTracks := []
    mPrevPeaks := []
    mPrevTracks := []
    mZetaA := ((0 : Nat) : R)
    mZetaF := ((0 : Nat) : R)
    mDelta := ((0 : Nat) : R)
    mPrevMaxAmp := ((0 : Nat) : R)
    mLastTrackId := 1
    mInitialized := true }

/-- The method `minTrackLength()`. -/
def PartialTracking.minTrackLength (s : PartialTracking R) : Int :=
  s.mMinTrackLength

/-- The predicate of the `remove_if` in `prune()`. -/
def pruneTest (s : PartialTracking R) (track : SineTrack R) : Bool :=
  decide (track.endFrame ≥ 0) && decide (track.endFrame ≤ s.mCurrentFrame - s.mMinTrackLength)

/-- The method `prune()`. -/
def PartialTracking.prune (s : PartialTracking R) : PartialTracking R :=
  { s with mTracks := s.mTracks.filter (fun track => !pruneTest s track) }

/-- The loop of `getActivePeaks()` over `mTracks`; `sinePeaks` is the vector
built so far. -/
def getActivePeaksLoop (latencyFrame minTrackLength : Int) :
    List (SineTrack R) → List (SinePeak R) → Option (List (SinePeak R))
  | [], sinePeaks => some sinePeaks
  | track :: rest, sinePeaks =>
    if track.startFrame > latencyFrame then
      getActivePeaksLoop latencyFrame minTrackLength rest sinePeaks
    else if track.endFrame ≥ 0 ∧ track.endFrame ≤ latencyFrame then
      getActivePeaksLoop latencyFrame minTrackLength rest sinePeaks
    else if track.endFrame ≥ 0 ∧ track.endFrame - track.startFrame < minTrackLength then
      getActivePeaksLoop latencyFrame minTrackLength rest sinePeaks
    else
      match track.peaks[(latencyFrame - track.startFrame).toNat]? with
      | none => none
      | some peak => getActivePeaksLoop latencyFrame minTrackLength rest (sinePeaks ++ [peak])

/-- The method `getActivePeaks()`. -/
def PartialTracking.getActivePeaks (s : PartialTracking R) : Option (List (SinePeak R)) :=
  let latencyFrame := s.mCurrentFrame - s.mMinTrackLength
  if latencyFrame < 0 then some []
  else getActivePeaksLoop latencyFrame s.mMinTrackLength s.mTracks []

/-- The method `updateVariances()`. -/
def PartialTracking.updateVariances (env : Env R) (s : PartialTracking R) : PartialTracking R :=
  { s with
    mVarA := -(env.pow s.mZetaA ((2 : Nat) : R)) *
      env.log ((s.mDelta - ((1 : Nat) : R)) / (s.mDelta - ((2 : Nat) : R)))
    mVarF := -(env.pow s.mZetaF ((2 : Nat) : R)) *
      env.log ((s.mDelta - ((1 : Nat) : R)) / (s.mDelta - ((2 : Nat) : R))) }

/-- The method `birthThreshold(peak, maxAmp)`. -/
def PartialTracking.birthThreshold (env : Env R) (s : PartialTracking R) (peak : SinePeak R)
    (maxAmp : R) : R :=
  maxAmp + s.mBirthLowThreshold - s.mBirthRange +
    s.mBirthRange * env.pow (0.0075 : R) (peak.freq / (20000.0 : R))

/-- The loop `for (auto&& track : mTracks) { track.assigned = false; }`. -/
def clearAssigned (tracks : List (SineTrack R)) : List (SineTrack R) :=
  tracks.map (fun track => { track with assigned := false })

/-- The loop headed `// diying tracks` (the same in both strategies). -/
def dyingTracks (currentFrame : Int) (tracks : List (SineTrack R)) : List (SineTrack R) :=
  tracks.map (fun track =>
    if track.active && !track.assigned then
      { track with active := false, endFrame := currentFrame }
    else track)

/-- The expression `dist` of `assignGreedy`, between `track.peaks.back()` and a
peak of the frame. -/
def greedyDist (env : Env R) (s : PartialTracking R) (back peak : SinePeak R) : R :=
  ((1 : Nat) : R) -
    env.exp (-(env.pow (back.freq - peak.freq) ((2 : Nat) : R)) / s.mVarF -
      env.pow (back.logMag - peak.logMag) ((2 : Nat) : R) / s.mVarA)

/-- The inner loop `for (auto&& peak : sinePeaks)` of the construction of
`distances`, for the track at position `i`; `j` is the position of the first
peak of the list.  `track.peaks.back()` of an empty history is undefined. -/
def peakDistances (env : Env R) (s : PartialTracking R) (i : Nat) (track : SineTrack R) :
    Nat → List (SinePeak R) → Option (List (R × Nat × Nat))
  | _, [] => some []
  | j, peak :: rest =>
    match track.peaks.getLast?, peakDistances env s i track (j + 1) rest with
    | some back, some ds => some ((greedyDist env s back peak, i, j) :: ds)
    | _, _ => none

/-- The outer loop `for (auto& track : mTracks)` of the construction of
`distances`; `i` is the position of the first track of the list. -/
def trackDistances (env : Env R) (s : PartialTracking R) (sinePeaks : List (SinePeak R)) :
    Nat → List (SineTrack R) → Option (List (R × Nat × Nat))
  | _, [] => some []
  | i, track :: rest =>
    if track.active then
      match peakDistances env s i track 0 sinePeaks, trackDistances env s sinePeaks (i + 1) rest with
      | some ds, some ds' => some (ds ++ ds')
      | _, _ => none
    else trackDistances env s sinePeaks (i + 1) rest

/-- The test `get<0>(pairing) < (1 - (1 - mDelta) * get<0>(pairing))`. -/
def usefulVsSpurious (s : PartialTracking R) (dist : R) : Bool :=
  decide (dist < ((1 : Nat) : R) - (((1 : Nat) : R) - s.mDelta) * dist)

/-- The condition of the `if` in the loop `for (auto&& pairing : distances)`:
`!track->assigned && !peak->assigned && dist < (1 - (1 - mDelta) * dist)`. -/
def pairingTest (s : PartialTracking R) (track : SineTrack R) (peak : SinePeak R) (dist : R) :
    Bool :=
  !track.assigned && !peak.assigned && usefulVsSpurious s dist

/-- One turn of the loop `for (auto&& pairing : distances)`: the pairing is
`(dist, position of the track, position of the peak)`. -/
def acceptPairing (s : PartialTracking R) (st : List (SineTrack R) × List (SinePeak R))
    (pairing : R × Nat × Nat) : List (SineTrack R) × List (SinePeak R) :=
  match st.1[pairing.2.1]?, st.2[pairing.2.2]? with
  | some track, some peak =>
    if pairingTest s track peak pairing.1 then
      (st.1.set pairing.2.1 { track with peaks := track.peaks ++ [peak], assigned := true },
       st.2.set pairing.2.2 { peak with assigned := true })
    else st
  | _, _ => st

/-- One turn of the loop headed `// new tracks`; the state is `mTracks` and
`mLastTrackId`. -/
def birthStep (env : Env R) (s : PartialTracking R) (maxAmp : R)
    (st : List (SineTrack R) × Int) (peak : SinePeak R) : List (SineTrack R) × Int :=
  if !peak.assigned && decide (peak.logMag > s.birthThreshold env peak maxAmp) then
    (st.1 ++ [{ peaks := [peak], startFrame := staticCastInt s.mCurrentFrame, endFrame := -1,
                active := true, assigned := true, trackId := st.2 }], st.2 + 1)
  else st

/-- The method `assignGreedy(sinePeaks, maxAmp)`. -/
def PartialTracking.assignGreedy (env : Env R) (s : PartialTracking R)
    (sinePeaks : List (SinePeak R)) (maxAmp : R) : Option (PartialTracking R) :=
  let tracks := clearAssigned s.mTracks
  match trackDistances env s sinePeaks 0 tracks with
  | none => none
  | some distances =>
    let paired := (env.sort distances).foldl (acceptPairing s) (tracks, sinePeaks)
    let born := paired.2.foldl (birthStep env s maxAmp) (paired.1, s.mLastTrackId)
    some { s with mTracks := dyingTracks s.mCurrentFrame born.1, mLastTrackId := born.2 }

/-- The entry `usefulCost(i, j)`: `prev` is `mPrevPeaks[i]`, `peak` is
`sinePeaks[j]`. -/
def usefulCost (env : Env R) (s : PartialTracking R) (prev peak : SinePeak R) : R :=
  ((1 : Nat) : R) -
    env.exp (-((prev.freq - peak.freq) * (prev.freq - peak.freq)) / s.mVarF -
      ((prev.logMag - peak.logMag) * (prev.logMag - peak.logMag)) / s.mVarA)

/-- The entry `spuriousCost(i, j)`. -/
def spuriousCost (env : Env R) (s : PartialTracking R) (prev peak : SinePeak R) : R :=
  ((1 : Nat) : R) - (((1 : Nat) : R) - s.mDelta) * usefulCost env s prev peak

/-- The entry `useful(i, j)`. -/
def usefulEntry (env : Env R) (s : PartialTracking R) (prev peak : SinePeak R) : Bool :=
  decide (usefulCost env s prev peak < spuriousCost env s prev peak)

/-- The entry `cost(i, j)`. -/
def costEntry (env : Env R) (s : PartialTracking R) (prev peak : SinePeak R) : R :=
  if usefulEntry env s prev peak then env.abs (usefulCost env s prev peak)
  else spuriousCost env s prev peak

/-- The matrix `cost`, by rows. -/
def costMatrix (env : Env R) (s : PartialTracking R) (sinePeaks : List (SinePeak R)) :
    List (List R) :=
  s.mPrevPeaks.map (fun prev => sinePeaks.map (fun peak => costEntry env s prev peak))

/-- What the loop over the rows of `assignMunkres` changes. -/
structure MunkresLoop (R : Type) where
  tracks : List (SineTrack R)
  sinePeaks : List (SinePeak R)
  trackAssignment : List Int
  lastTrackId : Int

/-- The branch of `assignMunkres` that extends the tracks whose id is
`mPrevTracks[i]` by the peak at position `p`. -/
def extendTracks (st : MunkresLoop R) (prevTrack : Int) (p : Nat) : Option (MunkresLoop R) :=
  match st.sinePeaks[p]? with
  | none => none
  | some peak =>
    if st.tracks.any (fun t => t.trackId == prevTrack) then
      some { st with
        tracks := st.tracks.map (fun t =>
          if t.trackId == prevTrack then
            { t with assigned := true, peaks := t.peaks ++ [{ peak with assigned := true }] }
          else t)
        sinePeaks := st.sinePeaks.set p { peak with assigned := true }
        trackAssignment := st.trackAssignment.set p prevTrack }
    else some st

/-- The branch of `assignMunkres` that creates a track from `mPrevPeaks[i]` and
the peak at position `p`. -/
def birthFromPair (s : PartialTracking R) (st : MunkresLoop R) (prev : SinePeak R) (p : Nat) :
    Option (MunkresLoop R) :=
  match st.sinePeaks[p]? with
  | none => none
  | some peak =>
    some { tracks := st.tracks ++ [{ peaks := [prev, peak], startFrame := s.mCurrentFrame - 1,
                                     endFrame := -1, active := true, assigned := true,
                                     trackId := st.lastTrackId + 1 }]
           sinePeaks := st.sinePeaks.set p { peak with assigned := true }
           trackAssignment := st.trackAssignment.set p (st.lastTrackId + 1)
           lastTrackId := st.lastTrackId + 1 }

/-- One turn of the loop `for (index i = 0; i < N; i++)` that follows the call
of the solver; `assignment` is the solver's result and `sinePeaks` the peaks of
the frame as they were passed (the matrix `useful` has `sinePeaks.length`
columns and its entries are computed from them).  Reading `useful(i, p)` with
`p < 0` and reading `mPrevTracks[i]` past its end are undefined. -/
def munkresRow (env : Env R) (s : PartialTracking R) (sinePeaks : List (SinePeak R))
    (assignment : Nat → Int) (st : MunkresLoop R) (i : Nat) : Option (MunkresLoop R) :=
  match s.mPrevPeaks[i]? with
  | none => none
  | some prev =>
    let p := assignment i
    let aboveBirthThreshold := decide (prev.logMag > s.birthThreshold env prev s.mPrevMaxAmp)
    if p ≥ (sinePeaks.length : Int) then some st
    else if p < 0 then none
    else
      match sinePeaks[p.toNat]? with
      | none => none
      | some peak =>
        if usefulEntry env s prev peak then
          match s.mPrevTracks[i]? with
          | none => none
          | some prevTrack =>
            if decide (prevTrack > 0) && prev.assigned then extendTracks st prevTrack p.toNat
            else if aboveBirthThreshold && !prev.assigned then birthFromPair s st prev p.toNat
            else some st
        else some st

/-- The loop over the rows `0, …, N - 1`. -/
def munkresRows (env : Env R) (s : PartialTracking R) (sinePeaks : List (SinePeak R))
    (assignment : Nat → Int) : List Nat → MunkresLoop R → Option (MunkresLoop R)
  | [], st => some st
  | i :: rest, st =>
    match munkresRow env s sinePeaks assignment st i with
    | none => none
    | some st' => munkresRows env s sinePeaks assignment rest st'

/-- The method `assignMunkres(sinePeaks, maxAmp)`. -/
def PartialTracking.assignMunkres (env : Env R) (s : PartialTracking R)
    (sinePeaks : List (SinePeak R)) (maxAmp : R) : Option (PartialTracking R) :=
  let tracks := clearAssigned s.mTracks
  if s.mPrevPeaks.isEmpty then
    some { s with
      mTracks := tracks
      mPrevPeaks := sinePeaks
      mPrevTracks := List.replicate sinePeaks.length 0 }
  else
    let N := s.mPrevPeaks.length
    let M := sinePeaks.length
    let start : MunkresLoop R :=
      { tracks := tracks, sinePeaks := sinePeaks, trackAssignment := List.replicate M (-1),
        lastTrackId := s.mLastTrackId }
    let matched : Option (MunkresLoop R) :=
      if sinePeaks.length > 0 then
        munkresRows env s sinePeaks (env.munkres N M (costMatrix env s sinePeaks))
          (List.range N) start
      else some start
    match matched with
    | none => none
    | some st =>
      some { s with
        mTracks := dyingTracks s.mCurrentFrame st.tracks
        mLastTrackId := st.lastTrackId
        mPrevTracks := st.trackAssignment
        mPrevPeaks := st.sinePeaks
        mPrevMaxAmp := maxAmp }

/-- The statements of `processFrame` that precede the choice of the strategy:
the configuration is stored and the variances are recomputed when `zetaA`,
`zetaF` or `delta` differ from the stored values. -/
def PartialTracking.configure (env : Env R) (s : PartialTracking R) (minTrackLength : Int)
    (birthLowThreshold birthHighThreshold zetaA zetaF delta : R) : PartialTracking R :=
  let s1 : PartialTracking R :=
    { s with
      mMinTrackLength := minTrackLength
      mBirthLowThreshold := birthLowThreshold
      mBirthHighThreshold := birthHighThreshold
      mBirthRange := birthLowThreshold - birthHighThreshold }
  if zetaA != s1.mZetaA || zetaF != s1.mZetaF || delta != s1.mDelta then
    PartialTracking.updateVariances env { s1 with mZetaA := zetaA, mZetaF := zetaF, mDelta := delta }
  else s1

/-- The method `processFrame(peaks, maxAmp, minTrackLength, birthLowThreshold,
birthHighThreshold, method, zetaA, zetaF, delta)`. -/
def PartialTracking.processFrame (env : Env R) (s : PartialTracking R)
    (peaks : List (SinePeak R)) (maxAmp : R) (minTrackLength : Int)
    (birthLowThreshold birthHighThreshold : R) (method : Int) (zetaA zetaF delta : R) :
    Option (PartialTracking R) :=
  if !s.mInitialized then none
  else
    let s1 := s.configure env minTrackLength birthLowThreshold birthHighThreshold zetaA zetaF delta
    let s2 : Option (PartialTracking R) :=
      if method = 0 then s1.assignGreedy env peaks maxAmp
      else s1.assignMunkres env peaks maxAmp
    match s2 with
    | none => none
    | some s3 => some { s3 with mCurrentFrame := s3.mCurrentFrame + 1 }

/-! ## Calls and runs -/

/-- The arguments of one call of `processFrame`. -/
structure FrameArgs (R : Type) where
  peaks : List (SinePeak R)
  maxAmp : R
  minTrackLength : Int
  birthLowThreshold : R
  birthHighThreshold : R
  method : Int
  zetaA : R
  zetaF : R
  delta : R

/-- The call `processFrame` with its arguments bundled. -/
def PartialTracking.processFrameArgs (env : Env R) (s : PartialTracking R) (a : FrameArgs R) :
    Option (PartialTracking R) :=
  s.processFrame env a.peaks a.maxAmp a.minTrackLength a.birthLowThreshold a.birthHighThreshold
    a.method a.zetaA a.zetaF a.delta

/-- The state in which the strategy of a call runs. -/
def PartialTracking.configureArgs (env : Env R) (s : PartialTracking R) (a : FrameArgs R) :
    PartialTracking R :=
  s.configure env a.minTrackLength a.birthLowThreshold a.birthHighThreshold a.zetaA a.zetaF a.delta

/-- A run: `Run env ok s s'` holds when `s'` is reached from `s` by calls of
`processFrame` whose arguments all satisfy `ok`, none of which runs into
undefined behaviour, with calls of `prune()` at arbitrary points. -/
inductive Run (env : Env R) (ok : FrameArgs R → Prop) :
    PartialTracking R → PartialTracking R → Prop
  | refl (s : PartialTracking R) : Run env ok s s
  | frame {s s' s'' : PartialTracking R} (a : FrameArgs R) :
      Run env ok s s' → ok a → s'.processFrameArgs env a = some s'' → Run env ok s s''
  | prune {s s' : PartialTracking R} : Run env ok s s' → Run env ok s s'.prune

/-- The successive calls `processFrame(a₁)`, `processFrame(a₂)`, … from the
state `s`. -/
def PartialTracking.runFrames (env : Env R) (s : PartialTracking R) :
    List (FrameArgs R) → Option (PartialTracking R)
  | [] => some s
  | a :: rest =>
    match s.processFrameArgs env a with
    | none => none
    | some s' => s'.runFrames env rest

/-- The pairings that the loop `for (auto&& pairing : distances)` accepts, in
the order in which it accepts them: `pairing` is recorded exactly when the
condition of the `if` holds for it. -/
def acceptedPairings (s : PartialTracking R) :
    List (SineTrack R) × List (SinePeak R) → List (R × Nat × Nat) → List (R × Nat × Nat)
  | _, [] => []
  | st, pairing :: rest =>
    let tl := acceptedPairings s (acceptPairing s st pairing) rest
    match st.1[pairing.2.1]?, st.2[pairing.2.2]? with
    | some track, some peak => if pairingTest s track peak pairing.1 then pairing :: tl else tl
    | _, _ => tl

/-- The matching of a call `assignGreedy(sinePeaks, maxAmp)` in state `s`: the
accepted pairings `(dist, position of the track, position of the peak)`. -/
def greedyMatching (env : Env R) (s : PartialTracking R) (sinePeaks : List (SinePeak R)) :
    List (R × Nat × Nat) :=
  match trackDistances env s sinePeaks 0 (clearAssigned s.mTracks) with
  | none => []
  | some distances => acceptedPairings s (clearAssigned s.mTracks, sinePeaks) (env.sort distances)

/-- The condition of the `if` in the loop headed `// new tracks`. -/
def birthTest (env : Env R) (s : PartialTracking R) (maxAmp : R) (peak : SinePeak R) : Bool :=
  !peak.assigned && decide (peak.logMag > s.birthThreshold env peak maxAmp)

/-- The tracks that the loop headed `// new tracks` appends when it runs over
`peaks` with `mLastTrackId = firstId`. -/
def newTracks (env : Env R) (s : PartialTracking R) (maxAmp : R) :
    List (SinePeak R) → Int → List (SineTrack R)
  | [], _ => []
  | peak :: rest, firstId =>
    if birthTest env s maxAmp peak then
      { peaks := [peak], startFrame := staticCastInt s.mCurrentFrame, endFrame := -1,
        active := true, assigned := true, trackId := firstId } ::
        newTracks env s maxAmp rest (firstId + 1)
    else newTracks env s maxAmp rest firstId

/-- The peaks of the frame as the loop over the pairings leaves them. -/
def pairedPeaks (env : Env R) (s : PartialTracking R) (sinePeaks : List (SinePeak R)) :
    List (SinePeak R) :=
  match trackDistances env s sinePeaks 0 (clearAssigned s.mTracks) with
  | none => sinePeaks
  | some distances =>
    ((env.sort distances).foldl (acceptPairing s) (clearAssigned s.mTracks, sinePeaks)).2

/-! ## Runs with a single strategy -/

/-- The calls of a run that uses one strategy throughout (`greedy = true`:
`method == 0`; `greedy = false`: the solver-based strategy) with the constant
`minTrackLength = m`. -/
def singleStrategy (greedy : Bool) (m : Int) (a : FrameArgs R) : Prop :=
  (a.method = 0 ↔ greedy = true) ∧ a.minTrackLength = m

/-- The least id that the next birth can give: `mLastTrackId` is used and then
incremented by the greedy strategy, incremented and then used by the other. -/
def nextTrackId (greedy : Bool) (s : PartialTracking R) : Int :=
  if greedy then s.mLastTrackId else s.mLastTrackId + 1

/-- The `startFrame` that a birth during the call on frame `f` gives. -/
def birthFrame (greedy : Bool) (f : Int) : Int :=
  if greedy then staticCastInt f else f - 1

/-- The number of peaks in the history of a new track. -/
def birthLength (greedy : Bool) : Nat :=
  if greedy then 1 else 2

/-- How one call of `processFrame` on frame `f` can change a track that was in
the collection: a dead track is left alone; an active track either receives
one peak and stays active, or dies with `endFrame = f`. -/
def TrackStep (f : Int) (t t' : SineTrack R) : Prop :=
  t'.trackId = t.trackId ∧ t'.startFrame = t.startFrame ∧
  ((t.active = false ∧ t'.active = false ∧ t'.endFrame = t.endFrame ∧ t'.peaks = t.peaks) ∨
   (t.active = true ∧ t'.active = true ∧ t'.endFrame = t.endFrame ∧
      ∃ peak, t'.peaks = t.peaks ++ [peak]) ∨
   (t.active = true ∧ t'.active = false ∧ t'.endFrame = f ∧ t'.peaks = t.peaks))

/-- What a call of `processFrame` of a single-strategy run does to the
collection and the counters: the tracks that were there are followed, in
order, by the new tracks; each old track changes as `TrackStep` allows; each
new track is active, has no end frame, starts at `birthFrame`, has
`birthLength` peaks and a fresh id. -/
structure FrameSummary (greedy : Bool) (m : Int) (s s' : PartialTracking R) : Prop where
  frame : s'.mCurrentFrame = s.mCurrentFrame + 1
  minLen : s'.mMinTrackLength = m
  initialized : s'.mInitialized = true
  nextId : nextTrackId greedy s ≤ nextTrackId greedy s'
  tracks : ∃ olds news, s'.mTracks = olds ++ news ∧
    List.Forall₂ (TrackStep s.mCurrentFrame) s.mTracks olds ∧
    (∀ n ∈ news, n.startFrame = birthFrame greedy s.mCurrentFrame ∧ n.endFrame = -1 ∧
      n.active = true ∧ n.peaks.length = birthLength greedy ∧
      nextTrackId greedy s ≤ n.trackId ∧ n.trackId < nextTrackId greedy s') ∧
    (news.map (fun n => n.trackId)).Nodup

/-- What the solver-based strategy relies on between two calls: the tracks
bound to the previous peaks (`mPrevTracks`, entries `> 0`) are bound to one
peak each, are active and have ids that were already given; and when there are
no previous peaks, no track is active. -/
structure PrevBinding (s : PartialTracking R) : Prop where
  distinct : ∀ (i₁ i₂ : Nat) (k : Int), i₁ ≠ i₂ →
    s.mPrevTracks[i₁]? = some k → s.mPrevTracks[i₂]? = some k → k ≤ 0
  active : ∀ (i : Nat) (k : Int), s.mPrevTracks[i]? = some k → 0 < k →
    ∀ t ∈ s.mTracks, t.trackId = k → t.active = true
  given : ∀ (i : Nat) (k : Int), s.mPrevTracks[i]? = some k → k ≤ s.mLastTrackId
  idle : s.mPrevPeaks = [] → ∀ t ∈ s.mTracks, t.active = false
  lastId : 0 ≤ s.mLastTrackId
  sameLength : s.mPrevTracks.length = s.mPrevPeaks.length

/-- The invariant of the runs with a single strategy and constant
`minTrackLength = m`. -/
structure Sound (greedy : Bool) (m : Int) (s : PartialTracking R) : Prop where
  initialized : s.mInitialized = true
  frame : 0 ≤ s.mCurrentFrame
  minLen : s.mTracks ≠ [] → s.mMinTrackLength = m
  idsNodup : (s.mTracks.map (fun t => t.trackId)).Nodup
  idsGiven : ∀ t ∈ s.mTracks, t.trackId < nextTrackId greedy s
  alive : ∀ t ∈ s.mTracks, t.active = true → t.endFrame = -1
  dead : ∀ t ∈ s.mTracks, t.active = false → 0 ≤ t.endFrame ∧ t.endFrame < s.mCurrentFrame
  history : ∀ t ∈ s.mTracks, t.peaks ≠ []
  prev : greedy = false → PrevBinding s

/-- How the loop over the rows of `assignMunkres` has changed a track `t0` of
the collection into `t` once the rows `done` are processed: it is as it was,
with its scratch flag clear, or it has received one peak, is flagged, is
active and is the track bound to the previous peak of a processed row. -/
def RowStep (s : PartialTracking R) (done : List Nat) (t0 t : SineTrack R) : Prop :=
  t.trackId = t0.trackId ∧ t.startFrame = t0.startFrame ∧ t.endFrame = t0.endFrame ∧
  t.active = t0.active ∧
  ((t.peaks = t0.peaks ∧ t.assigned = false) ∨
   ((∃ peak, t.peaks = t0.peaks ++ [peak]) ∧ t.assigned = true ∧ t0.active = true ∧
      0 < t0.trackId ∧ ∃ i ∈ done, s.mPrevTracks[i]? = some t0.trackId))

/-- The invariant of the loop over the rows of `assignMunkres`, after the rows
`done`. -/
structure RowsInv (s : PartialTracking R) (done : List Nat) (st : MunkresLoop R) : Prop where
  tracks : ∃ olds news, st.tracks = olds ++ news ∧
    List.Forall₂ (RowStep s done) s.mTracks olds ∧
    (∀ n ∈ news, n.startFrame = s.mCurrentFrame - 1 ∧ n.endFrame = -1 ∧ n.active = true ∧
      n.assigned = true ∧ n.peaks.length = 2 ∧ s.mLastTrackId < n.trackId ∧
      n.trackId ≤ st.lastTrackId) ∧
    (news.map (fun n => n.trackId)).Nodup
  lastId : s.mLastTrackId ≤ st.lastTrackId
  slotsDistinct : ∀ (p₁ p₂ : Nat) (v : Int), p₁ ≠ p₂ →
    st.trackAssignment[p₁]? = some v → st.trackAssignment[p₂]? = some v → v ≤ 0
  slotsSource : ∀ (p : Nat) (v : Int), st.trackAssignment[p]? = some v → 0 < v →
    v ≤ st.lastTrackId ∧ ((∃ i ∈ done, s.mPrevTracks[i]? = some v) ∨ s.mLastTrackId < v)
  slotsActive : ∀ (p : Nat) (v : Int), st.trackAssignment[p]? = some v → 0 < v →
    ∀ t ∈ st.tracks, t.trackId = v → t.active = true ∧ t.assigned = true
  slotsNonpos : ∀ (p : Nat) (v : Int), st.trackAssignment[p]? = some v → v ≤ st.lastTrackId
  lengths : st.trackAssignment.length = st.sinePeaks.length

/-- The relation between the length of a track's history and its frames: the
history of an active track reaches the current frame, that of a dead track its
end frame. -/
def LengthInv (s : PartialTracking R) : Prop :=
  ∀ t ∈ s.mTracks,
    (t.active = true → (t.peaks.length : Int) = s.mCurrentFrame - t.startFrame) ∧
    (t.active = false → (t.peaks.length : Int) = t.endFrame - t.startFrame)

/-- The relation `Lineage f t t'`: the track `t'` of a later state is the track `t` of a
state whose frame counter is `f`, some frames on. -/
def Lineage (f : Int) (t t' : SineTrack R) : Prop :=
  t'.trackId = t.trackId ∧ t'.startFrame = t.startFrame ∧ t.peaks <+: t'.peaks ∧
  (t.active = false → t'.active = false ∧ t'.endFrame = t.endFrame ∧ t'.peaks = t.peaks) ∧
  (t.active = true → t'.active = false → f ≤ t'.endFrame) ∧
  (t'.active = true → t.active = true)

/-! ## Real arithmetic and a worked example -/

/-- Exact real arithmetic: the `<cmath>` functions are the real functions,
`std::sort` is an insertion sort by cost, and the solver assigns row `i` to
column `i` (and reports a row `i ≥ M` as unmatched by the value `M`), which on a
matrix with a single row and a single column is the only matching of size
`min(N, M)`, hence what every solver meeting the contract returns there. -/
noncomputable def realEnv : Env ℝ where
  exp := Real.exp
  log := Real.log
  pow := fun x y => x ^ y
  abs := fun x => |x|
  sort := List.insertionSort (fun p q => p.1 ≤ q.1)
  munkres := fun _ M _ i => if i < M then (i : Int) else (M : Int)

/-- A peak at 440 Hz with log-magnitude −10. -/
noncomputable def examplePeak : SinePeak ℝ :=
  { freq := 440, logMag := -10, assigned := false }

/-- The arguments of the calls of the worked example: frame maximum −10,
`minTrackLength = m`, the default birth thresholds −24 and −60, tolerances 1
and `delta = 1/2`. -/
noncomputable def exampleArgs (method m : Int) (peaks : List (SinePeak ℝ)) : FrameArgs ℝ :=
  { peaks := peaks, maxAmp := -10, minTrackLength := m, birthLowThreshold := -24,
    birthHighThreshold := -60, method := method, zetaA := 1, zetaF := 1, delta := 1 / 2 }

/-- The state of the worked example after `init()`. -/
noncomputable def exampleInit : PartialTracking ℝ :=
  PartialTracking.init PartialTracking.fresh

/-- The state after `init()` with the configuration of the worked example
stored (and the variances computed from it), before any track exists. -/
noncomputable def exampleCfg (m : Int) : PartialTracking ℝ :=
  exampleInit.configureArgs realEnv (exampleArgs 0 m [])

/-- The worked example after one greedy frame holding `examplePeak`: one active
track, born at frame 0. -/
noncomputable def greedyState1 (m : Int) : PartialTracking ℝ :=
  { exampleCfg m with
    mTracks := [{ peaks := [examplePeak], startFrame := 0, endFrame := -1, active := true,
                  assigned := true, trackId := 1 }]
    mLastTrackId := 2
    mCurrentFrame := 1 }

/-- The state `greedyState1` after one more greedy frame holding `examplePeak`:
the track has been extended. -/
noncomputable def greedyState2 (m : Int) : PartialTracking ℝ :=
  { exampleCfg m with
    mTracks := [{ peaks := [examplePeak, examplePeak], startFrame := 0, endFrame := -1,
                  active := true, assigned := true, trackId := 1 }]
    mLastTrackId := 2
    mCurrentFrame := 2 }

/-- The state `greedyState1` after a greedy frame without peaks: the track has
died at frame 1. -/
noncomputable def greedyDead2 (m : Int) : PartialTracking ℝ :=
  { exampleCfg m with
    mTracks := [{ peaks := [examplePeak], startFrame := 0, endFrame := 1, active := false,
                  assigned := false, trackId := 1 }]
    mLastTrackId := 2
    mCurrentFrame := 2 }

/-- The state `greedyState1` after a frame without peaks processed by the
solver-based strategy: the call returns early, the track is still active and
its history has not grown. -/
noncomputable def staleState (m : Int) : PartialTracking ℝ :=
  { exampleCfg m with
    mTracks := [{ peaks := [examplePeak], startFrame := 0, endFrame := -1, active := true,
                  assigned := false, trackId := 1 }]
    mLastTrackId := 2
    mCurrentFrame := 2 }

/-- The worked example after one frame holding `examplePeak` processed by the
solver-based strategy: the peak is stored, no track exists. -/
noncomputable def munkresState1 (m : Int) : PartialTracking ℝ :=
  { exampleCfg m with
    mPrevPeaks := [examplePeak]
    mPrevTracks := [0]
    mCurrentFrame := 1 }

/-- The state `munkresState1` after a second such frame: a track is born from
the stored peak and the new one, with id 2 and `startFrame = 0`. -/
noncomputable def munkresState2 (m : Int) : PartialTracking ℝ :=
  { exampleCfg m with
    mTracks := [{ peaks := [examplePeak, examplePeak], startFrame := 0, endFrame := -1,
                  active := true, assigned := true, trackId := 2 }]
    mPrevPeaks := [{ examplePeak with assigned := true }]
    mPrevTracks := [2]
    mPrevMaxAmp := -10
    mLastTrackId := 2
    mCurrentFrame := 2 }

/-- The state `munkresState2` after a greedy frame without peaks: the track has
died at frame 2. -/
noncomputable def mixedState3 (m : Int) : PartialTracking ℝ :=
  { exampleCfg m with
    mTracks := [{ peaks := [examplePeak, examplePeak], startFrame := 0, endFrame := 2,
                  active := false, assigned := false, trackId := 2 }]
    mPrevPeaks := [{ examplePeak with assigned := true }]
    mPrevTracks := [2]
    mPrevMaxAmp := -10
    mLastTrackId := 2
    mCurrentFrame := 3 }

/-- The state `mixedState3` after a greedy frame holding `examplePeak`: the new
track gets the id 2 again. -/
noncomputable def mixedState4 (m : Int) : PartialTracking ℝ :=
  { exampleCfg m with
    mTracks := [{ peaks := [examplePeak, examplePeak], startFrame := 0, endFrame := 2,
                  active := false, assigned := false, trackId := 2 },
                { peaks := [examplePeak], startFrame := 3, endFrame := -1, active := true,
                  assigned := true, trackId := 2 }]
    mPrevPeaks := [{ examplePeak with assigned := true }]
    mPrevTracks := [2]
    mPrevMaxAmp := -10
    mLastTrackId := 3
    mCurrentFrame := 4 }

/-- The worked example after `n + 1` greedy frames without peaks. -/
noncomputable def idleState (n : Nat) : PartialTracking ℝ :=
  { exampleCfg 1 with mCurrentFrame := (n : Int) + 1 }

/-- The state `idleState n` after a greedy frame holding `examplePeak`. -/
noncomputable def lateBirthState (n : Nat) : PartialTracking ℝ :=
  { exampleCfg 1 with
    mTracks := [{ peaks := [examplePeak], startFrame := staticCastInt ((n : Int) + 1),
                  endFrame := -1, active := true, assigned := true, trackId := 1 }]
    mLastTrackId := 2
    mCurrentFrame := (n : Int) + 2 }

/-! ## Notions used to state the properties -/

/-- The historical frame that `getActivePeaks()` reports:
`currentFrame − minTrackLength`. -/
def PartialTracking.latencyFrame (s : PartialTracking R) : Int :=
  s.mCurrentFrame - s.mMinTrackLength

/-- A track's `endFrame` is unset (the code tests `endFrame >= 0` for "set"). -/
def SineTrack.endUnset (track : SineTrack R) : Prop :=
  track.endFrame < 0

/-- The three conditions under which a track is reported, as the specification
words them: it has started by frame `L`; it is not dead at frame `L`; and, when
dead, it lived for at least `minTrackLength` frames. -/
def surfaced (s : PartialTracking R) (track : SineTrack R) : Prop :=
  track.startFrame ≤ s.latencyFrame ∧
  (track.endUnset ∨ track.endFrame > s.latencyFrame) ∧
  (track.endUnset ∨ track.endFrame - track.startFrame ≥ s.mMinTrackLength)

instance (s : PartialTracking R) (track : SineTrack R) : Decidable (surfaced s track) := by
  unfold surfaced SineTrack.endUnset
  infer_instance

/-- The entry of a track's history recorded for frame `g`. -/
def SineTrack.peakAt (track : SineTrack R) (g : Int) : Option (SinePeak R) :=
  track.peaks[(g - track.startFrame).toNat]?

/-- The closed form that the specification gives for a variance:
`−zeta² · ln((delta − 1)/(delta − 2))`. -/
def closedFormVariance (env : Env R) (zeta delta : R) : R :=
  -(env.pow zeta ((2 : Nat) : R)) * env.log ((delta - ((1 : Nat) : R)) / (delta - ((2 : Nat) : R)))

/-- The stored variances are the closed form of the stored parameters. -/
def VariancesCurrent (env : Env R) (s : PartialTracking R) : Prop :=
  s.mVarA = closedFormVariance env s.mZetaA s.mDelta ∧
  s.mVarF = closedFormVariance env s.mZetaF s.mDelta

/-- The arguments of the worked example with other tolerance parameters. -/
noncomputable def toleranceArgs (zetaA zetaF delta : ℝ) : FrameArgs ℝ :=
  { peaks := [], maxAmp := -10, minTrackLength := 1, birthLowThreshold := -24,
    birthHighThreshold := -60, method := 0, zetaA := zetaA, zetaF := zetaF, delta := delta }

/-! ## Notions used to state the births of the solver-based strategy -/

/-- The condition under which, in the words of the specification, the row `i`
of the loop of `assignMunkres` creates a track: the solver matches the previous
peak `i` to a column of the matrix, the pair is useful, the previous peak is
not bound to a track (its flag `assigned`, which the code sets when it binds a
peak to a track, is clear), and its `logMag` exceeds the birth threshold. -/
def pairBirthTest (env : Env R) (s : PartialTracking R) (sinePeaks : List (SinePeak R))
    (assignment : Nat → Int) (i : Nat) : Bool :=
  match s.mPrevPeaks[i]? with
  | none => false
  | some prev =>
    if assignment i < 0 ∨ assignment i ≥ (sinePeaks.length : Int) then false
    else
      match sinePeaks[(assignment i).toNat]? with
      | none => false
      | some peak =>
        usefulEntry env s prev peak && !prev.assigned &&
          decide (prev.logMag > s.birthThreshold env prev s.mPrevMaxAmp)

/-- The track `n` is the one that the row `i` creates: its history is the
previous peak `i` followed by the current peak `p = assignment i` (with the
scratch flag that the loop has left on it, which is the flag it came with when
no earlier row was matched to `p`), it starts at `mCurrentFrame − 1`, has no
end frame and is active. -/
def PairBirth (s : PartialTracking R) (sinePeaks : List (SinePeak R)) (assignment : Nat → Int)
    (i : Nat) (n : SineTrack R) : Prop :=
  ∃ prev peak q, s.mPrevPeaks[i]? = some prev ∧ sinePeaks[(assignment i).toNat]? = some peak ∧
    n.peaks = [prev, q] ∧ q.freq = peak.freq ∧ q.logMag = peak.logMag ∧
    ((∀ j, j < i → assignment j ≠ assignment i) → q = peak) ∧
    n.startFrame = s.mCurrentFrame - 1 ∧ n.endFrame = -1 ∧ n.active = true

/-- What every state reached after `init()` satisfies, whichever strategies the
calls select: `mPrevTracks` has an entry for each previous peak, and its
entries are at most `mLastTrackId`, which is not negative. -/
structure PrevBound (s : PartialTracking R) : Prop where
  sameLength : s.mPrevTracks.length = s.mPrevPeaks.length
  given : ∀ (i : Nat) (k : Int), s.mPrevTracks[i]? = some k → k ≤ s.mLastTrackId
  lastId : 0 ≤ s.mLastTrackId

/-- The flag `assigned` of a previous peak is set exactly when `mPrevTracks`
binds the peak to a track (entry `> 0`). -/
def FlagsBound (s : PartialTracking R) : Prop :=
  ∀ (i : Nat) (prev : SinePeak R), s.mPrevPeaks[i]? = some prev →
    (prev.assigned = true ↔ ∃ k, s.mPrevTracks[i]? = some k ∧ 0 < k)

/-- The invariant of the loop over the rows of `assignMunkres` that describes
the tracks created so far, after the rows `done`. -/
structure PairInv (env : Env R) (s : PartialTracking R) (sinePeaks : List (SinePeak R))
    (assignment : Nat → Int) (done : List Nat) (st : MunkresLoop R) : Prop where
  tracks : ∃ olds news, st.tracks = olds ++ news ∧
    List.Forall₂ (fun t t' => t'.trackId = t.trackId ∧ t'.startFrame = t.startFrame ∧
      t'.endFrame = t.endFrame ∧ t'.active = t.active) s.mTracks olds ∧
    List.Forall₂ (fun i n => PairBirth s sinePeaks assignment i n ∧ n.assigned = true ∧
      s.mLastTrackId < n.trackId)
      (done.filter (pairBirthTest env s sinePeaks assignment)) news
  lastId : s.mLastTrackId ≤ st.lastTrackId
  peaksLength : st.sinePeaks.length = sinePeaks.length
  peaks : ∀ (p : Nat) (q : SinePeak R), st.sinePeaks[p]? = some q →
    ∃ peak, sinePeaks[p]? = some peak ∧ q.freq = peak.freq ∧ q.logMag = peak.logMag ∧
      ((∀ j ∈ done, (assignment j).toNat ≠ p) → q = peak)
  slotsLength : st.trackAssignment.length = sinePeaks.length
  slots : ∀ (p : Nat) (v : Int), st.trackAssignment[p]? = some v → v ≤ st.lastTrackId
  flags : (∀ peak ∈ sinePeaks, peak.assigned = false) →
    ∀ (p : Nat) (q : SinePeak R), st.sinePeaks[p]? = some q →
      (q.assigned = true ↔ ∃ v, st.trackAssignment[p]? = some v ∧ 0 < v)

/-- The environment `realEnv` with a solver that reports every row as unmatched
by the value −1. -/
noncomputable def negativeSolverEnv : Env ℝ :=
  { realEnv with munkres := fun _ _ _ _ => -1 }

/-! ## Runs with calls of `prune()` at chosen points -/

/-- A call made on the manager after `init()`: `processFrame` with its
arguments, or `prune()`. -/
inductive Call (R : Type) where
  | frame (a : FrameArgs R) : Call R
  | prune : Call R

/-- The successive calls of a list, from the state `s`. -/
def PartialTracking.runCalls (env : Env R) (s : PartialTracking R) :
    List (Call R) → Option (PartialTracking R)
  | [] => some s
  | Call.frame a :: rest =>
    match s.processFrameArgs env a with
    | none => none
    | some s' => s'.runCalls env rest
  | Call.prune :: rest => s.prune.runCalls env rest

/-- The arguments of the calls of `processFrame` of a list of calls, in order:
the same run without its calls of `prune()`. -/
def framesOf : List (Call R) → List (FrameArgs R)
  | [] => []
  | Call.frame a :: rest => a :: framesOf rest
  | Call.prune :: rest => framesOf rest

/-- The candidate `(dist, position of the track, position of the peak)` with
the position of its track renamed by `g`. -/
def relabelTrack (g : Nat → Nat) (q : R × Nat × Nat) : R × Nat × Nat :=
  (q.1, g q.2.1, q.2.2)

/-- The property of `std::sort` that the comparison of eviction cadences relies
on: the sort moves the candidates according to the outcomes of the
comparisons, and the comparator of `assignGreedy` looks at the cost only, so
that sorting commutes with renaming the tracks that the candidates point to. -/
def SortIgnoresTracks (env : Env R) : Prop :=
  ∀ (g : Nat → Nat) (l : List (R × Nat × Nat)),
    env.sort (l.map (relabelTrack g)) = (env.sort l).map (relabelTrack g)

/-- The list `l` with `d` inserted at position `n`. -/
def insertAt {α : Type} : Nat → α → List α → List α
  | 0, d, l => d :: l
  | _ + 1, d, [] => [d]
  | n + 1, d, t :: tl => t :: insertAt n d tl

/-- The position in `insertAt n d l` of the element at position `i` of `l`. -/
def shiftAt (n i : Nat) : Nat :=
  if i < n then i else i + 1

/-- The relation `Thinned c m lp lu`: the collection `lp` is the collection `lu` without some
of its tracks, each of them dead with `0 ≤ endFrame ≤ c − m`. -/
inductive Thinned (c m : Int) : List (SineTrack R) → List (SineTrack R) → Prop
  | refl (l : List (SineTrack R)) : Thinned c m l l
  | drop {lp lmid : List (SineTrack R)} (n : Nat) (d : SineTrack R) :
      Thinned c m lp lmid → n ≤ lmid.length → d.active = false → 0 ≤ d.endFrame →
      d.endFrame ≤ c - m → Thinned c m lp (insertAt n d lmid)

/-- The relation between the state `sp` of a greedy run with calls of `prune()`
and the state `su` of the run with the same frames and no call of `prune()`:
both satisfy the invariant of the greedy runs, they differ by their
collections only, and the collection of `sp` is that of `su` without some
tracks that are dead with `endFrame ≤ currentFrame − m`. -/
structure Cadence (m : Int) (sp su : PartialTracking R) : Prop where
  soundP : Sound true m sp
  soundU : Sound true m su
  same : su = { sp with mTracks := su.mTracks }
  thinned : Thinned su.mCurrentFrame m sp.mTracks su.mTracks

/-- The peak (442 Hz, −10.2) of the scenario, its flag clear. -/
noncomputable def scenarioPeak : SinePeak ℝ :=
  { freq := 442, logMag := -51 / 5, assigned := false }

/-- The arguments of a greedy call of the scenario with the minimal tolerances
`zetaF = 2`, `zetaA = 0.2` and `delta = 1/2`: one peak, frame maximum −10,
`minTrackLength = 1`, birth thresholds −24 and −60. -/
noncomputable def scenarioArgs (peak : SinePeak ℝ) : FrameArgs ℝ :=
  { peaks := [peak], maxAmp := -10, minTrackLength := 1, birthLowThreshold := -24,
    birthHighThreshold := -60, method := 0, zetaA := 1 / 5, zetaF := 2, delta := 1 / 2 }

/-- The arguments of a greedy call of the scenario with the wider tolerances
`zetaF = 20` and `zetaA = 2`. -/
noncomputable def wideArgs (peak : SinePeak ℝ) : FrameArgs ℝ :=
  { peaks := [peak], maxAmp := -10, minTrackLength := 1, birthLowThreshold := -24,
    birthHighThreshold := -60, method := 0, zetaA := 2, zetaF := 20, delta := 1 / 2 }

/-- The state `mixedState3` after a frame holding `examplePeak` processed by the
solver-based strategy: the dead track has received a peak. -/
noncomputable def deadExtendedState (m : Int) : PartialTracking ℝ :=
  { exampleCfg m with
    mTracks := [{ peaks := [examplePeak, examplePeak, { examplePeak with assigned := true }],
                  startFrame := 0, endFrame := 2, active := false, assigned := true,
                  trackId := 2 }]
    mPrevPeaks := [{ examplePeak with assigned := true }]
    mPrevTracks := [2]
    mPrevMaxAmp := -10
    mLastTrackId := 2
    mCurrentFrame := 4 }

/-! ## Notions used to state the extensions of the solver-based strategy -/

/-- The condition under which, in the words of the specification, the row `i`
of the loop of `assignMunkres` extends a track: the solver matches the previous
peak `i` to a column of the matrix, the pair is useful, and the previous peak
is bound to a track (`mPrevTracks[i] > 0`). -/
def pairExtendTest (env : Env R) (s : PartialTracking R) (sinePeaks : List (SinePeak R))
    (assignment : Nat → Int) (i : Nat) : Bool :=
  match s.mPrevPeaks[i]?, s.mPrevTracks[i]? with
  | some prev, some prevTrack =>
    if assignment i < 0 ∨ assignment i ≥ (sinePeaks.length : Int) then false
    else
      match sinePeaks[(assignment i).toNat]? with
      | none => false
      | some peak => usefulEntry env s prev peak && decide (prevTrack > 0)
  | _, _ => false

/-- How the rows `done` of the loop of `assignMunkres` have changed the track
`t0` of the collection into `t`: no row of `done` that meets `pairExtendTest` is
bound to the track and its history is as it was; or one is, and the history
has received the current peak of that row, flagged. -/
def ExtendStep (env : Env R) (s : PartialTracking R) (sinePeaks : List (SinePeak R))
    (assignment : Nat → Int) (done : List Nat) (t0 t : SineTrack R) : Prop :=
  t.trackId = t0.trackId ∧
  (((∀ i ∈ done, pairExtendTest env s sinePeaks assignment i = true →
        s.mPrevTracks[i]? ≠ some t0.trackId) ∧ t.peaks = t0.peaks) ∨
   (∃ i ∈ done, pairExtendTest env s sinePeaks assignment i = true ∧
      s.mPrevTracks[i]? = some t0.trackId ∧
      ∃ peak, sinePeaks[(assignment i).toNat]? = some peak ∧
        t.peaks = t0.peaks ++ [{ peak with assigned := true }]))

/-- The invariant of the loop over the rows of `assignMunkres` that describes
the histories of the tracks of the collection, after the rows `done`. -/
structure ExtendInv (env : Env R) (s : PartialTracking R) (sinePeaks : List (SinePeak R))
    (assignment : Nat → Int) (done : List Nat) (st : MunkresLoop R) : Prop where
  tracks : ∃ olds news, st.tracks = olds ++ news ∧
    List.Forall₂ (ExtendStep env s sinePeaks assignment done) s.mTracks olds ∧
    ∀ n ∈ news, s.mLastTrackId < n.trackId
  lastId : s.mLastTrackId ≤ st.lastTrackId

/-- The slots of `trackAssignment` that hold an id (`> 0`) name a track of the
collection and belong to a peak whose flag is set. -/
def SlotsBound (st : MunkresLoop R) : Prop :=
  ∀ (p : Nat) (v : Int), st.trackAssignment[p]? = some v → 0 < v →
    (∃ t ∈ st.tracks, t.trackId = v) ∧ ∀ q, st.sinePeaks[p]? = some q → q.assigned = true

/-- The stored peaks that `mPrevTracks` binds to a track (entry `> 0`) are bound
to a track of the collection, and their flag is set. -/
structure BoundTracks (s : PartialTracking R) : Prop where
  present : ∀ (i : Nat) (k : Int), s.mPrevTracks[i]? = some k → 0 < k →
    ∃ t ∈ s.mTracks, t.trackId = k
  flagged : ∀ (i : Nat) (k : Int) (prev : SinePeak R), s.mPrevTracks[i]? = some k → 0 < k →
    s.mPrevPeaks[i]? = some prev → prev.assigned = true

/-- The worked example after one frame holding `examplePeak` with its flag set,
processed by the solver-based strategy: the peak is stored as it came, bound to
no track. -/
noncomputable def flaggedStoredState (m : Int) : PartialTracking ℝ :=
  { exampleCfg m with
    mPrevPeaks := [{ examplePeak with assigned := true }]
    mPrevTracks := [0]
    mCurrentFrame := 1 }

/-- The state `flaggedStoredState` after a frame holding `examplePeak` processed
by the solver-based strategy: no track has been created. -/
noncomputable def flaggedUnbornState (m : Int) : PartialTracking ℝ :=
  { exampleCfg m with
    mPrevPeaks := [examplePeak]
    mPrevTracks := [-1]
    mPrevMaxAmp := -10
    mCurrentFrame := 2 }

end Model

/-! ## Theorems -/

set_option linter.unusedSectionVars false

section Reporting

variable {R : Type}

/-! ### Lists -/

theorem forall₂_imp_of_mem {α β : Type} {P Q : α → β → Prop} :
    ∀ {l₁ : List α} {l₂ : List β}, (∀ a ∈ l₁, ∀ b, P a b → Q a b) →
      List.Forall₂ P l₁ l₂ → List.Forall₂ Q l₁ l₂ := by
  intro l₁ l₂ himp h
  induction h with
  | nil => exact List.Forall₂.nil
  | cons hab _ ih =>
    exact List.Forall₂.cons (himp _ (List.mem_cons_self _ _) _ hab)
      (ih (fun a ha b hp => himp a (List.mem_cons_of_mem _ ha) b hp))

theorem exists_forall₂_of_forall_some {α β : Type} (f : α → Option β) :
    ∀ (l : List α), (∀ a ∈ l, ∃ b, f a = some b) →
      ∃ out, List.Forall₂ (fun a b => f a = some b) l out := by
  intro l
  induction l with
  | nil => intro _; exact ⟨[], List.Forall₂.nil⟩
  | cons a tl ih =>
    intro h
    obtain ⟨b, hb⟩ := h a (List.mem_cons_self _ _)
    obtain ⟨out, hout⟩ := ih (fun a' ha' => h a' (List.mem_cons_of_mem _ ha'))
    exact ⟨b :: out, List.Forall₂.cons hb hout⟩

/-! ### `getActivePeaks` -/

theorem getActivePeaksLoop_iff (s : PartialTracking R) (tracks : List (SineTrack R))
    (acc out : List (SinePeak R)) :
    getActivePeaksLoop s.latencyFrame s.mMinTrackLength tracks acc = some out ↔
      ∃ rest, out = acc ++ rest ∧
        List.Forall₂ (fun track peak => track.peakAt s.latencyFrame = some peak)
          (tracks.filter (fun track => decide (surfaced s track))) rest := by
  induction tracks generalizing acc with
  | nil =>
    simp only [getActivePeaksLoop, List.filter_nil, List.forall₂_nil_left_iff, Option.some.injEq]
    constructor
    · intro h; exact ⟨[], by simp [h]⟩
    · rintro ⟨rest, h, rfl⟩; simp [h]
  | cons track tl ih =>
    by_cases hsurf : surfaced s track
    · have hs := hsurf
      obtain ⟨h1, h2, h3⟩ := hs
      have c1 : ¬ track.startFrame > s.latencyFrame := by omega
      have c2 : ¬ (track.endFrame ≥ 0 ∧ track.endFrame ≤ s.latencyFrame) := by
        unfold SineTrack.endUnset at h2; omega
      have c3 : ¬ (track.endFrame ≥ 0 ∧ track.endFrame - track.startFrame < s.mMinTrackLength) := by
        unfold SineTrack.endUnset at h3; omega
      rw [getActivePeaksLoop, if_neg c1, if_neg c2, if_neg c3]
      rw [List.filter_cons_of_pos (by simpa using hsurf)]
      cases hp : track.peaks[(s.latencyFrame - track.startFrame).toNat]? with
      | none =>
        simp only [false_iff, not_exists, not_and, reduceCtorEq]
        intro rest _ hf
        cases hf with
        | cons hhd _ => simp [SineTrack.peakAt, hp] at hhd
      | some peak =>
        simp only [ih]
        constructor
        · rintro ⟨rest, rfl, hf⟩
          exact ⟨peak :: rest, by simp, List.Forall₂.cons (by simp [SineTrack.peakAt, hp]) hf⟩
        · rintro ⟨rest, rfl, hf⟩
          cases hf with
          | cons hhd htl =>
            rename_i b l₂
            have : b = peak := by
              simp only [SineTrack.peakAt, hp, Option.some.injEq] at hhd; exact hhd.symm
            subst this
            exact ⟨l₂, by simp, htl⟩
    · have hskip : getActivePeaksLoop s.latencyFrame s.mMinTrackLength (track :: tl) acc =
          getActivePeaksLoop s.latencyFrame s.mMinTrackLength tl acc := by
        rw [getActivePeaksLoop]
        unfold surfaced SineTrack.endUnset at hsurf
        split_ifs with c1 c2 c3
        · rfl
        · rfl
        · rfl
        · exfalso; apply hsurf; omega
      rw [hskip, List.filter_cons_of_neg (by simpa using hsurf)]
      exact ih acc

/-- The result of `getActivePeaks()` when the reported frame is not negative. -/
theorem getActivePeaks_iff (s : PartialTracking R) (hL : 0 ≤ s.latencyFrame)
    (out : List (SinePeak R)) :
    s.getActivePeaks = some out ↔
      List.Forall₂ (fun track peak => track.peakAt s.latencyFrame = some peak)
        (s.mTracks.filter (fun track => decide (surfaced s track))) out := by
  have h := getActivePeaksLoop_iff s s.mTracks [] out
  unfold PartialTracking.latencyFrame at hL
  unfold PartialTracking.getActivePeaks
  simp only [show ¬ (s.mCurrentFrame - s.mMinTrackLength < 0) by omega, if_false]
  simpa [PartialTracking.latencyFrame] using h

/-- The call `getActivePeaks()` returns a sequence when every reported track has an
entry for the reported frame. -/
theorem getActivePeaks_isSome (s : PartialTracking R) (hL : 0 ≤ s.latencyFrame)
    (hidx : ∀ track ∈ s.mTracks, surfaced s track →
      ∃ peak, track.peakAt s.latencyFrame = some peak) :
    ∃ out, s.getActivePeaks = some out := by
  obtain ⟨out, hout⟩ := exists_forall₂_of_forall_some
    (fun track : SineTrack R => track.peakAt s.latencyFrame)
    (s.mTracks.filter (fun track => decide (surfaced s track)))
    (fun track ht => hidx track (List.mem_filter.mp ht).1 (by simpa using (List.mem_filter.mp ht).2))
  exact ⟨out, (getActivePeaks_iff s hL out).mpr hout⟩

/-- Claim C4. When `currentFrame < minTrackLength`, `getActivePeaks()` returns the
empty sequence, whatever the track collection holds. -/
theorem getActivePeaks_empty_before_latency (s : PartialTracking R)
    (h : s.mCurrentFrame < s.mMinTrackLength) : s.getActivePeaks = some [] := by
  unfold PartialTracking.getActivePeaks
  simp only [show s.mCurrentFrame - s.mMinTrackLength < 0 by omega, if_true]

end Reporting

section Greedy

variable {R : Type} [NatCast R] [Sub R] [Mul R] [LT R] [DecidableRel (LT.lt : R → R → Prop)]

/-! ### The loop over the sorted pairings of `assignGreedy` -/

theorem acceptPairing_length (s : PartialTracking R) (order : List (R × Nat × Nat)) :
    ∀ (st : List (SineTrack R) × List (SinePeak R)),
      (order.foldl (acceptPairing s) st).1.length = st.1.length ∧
      (order.foldl (acceptPairing s) st).2.length = st.2.length := by
  induction order with
  | nil => intro st; simp
  | cons q rest ih =>
    intro st
    rw [List.foldl_cons]
    have h1 : (acceptPairing s st q).1.length = st.1.length ∧
        (acceptPairing s st q).2.length = st.2.length := by
      unfold acceptPairing
      split
      · split <;> simp
      · simp
    have h2 := ih (acceptPairing s st q)
    exact ⟨h2.1.trans h1.1, h2.2.trans h1.2⟩

/-- What the loop over the pairings does, in terms of the pairings it accepts:
every accepted pairing passed the test on a track and a peak that were both
unassigned, the track received the peak and both were flagged; no track and no
peak occurs in two accepted pairings; every other track and peak is left as it
was. -/
theorem acceptPairing_walk (s : PartialTracking R) (order : List (R × Nat × Nat)) :
    ∀ (T : List (SineTrack R)) (P : List (SinePeak R)),
      (∀ q ∈ acceptedPairings s (T, P) order,
          q ∈ order ∧ usefulVsSpurious s q.1 = true ∧
          ∃ track peak, T[q.2.1]? = some track ∧ track.assigned = false ∧
            P[q.2.2]? = some peak ∧ peak.assigned = false ∧
            (order.foldl (acceptPairing s) (T, P)).1[q.2.1]? =
              some { track with peaks := track.peaks ++ [peak], assigned := true } ∧
            (order.foldl (acceptPairing s) (T, P)).2[q.2.2]? =
              some { peak with assigned := true }) ∧
      ((acceptedPairings s (T, P) order).map (fun q => q.2.1)).Nodup ∧
      ((acceptedPairings s (T, P) order).map (fun q => q.2.2)).Nodup ∧
      (∀ i, (∀ q ∈ acceptedPairings s (T, P) order, q.2.1 ≠ i) →
          (order.foldl (acceptPairing s) (T, P)).1[i]? = T[i]?) ∧
      (∀ j, (∀ q ∈ acceptedPairings s (T, P) order, q.2.2 ≠ j) →
          (order.foldl (acceptPairing s) (T, P)).2[j]? = P[j]?) := by
  induction order with
  | nil =>
    intro T P
    simp [acceptedPairings]
  | cons q rest ih =>
    intro T P
    rw [List.foldl_cons]
    by_cases hacc : ∃ track peak, T[q.2.1]? = some track ∧ P[q.2.2]? = some peak ∧
        pairingTest s track peak q.1 = true
    · obtain ⟨track, peak, hT, hP, htest⟩ := hacc
      have hstep : acceptPairing s (T, P) q =
          (T.set q.2.1 { track with peaks := track.peaks ++ [peak], assigned := true },
           P.set q.2.2 { peak with assigned := true }) := by
        simp [acceptPairing, hT, hP, htest]
      have hA : acceptedPairings s (T, P) (q :: rest) =
          q :: acceptedPairings s (acceptPairing s (T, P) q) rest := by
        simp [acceptedPairings, hT, hP, htest]
      rw [hA, hstep]
      obtain ⟨ih1, ih2, ih3, ih4, ih5⟩ :=
        ih (T.set q.2.1 { track with peaks := track.peaks ++ [peak], assigned := true })
           (P.set q.2.2 { peak with assigned := true })
      have hiT : q.2.1 < T.length := (List.getElem?_eq_some.mp hT).1
      have hjP : q.2.2 < P.length := (List.getElem?_eq_some.mp hP).1
      simp only [pairingTest, Bool.and_eq_true, Bool.not_eq_true'] at htest
      obtain ⟨⟨hta, hpa⟩, huse⟩ := htest
      -- later pairings involve neither this track nor this peak
      have hne : ∀ q' ∈ acceptedPairings s
          (T.set q.2.1 { track with peaks := track.peaks ++ [peak], assigned := true },
           P.set q.2.2 { peak with assigned := true }) rest,
          q'.2.1 ≠ q.2.1 ∧ q'.2.2 ≠ q.2.2 := by
        intro q' hq'
        obtain ⟨_, _, track', peak', hT', ha', hP', hb', _, _⟩ := ih1 q' hq'
        constructor
        · intro heq
          rw [heq, List.getElem?_set_self hiT] at hT'
          simp only [Option.some.injEq] at hT'
          rw [← hT'] at ha'
          simp at ha'
        · intro heq
          rw [heq, List.getElem?_set_self hjP] at hP'
          simp only [Option.some.injEq] at hP'
          rw [← hP'] at hb'
          simp at hb'
      refine ⟨?_, ?_, ?_, ?_, ?_⟩
      · intro q' hq'
        rcases List.mem_cons.mp hq' with rfl | hq'
        · refine ⟨List.mem_cons_self _ _, huse, track, peak, hT, hta, hP, hpa, ?_, ?_⟩
          · rw [ih4 _ (fun q'' h'' => (hne q'' h'').1), List.getElem?_set_self hiT]
          · rw [ih5 _ (fun q'' h'' => (hne q'' h'').2), List.getElem?_set_self hjP]
        · obtain ⟨hmem, hu, track', peak', hT', ha', hP', hb', hf1, hf2⟩ := ih1 q' hq'
          obtain ⟨hn1, hn2⟩ := hne q' hq'
          rw [List.getElem?_set_ne (Ne.symm hn1)] at hT'
          rw [List.getElem?_set_ne (Ne.symm hn2)] at hP'
          exact ⟨List.mem_cons_of_mem _ hmem, hu, track', peak', hT', ha', hP', hb', hf1, hf2⟩
      · rw [List.map_cons, List.nodup_cons]
        refine ⟨?_, ih2⟩
        intro hmem
        obtain ⟨q', hq', heq⟩ := List.mem_map.mp hmem
        exact (hne q' hq').1 heq
      · rw [List.map_cons, List.nodup_cons]
        refine ⟨?_, ih3⟩
        intro hmem
        obtain ⟨q', hq', heq⟩ := List.mem_map.mp hmem
        exact (hne q' hq').2 heq
      · intro i hi
        have h1 : q.2.1 ≠ i := hi q (List.mem_cons_self _ _)
        rw [ih4 i (fun q' hq' => hi q' (List.mem_cons_of_mem _ hq')), List.getElem?_set_ne h1]
      · intro j hj
        have h1 : q.2.2 ≠ j := hj q (List.mem_cons_self _ _)
        rw [ih5 j (fun q' hq' => hj q' (List.mem_cons_of_mem _ hq')), List.getElem?_set_ne h1]
    · have hstep : acceptPairing s (T, P) q = (T, P) := by
        unfold acceptPairing
        split
        · rename_i track peak hT hP
          have : pairingTest s track peak q.1 = false := by
            by_contra hc
            exact hacc ⟨track, peak, hT, hP, by simpa using hc⟩
          simp [this]
        · rfl
      have hA : acceptedPairings s (T, P) (q :: rest) = acceptedPairings s (T, P) rest := by
        rw [acceptedPairings, hstep]
        split
        · rename_i track peak hT hP
          have : pairingTest s track peak q.1 = false := by
            by_contra hc
            exact hacc ⟨track, peak, hT, hP, by simpa using hc⟩
          simp [this]
        · rfl
      rw [hA, hstep]
      obtain ⟨ih1, ih2, ih3, ih4, ih5⟩ := ih T P
      refine ⟨?_, ih2, ih3, ih4, ih5⟩
      intro q' hq'
      obtain ⟨hmem, rest'⟩ := ih1 q' hq'
      exact ⟨List.mem_cons_of_mem _ hmem, rest'⟩

end Greedy

section GreedyCall

variable {R : Type} [NatCast R] [OfScientific R] [Add R] [Sub R] [Mul R] [Div R] [Neg R]
  [LT R] [DecidableRel (LT.lt : R → R → Prop)] [BEq R]

/-! ### The candidate list of `assignGreedy` -/

theorem peakDistances_mem (env : Env R) (s : PartialTracking R) (i : Nat) (track : SineTrack R) :
    ∀ (peaks : List (SinePeak R)) (j0 : Nat) (ds : List (R × Nat × Nat)),
      peakDistances env s i track j0 peaks = some ds →
      ∀ q ∈ ds, q.2.1 = i ∧ j0 ≤ q.2.2 ∧ ∃ back peak, track.peaks.getLast? = some back ∧
        peaks[q.2.2 - j0]? = some peak ∧ q.1 = greedyDist env s back peak := by
  intro peaks
  induction peaks with
  | nil =>
    intro j0 ds h q hq
    simp only [peakDistances, Option.some.injEq] at h
    subst h
    simp at hq
  | cons peak rest ih =>
    intro j0 ds h q hq
    rw [peakDistances] at h
    cases hb : track.peaks.getLast? with
    | none => simp [hb] at h
    | some back =>
      cases hr : peakDistances env s i track (j0 + 1) rest with
      | none => simp [hb, hr] at h
      | some ds' =>
        simp only [hb, hr, Option.some.injEq] at h
        subst h
        rcases List.mem_cons.mp hq with rfl | hq
        · exact ⟨rfl, le_refl _, back, peak, rfl, by simp, rfl⟩
        · obtain ⟨h1, h2, back', peak', h3, h4, h5⟩ := ih (j0 + 1) ds' hr q hq
          refine ⟨h1, by omega, back', peak', ?_, ?_, h5⟩
          · rw [hb] at h3; exact h3
          · have : q.2.2 - j0 = (q.2.2 - (j0 + 1)) + 1 := by omega
            rw [this, List.getElem?_cons_succ]
            exact h4

/-- Every candidate pairing joins an active track with a non-empty history and
a peak of the frame, and carries the cost between the last peak of that
history and the peak. -/
theorem trackDistances_mem (env : Env R) (s : PartialTracking R) (sinePeaks : List (SinePeak R)) :
    ∀ (tracks : List (SineTrack R)) (i0 : Nat) (ds : List (R × Nat × Nat)),
      trackDistances env s sinePeaks i0 tracks = some ds →
      ∀ q ∈ ds, i0 ≤ q.2.1 ∧ ∃ track back peak, tracks[q.2.1 - i0]? = some track ∧
        track.active = true ∧ track.peaks.getLast? = some back ∧
        sinePeaks[q.2.2]? = some peak ∧ q.1 = greedyDist env s back peak := by
  intro tracks
  induction tracks with
  | nil =>
    intro i0 ds h q hq
    simp only [trackDistances, Option.some.injEq] at h
    subst h
    simp at hq
  | cons track rest ih =>
    intro i0 ds h q hq
    rw [trackDistances] at h
    have hshift : ∀ ds', trackDistances env s sinePeaks (i0 + 1) rest = some ds' → q ∈ ds' →
        i0 ≤ q.2.1 ∧ ∃ track' back peak, (track :: rest)[q.2.1 - i0]? = some track' ∧
          track'.active = true ∧ track'.peaks.getLast? = some back ∧
          sinePeaks[q.2.2]? = some peak ∧ q.1 = greedyDist env s back peak := by
      intro ds' hr hq'
      obtain ⟨h1, track', back, peak, h2, h3⟩ := ih (i0 + 1) ds' hr q hq'
      refine ⟨by omega, track', back, peak, ?_, h3⟩
      have : q.2.1 - i0 = (q.2.1 - (i0 + 1)) + 1 := by omega
      rw [this, List.getElem?_cons_succ]
      exact h2
    by_cases hact : track.active = true
    · simp only [hact, if_true] at h
      cases hp : peakDistances env s i0 track 0 sinePeaks with
      | none => simp [hp] at h
      | some d1 =>
        cases hr : trackDistances env s sinePeaks (i0 + 1) rest with
        | none => simp [hp, hr] at h
        | some d2 =>
          simp only [hp, hr, Option.some.injEq] at h
          subst h
          rcases List.mem_append.mp hq with hq | hq
          · obtain ⟨h1, _, back, peak, h3, h4, h5⟩ := peakDistances_mem env s i0 track sinePeaks 0 d1 hp q hq
            refine ⟨by omega, track, back, peak, ?_, hact, h3, by simpa using h4, h5⟩
            rw [h1]; simp
          · exact hshift d2 hr hq
    · simp only [hact] at h
      exact hshift ds h hq

theorem peakDistances_isSome (env : Env R) (s : PartialTracking R) (i : Nat) (track : SineTrack R)
    (hne : track.peaks ≠ []) :
    ∀ (peaks : List (SinePeak R)) (j0 : Nat), ∃ ds, peakDistances env s i track j0 peaks = some ds := by
  intro peaks
  induction peaks with
  | nil => intro j0; exact ⟨[], rfl⟩
  | cons peak rest ih =>
    intro j0
    obtain ⟨ds, hds⟩ := ih (j0 + 1)
    obtain ⟨back, hback⟩ : ∃ back, track.peaks.getLast? = some back := by
      cases hl : track.peaks.getLast? with
      | none => exact absurd (List.getLast?_eq_none_iff.mp hl) hne
      | some back => exact ⟨back, rfl⟩
    exact ⟨_, by rw [peakDistances, hback, hds]⟩

/-- The candidate list is built without reading the last peak of an empty
history when every active track has a non-empty history. -/
theorem trackDistances_isSome (env : Env R) (s : PartialTracking R) (sinePeaks : List (SinePeak R)) :
    ∀ (tracks : List (SineTrack R)) (i0 : Nat),
      (∀ t ∈ tracks, t.active = true → t.peaks ≠ []) →
      ∃ ds, trackDistances env s sinePeaks i0 tracks = some ds := by
  intro tracks
  induction tracks with
  | nil => intro i0 _; exact ⟨[], rfl⟩
  | cons track rest ih =>
    intro i0 hne
    obtain ⟨ds', hds'⟩ := ih (i0 + 1) (fun t ht => hne t (List.mem_cons_of_mem _ ht))
    rw [trackDistances]
    by_cases hact : track.active = true
    · obtain ⟨ds, hds⟩ := peakDistances_isSome env s i0 track
        (hne track (List.mem_cons_self _ _) hact) sinePeaks 0
      exact ⟨ds ++ ds', by simp [hact, hds, hds']⟩
    · exact ⟨ds', by simp [hact, hds']⟩

/-! ### The loops `// new tracks` and `// diying tracks` -/

theorem foldl_birthStep (env : Env R) (s : PartialTracking R) (maxAmp : R) :
    ∀ (peaks : List (SinePeak R)) (T : List (SineTrack R)) (firstId : Int),
      peaks.foldl (birthStep env s maxAmp) (T, firstId) =
        (T ++ newTracks env s maxAmp peaks firstId,
         firstId + (newTracks env s maxAmp peaks firstId).length) := by
  intro peaks
  induction peaks with
  | nil => intro T firstId; simp [newTracks]
  | cons peak rest ih =>
    intro T firstId
    rw [List.foldl_cons, newTracks]
    by_cases hb : birthTest env s maxAmp peak = true
    · have : birthStep env s maxAmp (T, firstId) peak =
          (T ++ [{ peaks := [peak], startFrame := staticCastInt s.mCurrentFrame, endFrame := -1,
                   active := true, assigned := true, trackId := firstId }], firstId + 1) := by
        unfold birthStep
        unfold birthTest at hb
        simp [hb]
      rw [this, ih, if_pos hb]
      simp only [List.append_assoc, List.singleton_append, List.length_cons, Nat.cast_add,
        Nat.cast_one, Prod.mk.injEq, true_and]
      omega
    · have : birthStep env s maxAmp (T, firstId) peak = (T, firstId) := by
        unfold birthStep
        unfold birthTest at hb
        simp only [hb]
        simp
      rw [this, ih, if_neg hb]

/-- The loop `// new tracks` creates one track for each peak that passes its
test, in the order of the peaks; the track holds that peak alone, starts at
`static_cast<int>(mCurrentFrame)`, has no end frame and is active. -/
theorem newTracks_spec (env : Env R) (s : PartialTracking R) (maxAmp : R) :
    ∀ (peaks : List (SinePeak R)) (firstId : Int),
      List.Forall₂
        (fun peak track => track.peaks = [peak] ∧
          track.startFrame = staticCastInt s.mCurrentFrame ∧ track.endFrame = -1 ∧
          track.active = true ∧ track.assigned = true)
        (peaks.filter (birthTest env s maxAmp)) (newTracks env s maxAmp peaks firstId) := by
  intro peaks
  induction peaks with
  | nil => intro firstId; simp [newTracks]
  | cons peak rest ih =>
    intro firstId
    rw [newTracks]
    by_cases hb : birthTest env s maxAmp peak = true
    · rw [if_pos hb, List.filter_cons_of_pos hb]
      exact List.Forall₂.cons ⟨rfl, rfl, rfl, rfl, rfl⟩ (ih _)
    · rw [if_neg hb, List.filter_cons_of_neg hb]
      exact ih _

/-- The ids of the tracks created by the loop `// new tracks` are `firstId`,
`firstId + 1`, … in the order of creation. -/
theorem newTracks_trackId (env : Env R) (s : PartialTracking R) (maxAmp : R) :
    ∀ (peaks : List (SinePeak R)) (firstId : Int) (k : Nat) (track : SineTrack R),
      (newTracks env s maxAmp peaks firstId)[k]? = some track → track.trackId = firstId + k := by
  intro peaks
  induction peaks with
  | nil => intro firstId k track h; simp [newTracks] at h
  | cons peak rest ih =>
    intro firstId k track h
    rw [newTracks] at h
    by_cases hb : birthTest env s maxAmp peak = true
    · rw [if_pos hb] at h
      cases k with
      | zero =>
        simp only [List.getElem?_cons_zero, Option.some.injEq] at h
        subst h
        simp
      | succ k =>
        rw [List.getElem?_cons_succ] at h
        have := ih _ _ _ h
        rw [this]; push_cast; omega
    · rw [if_neg hb] at h
      exact ih _ _ _ h

theorem dyingTracks_newTracks (env : Env R) (s : PartialTracking R) (maxAmp : R) (c : Int) :
    ∀ (peaks : List (SinePeak R)) (firstId : Int),
      dyingTracks c (newTracks env s maxAmp peaks firstId) = newTracks env s maxAmp peaks firstId := by
  intro peaks
  induction peaks with
  | nil => intro firstId; simp [newTracks, dyingTracks]
  | cons peak rest ih =>
    intro firstId
    rw [newTracks]
    split
    · have := ih (firstId + 1)
      unfold dyingTracks at this ⊢
      simp only [List.map_cons, this]
      simp
    · exact ih firstId

/-! ### One call of `assignGreedy` -/

/-- The state that a successful call of `assignGreedy` returns. -/
theorem assignGreedy_some (env : Env R) (s s' : PartialTracking R) (sinePeaks : List (SinePeak R))
    (maxAmp : R) (h : s.assignGreedy env sinePeaks maxAmp = some s') :
    ∃ distances, trackDistances env s sinePeaks 0 (clearAssigned s.mTracks) = some distances ∧
      s' = { s with
        mTracks :=
          dyingTracks s.mCurrentFrame
            ((env.sort distances).foldl (acceptPairing s) (clearAssigned s.mTracks, sinePeaks)).1 ++
          newTracks env s maxAmp (pairedPeaks env s sinePeaks) s.mLastTrackId
        mLastTrackId := s.mLastTrackId +
          (newTracks env s maxAmp (pairedPeaks env s sinePeaks) s.mLastTrackId).length } := by
  unfold PartialTracking.assignGreedy at h
  cases hd : trackDistances env s sinePeaks 0 (clearAssigned s.mTracks) with
  | none => simp [hd] at h
  | some distances =>
    refine ⟨distances, rfl, ?_⟩
    simp only [hd, Option.some.injEq] at h
    rw [← h, foldl_birthStep]
    simp only [pairedPeaks, hd]
    congr 1
    unfold dyingTracks
    rw [List.map_append]
    have := dyingTracks_newTracks env s maxAmp s.mCurrentFrame
      ((env.sort distances).foldl (acceptPairing s) (clearAssigned s.mTracks, sinePeaks)).2
      s.mLastTrackId
    unfold dyingTracks at this
    rw [this]

/-- What a call of `assignGreedy` does to the track at position `i` of the
collection: a track that takes part in no accepted pairing keeps its history
and, if it was active, dies at the current frame; the track of an accepted
pairing receives the peak of that pairing, which came with its flag clear, and
nothing else about it changes but its scratch flag. -/
theorem assignGreedy_old_track (env : Env R) (s s' : PartialTracking R)
    (sinePeaks : List (SinePeak R)) (maxAmp : R)
    (h : s.assignGreedy env sinePeaks maxAmp = some s')
    (i : Nat) (track : SineTrack R) (hi : s.mTracks[i]? = some track) :
    ((∀ q ∈ greedyMatching env s sinePeaks, q.2.1 ≠ i) →
      s'.mTracks[i]? = some
        (if track.active = true then
          { track with assigned := false, active := false, endFrame := s.mCurrentFrame }
         else { track with assigned := false })) ∧
    (∀ q ∈ greedyMatching env s sinePeaks, q.2.1 = i →
      ∃ peak, sinePeaks[q.2.2]? = some peak ∧ peak.assigned = false ∧
        s'.mTracks[i]? = some { track with peaks := track.peaks ++ [peak], assigned := true }) := by
  obtain ⟨distances, hd, rfl⟩ := assignGreedy_some env s s' sinePeaks maxAmp h
  obtain ⟨w1, _, _, w4, _⟩ := acceptPairing_walk s (env.sort distances) (clearAssigned s.mTracks) sinePeaks
  have hlen : ((env.sort distances).foldl (acceptPairing s)
      (clearAssigned s.mTracks, sinePeaks)).1.length = s.mTracks.length := by
    rw [(acceptPairing_length s (env.sort distances) (clearAssigned s.mTracks, sinePeaks)).1]
    simp [clearAssigned]
  have hil : i < s.mTracks.length := (List.getElem?_eq_some.mp hi).1
  have hil' : i < (dyingTracks s.mCurrentFrame
      ((env.sort distances).foldl (acceptPairing s) (clearAssigned s.mTracks, sinePeaks)).1).length := by
    rw [dyingTracks, List.length_map, hlen]; exact hil
  have hclear : (clearAssigned s.mTracks)[i]? = some { track with assigned := false } := by
    simp [clearAssigned, hi]
  simp only [greedyMatching, hd]
  constructor
  · intro hno
    simp only [List.getElem?_append_left hil']
    simp only [dyingTracks, List.getElem?_map, w4 i hno, hclear, Option.map_some']
    by_cases ha : track.active = true <;> simp [ha]
  · intro q hq hqi
    obtain ⟨_, _, track', peak, hT, _, hP, hpa, hf, _⟩ := w1 q hq
    rw [hqi, hclear] at hT
    simp only [Option.some.injEq] at hT
    subst hT
    refine ⟨peak, hP, hpa, ?_⟩
    simp only [List.getElem?_append_left hil']
    rw [hqi] at hf
    simp only [dyingTracks, List.getElem?_map, hf, Option.map_some']
    simp

/-- The tracks that a call of `assignGreedy` appends to the collection. -/
theorem assignGreedy_new_tracks (env : Env R) (s s' : PartialTracking R)
    (sinePeaks : List (SinePeak R)) (maxAmp : R)
    (h : s.assignGreedy env sinePeaks maxAmp = some s') :
    s'.mTracks.drop s.mTracks.length =
        newTracks env s maxAmp (pairedPeaks env s sinePeaks) s.mLastTrackId ∧
    s'.mTracks.length = s.mTracks.length +
        (newTracks env s maxAmp (pairedPeaks env s sinePeaks) s.mLastTrackId).length ∧
    s'.mLastTrackId = s.mLastTrackId +
        (newTracks env s maxAmp (pairedPeaks env s sinePeaks) s.mLastTrackId).length ∧
    s'.mCurrentFrame = s.mCurrentFrame ∧ s'.mMinTrackLength = s.mMinTrackLength := by
  obtain ⟨distances, hd, rfl⟩ := assignGreedy_some env s s' sinePeaks maxAmp h
  have hlen : ((env.sort distances).foldl (acceptPairing s)
      (clearAssigned s.mTracks, sinePeaks)).1.length = s.mTracks.length := by
    rw [(acceptPairing_length s (env.sort distances) (clearAssigned s.mTracks, sinePeaks)).1]
    simp [clearAssigned]
  have hl : (dyingTracks s.mCurrentFrame
      ((env.sort distances).foldl (acceptPairing s) (clearAssigned s.mTracks, sinePeaks)).1).length
      = s.mTracks.length := by
    rw [dyingTracks, List.length_map, hlen]
  refine ⟨?_, ?_, rfl, rfl, rfl⟩
  · simp only
    rw [← hl, List.drop_left]
  · simp only [List.length_append, hl]

/-- When `std::sort` returns only pairings that it was given, every accepted
pairing joins an active track and a peak of the frame, carries the cost
between the last peak of the track's history and that peak, and passed the
useful-versus-spurious test. -/
theorem greedyMatching_candidate (env : Env R) (s : PartialTracking R)
    (sinePeaks : List (SinePeak R)) (hsort : ∀ l, ∀ q ∈ env.sort l, q ∈ l)
    (q : R × Nat × Nat) (hq : q ∈ greedyMatching env s sinePeaks) :
    ∃ track back peak, s.mTracks[q.2.1]? = some track ∧ track.active = true ∧
      track.peaks.getLast? = some back ∧ sinePeaks[q.2.2]? = some peak ∧
      q.1 = greedyDist env s back peak ∧ usefulVsSpurious s q.1 = true := by
  unfold greedyMatching at hq
  cases hd : trackDistances env s sinePeaks 0 (clearAssigned s.mTracks) with
  | none => simp [hd] at hq
  | some distances =>
    simp only [hd] at hq
    obtain ⟨w1, _⟩ := acceptPairing_walk s (env.sort distances) (clearAssigned s.mTracks) sinePeaks
    obtain ⟨hmem, hu, _⟩ := w1 q hq
    obtain ⟨_, track, back, peak, hT, ha, hb, hP, hdist⟩ :=
      trackDistances_mem env s sinePeaks _ 0 distances hd q (hsort _ q hmem)
    simp only [Nat.sub_zero, clearAssigned, List.getElem?_map, Option.map_eq_some'] at hT
    obtain ⟨track0, hT0, rfl⟩ := hT
    exact ⟨track0, back, peak, hT0, ha, hb, hP, hdist, hu⟩

/-- The peaks of the frame after the loop over the pairings: the peaks of the
accepted pairings are flagged, the others are as they were passed. -/
theorem pairedPeaks_eq (env : Env R) (s : PartialTracking R) (sinePeaks : List (SinePeak R)) :
    pairedPeaks env s sinePeaks =
      sinePeaks.enum.map (fun jp =>
        if jp.1 ∈ (greedyMatching env s sinePeaks).map (fun q => q.2.2) then
          { jp.2 with assigned := true }
        else jp.2) := by
  unfold pairedPeaks greedyMatching
  cases hd : trackDistances env s sinePeaks 0 (clearAssigned s.mTracks) with
  | none =>
    simp only [List.map_nil, List.not_mem_nil, if_false]
    exact (List.enum_map_snd sinePeaks).symm
  | some distances =>
    simp only
    obtain ⟨w1, _, _, _, w5⟩ :=
      acceptPairing_walk s (env.sort distances) (clearAssigned s.mTracks) sinePeaks
    apply List.ext_getElem?
    intro n
    rw [List.getElem?_map, List.getElem?_enum]
    by_cases hn : n ∈ (acceptedPairings s (clearAssigned s.mTracks, sinePeaks)
        (env.sort distances)).map (fun q => q.2.2)
    · obtain ⟨q, hq, hqn⟩ := List.mem_map.mp hn
      obtain ⟨_, _, _, peak, _, _, hP, _, _, hf⟩ := w1 q hq
      rw [hqn] at hP hf
      rw [hf, hP]
      simp [hn]
    · rw [w5 n (fun q hq heq => hn (List.mem_map.mpr ⟨q, hq, heq⟩))]
      cases sinePeaks[n]? with
      | none => rfl
      | some peak => simp [hn]

/-- The loop `// new tracks` creates one track for each peak of the frame that
is in no accepted pairing and passes the birth test, in the order of the
peaks, and no other track. -/
theorem newTracks_unpaired (env : Env R) (s : PartialTracking R) (sinePeaks : List (SinePeak R))
    (maxAmp : R) (firstId : Int) :
    List.Forall₂
      (fun (jp : Nat × SinePeak R) track => track.peaks = [jp.2] ∧
        track.startFrame = staticCastInt s.mCurrentFrame ∧ track.endFrame = -1 ∧
        track.active = true ∧ track.assigned = true)
      (sinePeaks.enum.filter (fun jp =>
        decide (jp.1 ∉ (greedyMatching env s sinePeaks).map (fun q => q.2.2)) &&
          birthTest env s maxAmp jp.2))
      (newTracks env s maxAmp (pairedPeaks env s sinePeaks) firstId) := by
  have h := newTracks_spec env s maxAmp (pairedPeaks env s sinePeaks) firstId
  rw [pairedPeaks_eq, List.filter_map] at h
  rw [← pairedPeaks_eq] at h
  have hfilter : sinePeaks.enum.filter (birthTest env s maxAmp ∘ fun jp =>
        if jp.1 ∈ (greedyMatching env s sinePeaks).map (fun q => q.2.2) then
          { jp.2 with assigned := true }
        else jp.2) =
      sinePeaks.enum.filter (fun jp =>
        decide (jp.1 ∉ (greedyMatching env s sinePeaks).map (fun q => q.2.2)) &&
          birthTest env s maxAmp jp.2) := by
    apply List.filter_congr
    intro jp _
    by_cases hjp : jp.1 ∈ (greedyMatching env s sinePeaks).map (fun q => q.2.2)
    · simp [hjp, birthTest]
    · simp [hjp]
  rw [hfilter, List.forall₂_map_left_iff] at h
  refine forall₂_imp_of_mem ?_ h
  intro jp hjp track ht
  have hnot : jp.1 ∉ (greedyMatching env s sinePeaks).map (fun q => q.2.2) := by
    have := (List.mem_filter.mp hjp).2
    simp only [Bool.and_eq_true, decide_eq_true_eq] at this
    exact this.1
  simpa only [hnot, if_false] using ht

/-! ### `processFrame` with the greedy strategy -/

theorem configure_fields (env : Env R) (s : PartialTracking R) (minTrackLength : Int)
    (bl bh zA zF d : R) :
    (s.configure env minTrackLength bl bh zA zF d).mTracks = s.mTracks ∧
    (s.configure env minTrackLength bl bh zA zF d).mCurrentFrame = s.mCurrentFrame ∧
    (s.configure env minTrackLength bl bh zA zF d).mLastTrackId = s.mLastTrackId ∧
    (s.configure env minTrackLength bl bh zA zF d).mMinTrackLength = minTrackLength ∧
    (s.configure env minTrackLength bl bh zA zF d).mPrevPeaks = s.mPrevPeaks ∧
    (s.configure env minTrackLength bl bh zA zF d).mPrevTracks = s.mPrevTracks ∧
    (s.configure env minTrackLength bl bh zA zF d).mInitialized = s.mInitialized := by
  simp only [PartialTracking.configure]
  split <;> simp [PartialTracking.updateVariances]

theorem configureArgs_fields (env : Env R) (s : PartialTracking R) (a : FrameArgs R) :
    (s.configureArgs env a).mTracks = s.mTracks ∧
    (s.configureArgs env a).mCurrentFrame = s.mCurrentFrame ∧
    (s.configureArgs env a).mLastTrackId = s.mLastTrackId ∧
    (s.configureArgs env a).mMinTrackLength = a.minTrackLength ∧
    (s.configureArgs env a).mPrevPeaks = s.mPrevPeaks ∧
    (s.configureArgs env a).mPrevTracks = s.mPrevTracks ∧
    (s.configureArgs env a).mInitialized = s.mInitialized :=
  configure_fields env s _ _ _ _ _ _

/-- A call of `processFrame` after `init()`: the configuration is stored, the
chosen strategy runs, and `mCurrentFrame` is incremented. -/
theorem processFrameArgs_eq (env : Env R) (s : PartialTracking R) (a : FrameArgs R)
    (hinit : s.mInitialized = true) :
    s.processFrameArgs env a =
      (if a.method = 0 then (s.configureArgs env a).assignGreedy env a.peaks a.maxAmp
       else (s.configureArgs env a).assignMunkres env a.peaks a.maxAmp).map
        (fun s3 => { s3 with mCurrentFrame := s3.mCurrentFrame + 1 }) := by
  simp only [PartialTracking.processFrameArgs, PartialTracking.processFrame, hinit,
    PartialTracking.configureArgs]
  simp only [Bool.not_true, Bool.false_eq_true, if_false]
  split <;> rename_i h <;> simp [h]

/-- A successful greedy call of `processFrame` is a successful call of
`assignGreedy` in the configured state, followed by `mCurrentFrame++`. -/
theorem processFrameArgs_greedy (env : Env R) (s s' : PartialTracking R) (a : FrameArgs R)
    (hm : a.method = 0) (h : s.processFrameArgs env a = some s') :
    s.mInitialized = true ∧
    ∃ s3, (s.configureArgs env a).assignGreedy env a.peaks a.maxAmp = some s3 ∧
      s' = { s3 with mCurrentFrame := s3.mCurrentFrame + 1 } := by
  unfold PartialTracking.processFrameArgs PartialTracking.processFrame at h
  by_cases hi : s.mInitialized = true
  · simp only [hi, Bool.not_true, Bool.false_eq_true, if_false, hm, if_true] at h
    refine ⟨hi, ?_⟩
    unfold PartialTracking.configureArgs
    cases hg : (s.configure env a.minTrackLength a.birthLowThreshold a.birthHighThreshold
        a.zetaA a.zetaF a.delta).assignGreedy env a.peaks a.maxAmp with
    | none => simp [hg] at h
    | some s3 =>
      simp only [hg, Option.some.injEq] at h
      exact ⟨s3, rfl, h.symm⟩
  · simp [hi] at h

/-- A greedy call of `processFrame` returns a state when `init()` has been
called and every active track has a non-empty history. -/
theorem processFrameArgs_greedy_isSome (env : Env R) (s : PartialTracking R) (a : FrameArgs R)
    (hm : a.method = 0) (hinit : s.mInitialized = true)
    (hhist : ∀ t ∈ s.mTracks, t.active = true → t.peaks ≠ []) :
    ∃ s', s.processFrameArgs env a = some s' := by
  have hc := (configureArgs_fields env s a).1
  obtain ⟨ds, hds⟩ := trackDistances_isSome env (s.configureArgs env a) a.peaks
    (clearAssigned (s.configureArgs env a).mTracks) 0 (by
      intro t ht hact
      rw [hc] at ht
      simp only [clearAssigned, List.mem_map] at ht
      obtain ⟨t0, ht0, rfl⟩ := ht
      exact hhist t0 ht0 hact)
  simp only [PartialTracking.processFrameArgs, PartialTracking.processFrame, hinit, hm,
    Bool.not_true, Bool.false_eq_true, if_false, if_true]
  have : ∃ s3, (s.configureArgs env a).assignGreedy env a.peaks a.maxAmp = some s3 := by
    simp only [PartialTracking.assignGreedy, hds]
    exact ⟨_, rfl⟩
  obtain ⟨s3, hs3⟩ := this
  simp only [PartialTracking.configureArgs] at hs3
  simp [hs3]

/-- What a greedy call of `processFrame` does to the track at position `i`. -/
theorem processFrameArgs_greedy_old_track (env : Env R) (s s' : PartialTracking R)
    (a : FrameArgs R) (hm : a.method = 0) (h : s.processFrameArgs env a = some s')
    (i : Nat) (track : SineTrack R) (hi : s.mTracks[i]? = some track) :
    ((∀ q ∈ greedyMatching env (s.configureArgs env a) a.peaks, q.2.1 ≠ i) →
      s'.mTracks[i]? = some
        (if track.active = true then
          { track with assigned := false, active := false, endFrame := s.mCurrentFrame }
         else { track with assigned := false })) ∧
    (∀ q ∈ greedyMatching env (s.configureArgs env a) a.peaks, q.2.1 = i →
      ∃ peak, a.peaks[q.2.2]? = some peak ∧ peak.assigned = false ∧
        s'.mTracks[i]? = some { track with peaks := track.peaks ++ [peak], assigned := true }) := by
  obtain ⟨_, s3, hg, rfl⟩ := processFrameArgs_greedy env s s' a hm h
  obtain ⟨hT, hC, _⟩ := configureArgs_fields env s a
  have := assignGreedy_old_track env (s.configureArgs env a) s3 a.peaks a.maxAmp hg i track
    (by rw [hT]; exact hi)
  rw [hC] at this
  exact this

/-- The tracks that a greedy call of `processFrame` appends, and its effect on
the counters. -/
theorem processFrameArgs_greedy_new_tracks (env : Env R) (s s' : PartialTracking R)
    (a : FrameArgs R) (hm : a.method = 0) (h : s.processFrameArgs env a = some s') :
    s'.mTracks.drop s.mTracks.length =
        newTracks env (s.configureArgs env a) a.maxAmp
          (pairedPeaks env (s.configureArgs env a) a.peaks) s.mLastTrackId ∧
    s'.mTracks.length = s.mTracks.length +
        (newTracks env (s.configureArgs env a) a.maxAmp
          (pairedPeaks env (s.configureArgs env a) a.peaks) s.mLastTrackId).length ∧
    s'.mLastTrackId = s.mLastTrackId +
        (newTracks env (s.configureArgs env a) a.maxAmp
          (pairedPeaks env (s.configureArgs env a) a.peaks) s.mLastTrackId).length ∧
    s'.mCurrentFrame = s.mCurrentFrame + 1 ∧ s'.mMinTrackLength = a.minTrackLength := by
  obtain ⟨_, s3, hg, rfl⟩ := processFrameArgs_greedy env s s' a hm h
  obtain ⟨hT, hC, hL, hM, _⟩ := configureArgs_fields env s a
  have := assignGreedy_new_tracks env (s.configureArgs env a) s3 a.peaks a.maxAmp hg
  rw [hT, hC, hL, hM] at this
  obtain ⟨h1, h2, h3, h4, h5⟩ := this
  exact ⟨h1, h2, h3, by simp [h4], h5⟩

/-- No track position and no peak position occurs in two accepted pairings. -/
theorem greedyMatching_nodup (env : Env R) (s : PartialTracking R)
    (sinePeaks : List (SinePeak R)) :
    ((greedyMatching env s sinePeaks).map (fun q => q.2.1)).Nodup ∧
    ((greedyMatching env s sinePeaks).map (fun q => q.2.2)).Nodup ∧ True ∧ True := by
  unfold greedyMatching
  split
  · simp
  · exact ⟨(acceptPairing_walk _ _ _ _).2.1, (acceptPairing_walk _ _ _ _).2.2.1, trivial, trivial⟩

/-! ### The claims about one greedy frame -/

/-- Claim C7. A greedy call of `processFrame` (after `init()`, every active
track having a non-empty history) returns a state, and its matching is
injective: no track position and no peak position occurs in two accepted
pairings; the history of a track grows by exactly the peak of its accepted
pairing, if it has one, and not at all otherwise; and the new tracks are
started, one each, by peaks that are in no accepted pairing. -/
theorem greedy_matching_injective (env : Env R) (s : PartialTracking R) (a : FrameArgs R)
    (hm : a.method = 0) (hinit : s.mInitialized = true)
    (hhist : ∀ t ∈ s.mTracks, t.active = true → t.peaks ≠ []) :
    ∃ s', s.processFrameArgs env a = some s' ∧
    ((greedyMatching env (s.configureArgs env a) a.peaks).map (fun q => q.2.1)).Nodup ∧
    ((greedyMatching env (s.configureArgs env a) a.peaks).map (fun q => q.2.2)).Nodup ∧
    (∀ i track, s.mTracks[i]? = some track → ∃ track', s'.mTracks[i]? = some track' ∧
      ((∀ q ∈ greedyMatching env (s.configureArgs env a) a.peaks, q.2.1 ≠ i) →
        track'.peaks = track.peaks) ∧
      (∀ q ∈ greedyMatching env (s.configureArgs env a) a.peaks, q.2.1 = i →
        ∃ peak, a.peaks[q.2.2]? = some peak ∧ track'.peaks = track.peaks ++ [peak])) ∧
    List.Forall₂ (fun (jp : Nat × SinePeak R) track => track.peaks = [jp.2])
      (a.peaks.enum.filter (fun jp =>
        decide (jp.1 ∉ (greedyMatching env (s.configureArgs env a) a.peaks).map (fun q => q.2.2)) &&
          birthTest env (s.configureArgs env a) a.maxAmp jp.2))
      (s'.mTracks.drop s.mTracks.length) := by
  obtain ⟨s', h⟩ := processFrameArgs_greedy_isSome env s a hm hinit hhist
  obtain ⟨n1, n2, _⟩ := greedyMatching_nodup env (s.configureArgs env a) a.peaks
  refine ⟨s', h, n1, n2, ?_, ?_⟩
  · intro i track hi
    obtain ⟨h1, h2⟩ := processFrameArgs_greedy_old_track env s s' a hm h i track hi
    by_cases hex : ∃ q ∈ greedyMatching env (s.configureArgs env a) a.peaks, q.2.1 = i
    · obtain ⟨q, hq, hqi⟩ := hex
      obtain ⟨peak, hp, _, hs'⟩ := h2 q hq hqi
      refine ⟨_, hs', fun hno => absurd hqi (hno q hq), ?_⟩
      intro q' hq' hqi'
      obtain ⟨peak', hp', _, hs''⟩ := h2 q' hq' hqi'
      rw [hs'] at hs''
      simp only [Option.some.injEq, SineTrack.mk.injEq, List.append_cancel_left_eq,
        List.cons.injEq, and_true, true_and] at hs''
      exact ⟨peak', hp', by rw [hs'']⟩
    · have hno : ∀ q ∈ greedyMatching env (s.configureArgs env a) a.peaks, q.2.1 ≠ i :=
        fun q hq hqi => hex ⟨q, hq, hqi⟩
      refine ⟨_, h1 hno, fun _ => ?_, fun q hq hqi => absurd hqi (hno q hq)⟩
      split <;> rfl
  · rw [(processFrameArgs_greedy_new_tracks env s s' a hm h).1]
    exact forall₂_imp_of_mem (fun _ _ _ hb => hb.1)
      (newTracks_unpaired env (s.configureArgs env a) a.peaks a.maxAmp s.mLastTrackId)

/-- Claim C10. A greedy call of `processFrame` on frame `f = mCurrentFrame`
(after `init()`, in a state whose active tracks have a non-empty history and no
end frame, `std::sort` returning only pairings that it was given) returns a
state in which a track that was active and whose history the call did not
extend is inactive with `endFrame = f`, and a track whose history the call
extended is active, has no end frame and has exactly one more history entry. -/
theorem greedy_unextended_die_extended_live (env : Env R)
    (hsort : ∀ l, ∀ q ∈ env.sort l, q ∈ l) (s : PartialTracking R) (a : FrameArgs R)
    (hm : a.method = 0) (hinit : s.mInitialized = true)
    (hhist : ∀ t ∈ s.mTracks, t.active = true → t.peaks ≠ [])
    (hend : ∀ t ∈ s.mTracks, t.active = true → t.endUnset) :
    ∃ s', s.processFrameArgs env a = some s' ∧
    ∀ (i : Nat) (track : SineTrack R), s.mTracks[i]? = some track →
    ∃ track' : SineTrack R, s'.mTracks[i]? = some track' ∧
      (track.active = true → track'.peaks = track.peaks →
        track'.active = false ∧ track'.endFrame = s.mCurrentFrame) ∧
      (track'.peaks ≠ track.peaks →
        track'.active = true ∧ track'.endUnset ∧
        track'.peaks.length = track.peaks.length + 1) := by
  obtain ⟨s', h⟩ := processFrameArgs_greedy_isSome env s a hm hinit hhist
  refine ⟨s', h, ?_⟩
  intro i track hi
  obtain ⟨h1, h2⟩ := processFrameArgs_greedy_old_track env s s' a hm h i track hi
  by_cases hex : ∃ q ∈ greedyMatching env (s.configureArgs env a) a.peaks, q.2.1 = i
  · obtain ⟨q, hq, hqi⟩ := hex
    obtain ⟨peak, _, _, hs'⟩ := h2 q hq hqi
    obtain ⟨track0, _, _, hT, hact, _⟩ :=
      greedyMatching_candidate env (s.configureArgs env a) a.peaks hsort q hq
    rw [(configureArgs_fields env s a).1, hqi, hi] at hT
    simp only [Option.some.injEq] at hT
    subst hT
    refine ⟨_, hs', ?_, ?_⟩
    · intro _ hpeaks
      simp at hpeaks
    · intro _
      exact ⟨hact, hend track (List.getElem?_mem hi) hact, by simp⟩
  · have hno : ∀ q ∈ greedyMatching env (s.configureArgs env a) a.peaks, q.2.1 ≠ i :=
      fun q hq hqi => hex ⟨q, hq, hqi⟩
    refine ⟨_, h1 hno, ?_, ?_⟩
    · intro hact _
      simp [hact]
    · intro hne
      exfalso; apply hne
      split <;> rfl

end GreedyCall

section GreedyBirths

variable {R : Type} [NatCast R] [OfScientific R] [Add R] [Sub R] [Mul R] [Div R] [Neg R]
  [LT R] [DecidableRel (LT.lt : R → R → Prop)] [BEq R]

/-! ### The births of a greedy frame -/

/-- The births of a greedy call of `processFrame` on frame `f = mCurrentFrame`,
given peaks whose flag is clear (after `init()`, every active track having a
non-empty history): the call returns a state in which the tracks appended to
the collection are, in the order of the peaks, one for each peak that is in no
accepted pairing and whose `logMag` exceeds `birthThreshold(peak, maxAmp)`;
each has the history `[that peak]`, no end frame, is active and has
`startFrame = static_cast<int>(f)`, which is `f` when `0 ≤ f < 2^31`. -/
theorem greedy_births (env : Env R) (s : PartialTracking R) (a : FrameArgs R)
    (hm : a.method = 0) (hinit : s.mInitialized = true)
    (hhist : ∀ t ∈ s.mTracks, t.active = true → t.peaks ≠ [])
    (hclear : ∀ p ∈ a.peaks, p.assigned = false) :
    ∃ s', s.processFrameArgs env a = some s' ∧
      List.Forall₂
        (fun (jp : Nat × SinePeak R) track => track.peaks = [jp.2] ∧
          track.startFrame = staticCastInt s.mCurrentFrame ∧
          (0 ≤ s.mCurrentFrame → s.mCurrentFrame < 2147483648 →
            track.startFrame = s.mCurrentFrame) ∧
          track.endFrame = -1 ∧ track.active = true)
        (a.peaks.enum.filter (fun jp =>
          decide (jp.1 ∉ (greedyMatching env (s.configureArgs env a) a.peaks).map (fun q => q.2.2)) &&
            decide (jp.2.logMag >
              (s.configureArgs env a).birthThreshold env jp.2 a.maxAmp)))
        (s'.mTracks.drop s.mTracks.length) := by
  obtain ⟨s', h⟩ := processFrameArgs_greedy_isSome env s a hm hinit hhist
  refine ⟨s', h, ?_⟩
  rw [(processFrameArgs_greedy_new_tracks env s s' a hm h).1]
  have hfilter : a.peaks.enum.filter (fun jp =>
        decide (jp.1 ∉ (greedyMatching env (s.configureArgs env a) a.peaks).map (fun q => q.2.2)) &&
          decide (jp.2.logMag > (s.configureArgs env a).birthThreshold env jp.2 a.maxAmp)) =
      a.peaks.enum.filter (fun jp =>
        decide (jp.1 ∉ (greedyMatching env (s.configureArgs env a) a.peaks).map (fun q => q.2.2)) &&
          birthTest env (s.configureArgs env a) a.maxAmp jp.2) := by
    apply List.filter_congr
    intro jp hjp
    have := hclear jp.2 (List.snd_mem_of_mem_enum hjp)
    simp [birthTest, this]
  rw [hfilter]
  refine forall₂_imp_of_mem ?_
    (newTracks_unpaired env (s.configureArgs env a) a.peaks a.maxAmp s.mLastTrackId)
  intro jp _ track ⟨h1, h2, h3, h4, _⟩
  rw [(configureArgs_fields env s a).2.1] at h2
  refine ⟨h1, h2, fun h0 hlt => ?_, h3, h4⟩
  rw [h2]
  unfold staticCastInt
  omega

end GreedyBirths

section RunTheory

variable {R : Type} [NatCast R] [OfScientific R] [Add R] [Sub R] [Mul R] [Div R] [Neg R]
  [LT R] [DecidableRel (LT.lt : R → R → Prop)] [BEq R]

/-! ### Single-strategy runs: the invariant -/

theorem forall₂_mem_left {α β : Type} {P : α → β → Prop} :
    ∀ {l₁ : List α} {l₂ : List β}, List.Forall₂ P l₁ l₂ → ∀ a ∈ l₁, ∃ b ∈ l₂, P a b := by
  intro l₁ l₂ h
  induction h with
  | nil => intro a ha; simp at ha
  | cons hab _ ih =>
    intro a ha
    rcases List.mem_cons.mp ha with rfl | ha
    · exact ⟨_, List.mem_cons_self _ _, hab⟩
    · obtain ⟨b, hb, hp⟩ := ih a ha
      exact ⟨b, List.mem_cons_of_mem _ hb, hp⟩

theorem forall₂_mem_right {α β : Type} {P : α → β → Prop} :
    ∀ {l₁ : List α} {l₂ : List β}, List.Forall₂ P l₁ l₂ → ∀ b ∈ l₂, ∃ a ∈ l₁, P a b := by
  intro l₁ l₂ h
  induction h with
  | nil => intro b hb; simp at hb
  | cons hab _ ih =>
    intro b hb
    rcases List.mem_cons.mp hb with rfl | hb
    · exact ⟨_, List.mem_cons_self _ _, hab⟩
    · obtain ⟨a, ha, hp⟩ := ih b hb
      exact ⟨a, List.mem_cons_of_mem _ ha, hp⟩

theorem trackStep_ids {f : Int} :
    ∀ {l₁ l₂ : List (SineTrack R)}, List.Forall₂ (TrackStep f) l₁ l₂ →
      l₂.map (fun t => t.trackId) = l₁.map (fun t => t.trackId) := by
  intro l₁ l₂ h
  induction h with
  | nil => rfl
  | cons hab _ ih => simp only [List.map_cons, ih, hab.1]

theorem sound_init (greedy : Bool) (m : Int) (s0 : PartialTracking R) :
    Sound greedy m s0.init where
  initialized := rfl
  frame := le_refl _
  minLen := fun h => absurd rfl h
  idsNodup := List.nodup_nil
  idsGiven := fun t ht => by simp [PartialTracking.init] at ht
  alive := fun t ht => by simp [PartialTracking.init] at ht
  dead := fun t ht => by simp [PartialTracking.init] at ht
  history := fun t ht => by simp [PartialTracking.init] at ht
  prev := fun _ =>
    { distinct := fun i₁ i₂ k _ h => by simp [PartialTracking.init] at h
      active := fun i k h => by simp [PartialTracking.init] at h
      given := fun i k h => by simp [PartialTracking.init] at h
      idle := fun _ t ht => by simp [PartialTracking.init] at ht
      lastId := by simp [PartialTracking.init]
      sameLength := rfl }

theorem mem_prune {s : PartialTracking R} {t : SineTrack R} (h : t ∈ s.prune.mTracks) :
    t ∈ s.mTracks ∧ ¬ (0 ≤ t.endFrame ∧ t.endFrame ≤ s.mCurrentFrame - s.mMinTrackLength) := by
  simp only [PartialTracking.prune, List.mem_filter, pruneTest, Bool.not_eq_true',
    Bool.and_eq_false_iff, decide_eq_false_iff_not, ge_iff_le] at h
  exact ⟨h.1, fun hc => by rcases h.2 with h2 | h2 <;> omega⟩

theorem mem_prune_of {s : PartialTracking R} {t : SineTrack R} (h : t ∈ s.mTracks)
    (hkeep : ¬ (0 ≤ t.endFrame ∧ t.endFrame ≤ s.mCurrentFrame - s.mMinTrackLength)) :
    t ∈ s.prune.mTracks := by
  simp only [PartialTracking.prune, List.mem_filter, pruneTest, Bool.not_eq_true',
    Bool.and_eq_false_iff, decide_eq_false_iff_not, ge_iff_le]
  exact ⟨h, by omega⟩

theorem sound_prune {greedy : Bool} {m : Int} {s : PartialTracking R} (h : Sound greedy m s) :
    Sound greedy m s.prune where
  initialized := h.initialized
  frame := h.frame
  minLen := fun hne => h.minLen (by
    intro hnil
    apply hne
    simp [PartialTracking.prune, hnil])
  idsNodup := by
    have : (s.prune.mTracks.map (fun t => t.trackId)).Sublist (s.mTracks.map (fun t => t.trackId)) :=
      List.Sublist.map _ (List.filter_sublist _)
    exact List.Nodup.sublist this h.idsNodup
  idsGiven := fun t ht => h.idsGiven t (mem_prune ht).1
  alive := fun t ht => h.alive t (mem_prune ht).1
  dead := fun t ht => h.dead t (mem_prune ht).1
  history := fun t ht => h.history t (mem_prune ht).1
  prev := fun hg =>
    { distinct := (h.prev hg).distinct
      active := fun i k hk hpos t ht => (h.prev hg).active i k hk hpos t (mem_prune ht).1
      given := (h.prev hg).given
      idle := fun hp t ht => (h.prev hg).idle hp t (mem_prune ht).1
      lastId := (h.prev hg).lastId
      sameLength := (h.prev hg).sameLength }

theorem lengthInv_prune {s : PartialTracking R} (h : LengthInv s) : LengthInv s.prune :=
  fun t ht => h t (mem_prune ht).1

/-- A frame that meets `FrameSummary` keeps the invariant. -/
theorem sound_frame {greedy : Bool} {m : Int} {s s' : PartialTracking R} (h : Sound greedy m s)
    (hf : FrameSummary greedy m s s') (hprev : greedy = false → PrevBinding s') :
    Sound greedy m s' := by
  obtain ⟨olds, news, htr, hold, hnew, hnodup⟩ := hf.tracks
  have hmem : ∀ t' ∈ s'.mTracks, (∃ t ∈ s.mTracks, TrackStep s.mCurrentFrame t t') ∨ t' ∈ news := by
    intro t' ht'
    rw [htr] at ht'
    rcases List.mem_append.mp ht' with h1 | h1
    · exact Or.inl (forall₂_mem_right hold t' h1)
    · exact Or.inr h1
  refine
    { initialized := hf.initialized
      frame := by rw [hf.frame]; have := h.frame; omega
      minLen := fun _ => hf.minLen
      idsNodup := ?_
      idsGiven := ?_
      alive := ?_
      dead := ?_
      history := ?_
      prev := hprev }
  · rw [htr, List.map_append, trackStep_ids hold]
    refine List.Nodup.append h.idsNodup hnodup ?_
    intro k hk1 hk2
    obtain ⟨t, ht, rfl⟩ := List.mem_map.mp hk1
    obtain ⟨n, hn, hnk⟩ := List.mem_map.mp hk2
    have h1 := h.idsGiven t ht
    have h2 := (hnew n hn).2.2.2.2.1
    have hnk' : n.trackId = t.trackId := hnk
    omega
  · intro t' ht'
    rcases hmem t' ht' with ⟨t, ht, hstep⟩ | hn
    · have := h.idsGiven t ht
      have := hf.nextId
      rw [hstep.1]; omega
    · exact (hnew t' hn).2.2.2.2.2
  · intro t' ht' hact
    rcases hmem t' ht' with ⟨t, ht, hstep⟩ | hn
    · rcases hstep.2.2 with ⟨_, h2, _⟩ | ⟨h1, _, h3, _⟩ | ⟨_, h2, _⟩
      · rw [h2] at hact; exact absurd hact (by simp)
      · rw [h3]; exact h.alive t ht h1
      · rw [h2] at hact; exact absurd hact (by simp)
    · exact (hnew t' hn).2.1
  · intro t' ht' hact
    rw [hf.frame]
    rcases hmem t' ht' with ⟨t, ht, hstep⟩ | hn
    · rcases hstep.2.2 with ⟨h1, _, h3, _⟩ | ⟨_, h2, _⟩ | ⟨_, _, h3, _⟩
      · have := h.dead t ht h1
        rw [h3]; omega
      · rw [h2] at hact; exact absurd hact (by simp)
      · have := h.frame
        rw [h3]; omega
    · rw [(hnew t' hn).2.2.1] at hact; exact absurd hact (by simp)
  · intro t' ht'
    rcases hmem t' ht' with ⟨t, ht, hstep⟩ | hn
    · have := h.history t ht
      rcases hstep.2.2 with ⟨_, _, _, h4⟩ | ⟨_, _, _, peak, h4⟩ | ⟨_, _, _, h4⟩
      · rw [h4]; exact this
      · rw [h4]; simp
      · rw [h4]; exact this
    · intro hnil
      have := (hnew t' hn).2.2.2.1
      rw [hnil] at this
      simp only [List.length_nil, birthLength] at this
      split at this <;> omega

/-- A frame that meets `FrameSummary` keeps the relation between histories and
frames, provided that the new tracks start where their history starts. -/
theorem lengthInv_frame {greedy : Bool} {m : Int} {s s' : PartialTracking R}
    (h : LengthInv s) (hf : FrameSummary greedy m s s')
    (hb : (birthLength greedy : Int) = s.mCurrentFrame + 1 - birthFrame greedy s.mCurrentFrame) :
    LengthInv s' := by
  obtain ⟨olds, news, htr, hold, hnew, _⟩ := hf.tracks
  intro t' ht'
  rw [htr] at ht'
  rw [hf.frame]
  rcases List.mem_append.mp ht' with h1 | h1
  · obtain ⟨t, ht, hstep⟩ := forall₂_mem_right hold t' h1
    obtain ⟨ha, hd⟩ := h t ht
    rcases hstep.2.2 with ⟨c1, c2, c3, c4⟩ | ⟨c1, c2, c3, peak, c4⟩ | ⟨c1, c2, c3, c4⟩
    · refine ⟨fun hact => by rw [c2] at hact; exact absurd hact (by simp), fun _ => ?_⟩
      rw [c4, c3, hstep.2.1]; exact hd c1
    · refine ⟨fun _ => ?_, fun hact => by rw [c2] at hact; exact absurd hact (by simp)⟩
      rw [c4, hstep.2.1]
      have := ha c1
      simp only [List.length_append, List.length_singleton, Nat.cast_add, Nat.cast_one]
      omega
    · refine ⟨fun hact => by rw [c2] at hact; exact absurd hact (by simp), fun _ => ?_⟩
      rw [c4, c3, hstep.2.1]; exact ha c1
  · obtain ⟨n1, n2, n3, n4, _⟩ := hnew t' h1
    refine ⟨fun _ => ?_, fun hact => by rw [n3] at hact; exact absurd hact (by simp)⟩
    rw [n4, n1]; omega

/-! ### The greedy frame meets `FrameSummary` -/

theorem forall₂_of_getElem? {α β : Type} {P : α → β → Prop} :
    ∀ (l₁ : List α) (l₂ : List β), l₁.length = l₂.length →
      (∀ (i : Nat) (a : α) (b : β), l₁[i]? = some a → l₂[i]? = some b → P a b) →
      List.Forall₂ P l₁ l₂ := by
  intro l₁
  induction l₁ with
  | nil =>
    intro l₂ hlen _
    cases l₂ with
    | nil => exact List.Forall₂.nil
    | cons b tl => simp at hlen
  | cons a tl ih =>
    intro l₂ hlen h
    cases l₂ with
    | nil => simp at hlen
    | cons b tl₂ =>
      refine List.Forall₂.cons (h 0 a b (by simp) (by simp)) (ih tl₂ (by simpa using hlen) ?_)
      intro i a' b' ha hb
      exact h (i + 1) a' b' (by simpa using ha) (by simpa using hb)

theorem newTracks_mem (env : Env R) (s : PartialTracking R) (maxAmp : R) :
    ∀ (peaks : List (SinePeak R)) (firstId : Int),
      ∀ n ∈ newTracks env s maxAmp peaks firstId,
        n.startFrame = staticCastInt s.mCurrentFrame ∧ n.endFrame = -1 ∧ n.active = true ∧
        n.peaks.length = 1 ∧ firstId ≤ n.trackId ∧
        n.trackId < firstId + (newTracks env s maxAmp peaks firstId).length := by
  intro peaks firstId n hn
  obtain ⟨peak, _, hspec⟩ := forall₂_mem_right (newTracks_spec env s maxAmp peaks firstId) n hn
  obtain ⟨k, hk⟩ := List.getElem?_of_mem hn
  have hid := newTracks_trackId env s maxAmp peaks firstId k n hk
  have hlt : k < (newTracks env s maxAmp peaks firstId).length := (List.getElem?_eq_some.mp hk).1
  refine ⟨hspec.2.1, hspec.2.2.1, hspec.2.2.2.1, by rw [hspec.1]; rfl, by omega, by omega⟩

theorem newTracks_ids_nodup (env : Env R) (s : PartialTracking R) (maxAmp : R)
    (peaks : List (SinePeak R)) (firstId : Int) :
    ((newTracks env s maxAmp peaks firstId).map (fun n => n.trackId)).Nodup := by
  rw [List.nodup_iff_getElem?_ne_getElem?]
  intro i j hij hj
  simp only [List.length_map] at hj
  have hi : i < (newTracks env s maxAmp peaks firstId).length := by omega
  rw [List.getElem?_map, List.getElem?_map, List.getElem?_eq_getElem hi,
    List.getElem?_eq_getElem hj]
  simp only [Option.map_some', ne_eq, Option.some.injEq]
  have h1 := newTracks_trackId env s maxAmp peaks firstId i _ (List.getElem?_eq_getElem hi)
  have h2 := newTracks_trackId env s maxAmp peaks firstId j _ (List.getElem?_eq_getElem hj)
  rw [h1, h2]
  omega

theorem processFrameArgs_greedy_other_fields (env : Env R) (s s' : PartialTracking R)
    (a : FrameArgs R) (hm : a.method = 0) (h : s.processFrameArgs env a = some s') :
    s'.mInitialized = true ∧ s'.mPrevPeaks = s.mPrevPeaks ∧ s'.mPrevTracks = s.mPrevTracks := by
  obtain ⟨hinit, s3, hg, rfl⟩ := processFrameArgs_greedy env s s' a hm h
  obtain ⟨_, _, _, _, hP, hT, hI⟩ := configureArgs_fields env s a
  obtain ⟨_, _, rfl⟩ := assignGreedy_some env _ s3 a.peaks a.maxAmp hg
  exact ⟨by simp [hI, hinit], by simp [hP], by simp [hT]⟩

/-- A greedy call of `processFrame` meets `FrameSummary`. -/
theorem frameSummary_greedy (env : Env R) (hsort : ∀ l, ∀ q ∈ env.sort l, q ∈ l)
    (m : Int) (s s' : PartialTracking R) (a : FrameArgs R) (hok : singleStrategy true m a)
    (h : s.processFrameArgs env a = some s') : FrameSummary true m s s' := by
  have hm : a.method = 0 := hok.1.mpr rfl
  obtain ⟨hdrop, hlen, hlast, hcur, hmin⟩ := processFrameArgs_greedy_new_tracks env s s' a hm h
  obtain ⟨hinit, _, _⟩ := processFrameArgs_greedy_other_fields env s s' a hm h
  refine
    { frame := hcur
      minLen := by rw [hmin, hok.2]
      initialized := hinit
      nextId := by simp only [nextTrackId, if_true, hlast]; omega
      tracks := ⟨s'.mTracks.take s.mTracks.length, s'.mTracks.drop s.mTracks.length,
        (List.take_append_drop _ _).symm, ?_, ?_, ?_⟩ }
  · apply forall₂_of_getElem?
    · rw [List.length_take]; omega
    · intro i track track' hi hi'
      have hil : i < s.mTracks.length := (List.getElem?_eq_some.mp hi).1
      rw [List.getElem?_take_of_lt hil] at hi'
      obtain ⟨h1, h2⟩ := processFrameArgs_greedy_old_track env s s' a hm h i track hi
      by_cases hex : ∃ q ∈ greedyMatching env (s.configureArgs env a) a.peaks, q.2.1 = i
      · obtain ⟨q, hq, hqi⟩ := hex
        obtain ⟨peak, _, _, hs'⟩ := h2 q hq hqi
        obtain ⟨track0, _, _, hT, hact, _⟩ :=
          greedyMatching_candidate env (s.configureArgs env a) a.peaks hsort q hq
        rw [(configureArgs_fields env s a).1, hqi, hi] at hT
        simp only [Option.some.injEq] at hT
        subst hT
        rw [hs'] at hi'
        simp only [Option.some.injEq] at hi'
        subst hi'
        exact ⟨rfl, rfl, Or.inr (Or.inl ⟨hact, hact, rfl, peak, rfl⟩)⟩
      · have hno : ∀ q ∈ greedyMatching env (s.configureArgs env a) a.peaks, q.2.1 ≠ i :=
          fun q hq hqi => hex ⟨q, hq, hqi⟩
        rw [h1 hno] at hi'
        simp only [Option.some.injEq] at hi'
        subst hi'
        by_cases hact : track.active = true
        · rw [if_pos hact]
          exact ⟨rfl, rfl, Or.inr (Or.inr ⟨hact, rfl, rfl, rfl⟩)⟩
        · have hact' : track.active = false := by simpa using hact
          rw [if_neg hact]
          exact ⟨rfl, rfl, Or.inl ⟨hact', hact', rfl, rfl⟩⟩
  · intro n hn
    rw [hdrop] at hn
    obtain ⟨n1, n2, n3, n4, n5, n6⟩ := newTracks_mem env _ a.maxAmp _ _ n hn
    rw [(configureArgs_fields env s a).2.1] at n1
    refine ⟨by simp only [birthFrame, if_true]; exact n1, n2, n3, by simp [birthLength, n4], ?_, ?_⟩
    · simp only [nextTrackId, if_true]; exact n5
    · simp only [nextTrackId, if_true, hlast]; exact n6
  · rw [hdrop]
    exact newTracks_ids_nodup env _ _ _ _

end RunTheory

section MunkresFrame

variable {R : Type} [NatCast R] [OfScientific R] [Add R] [Sub R] [Mul R] [Div R] [Neg R]
  [LT R] [DecidableRel (LT.lt : R → R → Prop)] [BEq R]

/-! ### The loop over the rows of `assignMunkres` -/

theorem rowStep_mono {s : PartialTracking R} {done done' : List Nat} (hsub : ∀ i ∈ done, i ∈ done')
    {t0 t : SineTrack R} (h : RowStep s done t0 t) : RowStep s done' t0 t := by
  obtain ⟨h1, h2, h3, h4, h5⟩ := h
  refine ⟨h1, h2, h3, h4, ?_⟩
  rcases h5 with h5 | ⟨a, b, c, d, i, hi, e⟩
  · exact Or.inl h5
  · exact Or.inr ⟨a, b, c, d, i, hsub i hi, e⟩

theorem rowsInv_mono {s : PartialTracking R} {done done' : List Nat}
    (hsub : ∀ i ∈ done, i ∈ done') {st : MunkresLoop R} (h : RowsInv s done st) :
    RowsInv s done' st := by
  obtain ⟨olds, news, h1, h2, h3, h4⟩ := h.tracks
  exact
    { tracks := ⟨olds, news, h1, List.Forall₂.imp (fun _ _ hr => rowStep_mono hsub hr) h2, h3, h4⟩
      lastId := h.lastId
      slotsDistinct := h.slotsDistinct
      slotsSource := fun p v hp hv =>
        ⟨(h.slotsSource p v hp hv).1, (h.slotsSource p v hp hv).2.imp
          (fun ⟨i, hi, e⟩ => ⟨i, hsub i hi, e⟩) id⟩
      slotsActive := h.slotsActive
      slotsNonpos := h.slotsNonpos
      lengths := h.lengths }

/-- Every track of the loop state has an id that has been given. -/
theorem rowsInv_ids {m : Int} {s : PartialTracking R} (hs : Sound false m s) {done : List Nat}
    {st : MunkresLoop R} (h : RowsInv s done st) : ∀ t ∈ st.tracks, t.trackId ≤ st.lastTrackId := by
  obtain ⟨olds, news, h1, h2, h3, _⟩ := h.tracks
  intro t ht
  rw [h1] at ht
  rcases List.mem_append.mp ht with ht | ht
  · obtain ⟨t0, ht0, hr⟩ := forall₂_mem_right h2 t ht
    have := hs.idsGiven t0 ht0
    have := h.lastId
    simp only [nextTrackId, Bool.false_eq_true, if_false] at *
    rw [hr.1]; omega
  · exact (h3 t ht).2.2.2.2.2.2

theorem rowsInv_extend {m : Int} {s : PartialTracking R} (hs : Sound false m s) {done : List Nat}
    {st st' : MunkresLoop R} (h : RowsInv s done st) (i : Nat) (hi : i ∉ done) (k : Int)
    (hk : s.mPrevTracks[i]? = some k) (hpos : 0 < k) (p : Nat)
    (hext : extendTracks st k p = some st') : RowsInv s (i :: done) st' := by
  have hmono : RowsInv s (i :: done) st := rowsInv_mono (fun j hj => List.mem_cons_of_mem _ hj) h
  have hprev := hs.prev rfl
  unfold extendTracks at hext
  cases hpk : st.sinePeaks[p]? with
  | none => simp [hpk] at hext
  | some peak =>
    simp only [hpk] at hext
    by_cases hhit : (st.tracks.any fun t => t.trackId == k) = true
    · simp only [hhit, if_true, Option.some.injEq] at hext
      subst hext
      obtain ⟨olds, news, h1, h2, h3, h4⟩ := h.tracks
      have hkl : k ≤ s.mLastTrackId := hprev.given i k hk
      have hnews : news.map (fun t => if (t.trackId == k) = true then
            { t with assigned := true, peaks := t.peaks ++ [{ peak with assigned := true }] }
          else t) = news := by
        conv_rhs => rw [← List.map_id news]
        apply List.map_congr_left
        intro n hn
        have := (h3 n hn).2.2.2.2.2.1
        have hne : ¬ (n.trackId == k) = true := by
          simp only [beq_iff_eq]; omega
        simp [hne]
      have hp_lt : p < st.sinePeaks.length := (List.getElem?_eq_some.mp hpk).1
      refine
        { tracks := ⟨olds.map (fun t => if (t.trackId == k) = true then
              { t with assigned := true, peaks := t.peaks ++ [{ peak with assigned := true }] }
            else t), news, ?_, ?_, h3, h4⟩
          lastId := h.lastId
          slotsDistinct := ?_
          slotsSource := ?_
          slotsActive := ?_
          slotsNonpos := ?_
          lengths := by simp [h.lengths] }
      · simp only [h1, List.map_append, hnews]
      · rw [List.forall₂_map_right_iff]
        refine forall₂_imp_of_mem ?_ h2
        intro t0 ht0 t hr
        by_cases hid : (t.trackId == k) = true
        · simp only [hid, if_true]
          have hidk : t.trackId = k := by simpa using hid
          obtain ⟨r1, r2, r3, r4, r5⟩ := hr
          have ht0k : t0.trackId = k := by rw [← r1]; exact hidk
          rcases r5 with ⟨r5, _⟩ | ⟨_, _, _, _, i', hi', hk'⟩
          · refine ⟨r1, r2, r3, r4, Or.inr ⟨⟨_, by rw [r5]⟩, rfl, ?_, by omega,
              i, List.mem_cons_self _ _, by rw [ht0k]; exact hk⟩⟩
            exact hprev.active i k hk hpos t0 ht0 ht0k
          · exfalso
            rw [ht0k] at hk'
            have hne : i' ≠ i := fun e => hi (e ▸ hi')
            have := hprev.distinct i' i k hne hk' hk
            omega
        · simp only [hid]
          exact rowStep_mono (fun j hj => List.mem_cons_of_mem _ hj) hr
      · intro p₁ p₂ v hne h1' h2'
        simp only [List.getElem?_set] at h1' h2'
        by_contra hv
        have hv' : 0 < v := by omega
        have hother : ∀ q : Nat, st.trackAssignment[q]? = some k → False := by
          intro q hq
          rcases (h.slotsSource q k hq hpos).2 with ⟨i', hi', hk'⟩ | hlt
          · have hne : i' ≠ i := fun e => hi (e ▸ hi')
            have := hprev.distinct i' i k hne hk' hk
            omega
          · omega
        by_cases e1 : p = p₁
        · by_cases e2 : p = p₂
          · exact hne (e1.symm.trans e2)
          · simp only [e1, if_true] at h1'
            simp only [e2, if_false] at h2'
            split at h1'
            · simp only [Option.some.injEq] at h1'
              rw [← h1'] at h2'
              exact hother _ h2'
            · simp at h1'
        · simp only [e1, if_false] at h1'
          by_cases e2 : p = p₂
          · simp only [e2, if_true] at h2'
            split at h2'
            · simp only [Option.some.injEq] at h2'
              rw [← h2'] at h1'
              exact hother _ h1'
            · simp at h2'
          · simp only [e2, if_false] at h2'
            have := h.slotsDistinct p₁ p₂ v hne h1' h2'
            omega
      · intro q v hq hv
        simp only [List.getElem?_set] at hq
        by_cases e1 : p = q
        · simp only [e1, if_true] at hq
          split at hq
          · simp only [Option.some.injEq] at hq
            subst hq
            refine ⟨?_, Or.inl ⟨i, List.mem_cons_self _ _, hk⟩⟩
            show k ≤ st.lastTrackId
            have := h.lastId
            omega
          · simp at hq
        · simp only [e1, if_false] at hq
          exact hmono.slotsSource q v hq hv
      · intro q v hq hv t' ht' hid'
        simp only [List.mem_map] at ht'
        obtain ⟨t, ht, rfl⟩ := ht'
        have hkeep : t.trackId = v ∧ (t.trackId = k → t.active = true) := by
          constructor
          · by_cases hid : (t.trackId == k) = true
            · simp only [hid, if_true] at hid'; exact hid'
            · simp only [hid] at hid'; exact hid'
          · intro hidk
            rw [h1] at ht
            rcases List.mem_append.mp ht with ht | ht
            · obtain ⟨t0, ht0, hr⟩ := forall₂_mem_right h2 t ht
              rw [hr.2.2.2.1]
              exact hprev.active i k hk hpos t0 ht0 (by rw [← hr.1]; exact hidk)
            · exact (h3 t ht).2.2.1
        simp only [List.getElem?_set] at hq
        by_cases hid : (t.trackId == k) = true
        · simp only [hid, if_true]
          exact ⟨hkeep.2 (by simpa using hid), trivial⟩
        · simp only [hid]
          by_cases e1 : p = q
          · simp only [e1, if_true] at hq
            split at hq
            · simp only [Option.some.injEq] at hq
              exfalso
              apply hid
              simp only [beq_iff_eq]
              rw [hkeep.1, hq]
            · simp at hq
          · simp only [e1, if_false] at hq
            exact h.slotsActive q v hq hv t ht hkeep.1
      · intro q v hq
        simp only [List.getElem?_set] at hq
        by_cases e1 : p = q
        · simp only [e1, if_true] at hq
          split at hq
          · simp only [Option.some.injEq] at hq
            show v ≤ st.lastTrackId
            have := h.lastId
            omega
          · simp at hq
        · simp only [e1, if_false] at hq
          exact h.slotsNonpos q v hq
    · simp only [hhit, Bool.false_eq_true, if_false, Option.some.injEq] at hext
      subst hext
      exact hmono

theorem rowsInv_birth {m : Int} {s : PartialTracking R} (hs : Sound false m s) {done : List Nat}
    {st st' : MunkresLoop R} (h : RowsInv s done st) (i : Nat) (prev : SinePeak R) (p : Nat)
    (hb : birthFromPair s st prev p = some st') : RowsInv s (i :: done) st' := by
  have hmono : RowsInv s (i :: done) st := rowsInv_mono (fun j hj => List.mem_cons_of_mem _ hj) h
  have hids := rowsInv_ids hs h
  unfold birthFromPair at hb
  cases hpk : st.sinePeaks[p]? with
  | none => simp [hpk] at hb
  | some peak =>
    simp only [hpk, Option.some.injEq] at hb
    subst hb
    obtain ⟨olds, news, h1, h2, h3, h4⟩ := hmono.tracks
    have hl := h.lastId
    refine
      { tracks := ⟨olds, news ++ [SineTrack.mk [prev, peak] (s.mCurrentFrame - 1) (-1) true true
            (st.lastTrackId + 1)],
          by simp only [h1, List.append_assoc], h2, ?_, ?_⟩
        lastId := by show s.mLastTrackId ≤ st.lastTrackId + 1; omega
        slotsDistinct := ?_
        slotsSource := ?_
        slotsActive := ?_
        slotsNonpos := ?_
        lengths := by simp [h.lengths] }
    · intro n hn
      rcases List.mem_append.mp hn with hn | hn
      · obtain ⟨a, b, c, d, e, f, g⟩ := h3 n hn
        exact ⟨a, b, c, d, e, f, by show n.trackId ≤ st.lastTrackId + 1; omega⟩
      · simp only [List.mem_singleton] at hn
        subst hn
        exact ⟨rfl, rfl, rfl, rfl, rfl, by show s.mLastTrackId < st.lastTrackId + 1; omega,
          le_refl _⟩
    · rw [List.map_append, List.map_singleton]
      refine List.Nodup.append h4 (List.nodup_singleton _) ?_
      intro v hv1 hv2
      obtain ⟨n, hn, rfl⟩ := List.mem_map.mp hv1
      simp only [List.mem_singleton] at hv2
      have := (h3 n hn).2.2.2.2.2.2
      omega
    · intro p₁ p₂ v hne h1' h2'
      simp only [List.getElem?_set] at h1' h2'
      by_contra hv
      have hv' : 0 < v := by omega
      have hother : ∀ q : Nat, st.trackAssignment[q]? = some (st.lastTrackId + 1) → False := by
        intro q hq
        have := h.slotsNonpos q _ hq
        omega
      by_cases e1 : p = p₁
      · by_cases e2 : p = p₂
        · exact hne (e1.symm.trans e2)
        · simp only [e1, if_true] at h1'
          simp only [e2, if_false] at h2'
          split at h1'
          · simp only [Option.some.injEq] at h1'
            rw [← h1'] at h2'
            exact hother _ h2'
          · simp at h1'
      · simp only [e1, if_false] at h1'
        by_cases e2 : p = p₂
        · simp only [e2, if_true] at h2'
          split at h2'
          · simp only [Option.some.injEq] at h2'
            rw [← h2'] at h1'
            exact hother _ h1'
          · simp at h2'
        · simp only [e2, if_false] at h2'
          have := h.slotsDistinct p₁ p₂ v hne h1' h2'
          omega
    · intro q v hq hv
      simp only [List.getElem?_set] at hq
      by_cases e1 : p = q
      · simp only [e1, if_true] at hq
        split at hq
        · simp only [Option.some.injEq] at hq
          subst hq
          refine ⟨le_refl _, Or.inr ?_⟩
          omega
        · simp at hq
      · simp only [e1, if_false] at hq
        obtain ⟨a, b⟩ := hmono.slotsSource q v hq hv
        exact ⟨by show v ≤ st.lastTrackId + 1; omega, b⟩
    · intro q v hq hv t ht hid
      simp only [List.getElem?_set] at hq
      rcases List.mem_append.mp ht with ht | ht
      · have hle := hids t ht
        by_cases e1 : p = q
        · simp only [e1, if_true] at hq
          split at hq
          · simp only [Option.some.injEq] at hq
            omega
          · simp at hq
        · simp only [e1, if_false] at hq
          exact h.slotsActive q v hq hv t ht hid
      · simp only [List.mem_singleton] at ht
        subst ht
        exact ⟨rfl, rfl⟩
    · intro q v hq
      simp only [List.getElem?_set] at hq
      by_cases e1 : p = q
      · simp only [e1, if_true] at hq
        split at hq
        · simp only [Option.some.injEq] at hq
          show v ≤ st.lastTrackId + 1
          omega
        · simp at hq
      · simp only [e1, if_false] at hq
        have := h.slotsNonpos q v hq
        show v ≤ st.lastTrackId + 1
        omega

/-- One turn of the loop over the rows keeps the invariant. -/
theorem rowsInv_row {m : Int} (env : Env R) {s : PartialTracking R} (hs : Sound false m s)
    (sinePeaks : List (SinePeak R)) (assignment : Nat → Int) {done : List Nat}
    {st st' : MunkresLoop R} (h : RowsInv s done st) (i : Nat) (hi : i ∉ done)
    (hrow : munkresRow env s sinePeaks assignment st i = some st') :
    RowsInv s (i :: done) st' := by
  have hmono : RowsInv s (i :: done) st := rowsInv_mono (fun j hj => List.mem_cons_of_mem _ hj) h
  unfold munkresRow at hrow
  cases hprev : s.mPrevPeaks[i]? with
  | none => simp [hprev] at hrow
  | some prev =>
    simp only [hprev] at hrow
    split at hrow
    · simp only [Option.some.injEq] at hrow; subst hrow; exact hmono
    · split at hrow
      · simp at hrow
      · cases hpk : sinePeaks[(assignment i).toNat]? with
        | none => simp [hpk] at hrow
        | some peak =>
          simp only [hpk] at hrow
          split at hrow
          · cases hk : s.mPrevTracks[i]? with
            | none => simp [hk] at hrow
            | some k =>
              simp only [hk] at hrow
              split at hrow
              · rename_i hcond
                simp only [Bool.and_eq_true, decide_eq_true_eq, gt_iff_lt] at hcond
                exact rowsInv_extend hs h i hi k hk hcond.1 _ hrow
              · split at hrow
                · exact rowsInv_birth hs h i prev _ hrow
                · simp only [Option.some.injEq] at hrow; subst hrow; exact hmono
          · simp only [Option.some.injEq] at hrow; subst hrow; exact hmono

/-- The loop over the rows keeps the invariant. -/
theorem rowsInv_rows {m : Int} (env : Env R) {s : PartialTracking R} (hs : Sound false m s)
    (sinePeaks : List (SinePeak R)) (assignment : Nat → Int) :
    ∀ (rows : List Nat) (done : List Nat) (st st' : MunkresLoop R),
      rows.Nodup → (∀ i ∈ rows, i ∉ done) → RowsInv s done st →
      munkresRows env s sinePeaks assignment rows st = some st' →
      ∃ done', RowsInv s done' st' := by
  intro rows
  induction rows with
  | nil =>
    intro done st st' _ _ h hrows
    simp only [munkresRows, Option.some.injEq] at hrows
    subst hrows
    exact ⟨done, h⟩
  | cons i rest ih =>
    intro done st st' hnd hdisj h hrows
    rw [munkresRows] at hrows
    cases hrow : munkresRow env s sinePeaks assignment st i with
    | none => simp [hrow] at hrows
    | some st1 =>
      simp only [hrow] at hrows
      have h1 := rowsInv_row env hs sinePeaks assignment h i
        (hdisj i (List.mem_cons_self _ _)) hrow
      refine ih (i :: done) st1 st' (List.nodup_cons.mp hnd).2 ?_ h1 hrows
      intro j hj hmem
      rcases List.mem_cons.mp hmem with rfl | hmem
      · exact (List.nodup_cons.mp hnd).1 hj
      · exact hdisj j (List.mem_cons_of_mem _ hj) hmem

theorem extendTracks_sinePeaks_length (st st' : MunkresLoop R) (k : Int) (p : Nat)
    (h : extendTracks st k p = some st') : st'.sinePeaks.length = st.sinePeaks.length := by
  unfold extendTracks at h
  cases hpk : st.sinePeaks[p]? with
  | none => simp [hpk] at h
  | some peak =>
    simp only [hpk] at h
    split at h
    · simp only [Option.some.injEq] at h; subst h; simp
    · simp only [Option.some.injEq] at h; subst h; rfl

theorem birthFromPair_sinePeaks_length (s : PartialTracking R) (st st' : MunkresLoop R)
    (prev : SinePeak R) (p : Nat) (h : birthFromPair s st prev p = some st') :
    st'.sinePeaks.length = st.sinePeaks.length := by
  unfold birthFromPair at h
  cases hpk : st.sinePeaks[p]? with
  | none => simp [hpk] at h
  | some peak =>
    simp only [hpk, Option.some.injEq] at h
    subst h; simp

theorem munkresRow_sinePeaks_length (env : Env R) (s : PartialTracking R)
    (sinePeaks : List (SinePeak R)) (assignment : Nat → Int) (st st' : MunkresLoop R) (i : Nat)
    (hrow : munkresRow env s sinePeaks assignment st i = some st') :
    st'.sinePeaks.length = st.sinePeaks.length := by
  unfold munkresRow at hrow
  cases hprev : s.mPrevPeaks[i]? with
  | none => simp [hprev] at hrow
  | some prev =>
    simp only [hprev] at hrow
    split at hrow
    · simp only [Option.some.injEq] at hrow; subst hrow; rfl
    · split at hrow
      · simp at hrow
      · cases hpk : sinePeaks[(assignment i).toNat]? with
        | none => simp [hpk] at hrow
        | some peak =>
          simp only [hpk] at hrow
          split at hrow
          · cases hk : s.mPrevTracks[i]? with
            | none => simp [hk] at hrow
            | some k =>
              simp only [hk] at hrow
              split at hrow
              · exact extendTracks_sinePeaks_length _ _ _ _ hrow
              · split at hrow
                · exact birthFromPair_sinePeaks_length _ _ _ _ _ hrow
                · simp only [Option.some.injEq] at hrow; subst hrow; rfl
          · simp only [Option.some.injEq] at hrow; subst hrow; rfl

theorem munkresRows_sinePeaks_length (env : Env R) (s : PartialTracking R)
    (sinePeaks : List (SinePeak R)) (assignment : Nat → Int) :
    ∀ (rows : List Nat) (st st' : MunkresLoop R),
      munkresRows env s sinePeaks assignment rows st = some st' →
      st'.sinePeaks.length = st.sinePeaks.length := by
  intro rows
  induction rows with
  | nil =>
    intro st st' h
    simp only [munkresRows, Option.some.injEq] at h
    subst h; rfl
  | cons i rest ih =>
    intro st st' h
    rw [munkresRows] at h
    cases hrow : munkresRow env s sinePeaks assignment st i with
    | none => simp [hrow] at h
    | some st1 =>
      simp only [hrow] at h
      rw [ih st1 st' h, munkresRow_sinePeaks_length env s sinePeaks assignment st st1 i hrow]

/-- The invariant holds when the loop over the rows starts. -/
theorem rowsInv_start (s : PartialTracking R) (hlast : 0 ≤ s.mLastTrackId)
    (sinePeaks : List (SinePeak R)) :
    RowsInv s [] { tracks := clearAssigned s.mTracks, sinePeaks := sinePeaks,
                   trackAssignment := List.replicate sinePeaks.length (-1),
                   lastTrackId := s.mLastTrackId } where
  tracks := ⟨clearAssigned s.mTracks, [], by simp, by
    unfold clearAssigned
    rw [List.forall₂_map_right_iff, List.forall₂_same]
    intro t _
    exact ⟨rfl, rfl, rfl, rfl, Or.inl ⟨rfl, rfl⟩⟩, by simp, by simp⟩
  lastId := le_refl _
  slotsDistinct := fun p₁ p₂ v _ h1 _ => by
    have := List.getElem?_mem h1
    rw [List.mem_replicate] at this
    omega
  slotsSource := fun p v h1 hv => by
    have := List.getElem?_mem h1
    rw [List.mem_replicate] at this
    omega
  slotsActive := fun p v h1 hv => by
    have := List.getElem?_mem h1
    rw [List.mem_replicate] at this
    omega
  slotsNonpos := fun p v h1 => by
    have := List.getElem?_mem h1
    rw [List.mem_replicate] at this
    show v ≤ s.mLastTrackId
    omega
  lengths := by simp

/-- A call of `assignMunkres` in a state that satisfies the invariant of the
solver-based runs: its effect on the collection and the counters, and the
binding of the peaks it stores for the next call. -/
theorem assignMunkres_summary (env : Env R) (m : Int) (c c' : PartialTracking R)
    (hs : Sound false m c) (sinePeaks : List (SinePeak R)) (maxAmp : R)
    (h : c.assignMunkres env sinePeaks maxAmp = some c') :
    c'.mCurrentFrame = c.mCurrentFrame ∧ c'.mMinTrackLength = c.mMinTrackLength ∧
    c'.mInitialized = c.mInitialized ∧ c.mLastTrackId ≤ c'.mLastTrackId ∧
    (∃ olds news, c'.mTracks = olds ++ news ∧
      List.Forall₂ (TrackStep c.mCurrentFrame) c.mTracks olds ∧
      (∀ n ∈ news, n.startFrame = c.mCurrentFrame - 1 ∧ n.endFrame = -1 ∧ n.active = true ∧
        n.peaks.length = 2 ∧ c.mLastTrackId < n.trackId ∧ n.trackId ≤ c'.mLastTrackId) ∧
      (news.map (fun n => n.trackId)).Nodup) ∧
    PrevBinding c' := by
  have hprev := hs.prev rfl
  unfold PartialTracking.assignMunkres at h
  by_cases hempty : c.mPrevPeaks.isEmpty = true
  · simp only [hempty, if_true, Option.some.injEq] at h
    subst h
    have hidle := hprev.idle (List.isEmpty_iff.mp hempty)
    refine ⟨rfl, rfl, rfl, le_refl _, ⟨clearAssigned c.mTracks, [], by simp, ?_, by simp, by simp⟩, ?_⟩
    · unfold clearAssigned
      rw [List.forall₂_map_right_iff, List.forall₂_same]
      intro t ht
      exact ⟨rfl, rfl, Or.inl ⟨hidle t ht, hidle t ht, rfl, rfl⟩⟩
    · exact
        { distinct := fun i₁ i₂ k _ h1 _ => by
            have := List.getElem?_mem h1
            simp only [List.mem_replicate] at this
            omega
          active := fun i k h1 hk => by
            have := List.getElem?_mem h1
            simp only [List.mem_replicate] at this
            omega
          given := fun i k h1 => by
            have := List.getElem?_mem h1
            simp only [List.mem_replicate] at this
            have := hprev.lastId
            show k ≤ c.mLastTrackId
            omega
          idle := fun _ t ht => by
            simp only [clearAssigned, List.mem_map] at ht
            obtain ⟨t0, ht0, rfl⟩ := ht
            exact hidle t0 ht0
          lastId := hprev.lastId
          sameLength := by simp }
  · simp only [hempty, Bool.false_eq_true, if_false] at h
    have hstart := rowsInv_start c hprev.lastId sinePeaks
    -- the state of the loop when it ends
    obtain ⟨st, done, hinv, hlen, hzero, hc'⟩ : ∃ st done, RowsInv c done st ∧
        st.sinePeaks.length = sinePeaks.length ∧
        (sinePeaks = [] → st.tracks = clearAssigned c.mTracks) ∧
        c' = { c with
          mTracks := dyingTracks c.mCurrentFrame st.tracks
          mLastTrackId := st.lastTrackId
          mPrevTracks := st.trackAssignment
          mPrevPeaks := st.sinePeaks
          mPrevMaxAmp := maxAmp } := by
      by_cases hM : sinePeaks.length > 0
      · simp only [hM, if_true] at h
        cases hrows : munkresRows env c sinePeaks
            (env.munkres c.mPrevPeaks.length sinePeaks.length (costMatrix env c sinePeaks))
            (List.range c.mPrevPeaks.length)
            { tracks := clearAssigned c.mTracks, sinePeaks := sinePeaks,
              trackAssignment := List.replicate sinePeaks.length (-1),
              lastTrackId := c.mLastTrackId } with
        | none => simp [hrows] at h
        | some st =>
          simp only [hrows, Option.some.injEq] at h
          obtain ⟨done, hinv⟩ := rowsInv_rows env hs sinePeaks _ _ [] _ st
            (List.nodup_range _) (fun _ _ => List.not_mem_nil _) hstart hrows
          refine ⟨st, done, hinv, ?_, ?_, h.symm⟩
          · exact munkresRows_sinePeaks_length env c sinePeaks _ _ _ _ hrows
          · intro hnil
            rw [hnil] at hM
            simp at hM
      · simp only [hM, if_false, Option.some.injEq] at h
        exact ⟨_, [], hstart, rfl, fun _ => rfl, h.symm⟩
    subst hc'
    obtain ⟨olds, news, h1, h2, h3, h4⟩ := hinv.tracks
    have hnews : dyingTracks c.mCurrentFrame news = news := by
      unfold dyingTracks
      conv_rhs => rw [← List.map_id news]
      apply List.map_congr_left
      intro n hn
      simp [(h3 n hn).2.2.2.1]
    refine ⟨rfl, rfl, rfl, hinv.lastId,
      ⟨dyingTracks c.mCurrentFrame olds, news, ?_, ?_, ?_, h4⟩, ?_⟩
    · show dyingTracks c.mCurrentFrame st.tracks = _
      rw [h1]
      unfold dyingTracks at hnews ⊢
      rw [List.map_append, hnews]
    · unfold dyingTracks
      rw [List.forall₂_map_right_iff]
      refine List.Forall₂.imp ?_ h2
      intro t0 t hr
      obtain ⟨r1, r2, r3, r4, r5⟩ := hr
      rcases r5 with ⟨r5, r6⟩ | ⟨⟨peak, r5⟩, r6, r7, _⟩
      · by_cases hact : t.active = true
        · simp only [hact, r6, Bool.not_false, Bool.and_self, if_true]
          exact ⟨r1, r2, Or.inr (Or.inr ⟨by rw [← r4]; exact hact, rfl, rfl, r5⟩)⟩
        · have hact' : t.active = false := by simpa using hact
          simp only [hact', Bool.false_and, Bool.false_eq_true, if_false]
          exact ⟨r1, r2, Or.inl ⟨by rw [← r4]; exact hact', hact', r3, r5⟩⟩
      · simp only [r6, Bool.not_true, Bool.and_false, Bool.false_eq_true, if_false]
        exact ⟨r1, r2, Or.inr (Or.inl ⟨r7, by rw [r4]; exact r7, r3, peak, r5⟩)⟩
    · intro n hn
      obtain ⟨a, b, c1, _, e, f, g⟩ := h3 n hn
      exact ⟨a, b, c1, e, f, g⟩
    · exact
        { distinct := hinv.slotsDistinct
          active := fun i k hk hpos t' ht' hid => by
            simp only [dyingTracks, List.mem_map] at ht'
            obtain ⟨t, ht, rfl⟩ := ht'
            have hid' : t.trackId = k := by
              by_cases hc : (t.active && !t.assigned) = true
              · simp only [hc, if_true] at hid; exact hid
              · simp only [hc] at hid; exact hid
            obtain ⟨ha, hb⟩ := hinv.slotsActive i k hk hpos t ht hid'
            simp [ha, hb]
          given := hinv.slotsNonpos
          idle := fun hnil t' ht' => by
            have hsp : sinePeaks = [] := by
              apply List.eq_nil_of_length_eq_zero
              rw [← hlen]
              show st.sinePeaks.length = 0
              have : st.sinePeaks = [] := hnil
              rw [this]; rfl
            simp only [dyingTracks, hzero hsp, clearAssigned, List.map_map, List.mem_map,
              Function.comp] at ht'
            obtain ⟨t0, _, rfl⟩ := ht'
            by_cases hact : t0.active = true
            · simp [hact]
            · simp only [hact]
              simp
          lastId := by
            have := hprev.lastId
            have := hinv.lastId
            show 0 ≤ st.lastTrackId
            omega
          sameLength := hinv.lengths }

end MunkresFrame

section Runs

variable {R : Type} [NatCast R] [OfScientific R] [Add R] [Sub R] [Mul R] [Div R] [Neg R]
  [LT R] [DecidableRel (LT.lt : R → R → Prop)] [BEq R]

/-! ### Every state of a single-strategy run satisfies the invariant -/

theorem sound_configureArgs {greedy : Bool} {m : Int} (env : Env R) {s : PartialTracking R}
    (h : Sound greedy m s) (a : FrameArgs R) (ha : a.minTrackLength = m) :
    Sound greedy m (s.configureArgs env a) := by
  obtain ⟨hT, hC, hL, hM, hP, hPT, hI⟩ := configureArgs_fields env s a
  exact
    { initialized := by rw [hI]; exact h.initialized
      frame := by rw [hC]; exact h.frame
      minLen := fun _ => by rw [hM]; exact ha
      idsNodup := by rw [hT]; exact h.idsNodup
      idsGiven := fun t ht => by
        rw [hT] at ht
        have := h.idsGiven t ht
        simp only [nextTrackId, hL] at this ⊢
        exact this
      alive := fun t ht => h.alive t (hT ▸ ht)
      dead := fun t ht hd => by rw [hC]; exact h.dead t (hT ▸ ht) hd
      history := fun t ht => h.history t (hT ▸ ht)
      prev := fun hg =>
        { distinct := by rw [hPT]; exact (h.prev hg).distinct
          active := by rw [hPT, hT]; exact (h.prev hg).active
          given := by rw [hPT, hL]; exact (h.prev hg).given
          idle := by rw [hP, hT]; exact (h.prev hg).idle
          lastId := by rw [hL]; exact (h.prev hg).lastId
          sameLength := by rw [hPT, hP]; exact (h.prev hg).sameLength } }

/-- A call of `processFrame` with the solver-based strategy, in a state that
satisfies the invariant, meets `FrameSummary` and leaves a sound binding. -/
theorem frameSummary_munkres (env : Env R) (m : Int) (s s' : PartialTracking R) (a : FrameArgs R)
    (hs : Sound false m s) (hok : singleStrategy false m a)
    (h : s.processFrameArgs env a = some s') :
    FrameSummary false m s s' ∧ PrevBinding s' := by
  have hm : a.method ≠ 0 := fun h0 => by simpa using hok.1.mp h0
  rw [processFrameArgs_eq env s a hs.initialized, if_neg hm] at h
  cases hc : (s.configureArgs env a).assignMunkres env a.peaks a.maxAmp with
  | none => simp [hc] at h
  | some c' =>
    simp only [hc, Option.map_some', Option.some.injEq] at h
    subst h
    obtain ⟨hT, hC, hL, hM, hP, hPT, hI⟩ := configureArgs_fields env s a
    obtain ⟨c1, c2, c3, c4, ⟨olds, news, t1, t2, t3, t4⟩, c5⟩ :=
      assignMunkres_summary env m _ c' (sound_configureArgs env hs a hok.2) a.peaks a.maxAmp hc
    rw [hC] at c1 t2 t3
    rw [hM] at c2
    rw [hI] at c3
    rw [hL] at c4 t3
    rw [hT] at t2
    refine ⟨
      { frame := by simp [c1]
        minLen := by simp [c2, hok.2]
        initialized := by simp [c3, hs.initialized]
        nextId := by simp only [nextTrackId, Bool.false_eq_true, if_false]; omega
        tracks := ⟨olds, news, t1, t2, ?_, t4⟩ }, ?_⟩
    · intro n hn
      obtain ⟨n1, n2, n3, n4, n5, n6⟩ := t3 n hn
      refine ⟨by simp [birthFrame, n1], n2, n3, by simp [birthLength, n4], ?_, ?_⟩
      · simp only [nextTrackId, Bool.false_eq_true, if_false]; omega
      · simp only [nextTrackId, Bool.false_eq_true, if_false]; omega
    · exact
        { distinct := c5.distinct
          active := c5.active
          given := c5.given
          idle := c5.idle
          lastId := c5.lastId
          sameLength := c5.sameLength }

/-- A call of `processFrame` of a single-strategy run, in a state that
satisfies the invariant, meets `FrameSummary` and keeps the invariant. -/
theorem sound_step (env : Env R) (hsort : ∀ l, ∀ q ∈ env.sort l, q ∈ l) (greedy : Bool) (m : Int)
    (s s' : PartialTracking R) (a : FrameArgs R) (hs : Sound greedy m s)
    (hok : singleStrategy greedy m a) (h : s.processFrameArgs env a = some s') :
    FrameSummary greedy m s s' ∧ Sound greedy m s' := by
  cases greedy with
  | true =>
    have hf := frameSummary_greedy env hsort m s s' a hok h
    exact ⟨hf, sound_frame hs hf (fun hg => by simp at hg)⟩
  | false =>
    obtain ⟨hf, hp⟩ := frameSummary_munkres env m s s' a hs hok h
    exact ⟨hf, sound_frame hs hf (fun _ => hp)⟩

/-- Every state of a single-strategy run that starts from a state satisfying
the invariant satisfies it. -/
theorem sound_run (env : Env R) (hsort : ∀ l, ∀ q ∈ env.sort l, q ∈ l) (greedy : Bool) (m : Int)
    {s s' : PartialTracking R} (hrun : Run env (singleStrategy greedy m) s s')
    (hs : Sound greedy m s) : Sound greedy m s' := by
  induction hrun with
  | refl => exact hs
  | frame a _ hok hstep ih => exact (sound_step env hsort greedy m _ _ a ih hok hstep).2
  | prune _ ih => exact sound_prune ih

theorem run_trans (env : Env R) (ok : FrameArgs R → Prop) {s₁ s₂ s₃ : PartialTracking R}
    (h₁ : Run env ok s₁ s₂) (h₂ : Run env ok s₂ s₃) : Run env ok s₁ s₃ := by
  induction h₂ with
  | refl => exact h₁
  | frame a _ hok hstep ih => exact Run.frame a ih hok hstep
  | prune _ ih => exact Run.prune ih

/-- The frame counter never decreases along a run. -/
theorem run_frame_mono (env : Env R) (hsort : ∀ l, ∀ q ∈ env.sort l, q ∈ l) (greedy : Bool)
    (m : Int) {s s' : PartialTracking R} (hrun : Run env (singleStrategy greedy m) s s')
    (hs : Sound greedy m s) : s.mCurrentFrame ≤ s'.mCurrentFrame := by
  induction hrun with
  | refl => exact le_refl _
  | frame a hprev hok hstep ih =>
    have := (sound_step env hsort greedy m _ _ a (sound_run env hsort greedy m hprev hs) hok hstep).1.frame
    omega
  | prune _ ih => exact ih

/-- The counter of ids never decreases along a run. -/
theorem run_nextId_mono (env : Env R) (hsort : ∀ l, ∀ q ∈ env.sort l, q ∈ l) (greedy : Bool)
    (m : Int) {s s' : PartialTracking R} (hrun : Run env (singleStrategy greedy m) s s')
    (hs : Sound greedy m s) : nextTrackId greedy s ≤ nextTrackId greedy s' := by
  induction hrun with
  | refl => exact le_refl _
  | frame a hprev hok hstep ih =>
    have := (sound_step env hsort greedy m _ _ a (sound_run env hsort greedy m hprev hs) hok hstep).1.nextId
    omega
  | prune _ ih => exact ih

theorem staticCastInt_eq {x : Int} (h0 : 0 ≤ x) (h1 : x < 2147483648) : staticCastInt x = x := by
  unfold staticCastInt
  omega

/-- In a run of at most `2^31` frames (greedy strategy) or of any length
(solver-based strategy), the length of every history matches its frames. -/
theorem lengthInv_run (env : Env R) (hsort : ∀ l, ∀ q ∈ env.sort l, q ∈ l) (greedy : Bool)
    (m : Int) {s s' : PartialTracking R} (hrun : Run env (singleStrategy greedy m) s s')
    (hs : Sound greedy m s) (hl : LengthInv s)
    (hframes : greedy = true → s'.mCurrentFrame ≤ 2147483648) : LengthInv s' := by
  induction hrun with
  | refl => exact hl
  | frame a hprev hok hstep ih =>
    have hsound := sound_run env hsort greedy m hprev hs
    have hf := (sound_step env hsort greedy m _ _ a hsound hok hstep).1
    have hfr := hf.frame
    refine lengthInv_frame (ih (fun hg => by have := hframes hg; omega)) hf ?_
    cases greedy with
    | true =>
      have := hframes rfl
      have := hsound.frame
      simp only [birthLength, birthFrame, if_true]
      rw [staticCastInt_eq (by omega) (by omega)]
      simp
    | false =>
      simp only [birthLength, birthFrame, Bool.false_eq_true, if_false]
      push_cast
      omega
  | prune _ ih => exact lengthInv_prune (ih hframes)

theorem lengthInv_init (s0 : PartialTracking R) : LengthInv s0.init :=
  fun t ht => by simp [PartialTracking.init] at ht

end Runs

section Lineages

variable {R : Type} [NatCast R] [OfScientific R] [Add R] [Sub R] [Mul R] [Div R] [Neg R]
  [LT R] [DecidableRel (LT.lt : R → R → Prop)] [BEq R]

/-! ### Following a track along a run -/

theorem lineage_refl (f : Int) (t : SineTrack R) : Lineage f t t :=
  ⟨rfl, rfl, List.prefix_refl _, fun h => ⟨h, rfl, rfl⟩,
    fun h1 h2 => by rw [h1] at h2; exact absurd h2 (by simp), id⟩

/-- A track of a later state of a run either continues a track of the earlier
state or was born in between, with a fresh id and at a frame that is not
before the earlier state's. -/
theorem lineage_back (env : Env R) (hsort : ∀ l, ∀ q ∈ env.sort l, q ∈ l) (greedy : Bool)
    (m : Int) {s s' : PartialTracking R} (hrun : Run env (singleStrategy greedy m) s s')
    (hs : Sound greedy m s) :
    ∀ t' ∈ s'.mTracks, (∃ t ∈ s.mTracks, Lineage s.mCurrentFrame t t') ∨
      (nextTrackId greedy s ≤ t'.trackId ∧ ∃ f, s.mCurrentFrame ≤ f ∧ f < s'.mCurrentFrame ∧
        t'.startFrame = birthFrame greedy f) := by
  induction hrun with
  | refl => intro t' ht'; exact Or.inl ⟨t', ht', lineage_refl _ _⟩
  | frame a hprev hok hstep ih =>
    rename_i s₁ s₂
    have hsound := sound_run env hsort greedy m hprev hs
    have hf := (sound_step env hsort greedy m _ _ a hsound hok hstep).1
    have hmono := run_frame_mono env hsort greedy m hprev hs
    have hidmono := run_nextId_mono env hsort greedy m hprev hs
    have hfr := hf.frame
    obtain ⟨olds, news, htr, hold, hnew, _⟩ := hf.tracks
    intro t' ht'
    rw [htr] at ht'
    rcases List.mem_append.mp ht' with h1 | h1
    · obtain ⟨t₁, ht₁, hstep'⟩ := forall₂_mem_right hold t' h1
      obtain ⟨e1, e2, e3⟩ := hstep'
      rcases ih t₁ ht₁ with ⟨t, ht, l1, l2, l3, l4, l5, l6⟩ | ⟨hid, f, hf1, hf2, hf3⟩
      · refine Or.inl ⟨t, ht, by rw [e1, l1], by rw [e2, l2], ?_, ?_, ?_, ?_⟩
        · rcases e3 with ⟨_, _, _, c4⟩ | ⟨_, _, _, peak, c4⟩ | ⟨_, _, _, c4⟩
          · rw [c4]; exact l3
          · rw [c4]; exact l3.trans (List.prefix_append _ _)
          · rw [c4]; exact l3
        · intro hdead
          obtain ⟨d1, d2, d3⟩ := l4 hdead
          rcases e3 with ⟨_, c2, c3, c4⟩ | ⟨c1, _⟩ | ⟨c1, _⟩
          · exact ⟨c2, by rw [c3, d2], by rw [c4, d3]⟩
          · rw [d1] at c1; exact absurd c1 (by simp)
          · rw [d1] at c1; exact absurd c1 (by simp)
        · intro hact hdead'
          rcases e3 with ⟨c1, _, c3, _⟩ | ⟨_, c2, _⟩ | ⟨_, _, c3, _⟩
          · rw [c3]; exact l5 hact c1
          · rw [c2] at hdead'; exact absurd hdead' (by simp)
          · rw [c3]; exact hmono
        · intro hact'
          rcases e3 with ⟨_, c2, _⟩ | ⟨c1, _⟩ | ⟨_, c2, _⟩
          · rw [c2] at hact'; exact absurd hact' (by simp)
          · exact l6 c1
          · rw [c2] at hact'; exact absurd hact' (by simp)
      · exact Or.inr ⟨by rw [e1]; exact hid, f, hf1, by omega, by rw [e2]; exact hf3⟩
    · obtain ⟨n1, _, _, _, n5, _⟩ := hnew t' h1
      exact Or.inr ⟨by omega, s₁.mCurrentFrame, hmono, by omega, n1⟩
  | prune _ ih =>
    intro t' ht'
    exact ih t' (mem_prune ht').1

/-- A dead track stays in the collection, unchanged but for its scratch flag,
as long as its end frame is after `currentFrame − minTrackLength`. -/
theorem dead_track_persists (env : Env R) (hsort : ∀ l, ∀ q ∈ env.sort l, q ∈ l) (greedy : Bool)
    (m : Int) {s s' : PartialTracking R} (hrun : Run env (singleStrategy greedy m) s s')
    (hs : Sound greedy m s) (t : SineTrack R) (ht : t ∈ s.mTracks) (hdead : t.active = false)
    (hkeep : s'.mCurrentFrame - m < t.endFrame) :
    ∃ t' ∈ s'.mTracks, Lineage s.mCurrentFrame t t' := by
  induction hrun with
  | refl => exact ⟨t, ht, lineage_refl _ _⟩
  | frame a hprev hok hstep ih =>
    have hsound := sound_run env hsort greedy m hprev hs
    have hf := (sound_step env hsort greedy m _ _ a hsound hok hstep).1
    have hfr := hf.frame
    obtain ⟨t₁, ht₁, l1, l2, l3, l4, l5, l6⟩ := ih (by omega)
    obtain ⟨d1, d2, d3⟩ := l4 hdead
    obtain ⟨olds, news, htr, hold, _, _⟩ := hf.tracks
    obtain ⟨t', ht', e1, e2, e3⟩ := forall₂_mem_left hold t₁ ht₁
    refine ⟨t', by rw [htr]; exact List.mem_append_left _ ht', ?_⟩
    rcases e3 with ⟨_, c2, c3, c4⟩ | ⟨c1, _⟩ | ⟨c1, _⟩
    · refine ⟨by rw [e1, l1], by rw [e2, l2], by rw [c4]; exact l3,
        fun _ => ⟨c2, by rw [c3, d2], by rw [c4, d3]⟩,
        fun h => by rw [hdead] at h; exact absurd h (by simp),
        fun h => by rw [c2] at h; exact absurd h (by simp)⟩
    · rw [d1] at c1; exact absurd c1 (by simp)
    · rw [d1] at c1; exact absurd c1 (by simp)
  | prune hprev ih =>
    rename_i s₁
    have hsound := sound_run env hsort greedy m hprev hs
    obtain ⟨t₁, ht₁, hl⟩ := ih hkeep
    refine ⟨t₁, mem_prune_of ht₁ ?_, hl⟩
    have hmin := hsound.minLen (List.ne_nil_of_mem ht₁)
    obtain ⟨_, d2, _⟩ := hl.2.2.2.1 hdead
    have hk : s₁.prune.mCurrentFrame = s₁.mCurrentFrame := rfl
    rw [hk] at hkeep
    rw [hmin, d2]
    omega

/-! ### The claims about the latency of `getActivePeaks` -/

/-- In a state of a run that satisfies the invariants, a track that started by
frame `g = currentFrame − minTrackLength` and is alive, or died after `g`
having lived `minTrackLength` frames, is reported with its entry for `g`. -/
theorem surfaced_in_state {greedy : Bool} {m : Int} {sk : PartialTracking R}
    (hs : Sound greedy m sk) (hl : LengthInv sk) (hm : 1 ≤ m) (g : Int) (hg0 : 0 ≤ g)
    (hg : sk.mCurrentFrame = g + m) (tk : SineTrack R) (htk : tk ∈ sk.mTracks)
    (hstart : tk.startFrame ≤ g)
    (hlife : tk.active = true ∨ (g < tk.endFrame ∧ m ≤ tk.endFrame - tk.startFrame)) :
    ∃ out peak, sk.getActivePeaks = some out ∧ tk.peakAt g = some peak ∧ peak ∈ out ∧
      surfaced sk tk := by
  have hmin := hs.minLen (List.ne_nil_of_mem htk)
  have hL : sk.latencyFrame = g := by
    unfold PartialTracking.latencyFrame; rw [hmin]; omega
  have hidx : ∀ track ∈ sk.mTracks, surfaced sk track →
      ∃ peak, track.peakAt sk.latencyFrame = some peak := by
    intro track ht hsurf
    obtain ⟨s1, s2, s3⟩ := hsurf
    rw [hL] at s1 s2
    unfold SineTrack.endUnset at s2 s3
    obtain ⟨la, ld⟩ := hl track ht
    refine ⟨_, List.getElem?_eq_getElem ?_⟩
    rw [hL]
    by_cases hact : track.active = true
    · have := la hact
      omega
    · have hact' : track.active = false := by simpa using hact
      have := ld hact'
      have := hs.dead track ht hact'
      omega
  have hsurf : surfaced sk tk := by
    refine ⟨by rw [hL]; exact hstart, ?_, ?_⟩
    · rcases hlife with ha | ⟨h1, _⟩
      · left; unfold SineTrack.endUnset; rw [hs.alive tk htk ha]; omega
      · right; rw [hL]; exact h1
    · rcases hlife with ha | ⟨_, h2⟩
      · left; unfold SineTrack.endUnset; rw [hs.alive tk htk ha]; omega
      · right; rw [hmin]; exact h2
  obtain ⟨out, hout⟩ := getActivePeaks_isSome sk (by rw [hL]; exact hg0) hidx
  have hall := (getActivePeaks_iff sk (by rw [hL]; exact hg0) out).mp hout
  obtain ⟨peak, hpeak, hp⟩ := forall₂_mem_left hall tk
    (List.mem_filter.mpr ⟨htk, by simpa using hsurf⟩)
  rw [hL] at hp
  exact ⟨out, peak, hout, hp, hpeak, hsurf⟩

/-- Claim C2, amended. In a run after `init()` that uses a single strategy
throughout with a constant `minTrackLength = m`, where either the strategy is
the greedy one, `m ≥ 1` and the run has at most `2^31` frames, or the strategy
is the solver-based one and `m ≥ 2` (`std::sort` returning only pairings that
it was given, `prune()` called at arbitrary points): for every track `t` seen
in a state `sj` of the run and every frame `g ≥ 0` with `startFrame ≤ g`, if
`t` is still alive in `sj` and `sj` is not before the state `sk` whose frame
counter is `g + m`, or `t` is dead with `g < endFrame` and
`endFrame − startFrame ≥ m`, then `getActivePeaks()` in `sk` returns a
sequence that contains the peak that `t` recorded for frame `g`, reported for
the track of `sk` with the id of `t`. -/
theorem long_lived_track_surfaced_at_latency (env : Env R)
    (hsort : ∀ l, ∀ q ∈ env.sort l, q ∈ l) (greedy : Bool) (m : Int) (hm : 1 ≤ m)
    (hopt : greedy = false → 2 ≤ m) (s0 sk sj : PartialTracking R)
    (hk : Run env (singleStrategy greedy m) s0.init sk)
    (hj : Run env (singleStrategy greedy m) s0.init sj)
    (hframes : greedy = true →
      sk.mCurrentFrame ≤ 2147483648 ∧ sj.mCurrentFrame ≤ 2147483648)
    (t : SineTrack R) (ht : t ∈ sj.mTracks)
    (hord : Run env (singleStrategy greedy m) sk sj ∨
      (Run env (singleStrategy greedy m) sj sk ∧ ¬ t.endUnset))
    (g : Int) (hg0 : 0 ≤ g) (hg : sk.mCurrentFrame = g + m) (hstart : t.startFrame ≤ g)
    (hlife : t.endUnset ∨ (g < t.endFrame ∧ m ≤ t.endFrame - t.startFrame)) :
    ∃ out peak, sk.getActivePeaks = some out ∧ t.peakAt g = some peak ∧ peak ∈ out ∧
      ∃ tk ∈ sk.mTracks, tk.trackId = t.trackId ∧ surfaced sk tk ∧ tk.peakAt g = some peak := by
  have hsk := sound_run env hsort greedy m hk (sound_init greedy m s0)
  have hsj := sound_run env hsort greedy m hj (sound_init greedy m s0)
  have hlk := lengthInv_run env hsort greedy m hk (sound_init greedy m s0) (lengthInv_init s0)
    (fun hgr => (hframes hgr).1)
  -- the track of `sk` that `t` continues or is
  obtain ⟨tk, htk, hlin⟩ : ∃ tk ∈ sk.mTracks, Lineage sk.mCurrentFrame tk t ∨
      (t.active = false ∧ Lineage sj.mCurrentFrame t tk) := by
    rcases hord with hrun | ⟨hrun, hdead⟩
    · rcases lineage_back env hsort greedy m hrun hsk t ht with ⟨tk, htk, hl⟩ | ⟨_, f, hf1, hf2, hf3⟩
      · exact ⟨tk, htk, Or.inl hl⟩
      · exfalso
        cases greedy with
        | true =>
          have := (hframes rfl).2
          have := hsk.frame
          simp only [birthFrame, if_true] at hf3
          rw [staticCastInt_eq (by omega) (by omega)] at hf3
          omega
        | false =>
          have := hopt rfl
          simp only [birthFrame, Bool.false_eq_true, if_false] at hf3
          omega
    · have hinact : t.active = false := by
        by_contra hc
        have := hsj.alive t ht (by simpa using hc)
        unfold SineTrack.endUnset at hdead
        omega
      have hend : g < t.endFrame := by
        rcases hlife with h1 | ⟨h1, _⟩
        · exact absurd h1 hdead
        · exact h1
      obtain ⟨tk, htk, hl⟩ := dead_track_persists env hsort greedy m hrun hsj t ht hinact
        (by omega)
      exact ⟨tk, htk, Or.inr ⟨hinact, hl⟩⟩
  -- its frames and its history, compared with those of `t`
  have hfacts : tk.trackId = t.trackId ∧ tk.startFrame = t.startFrame ∧
      tk.peaks <+: t.peaks ∧
      (tk.active = true ∨ (g < tk.endFrame ∧ m ≤ tk.endFrame - tk.startFrame)) := by
    rcases hlin with ⟨l1, l2, l3, l4, _, _⟩ | ⟨hinact, l1, l2, l3, l4, _, _⟩
    · refine ⟨l1.symm, l2.symm, l3, ?_⟩
      by_cases hact : tk.active = true
      · exact Or.inl hact
      · obtain ⟨d1, d2, d3⟩ := l4 (by simpa using hact)
        have := (hsj.dead t ht d1).1
        rcases hlife with h1 | ⟨h1, h2⟩
        · unfold SineTrack.endUnset at h1; omega
        · exact Or.inr ⟨by rw [← d2]; exact h1, by rw [← d2, ← l2]; exact h2⟩
    · obtain ⟨d1, d2, d3⟩ := l4 hinact
      have := (hsj.dead t ht hinact).1
      refine ⟨l1, l2, by rw [d3], ?_⟩
      rcases hlife with h1 | ⟨h1, h2⟩
      · unfold SineTrack.endUnset at h1; omega
      · exact Or.inr ⟨by rw [d2]; exact h1, by rw [d2, l2]; exact h2⟩
  obtain ⟨f1, f2, f3, f4⟩ := hfacts
  obtain ⟨out, peak, hout, hpk, hmem, hsurf⟩ :=
    surfaced_in_state hsk hlk hm g hg0 hg tk htk (by rw [f2]; exact hstart) f4
  refine ⟨out, peak, hout, ?_, hmem, tk, htk, f1, hsurf, hpk⟩
  obtain ⟨r, hr⟩ := f3
  unfold SineTrack.peakAt at hpk ⊢
  rw [← hr, ← f2]
  have hlt : (g - tk.startFrame).toNat < tk.peaks.length := (List.getElem?_eq_some.mp hpk).1
  rw [List.getElem?_append_left hlt]
  exact hpk

/-- Claim C3. In a run after `init()` that uses a single strategy throughout with
a constant `minTrackLength = m` (any `m`, so also every `m ≥ 1`; `std::sort`
returning only pairings that it was given, `prune()` called at arbitrary
points), a track `t` that is seen
dead in a state `sj` of the run with `endFrame − startFrame < m` is reported by
`getActivePeaks()` in no state `sk` of the run, before or after `sj`: no track
of `sk` with the id of `t` satisfies the conditions under which a track
contributes a peak. -/
theorem short_lived_track_never_surfaced (env : Env R)
    (hsort : ∀ l, ∀ q ∈ env.sort l, q ∈ l) (greedy : Bool) (m : Int)
    (s0 sk sj : PartialTracking R)
    (hk : Run env (singleStrategy greedy m) s0.init sk)
    (hj : Run env (singleStrategy greedy m) s0.init sj)
    (hord : Run env (singleStrategy greedy m) sk sj ∨ Run env (singleStrategy greedy m) sj sk)
    (t : SineTrack R) (ht : t ∈ sj.mTracks) (hdead : ¬ t.endUnset)
    (hshort : t.endFrame - t.startFrame < m) :
    ∀ tk ∈ sk.mTracks, tk.trackId = t.trackId → ¬ surfaced sk tk := by
  have hsk := sound_run env hsort greedy m hk (sound_init greedy m s0)
  have hsj := sound_run env hsort greedy m hj (sound_init greedy m s0)
  unfold SineTrack.endUnset at hdead
  have hinact : t.active = false := by
    by_contra hc
    have := hsj.alive t ht (by simpa using hc)
    omega
  intro tk htk hid hsurf
  have hmin := hsk.minLen (List.ne_nil_of_mem htk)
  obtain ⟨s1, s2, s3⟩ := hsurf
  unfold SineTrack.endUnset PartialTracking.latencyFrame at *
  rw [hmin] at s1 s2 s3
  rcases hord with hrun | hrun
  · rcases lineage_back env hsort greedy m hrun hsk t ht with ⟨t₀, ht₀, l1, l2, l3, l4, l5, l6⟩ |
      ⟨hfresh, _⟩
    · have heq : t₀ = tk := List.inj_on_of_nodup_map hsk.idsNodup ht₀ htk (by rw [← l1, hid])
      subst heq
      by_cases hact : t₀.active = true
      · have := l5 hact hinact
        omega
      · obtain ⟨_, d2, _⟩ := l4 (by simpa using hact)
        omega
    · have := hsk.idsGiven tk htk
      omega
  · rcases lineage_back env hsort greedy m hrun hsj tk htk with ⟨t₀, ht₀, l1, l2, l3, l4, l5, l6⟩ |
      ⟨hfresh, _⟩
    · have heq : t₀ = t := List.inj_on_of_nodup_map hsj.idsNodup ht₀ ht (by rw [← l1, hid])
      subst heq
      obtain ⟨_, d2, _⟩ := l4 hinact
      omega
    · have := hsj.idsGiven t ht
      omega

end Lineages

section Pruning

variable {R : Type}

/-! ### `prune` -/

/-- The predicate of `prune()` in the words of the specification: the track is
dead (its end frame is set) and at least `minTrackLength` frames lie between
its end frame and the current frame. -/
theorem pruneTest_iff (s : PartialTracking R) (track : SineTrack R) :
    pruneTest s track = true ↔
      0 ≤ track.endFrame ∧ s.mCurrentFrame - track.endFrame ≥ s.mMinTrackLength := by
  unfold pruneTest
  simp only [Bool.and_eq_true, decide_eq_true_eq]
  omega

/-- Claim C14. Calling `prune()` twice in a row gives the state that one call
gives: the same tracks, in the same order, with the same contents, and the
same values of the other members. -/
theorem prune_idempotent (s : PartialTracking R) :
    s.prune.prune.mTracks = s.prune.mTracks ∧ s.prune.prune = s.prune := by
  have h : s.prune.prune = s.prune := by
    apply PartialTracking.ext <;> try rfl
    show (s.mTracks.filter (fun track => !pruneTest s track)).filter
        (fun track => !pruneTest s.prune track) = s.mTracks.filter (fun track => !pruneTest s track)
    rw [List.filter_filter]
    apply List.filter_congr
    intro t _
    show (!pruneTest s t && !pruneTest s t) = !pruneTest s t
    simp
  exact ⟨congrArg PartialTracking.mTracks h, h⟩

/-- Claim C15, amended. The call `prune()` removes exactly the tracks that are dead
(end frame set) with `currentFrame − endFrame ≥ minTrackLength`: the tracks
that remain are the other tracks, in their order and unmodified, and no other
member of the state changes. -/
theorem prune_removes_tracks_dead_for_latency (s : PartialTracking R) :
    s.prune.mTracks = s.mTracks.filter (fun track =>
      !decide (0 ≤ track.endFrame ∧ s.mCurrentFrame - track.endFrame ≥ s.mMinTrackLength)) ∧
    List.Sublist s.prune.mTracks s.mTracks ∧
    (∀ track ∈ s.mTracks, track ∈ s.prune.mTracks ↔
      ¬ (0 ≤ track.endFrame ∧ s.mCurrentFrame - track.endFrame ≥ s.mMinTrackLength)) ∧
    s.prune = { s with mTracks := s.prune.mTracks } := by
  have h1 : s.prune.mTracks = s.mTracks.filter (fun track =>
      !decide (0 ≤ track.endFrame ∧ s.mCurrentFrame - track.endFrame ≥ s.mMinTrackLength)) := by
    show s.mTracks.filter (fun track => !pruneTest s track) = _
    apply List.filter_congr
    intro t _
    rw [Bool.eq_iff_iff]
    simp only [Bool.not_eq_true', ← Bool.not_eq_true, pruneTest_iff, decide_eq_true_eq]
  refine ⟨h1, ?_, ?_, rfl⟩
  · rw [h1]; exact List.filter_sublist _
  · intro t ht
    rw [h1, List.mem_filter]
    simp only [Bool.not_eq_true', decide_eq_false_iff_not, ht, true_and]

/-- The loop of `getActivePeaks()` skips the tracks that `prune()` removes. -/
theorem getActivePeaksLoop_prune (s : PartialTracking R) (tracks : List (SineTrack R)) :
    ∀ acc : List (SinePeak R),
      getActivePeaksLoop (s.mCurrentFrame - s.mMinTrackLength) s.mMinTrackLength
          (tracks.filter (fun track => !pruneTest s track)) acc =
        getActivePeaksLoop (s.mCurrentFrame - s.mMinTrackLength) s.mMinTrackLength tracks acc := by
  induction tracks with
  | nil => intro acc; rfl
  | cons t tl ih =>
    intro acc
    by_cases hp : pruneTest s t = true
    · rw [List.filter_cons_of_neg (by simp [hp]), ih]
      have hp' := hp
      unfold pruneTest at hp'
      simp only [Bool.and_eq_true, decide_eq_true_eq] at hp'
      rw [getActivePeaksLoop]
      by_cases c1 : t.startFrame > s.mCurrentFrame - s.mMinTrackLength
      · rw [if_pos c1]
      · rw [if_neg c1, if_pos hp']
    · rw [List.filter_cons_of_pos (by simpa using hp)]
      rw [getActivePeaksLoop, getActivePeaksLoop]
      split_ifs with c1 c2 c3
      · exact ih acc
      · exact ih acc
      · exact ih acc
      · cases t.peaks[(s.mCurrentFrame - s.mMinTrackLength - t.startFrame).toNat]? with
        | none => rfl
        | some peak => exact ih _

/-- Claim C16. In every state, a track that `prune()` removes is one that
`getActivePeaks()` skips: it fails the conditions of `surfaced`, by the second
`continue` test of the loop (`endFrame >= 0 && endFrame <= latencyFrame`); and
`getActivePeaks()` gives the same result in the pruned state as in the state
itself. -/
theorem prune_unobserved (s : PartialTracking R) :
    (∀ track ∈ s.mTracks, track ∉ s.prune.mTracks →
      ¬ surfaced s track ∧
      track.endFrame ≥ 0 ∧ track.endFrame ≤ s.mCurrentFrame - s.mMinTrackLength) ∧
    s.prune.getActivePeaks = s.getActivePeaks := by
  constructor
  · intro t ht hnot
    have hp : pruneTest s t = true := by
      by_contra hp
      exact hnot (List.mem_filter.mpr ⟨ht, by simpa using hp⟩)
    unfold pruneTest at hp
    simp only [Bool.and_eq_true, decide_eq_true_eq] at hp
    refine ⟨?_, hp.1, hp.2⟩
    rintro ⟨_, h2, _⟩
    unfold SineTrack.endUnset PartialTracking.latencyFrame at h2
    omega
  · unfold PartialTracking.getActivePeaks
    show (if s.mCurrentFrame - s.mMinTrackLength < 0 then some []
      else getActivePeaksLoop (s.mCurrentFrame - s.mMinTrackLength) s.mMinTrackLength
        (s.mTracks.filter (fun track => !pruneTest s track)) []) = _
    rw [getActivePeaksLoop_prune]

end Pruning

section Tolerances

variable {R : Type} [NatCast R] [OfScientific R] [Add R] [Sub R] [Mul R] [Div R] [Neg R]
  [LT R] [DecidableRel (LT.lt : R → R → Prop)] [BEq R]

/-! ### The tolerance parameters and the variances -/

/-- What the first statements of `processFrame` do to the tolerance state: the
three parameters are stored as passed; the variances are recomputed from them
when one of the three differs from the stored value and are left as they are
otherwise. -/
theorem configure_tolerances [LawfulBEq R] (env : Env R) (s : PartialTracking R)
    (minTrackLength : Int) (bl bh zA zF d : R) :
    (s.configure env minTrackLength bl bh zA zF d).mZetaA = zA ∧
    (s.configure env minTrackLength bl bh zA zF d).mZetaF = zF ∧
    (s.configure env minTrackLength bl bh zA zF d).mDelta = d ∧
    ((zA ≠ s.mZetaA ∨ zF ≠ s.mZetaF ∨ d ≠ s.mDelta) →
      (s.configure env minTrackLength bl bh zA zF d).mVarA = closedFormVariance env zA d ∧
      (s.configure env minTrackLength bl bh zA zF d).mVarF = closedFormVariance env zF d) ∧
    ((zA = s.mZetaA ∧ zF = s.mZetaF ∧ d = s.mDelta) →
      (s.configure env minTrackLength bl bh zA zF d).mVarA = s.mVarA ∧
      (s.configure env minTrackLength bl bh zA zF d).mVarF = s.mVarF) := by
  simp only [PartialTracking.configure]
  split
  · rename_i hc
    simp only [Bool.or_eq_true, bne_iff_ne, ne_eq] at hc
    refine ⟨rfl, rfl, rfl, fun _ => ⟨rfl, rfl⟩, ?_⟩
    rintro ⟨h1, h2, h3⟩
    rcases hc with (hc | hc) | hc
    · exact absurd h1 hc
    · exact absurd h2 hc
    · exact absurd h3 hc
  · rename_i hc
    simp only [Bool.or_eq_true, bne_iff_ne, ne_eq, not_or, not_not] at hc
    obtain ⟨⟨h1, h2⟩, h3⟩ := hc
    refine ⟨h1.symm, h2.symm, h3.symm, ?_, fun _ => ⟨rfl, rfl⟩⟩
    rintro (hc | hc | hc)
    · exact absurd h1 hc
    · exact absurd h2 hc
    · exact absurd h3 hc

/-- Neither strategy changes the tolerance state or the birth thresholds: after
a call of `processFrame` they are as the first statements of the call left
them. -/
theorem processFrameArgs_tolerances (env : Env R) (s s' : PartialTracking R) (a : FrameArgs R)
    (h : s.processFrameArgs env a = some s') :
    s'.mZetaA = (s.configureArgs env a).mZetaA ∧ s'.mZetaF = (s.configureArgs env a).mZetaF ∧
    s'.mDelta = (s.configureArgs env a).mDelta ∧ s'.mVarA = (s.configureArgs env a).mVarA ∧
    s'.mVarF = (s.configureArgs env a).mVarF := by
  by_cases hinit : s.mInitialized = true
  · rw [processFrameArgs_eq env s a hinit] at h
    by_cases hm : a.method = 0
    · simp only [hm, if_true, Option.map_eq_some'] at h
      obtain ⟨s3, hg, rfl⟩ := h
      obtain ⟨_, _, rfl⟩ := assignGreedy_some env _ s3 a.peaks a.maxAmp hg
      exact ⟨rfl, rfl, rfl, rfl, rfl⟩
    · simp only [hm, if_false, Option.map_eq_some'] at h
      obtain ⟨s3, hg, rfl⟩ := h
      unfold PartialTracking.assignMunkres at hg
      by_cases hempty : (s.configureArgs env a).mPrevPeaks.isEmpty = true
      · simp only [hempty, if_true, Option.some.injEq] at hg
        subst hg
        exact ⟨rfl, rfl, rfl, rfl, rfl⟩
      · simp only [hempty, Bool.false_eq_true, if_false] at hg
        split at hg
        · cases hg
        · cases hg
          exact ⟨rfl, rfl, rfl, rfl, rfl⟩
  · simp [PartialTracking.processFrameArgs, PartialTracking.processFrame, hinit] at h

/-- Claim C18, amended. A call of `processFrame` does not examine the tolerance
parameters: whatever `zetaA`, `zetaF` and `delta` are (degenerate or not), a
greedy call after `init()` returns a state, and in the state that a call
returns the three parameters are stored as passed, the variances being
recomputed from them by the closed form when one of the three differs from the
stored value and left as they were otherwise. -/
theorem processFrame_stores_tolerances_unexamined [LawfulBEq R] (env : Env R)
    (s : PartialTracking R) (a : FrameArgs R) (hinit : s.mInitialized = true) :
    (a.method = 0 → (∀ t ∈ s.mTracks, t.active = true → t.peaks ≠ []) →
      ∃ s', s.processFrameArgs env a = some s') ∧
    ∀ s', s.processFrameArgs env a = some s' →
      s'.mZetaA = a.zetaA ∧ s'.mZetaF = a.zetaF ∧ s'.mDelta = a.delta ∧
      ((a.zetaA ≠ s.mZetaA ∨ a.zetaF ≠ s.mZetaF ∨ a.delta ≠ s.mDelta) →
        s'.mVarA = closedFormVariance env a.zetaA a.delta ∧
        s'.mVarF = closedFormVariance env a.zetaF a.delta) ∧
      ((a.zetaA = s.mZetaA ∧ a.zetaF = s.mZetaF ∧ a.delta = s.mDelta) →
        s'.mVarA = s.mVarA ∧ s'.mVarF = s.mVarF) := by
  refine ⟨fun hm hhist => processFrameArgs_greedy_isSome env s a hm hinit hhist, ?_⟩
  intro s' h
  obtain ⟨e1, e2, e3, e4, e5⟩ := processFrameArgs_tolerances env s s' a h
  obtain ⟨c1, c2, c3, c4, c5⟩ := configure_tolerances env s a.minTrackLength a.birthLowThreshold
    a.birthHighThreshold a.zetaA a.zetaF a.delta
  rw [e1, e2, e3, e4, e5]
  exact ⟨c1, c2, c3, c4, c5⟩

/-- The memoisation is transparent in a state whose variances are the closed
form of the stored parameters: the variances with which the strategy of the
next call runs are the closed form of the parameters passed to that call, and
the state that the call returns has the property again. -/
theorem variancesCurrent_frame [LawfulBEq R] (env : Env R) (s : PartialTracking R)
    (a : FrameArgs R) (hcur : VariancesCurrent env s) :
    (s.configureArgs env a).mVarA = closedFormVariance env a.zetaA a.delta ∧
    (s.configureArgs env a).mVarF = closedFormVariance env a.zetaF a.delta ∧
    ∀ s', s.processFrameArgs env a = some s' → VariancesCurrent env s' := by
  obtain ⟨c1, c2, c3, c4, c5⟩ := configure_tolerances env s a.minTrackLength a.birthLowThreshold
    a.birthHighThreshold a.zetaA a.zetaF a.delta
  have key : (s.configureArgs env a).mVarA = closedFormVariance env a.zetaA a.delta ∧
      (s.configureArgs env a).mVarF = closedFormVariance env a.zetaF a.delta := by
    by_cases hsame : a.zetaA = s.mZetaA ∧ a.zetaF = s.mZetaF ∧ a.delta = s.mDelta
    · obtain ⟨v1, v2⟩ := c5 hsame
      obtain ⟨h1, h2, h3⟩ := hsame
      unfold PartialTracking.configureArgs
      rw [v1, v2, h1, h2, h3]
      exact hcur
    · apply c4
      by_contra hne
      apply hsame
      simp only [not_or, not_not] at hne
      exact hne
  refine ⟨key.1, key.2, ?_⟩
  intro s' h
  obtain ⟨e1, e2, e3, e4, e5⟩ := processFrameArgs_tolerances env s s' a h
  unfold VariancesCurrent
  rw [e1, e2, e3, e4, e5]
  unfold PartialTracking.configureArgs
  rw [c1, c2, c3]
  exact key

/-- The call `prune()` leaves the tolerance state alone. -/
theorem variancesCurrent_prune (env : Env R) (s : PartialTracking R)
    (hcur : VariancesCurrent env s) : VariancesCurrent env s.prune := hcur

end Tolerances

section GreedyRuns

variable {R : Type} [NatCast R] [OfScientific R] [Add R] [Sub R] [Mul R] [Div R] [Neg R]
  [LT R] [DecidableRel (LT.lt : R → R → Prop)] [BEq R]

/-! ### Greedy runs return -/

/-- A greedy call in a state of a greedy run returns a state, which satisfies
the invariant of the run. -/
theorem greedy_step_isSome (env : Env R) (hsort : ∀ l, ∀ q ∈ env.sort l, q ∈ l) (m : Int)
    (s : PartialTracking R) (a : FrameArgs R) (hs : Sound true m s)
    (hok : singleStrategy true m a) :
    ∃ s', s.processFrameArgs env a = some s' ∧ Sound true m s' := by
  obtain ⟨s', h⟩ := processFrameArgs_greedy_isSome env s a (hok.1.mpr rfl) hs.initialized
    (fun t ht _ => hs.history t ht)
  exact ⟨s', h, (sound_step env hsort true m s s' a hs hok h).2⟩

/-- A sequence of greedy calls in a state of a greedy run returns a state. -/
theorem greedy_runFrames_isSome (env : Env R) (hsort : ∀ l, ∀ q ∈ env.sort l, q ∈ l) (m : Int) :
    ∀ (frames : List (FrameArgs R)) (s : PartialTracking R), Sound true m s →
      (∀ a ∈ frames, singleStrategy true m a) →
      ∃ s', s.runFrames env frames = some s' ∧ Sound true m s' := by
  intro frames
  induction frames with
  | nil => intro s hs _; exact ⟨s, rfl, hs⟩
  | cons a rest ih =>
    intro s hs hok
    obtain ⟨s1, h1, hs1⟩ := greedy_step_isSome env hsort m s a hs (hok a (List.mem_cons_self _ _))
    obtain ⟨s', h', hs'⟩ := ih s1 hs1 (fun b hb => hok b (List.mem_cons_of_mem _ hb))
    exact ⟨s', by simp only [PartialTracking.runFrames, h1, h'], hs'⟩

end GreedyRuns

section EmptyFrames

variable {R : Type} [NatCast R] [OfScientific R] [Add R] [Sub R] [Mul R] [Div R] [Neg R]
  [LT R] [DecidableRel (LT.lt : R → R → Prop)] [BEq R]

/-! ### Frames without peaks -/

theorem trackDistances_no_peaks (env : Env R) (s : PartialTracking R) :
    ∀ (tracks : List (SineTrack R)) (i : Nat), trackDistances env s [] i tracks = some [] := by
  intro tracks
  induction tracks with
  | nil => intro i; rfl
  | cons t tl ih =>
    intro i
    rw [trackDistances]
    split
    · simp [peakDistances, ih]
    · exact ih _

/-- The loop headed `// diying tracks` run on a collection whose scratch flags
are clear: every active track dies at the current frame, and nothing else
changes but the scratch flags. -/
theorem dyingTracks_clearAssigned_getElem? (f : Int) (tracks : List (SineTrack R)) (i : Nat)
    (t : SineTrack R) (h : tracks[i]? = some t) :
    ∃ t', (dyingTracks f (clearAssigned tracks))[i]? = some t' ∧ t'.trackId = t.trackId ∧
      t'.peaks = t.peaks ∧ t'.startFrame = t.startFrame ∧ t'.active = false ∧
      (t.active = true → t'.endFrame = f) ∧ (t.active = false → t'.endFrame = t.endFrame) := by
  unfold dyingTracks clearAssigned
  simp only [List.getElem?_map, h, Option.map_some', Bool.not_false, Bool.and_true]
  cases hact : t.active with
  | true => exact ⟨_, rfl, by simp, by simp, by simp, by simp, fun _ => by simp, fun h => by simp at h⟩
  | false =>
    exact ⟨_, rfl, by simp, by simp, by simp, by simp [hact], fun h => by simp at h,
      fun _ => by simp⟩

/-- A call of `processFrame` with an empty peak list, by the greedy strategy, or
by the solver-based strategy when the previous frame had peaks or no track is
active: the call returns, the collection has the tracks it had, and every
track that was active is dead with `endFrame` the index of the frame. -/
theorem empty_frame_tracks (env : Env R) (hsort : ∀ l, ∀ q ∈ env.sort l, q ∈ l)
    (s : PartialTracking R) (a : FrameArgs R) (hinit : s.mInitialized = true)
    (hpeaks : a.peaks = [])
    (hpath : a.method = 0 ∨ s.mPrevPeaks ≠ [] ∨ ∀ t ∈ s.mTracks, t.active = false) :
    ∃ s', s.processFrameArgs env a = some s' ∧
      s'.mTracks = dyingTracks s.mCurrentFrame (clearAssigned s.mTracks) := by
  obtain ⟨hT, hC, hL, hM, hP, hPT, hI⟩ := configureArgs_fields env s a
  rw [processFrameArgs_eq env s a hinit, hpeaks]
  by_cases hm : a.method = 0
  · have hnil : env.sort [] = [] := List.eq_nil_iff_forall_not_mem.mpr
      (fun q hq => List.not_mem_nil q (hsort [] q hq))
    simp only [hm, if_true, PartialTracking.assignGreedy, trackDistances_no_peaks, hnil,
      List.foldl_nil, Option.map_some', hT, hC]
    exact ⟨_, rfl, rfl⟩
  · simp only [hm, if_false, PartialTracking.assignMunkres, hP, hT, hC]
    by_cases hempty : s.mPrevPeaks.isEmpty = true
    · simp only [hempty, if_true, Option.map_some']
      refine ⟨_, rfl, ?_⟩
      rcases hpath with h | h | h
      · exact absurd h hm
      · exact absurd (List.isEmpty_iff.mp hempty) h
      · show clearAssigned s.mTracks = dyingTracks s.mCurrentFrame (clearAssigned s.mTracks)
        unfold dyingTracks clearAssigned
        rw [List.map_map]
        apply List.map_congr_left
        intro t ht
        simp [h t ht]
    · simp only [hempty, Bool.false_eq_true, if_false, List.length_nil, gt_iff_lt, lt_self_iff_false,
        Option.map_some']
      exact ⟨_, rfl, rfl⟩

/-- In a run that uses a single strategy throughout, a call of `processFrame` with
an empty peak list returns, creates no track, and leaves every track that was
active dead with `endFrame` the index of the frame. -/
theorem empty_frame_single_strategy (env : Env R) (hsort : ∀ l, ∀ q ∈ env.sort l, q ∈ l)
    (greedy : Bool) (m : Int) (s : PartialTracking R) (a : FrameArgs R) (hs : Sound greedy m s)
    (hok : singleStrategy greedy m a) (hpeaks : a.peaks = []) :
    ∃ s', s.processFrameArgs env a = some s' ∧ s'.mTracks.length = s.mTracks.length ∧
      ∀ (i : Nat) (t : SineTrack R), s.mTracks[i]? = some t →
        ∃ t', s'.mTracks[i]? = some t' ∧ t'.trackId = t.trackId ∧ t'.peaks = t.peaks ∧
          t'.startFrame = t.startFrame ∧ t'.active = false ∧
          (t.active = true → t'.endFrame = s.mCurrentFrame) ∧
          (t.active = false → t'.endFrame = t.endFrame) := by
  have hpath : a.method = 0 ∨ s.mPrevPeaks ≠ [] ∨ ∀ t ∈ s.mTracks, t.active = false := by
    cases greedy with
    | true => exact Or.inl (hok.1.mpr rfl)
    | false =>
      by_cases hp : s.mPrevPeaks = []
      · exact Or.inr (Or.inr ((hs.prev rfl).idle hp))
      · exact Or.inr (Or.inl hp)
  obtain ⟨s', h, hT⟩ := empty_frame_tracks env hsort s a hs.initialized hpeaks hpath
  refine ⟨s', h, ?_, ?_⟩
  · rw [hT]; simp [dyingTracks, clearAssigned]
  · intro i t hi
    rw [hT]
    exact dyingTracks_clearAssigned_getElem? s.mCurrentFrame s.mTracks i t hi

end EmptyFrames

section MunkresBirths

variable {R : Type} [NatCast R] [OfScientific R] [Add R] [Sub R] [Mul R] [Div R] [Neg R]
  [LT R] [DecidableRel (LT.lt : R → R → Prop)] [BEq R]

/-! ### The births of a frame of the solver-based strategy -/

theorem filter_append_singleton_neg {α : Type} (test : α → Bool) (l : List α) (x : α)
    (h : test x = false) : (l ++ [x]).filter test = l.filter test := by
  rw [List.filter_append, List.filter_cons_of_neg (by simp [h])]
  simp

theorem filter_append_singleton_pos {α : Type} (test : α → Bool) (l : List α) (x : α)
    (h : test x = true) : (l ++ [x]).filter test = l.filter test ++ [x] := by
  rw [List.filter_append, List.filter_cons_of_pos h]
  simp

/-- A row that leaves the state of the loop as it is and does not meet the
condition of a birth keeps the invariant. -/
theorem pairInv_skip {env : Env R} {s : PartialTracking R} {sinePeaks : List (SinePeak R)}
    {assignment : Nat → Int} {done : List Nat} {st : MunkresLoop R}
    (h : PairInv env s sinePeaks assignment done st) (i : Nat)
    (htest : pairBirthTest env s sinePeaks assignment i = false) :
    PairInv env s sinePeaks assignment (done ++ [i]) st where
  tracks := by
    rw [filter_append_singleton_neg _ _ _ htest]
    exact h.tracks
  lastId := h.lastId
  peaksLength := h.peaksLength
  peaks := fun p q hq => by
    obtain ⟨peak, h1, h2, h3, h4⟩ := h.peaks p q hq
    exact ⟨peak, h1, h2, h3, fun hj => h4 (fun j hjd => hj j (List.mem_append_left _ hjd))⟩
  slotsLength := h.slotsLength
  slots := h.slots
  flags := h.flags

/-- Binding the column `p = assignment i` to a track: the flag of the peak at
`p` is set and the slot `p` of `trackAssignment` receives the id `v > 0`. -/
theorem pairInv_bind_column {env : Env R} {s : PartialTracking R} {sinePeaks : List (SinePeak R)}
    {assignment : Nat → Int} {done : List Nat} {st : MunkresLoop R}
    (h : PairInv env s sinePeaks assignment done st) (i : Nat) (q : SinePeak R)
    (hq : st.sinePeaks[(assignment i).toNat]? = some q) (v newLast : Int) (hv : 0 < v)
    (hvl : v ≤ newLast) (hl : st.lastTrackId ≤ newLast) :
    (∀ (p : Nat) (q' : SinePeak R),
      (st.sinePeaks.set (assignment i).toNat { q with assigned := true })[p]? = some q' →
      ∃ peak, sinePeaks[p]? = some peak ∧ q'.freq = peak.freq ∧ q'.logMag = peak.logMag ∧
        ((∀ j ∈ done ++ [i], (assignment j).toNat ≠ p) → q' = peak)) ∧
    (∀ (p : Nat) (v' : Int), (st.trackAssignment.set (assignment i).toNat v)[p]? = some v' →
      v' ≤ newLast) ∧
    ((∀ peak ∈ sinePeaks, peak.assigned = false) →
      ∀ (p : Nat) (q' : SinePeak R),
        (st.sinePeaks.set (assignment i).toNat { q with assigned := true })[p]? = some q' →
        (q'.assigned = true ↔
          ∃ v', (st.trackAssignment.set (assignment i).toNat v)[p]? = some v' ∧ 0 < v')) := by
  have hlt : (assignment i).toNat < st.sinePeaks.length := by
    by_contra hge
    rw [List.getElem?_eq_none (by omega)] at hq
    cases hq
  have hlt' : (assignment i).toNat < st.trackAssignment.length := by
    rw [h.slotsLength, ← h.peaksLength]; exact hlt
  refine ⟨?_, ?_, ?_⟩
  · intro p q' hq'
    by_cases hp : (assignment i).toNat = p
    · subst hp
      rw [List.getElem?_set_self hlt] at hq'
      cases hq'
      obtain ⟨peak, h1, h2, h3, _⟩ := h.peaks _ q hq
      exact ⟨peak, h1, h2, h3, fun hj => absurd rfl (hj i (List.mem_append_right _ (by simp)))⟩
    · rw [List.getElem?_set_ne hp] at hq'
      obtain ⟨peak, h1, h2, h3, h4⟩ := h.peaks p q' hq'
      exact ⟨peak, h1, h2, h3, fun hj => h4 (fun j hjd => hj j (List.mem_append_left _ hjd))⟩
  · intro p v' hv'
    by_cases hp : (assignment i).toNat = p
    · subst hp
      rw [List.getElem?_set_self hlt'] at hv'
      cases hv'
      exact hvl
    · rw [List.getElem?_set_ne hp] at hv'
      have := h.slots p v' hv'
      omega
  · intro hclear p q' hq'
    by_cases hp : (assignment i).toNat = p
    · subst hp
      rw [List.getElem?_set_self hlt] at hq'
      cases hq'
      rw [List.getElem?_set_self hlt']
      exact ⟨fun _ => ⟨v, rfl, hv⟩, fun _ => rfl⟩
    · rw [List.getElem?_set_ne hp] at hq'
      rw [List.getElem?_set_ne hp]
      exact h.flags hclear p q' hq'

/-- The branch that extends the tracks bound to the previous peak keeps the
invariant. -/
theorem pairInv_extend {env : Env R} {s : PartialTracking R} {sinePeaks : List (SinePeak R)}
    {assignment : Nat → Int} {done : List Nat} {st : MunkresLoop R}
    (h : PairInv env s sinePeaks assignment done st) (hb : PrevBound s) (i : Nat) (k : Int)
    (hk : s.mPrevTracks[i]? = some k) (hkpos : 0 < k) (hp0 : 0 ≤ assignment i)
    (hpM : assignment i < (sinePeaks.length : Int))
    (htest : pairBirthTest env s sinePeaks assignment i = false) :
    ∃ st', extendTracks st k (assignment i).toNat = some st' ∧
      PairInv env s sinePeaks assignment (done ++ [i]) st' := by
  have hlt : (assignment i).toNat < st.sinePeaks.length := by rw [h.peaksLength]; omega
  obtain ⟨q, hq⟩ : ∃ q, st.sinePeaks[(assignment i).toNat]? = some q :=
    ⟨_, List.getElem?_eq_getElem hlt⟩
  unfold extendTracks
  simp only [hq]
  by_cases hany : (st.tracks.any fun t => t.trackId == k) = true
  · simp only [hany, if_true]
    refine ⟨_, rfl, ?_⟩
    obtain ⟨olds, news, hst, hold, hnew⟩ := h.tracks
    have hk' := hb.given i k hk
    have hl := h.lastId
    obtain ⟨b1, b2, b3⟩ := pairInv_bind_column h i q hq k st.lastTrackId hkpos (by omega)
      (le_refl _)
    have hnews : ∀ n ∈ news, (if n.trackId == k then
        { n with assigned := true, peaks := n.peaks ++ [{ q with assigned := true }] }
        else n) = n := by
      intro n hn
      obtain ⟨j, _, _, _, hid⟩ := forall₂_mem_right hnew n hn
      have : ¬ (n.trackId = k) := by omega
      simp [this]
    refine
      { tracks := ⟨olds.map (fun t => if t.trackId == k then
            { t with assigned := true, peaks := t.peaks ++ [{ q with assigned := true }] }
            else t), news, ?_, ?_, ?_⟩
        lastId := h.lastId
        peaksLength := by simp [h.peaksLength]
        peaks := b1
        slotsLength := by simp [h.slotsLength]
        slots := b2
        flags := b3 }
    · show List.map _ st.tracks = _
      rw [hst, List.map_append, List.map_congr_left hnews, List.map_id']
    · rw [List.forall₂_map_right_iff]
      refine forall₂_imp_of_mem ?_ hold
      intro t _ t' ⟨h1, h2, h3, h4⟩
      split
      · exact ⟨h1, h2, h3, h4⟩
      · exact ⟨h1, h2, h3, h4⟩
    · rw [filter_append_singleton_neg _ _ _ htest]
      exact hnew
  · simp only [hany, Bool.false_eq_true, if_false]
    exact ⟨st, rfl, pairInv_skip h i htest⟩

/-- The branch that creates a track from the previous peak and the current
one keeps the invariant. -/
theorem pairInv_birth {env : Env R} {s : PartialTracking R} {sinePeaks : List (SinePeak R)}
    {assignment : Nat → Int} {done : List Nat} {st : MunkresLoop R}
    (h : PairInv env s sinePeaks assignment done st) (hb : PrevBound s) (i : Nat)
    (hdone : ∀ j ∈ done, j < i) (hcols : ∀ j, j < i → 0 ≤ assignment j)
    (prev : SinePeak R) (hprev : s.mPrevPeaks[i]? = some prev) (hp0 : 0 ≤ assignment i)
    (hpM : assignment i < (sinePeaks.length : Int))
    (htest : pairBirthTest env s sinePeaks assignment i = true) :
    ∃ st', birthFromPair s st prev (assignment i).toNat = some st' ∧
      PairInv env s sinePeaks assignment (done ++ [i]) st' := by
  have hlt : (assignment i).toNat < st.sinePeaks.length := by rw [h.peaksLength]; omega
  obtain ⟨q, hq⟩ : ∃ q, st.sinePeaks[(assignment i).toNat]? = some q :=
    ⟨_, List.getElem?_eq_getElem hlt⟩
  unfold birthFromPair
  simp only [hq]
  refine ⟨_, rfl, ?_⟩
  obtain ⟨olds, news, hst, hold, hnew⟩ := h.tracks
  have hl := h.lastId
  have hl0 := hb.lastId
  obtain ⟨b1, b2, b3⟩ := pairInv_bind_column h i q hq (st.lastTrackId + 1) (st.lastTrackId + 1)
    (by omega) (le_refl _) (by omega)
  obtain ⟨peak, p1, p2, p3, p4⟩ := h.peaks _ q hq
  refine
    { tracks := ⟨olds, news ++ [SineTrack.mk [prev, q] (s.mCurrentFrame - 1) (-1) true true
          (st.lastTrackId + 1)],
        ?_, hold, ?_⟩
      lastId := by show s.mLastTrackId ≤ st.lastTrackId + 1; omega
      peaksLength := by simp [h.peaksLength]
      peaks := b1
      slotsLength := by simp [h.slotsLength]
      slots := b2
      flags := b3 }
  · show st.tracks ++ _ = _
    rw [hst, List.append_assoc]
  · rw [filter_append_singleton_pos _ _ _ htest]
    refine List.rel_append hnew (List.Forall₂.cons ⟨?_, rfl, ?_⟩ List.Forall₂.nil)
    · refine ⟨prev, peak, q, hprev, p1, rfl, p2, p3, ?_, rfl, rfl, rfl⟩
      intro hinj
      apply p4
      intro j hj heq
      have hji := hdone j hj
      have := hcols j hji
      exact hinj j hji (by omega)
    · show s.mLastTrackId < st.lastTrackId + 1
      omega

/-- One turn of the loop over the rows returns and keeps the invariant, when
the solver's result for the row is not negative. -/
theorem pairInv_row (env : Env R) {s : PartialTracking R} {sinePeaks : List (SinePeak R)}
    (assignment : Nat → Int) {done : List Nat} {st : MunkresLoop R}
    (h : PairInv env s sinePeaks assignment done st) (hb : PrevBound s) (i : Nat)
    (hi : i < s.mPrevPeaks.length) (hdone : ∀ j ∈ done, j < i)
    (hcols : ∀ j, j ≤ i → 0 ≤ assignment j) :
    ∃ st', munkresRow env s sinePeaks assignment st i = some st' ∧
      PairInv env s sinePeaks assignment (done ++ [i]) st' := by
  obtain ⟨prev, hprev⟩ : ∃ prev, s.mPrevPeaks[i]? = some prev := ⟨_, List.getElem?_eq_getElem hi⟩
  obtain ⟨k, hk⟩ : ∃ k, s.mPrevTracks[i]? = some k :=
    ⟨_, List.getElem?_eq_getElem (by rw [hb.sameLength]; exact hi)⟩
  have h0 := hcols i (le_refl _)
  simp only [munkresRow, hprev]
  by_cases hge : assignment i ≥ (sinePeaks.length : Int)
  · rw [if_pos hge]
    refine ⟨st, rfl, pairInv_skip h i ?_⟩
    simp only [pairBirthTest, hprev]
    rw [if_pos (Or.inr hge)]
  · rw [if_neg hge, if_neg (not_lt.mpr h0)]
    obtain ⟨peak, hpeak⟩ : ∃ peak, sinePeaks[(assignment i).toNat]? = some peak :=
      ⟨_, List.getElem?_eq_getElem (by omega)⟩
    have hcond : ¬ (assignment i < 0 ∨ assignment i ≥ (sinePeaks.length : Int)) := by omega
    have htest : pairBirthTest env s sinePeaks assignment i =
        (usefulEntry env s prev peak && !prev.assigned &&
          decide (prev.logMag > s.birthThreshold env prev s.mPrevMaxAmp)) := by
      simp only [pairBirthTest, hprev, if_neg hcond, hpeak]
    simp only [hpeak]
    by_cases hu : usefulEntry env s prev peak = true
    · simp only [hu, if_true, hk]
      by_cases hc : (decide (k > 0) && prev.assigned) = true
      · rw [if_pos hc]
        simp only [Bool.and_eq_true, decide_eq_true_eq, gt_iff_lt] at hc
        exact pairInv_extend h hb i k hk hc.1 h0 (by omega) (by rw [htest]; simp [hc.2])
      · rw [if_neg hc]
        by_cases hbirth : (decide (prev.logMag > s.birthThreshold env prev s.mPrevMaxAmp) &&
            !prev.assigned) = true
        · rw [if_pos hbirth]
          simp only [Bool.and_eq_true, decide_eq_true_eq, Bool.not_eq_true'] at hbirth
          exact pairInv_birth h hb i hdone (fun j hj => hcols j (le_of_lt hj)) prev hprev h0
            (by omega) (by rw [htest]; simp [hu, hbirth.1, hbirth.2])
        · rw [if_neg hbirth]
          refine ⟨st, rfl, pairInv_skip h i ?_⟩
          rw [htest]
          rw [Bool.eq_false_iff]
          intro hall
          apply hbirth
          simp only [Bool.and_eq_true, decide_eq_true_eq, Bool.not_eq_true'] at hall ⊢
          exact ⟨hall.2, hall.1.2⟩
    · simp only [hu, Bool.false_eq_true, if_false]
      refine ⟨st, rfl, pairInv_skip h i ?_⟩
      rw [htest]
      simp [hu]

/-- The loop over the rows returns and keeps the invariant, when the solver's
results are not negative. -/
theorem pairInv_rows (env : Env R) {s : PartialTracking R} {sinePeaks : List (SinePeak R)}
    (assignment : Nat → Int) (hb : PrevBound s)
    (hcols : ∀ j, j < s.mPrevPeaks.length → 0 ≤ assignment j) :
    ∀ (rows done : List Nat) (st : MunkresLoop R),
      PairInv env s sinePeaks assignment done st → rows.Pairwise (fun i j => i < j) →
      (∀ i ∈ rows, i < s.mPrevPeaks.length) → (∀ j ∈ done, ∀ i ∈ rows, j < i) →
      ∃ st', munkresRows env s sinePeaks assignment rows st = some st' ∧
        PairInv env s sinePeaks assignment (done ++ rows) st' := by
  intro rows
  induction rows with
  | nil =>
    intro done st h _ _ _
    exact ⟨st, rfl, by simpa using h⟩
  | cons i rest ih =>
    intro done st h hpw hlt hdone
    have hi := hlt i (List.mem_cons_self _ _)
    obtain ⟨st1, hrow, h1⟩ := pairInv_row env assignment h hb i hi
      (fun j hj => hdone j hj i (List.mem_cons_self _ _))
      (fun j hj => hcols j (by omega))
    obtain ⟨st', hrows, h'⟩ := ih (done ++ [i]) st1 h1 (List.pairwise_cons.mp hpw).2
      (fun j hj => hlt j (List.mem_cons_of_mem _ hj))
      (by
        intro j hj i' hi'
        rcases List.mem_append.mp hj with hj | hj
        · exact hdone j hj i' (List.mem_cons_of_mem _ hi')
        · rw [List.mem_singleton.mp hj]
          exact (List.pairwise_cons.mp hpw).1 i' hi')
    refine ⟨st', ?_, ?_⟩
    · rw [munkresRows, hrow]
      exact hrows
    · rw [List.append_assoc] at h'
      exact h'

/-- The invariant holds when the loop over the rows starts. -/
theorem pairInv_start (env : Env R) (s : PartialTracking R) (hb : PrevBound s)
    (sinePeaks : List (SinePeak R)) (assignment : Nat → Int) :
    PairInv env s sinePeaks assignment []
      { tracks := clearAssigned s.mTracks, sinePeaks := sinePeaks,
        trackAssignment := List.replicate sinePeaks.length (-1),
        lastTrackId := s.mLastTrackId } where
  tracks := ⟨clearAssigned s.mTracks, [], by simp, by
    unfold clearAssigned
    rw [List.forall₂_map_right_iff, List.forall₂_same]
    intro t _
    exact ⟨rfl, rfl, rfl, rfl⟩, by simp⟩
  lastId := le_refl _
  peaksLength := rfl
  peaks := fun p q hq => ⟨q, hq, rfl, rfl, fun _ => rfl⟩
  slotsLength := by simp
  slots := fun p v hv => by
    have := List.getElem?_mem hv
    rw [List.mem_replicate] at this
    have := hb.lastId
    show v ≤ s.mLastTrackId
    omega
  flags := fun hclear p q hq => by
    have hq' : q.assigned = false := hclear q (List.getElem?_mem hq)
    constructor
    · intro h; rw [hq'] at h; cases h
    · rintro ⟨v, hv, hpos⟩
      have := List.getElem?_mem hv
      rw [List.mem_replicate] at this
      omega

/-- A loop over the rows that returns has met no negative result of the
solver. -/
theorem munkresRows_some_cols (env : Env R) (s : PartialTracking R) (sinePeaks : List (SinePeak R))
    (assignment : Nat → Int) :
    ∀ (rows : List Nat) (st st' : MunkresLoop R),
      munkresRows env s sinePeaks assignment rows st = some st' → ∀ i ∈ rows, 0 ≤ assignment i := by
  intro rows
  induction rows with
  | nil => intro st st' _ i hi; simp at hi
  | cons r rest ih =>
    intro st st' h i hi
    rw [munkresRows] at h
    cases hrow : munkresRow env s sinePeaks assignment st r with
    | none => simp [hrow] at h
    | some st1 =>
      simp only [hrow] at h
      rcases List.mem_cons.mp hi with rfl | hi
      · unfold munkresRow at hrow
        cases hprev : s.mPrevPeaks[i]? with
        | none => simp [hprev] at hrow
        | some prev =>
          simp only [hprev] at hrow
          by_cases hge : assignment i ≥ (sinePeaks.length : Int)
          · omega
          · rw [if_neg hge] at hrow
            by_cases hneg : assignment i < 0
            · rw [if_pos hneg] at hrow; cases hrow
            · omega
      · exact ih st1 st' h i hi

/-- The tracks of the collection after the loop headed `// diying tracks` of
`assignMunkres`, in terms of the invariant of the loop over the rows. -/
theorem pairInv_dying {env : Env R} {s : PartialTracking R} {sinePeaks : List (SinePeak R)}
    {assignment : Nat → Int} {done : List Nat} {st : MunkresLoop R}
    (h : PairInv env s sinePeaks assignment done st) :
    ∃ olds news, dyingTracks s.mCurrentFrame st.tracks = olds ++ news ∧
      List.Forall₂ (fun t t' => t'.trackId = t.trackId ∧ t'.startFrame = t.startFrame)
        s.mTracks olds ∧
      List.Forall₂ (fun i n => PairBirth s sinePeaks assignment i n)
        (done.filter (pairBirthTest env s sinePeaks assignment)) news := by
  obtain ⟨olds, news, hst, hold, hnew⟩ := h.tracks
  refine ⟨dyingTracks s.mCurrentFrame olds, news, ?_, ?_, ?_⟩
  · rw [hst]
    unfold dyingTracks
    rw [List.map_append]
    congr 1
    refine (List.map_congr_left ?_).trans (List.map_id' _)
    intro n hn
    obtain ⟨i, _, ⟨_, _, _, _, _, _, _, _, _, _, hact⟩, hasg, _⟩ := forall₂_mem_right hnew n hn
    simp [hact, hasg]
  · unfold dyingTracks
    rw [List.forall₂_map_right_iff]
    refine forall₂_imp_of_mem ?_ hold
    intro t _ t' ⟨h1, h2, _, _⟩
    split
    · exact ⟨h1, h2⟩
    · exact ⟨h1, h2⟩
  · exact forall₂_imp_of_mem (fun i _ n hn => hn.1) hnew

/-- A call of `assignMunkres` in a state in which `mPrevTracks` has an entry
for each previous peak, none above `mLastTrackId`, when the solver gives no
negative result: the call returns; the collection then holds the tracks it
held, in their order, followed by one new track for each row that meets
`pairBirthTest`, in the order of the rows, each as `PairBirth` describes; and
the state that is left binds the stored peaks in the same way. -/
theorem assignMunkres_births (env : Env R) (c : PartialTracking R) (sinePeaks : List (SinePeak R))
    (maxAmp : R) (hb : PrevBound c)
    (hcols : sinePeaks ≠ [] → ∀ i, i < c.mPrevPeaks.length →
      0 ≤ env.munkres c.mPrevPeaks.length sinePeaks.length (costMatrix env c sinePeaks) i) :
    ∃ c', c.assignMunkres env sinePeaks maxAmp = some c' ∧
      (∃ olds news, c'.mTracks = olds ++ news ∧
        List.Forall₂ (fun t t' => t'.trackId = t.trackId ∧ t'.startFrame = t.startFrame)
          c.mTracks olds ∧
        List.Forall₂
          (fun i n => PairBirth c sinePeaks
            (env.munkres c.mPrevPeaks.length sinePeaks.length (costMatrix env c sinePeaks)) i n)
          ((List.range c.mPrevPeaks.length).filter (pairBirthTest env c sinePeaks
            (env.munkres c.mPrevPeaks.length sinePeaks.length (costMatrix env c sinePeaks))))
          news) ∧
      PrevBound c' ∧ ((∀ peak ∈ sinePeaks, peak.assigned = false) → FlagsBound c') ∧
      c'.mCurrentFrame = c.mCurrentFrame ∧ c'.mInitialized = c.mInitialized := by
  unfold PartialTracking.assignMunkres
  by_cases hempty : c.mPrevPeaks.isEmpty = true
  · have hnil : c.mPrevPeaks = [] := List.isEmpty_iff.mp hempty
    simp only [hempty, if_true]
    refine ⟨_, rfl, ⟨clearAssigned c.mTracks, [], by simp, ?_, ?_⟩, ?_, ?_, rfl, rfl⟩
    · unfold clearAssigned
      rw [List.forall₂_map_right_iff, List.forall₂_same]
      intro t _
      exact ⟨rfl, rfl⟩
    · simp [hnil]
    · exact
        { sameLength := by simp
          given := fun i k hk => by
            have := List.getElem?_mem hk
            simp only [List.mem_replicate] at this
            have := hb.lastId
            show k ≤ c.mLastTrackId
            omega
          lastId := hb.lastId }
    · intro hclear i prev hprev
      have hq' : prev.assigned = false := hclear prev (List.getElem?_mem hprev)
      constructor
      · intro h; rw [hq'] at h; cases h
      · rintro ⟨v, hv, hpos⟩
        have := List.getElem?_mem hv
        simp only [List.mem_replicate] at this
        omega
  · simp only [hempty, Bool.false_eq_true, if_false]
    have hstart := pairInv_start env c hb sinePeaks
      (env.munkres c.mPrevPeaks.length sinePeaks.length (costMatrix env c sinePeaks))
    have hfinish : ∀ (done : List Nat) (st : MunkresLoop R),
        PairInv env c sinePeaks
          (env.munkres c.mPrevPeaks.length sinePeaks.length (costMatrix env c sinePeaks)) done st →
        done.filter (pairBirthTest env c sinePeaks
          (env.munkres c.mPrevPeaks.length sinePeaks.length (costMatrix env c sinePeaks))) =
        (List.range c.mPrevPeaks.length).filter (pairBirthTest env c sinePeaks
          (env.munkres c.mPrevPeaks.length sinePeaks.length (costMatrix env c sinePeaks))) →
        (∃ olds news, dyingTracks c.mCurrentFrame st.tracks = olds ++ news ∧
          List.Forall₂ (fun t t' => t'.trackId = t.trackId ∧ t'.startFrame = t.startFrame)
            c.mTracks olds ∧
          List.Forall₂
            (fun i n => PairBirth c sinePeaks
              (env.munkres c.mPrevPeaks.length sinePeaks.length (costMatrix env c sinePeaks)) i n)
            ((List.range c.mPrevPeaks.length).filter (pairBirthTest env c sinePeaks
              (env.munkres c.mPrevPeaks.length sinePeaks.length (costMatrix env c sinePeaks))))
            news) ∧
        PrevBound { c with
          mTracks := dyingTracks c.mCurrentFrame st.tracks
          mLastTrackId := st.lastTrackId
          mPrevTracks := st.trackAssignment
          mPrevPeaks := st.sinePeaks
          mPrevMaxAmp := maxAmp } ∧
        ((∀ peak ∈ sinePeaks, peak.assigned = false) → FlagsBound { c with
          mTracks := dyingTracks c.mCurrentFrame st.tracks
          mLastTrackId := st.lastTrackId
          mPrevTracks := st.trackAssignment
          mPrevPeaks := st.sinePeaks
          mPrevMaxAmp := maxAmp }) := by
      intro done st hinv hdone
      refine ⟨?_, ?_, ?_⟩
      · rw [← hdone]
        exact pairInv_dying hinv
      · exact
          { sameLength := by
              show st.trackAssignment.length = st.sinePeaks.length
              rw [hinv.slotsLength, hinv.peaksLength]
            given := fun i k hk => hinv.slots i k hk
            lastId := by
              have := hinv.lastId
              have := hb.lastId
              show 0 ≤ st.lastTrackId
              omega }
      · intro hclear i prev hprev
        exact hinv.flags hclear i prev hprev
    by_cases hM : sinePeaks.length > 0
    · simp only [hM, if_true]
      have hne : sinePeaks ≠ [] := by
        intro h; rw [h] at hM; simp at hM
      obtain ⟨st', hrows, hinv⟩ := pairInv_rows env
        (env.munkres c.mPrevPeaks.length sinePeaks.length (costMatrix env c sinePeaks)) hb
        (hcols hne) (List.range c.mPrevPeaks.length) [] _ hstart (List.pairwise_lt_range _)
        (fun i hi => List.mem_range.mp hi) (fun j hj => by simp at hj)
      rw [hrows]
      obtain ⟨f1, f2, f3⟩ := hfinish _ st' hinv (by simp)
      exact ⟨_, rfl, f1, f2, f3, rfl, rfl⟩
    · simp only [hM, if_false]
      have hlen : sinePeaks.length = 0 := by omega
      have hfilter : ([] : List Nat).filter (pairBirthTest env c sinePeaks
          (env.munkres c.mPrevPeaks.length sinePeaks.length (costMatrix env c sinePeaks))) =
          (List.range c.mPrevPeaks.length).filter (pairBirthTest env c sinePeaks
            (env.munkres c.mPrevPeaks.length sinePeaks.length (costMatrix env c sinePeaks))) := by
        symm
        rw [List.filter_nil, List.filter_eq_nil_iff]
        intro i _
        simp only [pairBirthTest, Bool.not_eq_true]
        cases c.mPrevPeaks[i]? with
        | none => rfl
        | some prev =>
          simp only
          rw [if_pos (by rw [hlen]; omega)]
      obtain ⟨f1, f2, f3⟩ := hfinish [] _ hstart hfilter
      exact ⟨_, rfl, f1, f2, f3, rfl, rfl⟩

/-- A call of `assignMunkres` that returns has met no negative result of the
solver. -/
theorem assignMunkres_some_cols (env : Env R) (c c' : PartialTracking R)
    (sinePeaks : List (SinePeak R)) (maxAmp : R)
    (h : c.assignMunkres env sinePeaks maxAmp = some c') (hne : sinePeaks ≠ []) :
    ∀ i, i < c.mPrevPeaks.length →
      0 ≤ env.munkres c.mPrevPeaks.length sinePeaks.length (costMatrix env c sinePeaks) i := by
  intro i hi
  unfold PartialTracking.assignMunkres at h
  have hempty : ¬ (c.mPrevPeaks.isEmpty = true) := by
    intro he
    rw [List.isEmpty_iff.mp he] at hi
    simp at hi
  have hM : sinePeaks.length > 0 := List.length_pos.mpr hne
  simp only [hempty, Bool.false_eq_true, if_false, hM, if_true] at h
  cases hrows : munkresRows env c sinePeaks
      (env.munkres c.mPrevPeaks.length sinePeaks.length (costMatrix env c sinePeaks))
      (List.range c.mPrevPeaks.length)
      { tracks := clearAssigned c.mTracks, sinePeaks := sinePeaks,
        trackAssignment := List.replicate sinePeaks.length (-1),
        lastTrackId := c.mLastTrackId } with
  | none => simp [hrows] at h
  | some st' => exact munkresRows_some_cols env c sinePeaks _ _ _ _ hrows i (List.mem_range.mpr hi)

theorem prevBound_configureArgs (env : Env R) (s : PartialTracking R) (a : FrameArgs R)
    (hb : PrevBound s) : PrevBound (s.configureArgs env a) := by
  obtain ⟨_, _, hL, _, hP, hT, _⟩ := configureArgs_fields env s a
  exact
    { sameLength := by rw [hP, hT]; exact hb.sameLength
      given := fun i k hk => by rw [hT] at hk; rw [hL]; exact hb.given i k hk
      lastId := by rw [hL]; exact hb.lastId }

/-- A call of `processFrame` that returns, by either strategy, keeps the
binding of the stored peaks well formed; and when the peaks of the call come
with their flag clear, the flag of a stored peak is set exactly when
`mPrevTracks` binds it to a track. -/
theorem prevBound_frame (env : Env R) (s s' : PartialTracking R) (a : FrameArgs R)
    (hb : PrevBound s) (h : s.processFrameArgs env a = some s') :
    PrevBound s' ∧
    ((∀ peak ∈ a.peaks, peak.assigned = false) → FlagsBound s → FlagsBound s') := by
  by_cases hinit : s.mInitialized = true
  · rw [processFrameArgs_eq env s a hinit] at h
    obtain ⟨_, _, hL, _, hP, hT, _⟩ := configureArgs_fields env s a
    by_cases hm : a.method = 0
    · simp only [hm, if_true, Option.map_eq_some'] at h
      obtain ⟨s3, hg, rfl⟩ := h
      obtain ⟨_, _, rfl⟩ := assignGreedy_some env _ s3 a.peaks a.maxAmp hg
      refine ⟨?_, ?_⟩
      · exact
          { sameLength := by
              show (s.configureArgs env a).mPrevTracks.length = (s.configureArgs env a).mPrevPeaks.length
              rw [hP, hT]; exact hb.sameLength
            given := fun i k hk => by
              have hk' : (s.configureArgs env a).mPrevTracks[i]? = some k := hk
              rw [hT] at hk'
              have := hb.given i k hk'
              show k ≤ (s.configureArgs env a).mLastTrackId + _
              rw [hL]
              omega
            lastId := by
              have := hb.lastId
              show 0 ≤ (s.configureArgs env a).mLastTrackId + _
              rw [hL]
              omega }
      · intro _ hf i prev hprev
        have hprev' : (s.configureArgs env a).mPrevPeaks[i]? = some prev := hprev
        rw [hP] at hprev'
        have := hf i prev hprev'
        show prev.assigned = true ↔ ∃ k, (s.configureArgs env a).mPrevTracks[i]? = some k ∧ 0 < k
        rw [hT]
        exact this
    · simp only [hm, if_false, Option.map_eq_some'] at h
      obtain ⟨s3, hg, rfl⟩ := h
      obtain ⟨c', hc', _, hb', hf', _, _⟩ := assignMunkres_births env (s.configureArgs env a)
        a.peaks a.maxAmp (prevBound_configureArgs env s a hb)
        (assignMunkres_some_cols env _ s3 a.peaks a.maxAmp hg)
      rw [hg] at hc'
      cases hc'
      exact ⟨⟨hb'.sameLength, hb'.given, hb'.lastId⟩, fun hclear _ => hf' hclear⟩
  · simp [PartialTracking.processFrameArgs, PartialTracking.processFrame, hinit] at h

/-- Every state reached after `init()`, whichever strategy each call selects,
keeps the binding of the stored peaks well formed; when every call is given
peaks whose flag is clear, the flag of a stored peak is set exactly when
`mPrevTracks` binds the peak to a track. -/
theorem prevBound_run (env : Env R) (ok : FrameArgs R → Prop) (s0 : PartialTracking R)
    {s : PartialTracking R} (hrun : Run env ok s0.init s) :
    PrevBound s ∧ ((∀ a, ok a → ∀ peak ∈ a.peaks, peak.assigned = false) → FlagsBound s) := by
  generalize hs : s0.init = start at hrun
  induction hrun with
  | refl =>
    subst hs
    exact ⟨⟨rfl, fun i k hk => by simp [PartialTracking.init] at hk, by simp [PartialTracking.init]⟩,
      fun _ i prev hprev => by simp [PartialTracking.init] at hprev⟩
  | frame a _ hok hstep ih =>
    obtain ⟨hb, hf⟩ := ih
    obtain ⟨hb', hf'⟩ := prevBound_frame env _ _ a hb hstep
    exact ⟨hb', fun hclear => hf' (hclear a hok) (hf hclear)⟩
  | prune _ ih =>
    obtain ⟨hb, hf⟩ := ih
    exact ⟨⟨hb.sameLength, hb.given, hb.lastId⟩, hf⟩

/-- The condition `pairBirthTest` spelled out. -/
theorem pairBirthTest_iff (env : Env R) (s : PartialTracking R) (sinePeaks : List (SinePeak R))
    (assignment : Nat → Int) (i : Nat) :
    pairBirthTest env s sinePeaks assignment i = true ↔
      ∃ prev peak, s.mPrevPeaks[i]? = some prev ∧ 0 ≤ assignment i ∧
        assignment i < (sinePeaks.length : Int) ∧
        sinePeaks[(assignment i).toNat]? = some peak ∧
        usefulCost env s prev peak < spuriousCost env s prev peak ∧ prev.assigned = false ∧
        prev.logMag > s.birthThreshold env prev s.mPrevMaxAmp := by
  unfold pairBirthTest
  cases hprev : s.mPrevPeaks[i]? with
  | none => simp
  | some prev =>
    simp only
    by_cases hcond : assignment i < 0 ∨ assignment i ≥ (sinePeaks.length : Int)
    · rw [if_pos hcond]
      constructor
      · intro h; cases h
      · rintro ⟨_, _, _, h0, hM, _⟩
        omega
    · rw [if_neg hcond]
      cases hpeak : sinePeaks[(assignment i).toNat]? with
      | none => simp
      | some peak =>
        simp only [Bool.and_eq_true, usefulEntry, decide_eq_true_eq, Bool.not_eq_true',
          Option.some.injEq]
        constructor
        · rintro ⟨⟨h1, h2⟩, h3⟩
          exact ⟨prev, peak, rfl, by omega, by omega, rfl, h1, h2, h3⟩
        · rintro ⟨prev', peak', rfl, _, _, rfl, h1, h2, h3⟩
          exact ⟨⟨h1, h2⟩, h3⟩

/-- The births of a frame of the solver-based strategy, in terms of the test of
the code. A call of `processFrame` that selects the solver-based strategy,
after `init()`, in a state in which `mPrevTracks` has an entry for each stored
peak and none above `mLastTrackId` (`PrevBound`, which holds in every state
reached after `init()`), the solver giving no negative result: the call
returns, and the collection then holds the tracks it held, in their order,
followed by the new tracks `news`, one for each row of `rows`, in order.  The
rows of `rows` are exactly the previous peaks `i` that the solver matches to a
column `p` of the matrix such that the pair is useful, the flag `assigned` of
peak `i` is clear (which is what the code tests; a stored peak that came with
its flag set is bound to no track and has it set) and its `logMag` exceeds
the birth threshold.  The track of row `i` has the history
`[previous peak i, current peak p]` (the current peak with the scratch flag
that the loop has left on it, which is the flag it came with when no earlier
row was matched to `p`), `startFrame = currentFrame − 1`, no end frame, and is
active.  So every new track comes from a pair. -/
theorem solver_births_from_agreeing_pairs (env : Env R) (s c : PartialTracking R)
    (a : FrameArgs R) (solver : Nat → Int) (hc : c = s.configureArgs env a)
    (hsolver : solver =
      env.munkres s.mPrevPeaks.length a.peaks.length (costMatrix env c a.peaks))
    (hm : a.method ≠ 0) (hinit : s.mInitialized = true) (hb : PrevBound s)
    (hcols : ∀ i, i < s.mPrevPeaks.length → 0 ≤ solver i) :
    ∃ (s' : PartialTracking R) (olds news : List (SineTrack R)) (rows : List Nat),
      s.processFrameArgs env a = some s' ∧ s'.mTracks = olds ++ news ∧
      List.Forall₂ (fun t t' => t'.trackId = t.trackId ∧ t'.startFrame = t.startFrame)
        s.mTracks olds ∧
      rows.Pairwise (fun i j => i < j) ∧
      (∀ i, i ∈ rows ↔
        ∃ prev peak, s.mPrevPeaks[i]? = some prev ∧ 0 ≤ solver i ∧
          solver i < (a.peaks.length : Int) ∧ a.peaks[(solver i).toNat]? = some peak ∧
          usefulCost env c prev peak < spuriousCost env c prev peak ∧ prev.assigned = false ∧
          prev.logMag > c.birthThreshold env prev c.mPrevMaxAmp) ∧
      List.Forall₂
        (fun i n => ∃ prev peak q, s.mPrevPeaks[i]? = some prev ∧
          a.peaks[(solver i).toNat]? = some peak ∧ n.peaks = [prev, q] ∧
          q.freq = peak.freq ∧ q.logMag = peak.logMag ∧
          ((∀ j, j < i → solver j ≠ solver i) → q = peak) ∧
          n.startFrame = s.mCurrentFrame - 1 ∧ n.endFrame = -1 ∧ n.active = true)
        rows news := by
  obtain ⟨hT, hC, _, _, hP, _, _⟩ := configureArgs_fields env s a
  rw [← hc] at hT hC hP
  have hsolver' : solver =
      env.munkres c.mPrevPeaks.length a.peaks.length (costMatrix env c a.peaks) := by
    rw [hP]; exact hsolver
  obtain ⟨c', hc', ⟨olds, news, h1, h2, h3⟩, _, _, _, _⟩ := assignMunkres_births env c a.peaks
    a.maxAmp (by rw [hc]; exact prevBound_configureArgs env s a hb)
    (fun _ i hi => by rw [← hsolver']; exact hcols i (by rw [← hP]; exact hi))
  rw [← hsolver'] at h3
  refine ⟨{ c' with mCurrentFrame := c'.mCurrentFrame + 1 }, olds, news,
    (List.range c.mPrevPeaks.length).filter (pairBirthTest env c a.peaks solver), ?_, h1, ?_,
    ?_, ?_, ?_⟩
  · rw [processFrameArgs_eq env s a hinit, if_neg hm, ← hc, hc']
    rfl
  · rw [← hT]; exact h2
  · exact List.Pairwise.sublist (List.filter_sublist _) (List.pairwise_lt_range _)
  · intro i
    rw [List.mem_filter, pairBirthTest_iff, hP]
    constructor
    · rintro ⟨_, h⟩; exact h
    · intro h
      refine ⟨?_, h⟩
      obtain ⟨prev, _, hprev, _⟩ := h
      rw [List.mem_range]
      by_contra hge
      rw [List.getElem?_eq_none (by omega)] at hprev
      cases hprev
  · refine forall₂_imp_of_mem ?_ h3
    rintro i _ n ⟨prev, peak, q, p1, p2, p3, p4, p5, p6, p7, p8, p9⟩
    rw [hP] at p1
    rw [hC] at p7
    exact ⟨prev, peak, q, p1, p2, p3, p4, p5, p6, p7, p8, p9⟩

/-- Dropping from the loop the rows that the solver matches beyond the last
column changes nothing. -/
theorem munkresRows_filter_columns (env : Env R) (s : PartialTracking R)
    (sinePeaks : List (SinePeak R)) (assignment : Nat → Int) :
    ∀ (rows : List Nat) (st : MunkresLoop R), (∀ i ∈ rows, i < s.mPrevPeaks.length) →
      munkresRows env s sinePeaks assignment rows st =
        munkresRows env s sinePeaks assignment
          (rows.filter (fun i => decide (assignment i < (sinePeaks.length : Int)))) st := by
  intro rows
  induction rows with
  | nil => intro st _; rfl
  | cons i rest ih =>
    intro st hlt
    have hi := hlt i (List.mem_cons_self _ _)
    obtain ⟨prev, hprev⟩ : ∃ prev, s.mPrevPeaks[i]? = some prev :=
      ⟨_, List.getElem?_eq_getElem hi⟩
    by_cases hge : assignment i ≥ (sinePeaks.length : Int)
    · rw [List.filter_cons_of_neg (by simp only [decide_eq_true_eq]; omega), munkresRows]
      have hrow : munkresRow env s sinePeaks assignment st i = some st := by
        simp only [munkresRow, hprev]
        rw [if_pos hge]
      rw [hrow]
      exact ih st (fun j hj => hlt j (List.mem_cons_of_mem _ hj))
    · rw [List.filter_cons_of_pos (by simp only [decide_eq_true_eq]; omega), munkresRows,
        munkresRows]
      cases munkresRow env s sinePeaks assignment st i with
      | none => rfl
      | some st' => exact ih st' (fun j hj => hlt j (List.mem_cons_of_mem _ hj))

/-- Claim C13, amended. In the loop of `assignMunkres` over the rows, a row `i`
whose solver result is at or beyond the number `M` of columns is treated as
unmatched: the turn of the loop returns without reading the mask or a current
peak at that index and leaves the tracks, the peaks, the slots and the id
counter as they were; so the loop does what it would do without these rows. -/
theorem row_matched_beyond_columns_is_unmatched (env : Env R) (s : PartialTracking R)
    (sinePeaks : List (SinePeak R)) (assignment : Nat → Int) (st : MunkresLoop R) :
    (∀ i, i < s.mPrevPeaks.length → assignment i ≥ (sinePeaks.length : Int) →
      munkresRow env s sinePeaks assignment st i = some st) ∧
    munkresRows env s sinePeaks assignment (List.range s.mPrevPeaks.length) st =
      munkresRows env s sinePeaks assignment
        ((List.range s.mPrevPeaks.length).filter
          (fun i => decide (assignment i < (sinePeaks.length : Int)))) st := by
  refine ⟨?_, munkresRows_filter_columns env s sinePeaks assignment _ st
    (fun i hi => List.mem_range.mp hi)⟩
  intro i hi hge
  obtain ⟨prev, hprev⟩ : ∃ prev, s.mPrevPeaks[i]? = some prev :=
    ⟨_, List.getElem?_eq_getElem hi⟩
  simp only [munkresRow, hprev]
  rw [if_pos hge]

end MunkresBirths

section Cadence

variable {R : Type} [NatCast R] [OfScientific R] [Add R] [Sub R] [Mul R] [Div R] [Neg R]
  [LT R] [DecidableRel (LT.lt : R → R → Prop)] [BEq R]

/-! ### Lists with one more element -/

theorem length_insertAt {α : Type} (d : α) :
    ∀ (n : Nat) (l : List α), (insertAt n d l).length = l.length + 1 := by
  intro n l
  induction l generalizing n with
  | nil => cases n <;> simp [insertAt]
  | cons t tl ih => cases n <;> simp [insertAt, ih]

theorem getElem?_insertAt {α : Type} (d : α) :
    ∀ (l : List α) (n i : Nat), n ≤ l.length → (insertAt n d l)[shiftAt n i]? = l[i]? := by
  intro l
  induction l with
  | nil =>
    intro n i hn
    have : n = 0 := by simpa using hn
    subst this
    simp [insertAt, shiftAt]
  | cons t tl ih =>
    intro n i hn
    cases n with
    | zero => simp [insertAt, shiftAt]
    | succ n =>
      cases i with
      | zero => simp [insertAt, shiftAt]
      | succ i =>
        have h := ih n i (by simpa using hn)
        have hs : shiftAt (n + 1) (i + 1) = shiftAt n i + 1 := by
          unfold shiftAt
          split <;> split <;> omega
        rw [hs]
        simpa [insertAt] using h

theorem set_insertAt {α : Type} (d x : α) :
    ∀ (l : List α) (n i : Nat), n ≤ l.length →
      (insertAt n d l).set (shiftAt n i) x = insertAt n d (l.set i x) := by
  intro l
  induction l with
  | nil =>
    intro n i hn
    have : n = 0 := by simpa using hn
    subst this
    simp [insertAt, shiftAt]
  | cons t tl ih =>
    intro n i hn
    cases n with
    | zero => simp [insertAt, shiftAt]
    | succ n =>
      cases i with
      | zero => simp [insertAt, shiftAt]
      | succ i =>
        have h := ih n i (by simpa using hn)
        have hs : shiftAt (n + 1) (i + 1) = shiftAt n i + 1 := by
          unfold shiftAt
          split <;> split <;> omega
        rw [hs]
        simp [insertAt, h]

theorem map_insertAt {α β : Type} (f : α → β) (d : α) :
    ∀ (n : Nat) (l : List α), (insertAt n d l).map f = insertAt n (f d) (l.map f) := by
  intro n l
  induction l generalizing n with
  | nil => cases n <;> simp [insertAt]
  | cons t tl ih => cases n <;> simp [insertAt, ih]

theorem insertAt_append {α : Type} (d : α) :
    ∀ (l l₂ : List α) (n : Nat), n ≤ l.length →
      insertAt n d (l ++ l₂) = insertAt n d l ++ l₂ := by
  intro l
  induction l with
  | nil =>
    intro l₂ n hn
    have : n = 0 := by simpa using hn
    subst this
    simp [insertAt]
  | cons t tl ih =>
    intro l₂ n hn
    cases n with
    | zero => simp [insertAt]
    | succ n => simp [insertAt, ih l₂ n (by simpa using hn)]

/-! ### The candidates of `assignGreedy` when the collection holds one more dead track -/

theorem peakDistances_relabel (env : Env R) (s : PartialTracking R) (track : SineTrack R)
    (g : Nat → Nat) (i : Nat) :
    ∀ (peaks : List (SinePeak R)) (j : Nat),
      peakDistances env s (g i) track j peaks =
        (peakDistances env s i track j peaks).map (List.map (relabelTrack g)) := by
  intro peaks
  induction peaks with
  | nil => intro j; rfl
  | cons peak rest ih =>
    intro j
    rw [peakDistances, peakDistances, ih (j + 1)]
    cases track.peaks.getLast? with
    | none => rfl
    | some back =>
      cases peakDistances env s i track (j + 1) rest with
      | none => rfl
      | some ds => rfl

theorem trackDistances_succ (env : Env R) (s : PartialTracking R) (sinePeaks : List (SinePeak R))
    (P : Nat) :
    ∀ (l : List (SineTrack R)) (k : Nat), P ≤ k →
      trackDistances env s sinePeaks (k + 1) l =
        (trackDistances env s sinePeaks k l).map (List.map (relabelTrack (shiftAt P))) := by
  intro l
  induction l with
  | nil => intro k _; rfl
  | cons t tl ih =>
    intro k hk
    rw [trackDistances, trackDistances, ih (k + 1) (by omega)]
    have hg : shiftAt P k = k + 1 := by unfold shiftAt; split <;> omega
    by_cases hact : t.active = true
    · simp only [hact, if_true]
      rw [← hg, peakDistances_relabel env s t (shiftAt P) k sinePeaks 0, hg]
      cases peakDistances env s k t 0 sinePeaks with
      | none => rfl
      | some d1 =>
        cases trackDistances env s sinePeaks (k + 1) tl with
        | none => rfl
        | some d2 => simp
    · simp only [hact, Bool.false_eq_true, if_false]

theorem trackDistances_insertAt (env : Env R) (s : PartialTracking R) (sinePeaks : List (SinePeak R))
    (d : SineTrack R) (hd : d.active = false) :
    ∀ (l : List (SineTrack R)) (k n : Nat), n ≤ l.length →
      trackDistances env s sinePeaks k (insertAt n d l) =
        (trackDistances env s sinePeaks k l).map (List.map (relabelTrack (shiftAt (k + n)))) := by
  intro l
  induction l with
  | nil =>
    intro k n hn
    have : n = 0 := by simpa using hn
    subst this
    simp [insertAt, trackDistances, hd]
  | cons t tl ih =>
    intro k n hn
    cases n with
    | zero =>
      rw [insertAt, trackDistances]
      simp only [hd, Bool.false_eq_true, if_false]
      exact trackDistances_succ env s sinePeaks (k + 0) (t :: tl) k (by omega)
    | succ n =>
      rw [insertAt, trackDistances, trackDistances, ih (k + 1) n (by simpa using hn)]
      have hkn : k + 1 + n = k + (n + 1) := by omega
      rw [hkn]
      have hg : shiftAt (k + (n + 1)) k = k := by unfold shiftAt; split <;> omega
      by_cases hact : t.active = true
      · simp only [hact, if_true]
        have hp := peakDistances_relabel env s t (shiftAt (k + (n + 1))) k sinePeaks 0
        rw [hg] at hp
        cases hpd : peakDistances env s k t 0 sinePeaks with
        | none =>
          cases trackDistances env s sinePeaks (k + 1) tl <;> rfl
        | some d1 =>
          rw [hpd] at hp
          simp only [Option.map_some', Option.some.injEq] at hp
          cases trackDistances env s sinePeaks (k + 1) tl with
          | none => rfl
          | some d2 =>
            simp only [Option.map_some', List.map_append]
            rw [← hp]
      · simp only [hact, Bool.false_eq_true, if_false]

theorem peakDistances_tracks_update (env : Env R) (s : PartialTracking R) (X : List (SineTrack R))
    (i : Nat) (track : SineTrack R) :
    ∀ (peaks : List (SinePeak R)) (j : Nat),
      peakDistances env { s with mTracks := X } i track j peaks =
        peakDistances env s i track j peaks := by
  intro peaks
  induction peaks with
  | nil => intro j; rfl
  | cons peak rest ih =>
    intro j
    rw [peakDistances, peakDistances, ih (j + 1)]
    rfl

theorem trackDistances_tracks_update (env : Env R) (s : PartialTracking R) (X : List (SineTrack R))
    (sinePeaks : List (SinePeak R)) :
    ∀ (l : List (SineTrack R)) (k : Nat),
      trackDistances env { s with mTracks := X } sinePeaks k l =
        trackDistances env s sinePeaks k l := by
  intro l
  induction l with
  | nil => intro k; rfl
  | cons t tl ih =>
    intro k
    rw [trackDistances, trackDistances, ih (k + 1), peakDistances_tracks_update]

theorem acceptPairing_insertAt (s : PartialTracking R) (d : SineTrack R) (n : Nat)
    (st : List (SineTrack R) × List (SinePeak R)) (hn : n ≤ st.1.length) (q : R × Nat × Nat) :
    acceptPairing s (insertAt n d st.1, st.2) (relabelTrack (shiftAt n) q) =
      (insertAt n d (acceptPairing s st q).1, (acceptPairing s st q).2) := by
  unfold acceptPairing
  simp only [relabelTrack]
  rw [getElem?_insertAt d st.1 n q.2.1 hn]
  cases st.1[q.2.1]? with
  | none => rfl
  | some track =>
    cases st.2[q.2.2]? with
    | none => rfl
    | some peak =>
      simp only
      split
      · simp only [set_insertAt _ _ st.1 n q.2.1 hn]
      · rfl

theorem foldl_acceptPairing_insertAt (s : PartialTracking R) (d : SineTrack R) (n : Nat) :
    ∀ (order : List (R × Nat × Nat)) (st : List (SineTrack R) × List (SinePeak R)),
      n ≤ st.1.length →
      (order.map (relabelTrack (shiftAt n))).foldl (acceptPairing s) (insertAt n d st.1, st.2) =
        (insertAt n d (order.foldl (acceptPairing s) st).1,
          (order.foldl (acceptPairing s) st).2) := by
  intro order
  induction order with
  | nil => intro st _; rfl
  | cons q rest ih =>
    intro st hn
    rw [List.map_cons, List.foldl_cons, List.foldl_cons, acceptPairing_insertAt s d n st hn q]
    have hlen := (acceptPairing_length s [q] st).1
    simp only [List.foldl_cons, List.foldl_nil] at hlen
    exact ih (acceptPairing s st q) (by rw [hlen]; exact hn)

/-- A call of `assignGreedy` in a collection that holds one more dead track:
the call does what it does without that track, which it leaves in its place
with its scratch flag clear. -/
theorem assignGreedy_insertAt (env : Env R) (hnat : SortIgnoresTracks env) (s : PartialTracking R)
    (n : Nat) (d : SineTrack R) (hn : n ≤ s.mTracks.length) (hd : d.active = false)
    (sinePeaks : List (SinePeak R)) (maxAmp : R) :
    PartialTracking.assignGreedy env { s with mTracks := insertAt n d s.mTracks } sinePeaks maxAmp =
      (s.assignGreedy env sinePeaks maxAmp).map (fun s' =>
        { s' with mTracks := insertAt n { d with assigned := false } s'.mTracks }) := by
  unfold PartialTracking.assignGreedy
  have hclear : clearAssigned (insertAt n d s.mTracks) =
      insertAt n { d with assigned := false } (clearAssigned s.mTracks) := by
    unfold clearAssigned
    rw [map_insertAt]
  have hn' : n ≤ (clearAssigned s.mTracks).length := by simpa [clearAssigned] using hn
  simp only [hclear, trackDistances_tracks_update]
  rw [trackDistances_insertAt env s sinePeaks { d with assigned := false } hd
    (clearAssigned s.mTracks) 0 n hn']
  cases trackDistances env s sinePeaks 0 (clearAssigned s.mTracks) with
  | none => rfl
  | some distances =>
    simp only [Option.map_some', Nat.zero_add]
    have ha : acceptPairing { s with mTracks := insertAt n d s.mTracks } = acceptPairing s := rfl
    have hbs : birthStep env { s with mTracks := insertAt n d s.mTracks } maxAmp =
        birthStep env s maxAmp := rfl
    rw [hnat, ha, hbs,
      foldl_acceptPairing_insertAt s _ n (env.sort distances) (clearAssigned s.mTracks, sinePeaks) hn',
      foldl_birthStep, foldl_birthStep]
    have hlen := (acceptPairing_length s (env.sort distances)
      (clearAssigned s.mTracks, sinePeaks)).1
    simp only at hlen
    congr 1
    apply PartialTracking.ext <;> try rfl
    show dyingTracks s.mCurrentFrame _ = insertAt n _ (dyingTracks s.mCurrentFrame _)
    rw [← insertAt_append _ _ _ n (by rw [hlen]; exact hn')]
    unfold dyingTracks
    rw [map_insertAt]
    simp only [hd, Bool.false_and, Bool.false_eq_true, if_false]

theorem configureArgs_tracks_update (env : Env R) (s : PartialTracking R) (a : FrameArgs R)
    (X : List (SineTrack R)) :
    PartialTracking.configureArgs env { s with mTracks := X } a =
      { s.configureArgs env a with mTracks := X } := by
  simp only [PartialTracking.configureArgs, PartialTracking.configure]
  split <;> rfl

/-- A greedy call of `processFrame` in a collection that holds one more dead
track: the call does what it does without that track, which it leaves in its
place with its scratch flag clear. -/
theorem processFrameArgs_insertAt (env : Env R) (hnat : SortIgnoresTracks env)
    (s : PartialTracking R) (a : FrameArgs R) (hm : a.method = 0) (n : Nat) (d : SineTrack R)
    (hn : n ≤ s.mTracks.length) (hd : d.active = false) :
    PartialTracking.processFrameArgs env { s with mTracks := insertAt n d s.mTracks } a =
      (s.processFrameArgs env a).map (fun s' =>
        { s' with mTracks := insertAt n { d with assigned := false } s'.mTracks }) := by
  by_cases hinit : s.mInitialized = true
  · rw [processFrameArgs_eq env s a hinit,
      processFrameArgs_eq env { s with mTracks := insertAt n d s.mTracks } a hinit]
    simp only [hm, if_true]
    have hT : (s.configureArgs env a).mTracks = s.mTracks := (configureArgs_fields env s a).1
    rw [configureArgs_tracks_update, ← hT,
      assignGreedy_insertAt env hnat (s.configureArgs env a) n d (by rw [hT]; exact hn) hd]
    cases (s.configureArgs env a).assignGreedy env a.peaks a.maxAmp with
    | none => rfl
    | some s3 => rfl
  · have h1 : s.processFrameArgs env a = none := by
      simp [PartialTracking.processFrameArgs, PartialTracking.processFrame, hinit]
    have h2 : PartialTracking.processFrameArgs env
        { s with mTracks := insertAt n d s.mTracks } a = none := by
      simp [PartialTracking.processFrameArgs, PartialTracking.processFrame, hinit]
    rw [h1, h2]
    rfl

theorem processFrameArgs_greedy_length_le (env : Env R) (s s' : PartialTracking R)
    (a : FrameArgs R) (hm : a.method = 0) (h : s.processFrameArgs env a = some s') :
    s.mTracks.length ≤ s'.mTracks.length := by
  obtain ⟨_, s3, hg, rfl⟩ := processFrameArgs_greedy env s s' a hm h
  obtain ⟨distances, _, rfl⟩ := assignGreedy_some env _ s3 a.peaks a.maxAmp hg
  have hT : (s.configureArgs env a).mTracks = s.mTracks := (configureArgs_fields env s a).1
  have hlen := (acceptPairing_length (s.configureArgs env a) (env.sort distances)
    (clearAssigned (s.configureArgs env a).mTracks, a.peaks)).1
  simp only [dyingTracks, List.length_append, List.length_map]
  rw [hlen]
  simp only [clearAssigned, List.length_map, hT]
  omega

/-! ### Collections that differ by pruned tracks -/

theorem thinned_cons {c m : Int} (t : SineTrack R) {lp lu : List (SineTrack R)}
    (h : Thinned c m lp lu) : Thinned c m (t :: lp) (t :: lu) := by
  induction h with
  | refl => exact Thinned.refl _
  | drop n d _ hn hd h0 hle ih =>
    exact Thinned.drop (n + 1) d ih (by simpa using hn) hd h0 hle

theorem thinned_trans {c m : Int} {l₁ l₂ l₃ : List (SineTrack R)} (h₁ : Thinned c m l₁ l₂)
    (h₂ : Thinned c m l₂ l₃) : Thinned c m l₁ l₃ := by
  induction h₂ with
  | refl => exact h₁
  | drop n d _ hn hd h0 hle ih => exact Thinned.drop n d ih hn hd h0 hle

theorem thinned_filter {c m : Int} (keep : SineTrack R → Bool) :
    ∀ (l : List (SineTrack R)),
      (∀ t ∈ l, keep t = false → t.active = false ∧ 0 ≤ t.endFrame ∧ t.endFrame ≤ c - m) →
      Thinned c m (l.filter keep) l := by
  intro l
  induction l with
  | nil => intro _; exact Thinned.refl _
  | cons t tl ih =>
    intro h
    have htl := ih (fun t' ht' => h t' (List.mem_cons_of_mem _ ht'))
    by_cases hk : keep t = true
    · rw [List.filter_cons_of_pos hk]
      exact thinned_cons t htl
    · rw [List.filter_cons_of_neg hk]
      obtain ⟨hd, h0, hle⟩ := h t (List.mem_cons_self _ _) (by simpa using hk)
      exact Thinned.drop 0 t htl (Nat.zero_le _) hd h0 hle

theorem thinned_nil {c m : Int} {lp lu : List (SineTrack R)} (h : Thinned c m lp lu)
    (hu : lu = []) : lp = [] := by
  induction h with
  | refl => exact hu
  | drop n d _ _ _ _ _ _ =>
    have := congrArg List.length hu
    rw [length_insertAt] at this
    simp at this

theorem getActivePeaksLoop_insertAt (L m : Int) (d : SineTrack R) (h0 : 0 ≤ d.endFrame)
    (hle : d.endFrame ≤ L) :
    ∀ (l : List (SineTrack R)) (n : Nat) (acc : List (SinePeak R)),
      getActivePeaksLoop L m (insertAt n d l) acc = getActivePeaksLoop L m l acc := by
  have hskip : ∀ (l : List (SineTrack R)) (acc : List (SinePeak R)),
      getActivePeaksLoop L m (d :: l) acc = getActivePeaksLoop L m l acc := by
    intro l acc
    rw [getActivePeaksLoop]
    by_cases c1 : d.startFrame > L
    · rw [if_pos c1]
    · rw [if_neg c1, if_pos ⟨h0, hle⟩]
  intro l
  induction l with
  | nil =>
    intro n acc
    cases n with
    | zero => exact hskip [] acc
    | succ n => exact hskip [] acc
  | cons t tl ih =>
    intro n acc
    cases n with
    | zero => exact hskip (t :: tl) acc
    | succ n =>
      rw [insertAt, getActivePeaksLoop, getActivePeaksLoop]
      split_ifs
      · exact ih n acc
      · exact ih n acc
      · exact ih n acc
      · cases t.peaks[(L - t.startFrame).toNat]? with
        | none => rfl
        | some peak => exact ih n _

theorem getActivePeaksLoop_thinned {c m : Int} {lp lu : List (SineTrack R)}
    (h : Thinned c m lp lu) (acc : List (SinePeak R)) :
    getActivePeaksLoop (c - m) m lu acc = getActivePeaksLoop (c - m) m lp acc := by
  induction h with
  | refl => rfl
  | drop n d _ _ _ h0 hle ih =>
    rw [getActivePeaksLoop_insertAt (c - m) m d h0 hle]
    exact ih

/-- A greedy call of `processFrame` keeps two collections that differ by
pruned tracks so. -/
theorem thinned_frame (env : Env R) (hnat : SortIgnoresTracks env) (a : FrameArgs R)
    (hm : a.method = 0) (m : Int) {c : Int} {lp lu : List (SineTrack R)}
    (h : Thinned c m lp lu) :
    ∀ (s su' : PartialTracking R), s.mCurrentFrame = c →
      PartialTracking.processFrameArgs env { s with mTracks := lu } a = some su' →
      ∃ sp', PartialTracking.processFrameArgs env { s with mTracks := lp } a = some sp' ∧
        su' = { sp' with mTracks := su'.mTracks } ∧
        Thinned (c + 1) m sp'.mTracks su'.mTracks := by
  induction h with
  | refl =>
    intro s su' _ hu
    exact ⟨su', hu, rfl, Thinned.refl _⟩
  | @drop lmid n d _ hn hd h0 hle ih =>
    intro s su' hc hu
    have hins := processFrameArgs_insertAt env hnat { s with mTracks := lmid } a hm n d hn hd
    have hu' : PartialTracking.processFrameArgs env
        { ({ s with mTracks := lmid } : PartialTracking R) with
          mTracks := insertAt n d ({ s with mTracks := lmid } : PartialTracking R).mTracks } a =
        some su' := hu
    rw [hins, Option.map_eq_some'] at hu'
    obtain ⟨smid', hmid, rfl⟩ := hu'
    obtain ⟨sp', hp, heq, hth⟩ := ih s smid' hc hmid
    refine ⟨sp', hp, ?_, ?_⟩
    · show ({ smid' with mTracks := _ } : PartialTracking R) = _
      rw [heq]
    · have hlen := processFrameArgs_greedy_length_le env _ smid' a hm hmid
      exact Thinned.drop n _ hth (le_trans hn hlen) hd h0 (by show d.endFrame ≤ c + 1 - m; omega)

/-! ### The two runs -/

theorem cadence_observed {m : Int} {sp su : PartialTracking R} (h : Cadence m sp su) :
    sp.getActivePeaks = su.getActivePeaks := by
  have hc : su.mCurrentFrame = sp.mCurrentFrame := by rw [h.same]
  have hm : su.mMinTrackLength = sp.mMinTrackLength := by rw [h.same]
  unfold PartialTracking.getActivePeaks
  simp only [hc, hm]
  by_cases hL : sp.mCurrentFrame - sp.mMinTrackLength < 0
  · simp only [hL, if_true]
  · simp only [hL, if_false]
    by_cases hnil : su.mTracks = []
    · rw [thinned_nil h.thinned hnil, hnil]
    · have hmin : sp.mMinTrackLength = m := by rw [← hm]; exact h.soundU.minLen hnil
      have := getActivePeaksLoop_thinned h.thinned []
      rw [hc, ← hmin] at this
      exact this.symm

theorem cadence_frame (env : Env R) (hsort : ∀ l, ∀ q ∈ env.sort l, q ∈ l)
    (hnat : SortIgnoresTracks env) {m : Int} {sp su su' : PartialTracking R}
    (h : Cadence m sp su) (a : FrameArgs R) (hok : singleStrategy true m a)
    (hu : su.processFrameArgs env a = some su') :
    ∃ sp', sp.processFrameArgs env a = some sp' ∧ Cadence m sp' su' := by
  have hc : su.mCurrentFrame = sp.mCurrentFrame := by rw [h.same]
  have hu' : PartialTracking.processFrameArgs env { sp with mTracks := su.mTracks } a =
      some su' := by
    rw [← h.same]; exact hu
  obtain ⟨sp', hp, heq, hth⟩ := thinned_frame env hnat a (hok.1.mpr rfl) m h.thinned sp su'
    hc.symm hu'
  have hp' : sp.processFrameArgs env a = some sp' := hp
  obtain ⟨hfu, hsu⟩ := sound_step env hsort true m su su' a h.soundU hok hu
  obtain ⟨_, hsp⟩ := sound_step env hsort true m sp sp' a h.soundP hok hp'
  refine ⟨sp', hp', hsp, hsu, heq, ?_⟩
  rw [hfu.frame]
  exact hth

theorem cadence_prune {m : Int} {sp su : PartialTracking R} (h : Cadence m sp su) :
    Cadence m sp.prune su where
  soundP := sound_prune h.soundP
  soundU := h.soundU
  same := h.same
  thinned := by
    have hc : su.mCurrentFrame = sp.mCurrentFrame := by rw [h.same]
    refine thinned_trans (thinned_filter _ sp.mTracks ?_) h.thinned
    intro t ht hk
    have hp : pruneTest sp t = true := by simpa using hk
    unfold pruneTest at hp
    simp only [Bool.and_eq_true, decide_eq_true_eq] at hp
    have hmin : sp.mMinTrackLength = m := h.soundP.minLen (List.ne_nil_of_mem ht)
    refine ⟨?_, hp.1, ?_⟩
    · by_contra hact
      have := h.soundP.alive t ht (by simpa using hact)
      omega
    · rw [hc, ← hmin]
      exact hp.2

theorem cadence_run (env : Env R) (hsort : ∀ l, ∀ q ∈ env.sort l, q ∈ l)
    (hnat : SortIgnoresTracks env) (m : Int) :
    ∀ (calls : List (Call R)) (sp su : PartialTracking R), Cadence m sp su →
      (∀ a ∈ framesOf calls, singleStrategy true m a) →
      ∃ su' sp', su.runFrames env (framesOf calls) = some su' ∧
        sp.runCalls env calls = some sp' ∧ Cadence m sp' su' := by
  intro calls
  induction calls with
  | nil => intro sp su h _; exact ⟨su, sp, rfl, rfl, h⟩
  | cons call rest ih =>
    intro sp su h hok
    cases call with
    | frame a =>
      have ha : singleStrategy true m a := hok a (by simp [framesOf])
      obtain ⟨su1, hu1, _⟩ := greedy_step_isSome env hsort m su a h.soundU ha
      obtain ⟨sp1, hp1, h1⟩ := cadence_frame env hsort hnat h a ha hu1
      obtain ⟨su', sp', hu', hp', h'⟩ := ih sp1 su1 h1
        (fun b hb => hok b (by simp [framesOf, hb]))
      refine ⟨su', sp', ?_, ?_, h'⟩
      · simp only [framesOf, PartialTracking.runFrames, hu1, hu']
      · simp only [PartialTracking.runCalls, hp1, hp']
    | prune =>
      obtain ⟨su', sp', hu', hp', h'⟩ := ih sp.prune su (cadence_prune h)
        (fun b hb => hok b (by simpa [framesOf] using hb))
      exact ⟨su', sp', by simpa only [framesOf] using hu',
        by simpa only [PartialTracking.runCalls] using hp', h'⟩

/-- Claim C17. A greedy run after `init()` with the constant
`minTrackLength = m` (any `m`, in particular `m ≥ 1`): `calls` are its calls
of `processFrame` with calls of `prune()` at any positions, and
`framesOf calls` the same calls of `processFrame` without any `prune()`.  Both
runs return a state, and `getActivePeaks()` gives the same result in the two.
As `calls` is any list, this holds after every frame.  `std::sort` is taken to
return only candidates it was given and to move them according to the
comparisons of the costs alone. -/
theorem eviction_cadence_unobservable (env : Env R) (hsort : ∀ l, ∀ q ∈ env.sort l, q ∈ l)
    (hnat : SortIgnoresTracks env) (m : Int) (s0 : PartialTracking R) (calls : List (Call R))
    (hok : ∀ a ∈ framesOf calls, a.method = 0 ∧ a.minTrackLength = m) :
    ∃ su sp, s0.init.runFrames env (framesOf calls) = some su ∧
      s0.init.runCalls env calls = some sp ∧ sp.getActivePeaks = su.getActivePeaks := by
  obtain ⟨su, sp, hu, hp, h⟩ := cadence_run env hsort hnat m calls s0.init s0.init
    ⟨sound_init true m s0, sound_init true m s0, rfl, Thinned.refl _⟩
    (fun a ha => ⟨⟨fun _ => rfl, fun _ => (hok a ha).1⟩, (hok a ha).2⟩)
  exact ⟨su, sp, hu, hp, cadence_observed h⟩

end Cadence

section GreedyOrderWalk

variable {R : Type} [NatCast R] [Sub R] [Mul R] [LT R] [DecidableRel (LT.lt : R → R → Prop)]

/-! ### The order in which the greedy strategy accepts the pairings -/

/-- The loop over the pairings, walked in an order in which `rel` holds from
each pairing to the later ones: a pairing that passes the useful-vs-spurious
test, whose track and whose peak have their flags clear when the walk starts,
is accepted, or its track or its peak is in an accepted pairing that stands
before it. -/
theorem acceptedPairings_order (s : PartialTracking R)
    (rel : R × Nat × Nat → R × Nat × Nat → Prop) (order : List (R × Nat × Nat)) :
    ∀ (T : List (SineTrack R)) (P : List (SinePeak R)), order.Pairwise rel →
      ∀ q ∈ order, usefulVsSpurious s q.1 = true →
      (∃ track peak, T[q.2.1]? = some track ∧ track.assigned = false ∧
        P[q.2.2]? = some peak ∧ peak.assigned = false) →
      q ∈ acceptedPairings s (T, P) order ∨
      ∃ q' ∈ acceptedPairings s (T, P) order, (q'.2.1 = q.2.1 ∨ q'.2.2 = q.2.2) ∧ rel q' q := by
  induction order with
  | nil =>
    intro T P _ q hq
    simp at hq
  | cons x rest ih =>
    intro T P hpw q hq hu hfree
    obtain ⟨hx, hrest⟩ := List.pairwise_cons.mp hpw
    by_cases hacc : ∃ track peak, T[x.2.1]? = some track ∧ P[x.2.2]? = some peak ∧
        pairingTest s track peak x.1 = true
    · obtain ⟨track, peak, hT, hP, htest⟩ := hacc
      have hstep : acceptPairing s (T, P) x =
          (T.set x.2.1 { track with peaks := track.peaks ++ [peak], assigned := true },
           P.set x.2.2 { peak with assigned := true }) := by
        simp [acceptPairing, hT, hP, htest]
      have hA : acceptedPairings s (T, P) (x :: rest) =
          x :: acceptedPairings s (acceptPairing s (T, P) x) rest := by
        simp [acceptedPairings, hT, hP, htest]
      rw [hA, hstep]
      rcases List.mem_cons.mp hq with rfl | hq
      · exact Or.inl (List.mem_cons_self _ _)
      · by_cases hblock : x.2.1 = q.2.1 ∨ x.2.2 = q.2.2
        · exact Or.inr ⟨x, List.mem_cons_self _ _, hblock, hx q hq⟩
        · obtain ⟨track', peak', hT', ha', hP', hb'⟩ := hfree
          have hne1 : x.2.1 ≠ q.2.1 := fun h => hblock (Or.inl h)
          have hne2 : x.2.2 ≠ q.2.2 := fun h => hblock (Or.inr h)
          have hfree' : ∃ t p,
              (T.set x.2.1 { track with peaks := track.peaks ++ [peak], assigned := true })[q.2.1]? =
                some t ∧ t.assigned = false ∧
              (P.set x.2.2 { peak with assigned := true })[q.2.2]? = some p ∧
                p.assigned = false := by
            refine ⟨track', peak', ?_, ha', ?_, hb'⟩
            · rw [List.getElem?_set_ne hne1]; exact hT'
            · rw [List.getElem?_set_ne hne2]; exact hP'
          rcases ih _ _ hrest q hq hu hfree' with h | ⟨q', hq', hb, hr⟩
          · exact Or.inl (List.mem_cons_of_mem _ h)
          · exact Or.inr ⟨q', List.mem_cons_of_mem _ hq', hb, hr⟩
    · have hstep : acceptPairing s (T, P) x = (T, P) := by
        unfold acceptPairing
        split
        · rename_i track peak hT hP
          have : pairingTest s track peak x.1 = false := by
            by_contra hc
            exact hacc ⟨track, peak, hT, hP, by simpa using hc⟩
          simp [this]
        · rfl
      have hA : acceptedPairings s (T, P) (x :: rest) = acceptedPairings s (T, P) rest := by
        rw [acceptedPairings, hstep]
        split
        · rename_i track peak hT hP
          have : pairingTest s track peak x.1 = false := by
            by_contra hc
            exact hacc ⟨track, peak, hT, hP, by simpa using hc⟩
          simp [this]
        · rfl
      rw [hA]
      rcases List.mem_cons.mp hq with rfl | hq
      · exfalso
        obtain ⟨track', peak', hT', ha', hP', hb'⟩ := hfree
        exact hacc ⟨track', peak', hT', hP', by simp [pairingTest, ha', hb', hu]⟩
      · exact ih T P hrest q hq hu hfree

end GreedyOrderWalk

section GreedyOrder

variable {R : Type} [NatCast R] [OfScientific R] [Add R] [Sub R] [Mul R] [Div R] [Neg R]
  [LT R] [DecidableRel (LT.lt : R → R → Prop)] [BEq R]

/-- The greedy order when the peaks of the frame come with their flags clear
(`std::sort` returning the candidates it was given, all of them, in an order in
which no candidate is followed by a cheaper one): a candidate pairing that
passes the useful-vs-spurious test and is not accepted has its track or its
peak in an accepted pairing that is not more expensive; and when the first
candidate of the sorted list passes the test, it is accepted. -/
theorem greedy_order_clear_flags (env : Env R) (hsort : ∀ l, ∀ q ∈ env.sort l, q ∈ l)
    (hkeep : ∀ l, ∀ q ∈ l, q ∈ env.sort l)
    (hasc : ∀ l, (env.sort l).Pairwise (fun p q => ¬ q.1 < p.1))
    (s : PartialTracking R) (sinePeaks : List (SinePeak R))
    (hclear : ∀ peak ∈ sinePeaks, peak.assigned = false)
    (distances : List (R × Nat × Nat))
    (hd : trackDistances env s sinePeaks 0 (clearAssigned s.mTracks) = some distances) :
    (∀ q ∈ distances, usefulVsSpurious s q.1 = true → q ∉ greedyMatching env s sinePeaks →
      ∃ q' ∈ greedyMatching env s sinePeaks,
        (q'.2.1 = q.2.1 ∨ q'.2.2 = q.2.2) ∧ ¬ q.1 < q'.1) ∧
    (∀ x rest, env.sort distances = x :: rest → usefulVsSpurious s x.1 = true →
      x ∈ greedyMatching env s sinePeaks) := by
  have hfree : ∀ q ∈ distances, ∃ track peak, (clearAssigned s.mTracks)[q.2.1]? = some track ∧
      track.assigned = false ∧ sinePeaks[q.2.2]? = some peak ∧ peak.assigned = false := by
    intro q hq
    obtain ⟨_, track, back, peak, hT, _, _, hP, _⟩ :=
      trackDistances_mem env s sinePeaks _ 0 distances hd q hq
    rw [Nat.sub_zero] at hT
    refine ⟨track, peak, hT, ?_, hP, hclear peak (List.getElem?_mem hP)⟩
    simp only [clearAssigned, List.getElem?_map, Option.map_eq_some'] at hT
    obtain ⟨t0, _, rfl⟩ := hT
    rfl
  have hM : greedyMatching env s sinePeaks =
      acceptedPairings s (clearAssigned s.mTracks, sinePeaks) (env.sort distances) := by
    unfold greedyMatching
    rw [hd]
  rw [hM]
  constructor
  · intro q hq hu hnot
    rcases acceptedPairings_order s (fun p q => ¬ q.1 < p.1) (env.sort distances) _ _
      (hasc distances) q (hkeep _ q hq) hu (hfree q hq) with h | h
    · exact absurd h hnot
    · exact h
  · intro x rest hx hu
    have hmem : x ∈ env.sort distances := by rw [hx]; exact List.mem_cons_self _ _
    have hf := hfree x (hsort _ x hmem)
    rw [hx]
    obtain ⟨track, peak, hT, ha, hP, hb⟩ := hf
    have htest : pairingTest s track peak x.1 = true := by simp [pairingTest, ha, hb, hu]
    simp [acceptedPairings, hT, hP, htest]

end GreedyOrder

section AnyLatencyBase

variable {R : Type}

/-- The invariant does not depend on the stored `minTrackLength` beyond naming
it. -/
theorem sound_retarget {greedy : Bool} {m : Int} {s : PartialTracking R} (h : Sound greedy m s)
    (m' : Int) : Sound greedy m' { s with mMinTrackLength := m' } where
  initialized := h.initialized
  frame := h.frame
  minLen := fun _ => rfl
  idsNodup := h.idsNodup
  idsGiven := h.idsGiven
  alive := h.alive
  dead := h.dead
  history := h.history
  prev := fun hg =>
    { distinct := (h.prev hg).distinct
      active := (h.prev hg).active
      given := (h.prev hg).given
      idle := (h.prev hg).idle
      lastId := (h.prev hg).lastId
      sameLength := (h.prev hg).sameLength }

end AnyLatencyBase

section AnyLatency

variable {R : Type} [NatCast R] [OfScientific R] [Add R] [Sub R] [Mul R] [Div R] [Neg R]
  [LT R] [DecidableRel (LT.lt : R → R → Prop)] [BEq R]

/-! ### Runs of one strategy in which `minTrackLength` changes from call to call -/

/-- A call of `processFrame` overwrites the stored `minTrackLength` before it reads
it. -/
theorem processFrameArgs_minTrackLength (env : Env R) (s : PartialTracking R) (a : FrameArgs R)
    (m : Int) :
    ({ s with mMinTrackLength := m } : PartialTracking R).processFrameArgs env a =
      s.processFrameArgs env a := rfl

/-- A call of `processFrame` by the strategy of the run, whatever its
`minTrackLength`, meets `FrameSummary` and keeps the invariant. -/
theorem sound_step_any (env : Env R) (greedy : Bool)
    (hsort : greedy = true → ∀ l, ∀ q ∈ env.sort l, q ∈ l) (m : Int)
    (s s' : PartialTracking R) (a : FrameArgs R) (hs : Sound greedy m s)
    (hm : a.method = 0 ↔ greedy = true) (h : s.processFrameArgs env a = some s') :
    FrameSummary greedy a.minTrackLength s s' ∧ Sound greedy a.minTrackLength s' := by
  have hs' := sound_retarget hs a.minTrackLength
  have h' : ({ s with mMinTrackLength := a.minTrackLength } : PartialTracking R).processFrameArgs
      env a = some s' := h
  have key : FrameSummary greedy a.minTrackLength
      ({ s with mMinTrackLength := a.minTrackLength } : PartialTracking R) s' ∧
      Sound greedy a.minTrackLength s' := by
    cases greedy with
    | true =>
      have hf := frameSummary_greedy env (hsort rfl) a.minTrackLength _ s' a ⟨hm, rfl⟩ h'
      exact ⟨hf, sound_frame hs' hf (fun hg => by simp at hg)⟩
    | false =>
      obtain ⟨hf, hp⟩ := frameSummary_munkres env a.minTrackLength _ s' a hs' ⟨hm, rfl⟩ h'
      exact ⟨hf, sound_frame hs' hf (fun _ => hp)⟩
  exact ⟨⟨key.1.frame, key.1.minLen, key.1.initialized, key.1.nextId, key.1.tracks⟩, key.2⟩

/-- Every state of a run after `init()` that uses one strategy throughout
satisfies the invariant for the `minTrackLength` of its last call. -/
theorem sound_run_any (env : Env R) (greedy : Bool)
    (hsort : greedy = true → ∀ l, ∀ q ∈ env.sort l, q ∈ l) (ok : FrameArgs R → Prop)
    (hok : ∀ a, ok a → (a.method = 0 ↔ greedy = true)) (s0 : PartialTracking R)
    {s : PartialTracking R} (hrun : Run env ok s0.init s) : ∃ m, Sound greedy m s := by
  generalize hs : s0.init = start at hrun
  induction hrun with
  | refl =>
    subst hs
    exact ⟨0, sound_init greedy 0 s0⟩
  | frame a _ hoka hstep ih =>
    obtain ⟨m, hm⟩ := ih
    exact ⟨a.minTrackLength, (sound_step_any env greedy hsort m _ _ a hm (hok a hoka) hstep).2⟩
  | prune _ ih =>
    obtain ⟨m, hm⟩ := ih
    exact ⟨m, sound_prune hm⟩

/-- In a greedy run after `init()` of at most `2^31` frames, whatever the
`minTrackLength` of each call, the length of every history matches its
frames. -/
theorem lengthInv_run_any (env : Env R) (hsort : ∀ l, ∀ q ∈ env.sort l, q ∈ l)
    (ok : FrameArgs R → Prop) (hok : ∀ a, ok a → a.method = 0) (s0 : PartialTracking R)
    {s : PartialTracking R} (hrun : Run env ok s0.init s)
    (hframes : s.mCurrentFrame ≤ 2147483648) : LengthInv s := by
  generalize hs : s0.init = start at hrun
  induction hrun with
  | refl =>
    subst hs
    exact lengthInv_init s0
  | @frame s1 s2 a hprev hoka hstep ih =>
    subst hs
    obtain ⟨m, hm⟩ := sound_run_any env true (fun _ => hsort) ok
      (fun a ha => ⟨fun _ => rfl, fun _ => hok a ha⟩) s0 hprev
    have hf := (sound_step_any env true (fun _ => hsort) m _ _ a hm
      ⟨fun _ => rfl, fun _ => hok a hoka⟩ hstep).1
    have hfr := hf.frame
    refine lengthInv_frame (ih (by omega)) hf ?_
    have := hm.frame
    simp only [birthLength, birthFrame, if_true]
    rw [staticCastInt_eq (by omega) (by omega)]
    simp
  | prune _ ih => exact lengthInv_prune (ih hframes)

/-- The part of claim C27 that holds: in a run after `init()` that uses only the
greedy strategy, with `prune()` at arbitrary points and any `minTrackLength`
in each call, as long as the frame counter is at most `2^31` the history of a
dead track has `endFrame − startFrame` entries, that of a track that is alive
`currentFrame − startFrame`, and a dead track has `endFrame > startFrame`. -/
theorem greedy_history_lengths_before_wrap (env : Env R)
    (hsort : ∀ l, ∀ q ∈ env.sort l, q ∈ l) (s0 s : PartialTracking R)
    (hrun : Run env (fun a => a.method = 0) s0.init s)
    (hframes : s.mCurrentFrame ≤ 2147483648) :
    ∀ t ∈ s.mTracks,
      (t.active = true → (t.peaks.length : Int) = s.mCurrentFrame - t.startFrame) ∧
      (t.active = false → (t.peaks.length : Int) = t.endFrame - t.startFrame ∧
        0 ≤ t.endFrame ∧ t.startFrame < t.endFrame) := by
  have hl := lengthInv_run_any env hsort _ (fun _ h => h) s0 hrun hframes
  obtain ⟨m, hm⟩ := sound_run_any env true (fun _ => hsort) _
    (fun a ha => ⟨fun _ => rfl, fun _ => ha⟩) s0 hrun
  intro t ht
  obtain ⟨la, ld⟩ := hl t ht
  refine ⟨la, fun hd => ⟨ld hd, (hm.dead t ht hd).1, ?_⟩⟩
  have h1 := ld hd
  have h2 : 0 < t.peaks.length := List.length_pos.mpr (hm.history t ht)
  omega

/-- The part of claim C26 that holds: in a run after `init()` that uses only the
greedy strategy with `minTrackLength ≥ 1` in every call, with `prune()` at
arbitrary points, as long as the frame counter is at most `2^31` the call
`getActivePeaks()` returns, and the index
`currentFrame − minTrackLength − startFrame` at which it reads the history of a
reported track is not negative and is smaller than the length of that
history. -/
theorem getActivePeaks_in_range_before_wrap (env : Env R)
    (hsort : ∀ l, ∀ q ∈ env.sort l, q ∈ l) (s0 s : PartialTracking R)
    (hrun : Run env (fun a => a.method = 0 ∧ 1 ≤ a.minTrackLength) s0.init s)
    (hframes : s.mCurrentFrame ≤ 2147483648) :
    (∃ out, s.getActivePeaks = some out) ∧
    ∀ t ∈ s.mTracks, surfaced s t →
      0 ≤ s.mCurrentFrame - s.mMinTrackLength - t.startFrame ∧
      s.mCurrentFrame - s.mMinTrackLength - t.startFrame < (t.peaks.length : Int) := by
  have hl := lengthInv_run_any env hsort _ (fun _ h => h.1) s0 hrun hframes
  have hm : ∃ m, Sound true m s ∧ 1 ≤ m := by
    clear hl hframes
    generalize hs : s0.init = start at hrun
    induction hrun with
    | refl =>
      subst hs
      exact ⟨1, sound_init true 1 s0, le_refl _⟩
    | frame a _ hoka hstep ih =>
      obtain ⟨m, hm, _⟩ := ih
      exact ⟨a.minTrackLength, (sound_step_any env true (fun _ => hsort) m _ _ a hm
        ⟨fun _ => rfl, fun _ => hoka.1⟩ hstep).2, hoka.2⟩
    | prune _ ih =>
      obtain ⟨m, hm, h1⟩ := ih
      exact ⟨m, sound_prune hm, h1⟩
  obtain ⟨m, hm, hm1⟩ := hm
  have hidx : ∀ t ∈ s.mTracks, surfaced s t →
      0 ≤ s.mCurrentFrame - s.mMinTrackLength - t.startFrame ∧
      s.mCurrentFrame - s.mMinTrackLength - t.startFrame < (t.peaks.length : Int) := by
    intro t ht hsurf
    have hmin := hm.minLen (List.ne_nil_of_mem ht)
    obtain ⟨s1, s2, s3⟩ := hsurf
    unfold PartialTracking.latencyFrame at s1 s2
    unfold SineTrack.endUnset at s2 s3
    obtain ⟨la, ld⟩ := hl t ht
    refine ⟨by omega, ?_⟩
    by_cases hact : t.active = true
    · have := la hact
      omega
    · have hact' : t.active = false := by simpa using hact
      have := ld hact'
      have := hm.dead t ht hact'
      omega
  refine ⟨?_, hidx⟩
  by_cases hL : 0 ≤ s.latencyFrame
  · refine getActivePeaks_isSome s hL (fun t ht hsurf => ?_)
    obtain ⟨h0, h1⟩ := hidx t ht hsurf
    refine ⟨_, List.getElem?_eq_getElem ?_⟩
    unfold PartialTracking.latencyFrame
    omega
  · refine ⟨[], ?_⟩
    unfold PartialTracking.latencyFrame at hL
    unfold PartialTracking.getActivePeaks
    simp only [show s.mCurrentFrame - s.mMinTrackLength < 0 by omega, if_true]

end AnyLatency

section SlotsBase

variable {R : Type}

/-! ### The binding that a frame of the solver-based strategy leaves -/

theorem getElem?_set_self_imp {α : Type} {l : List α} {i : Nat} {a b : α}
    (h : (l.set i a)[i]? = some b) : b = a := by
  by_cases hlt : i < l.length
  · rw [List.getElem?_set_self hlt] at h
    exact (Option.some.inj h).symm
  · rw [List.getElem?_eq_none (by rw [List.length_set]; omega)] at h
    cases h

theorem slotsBound_bind {st : MunkresLoop R} (h : SlotsBound st) (p : Nat) (v : Int)
    (q : SinePeak R) (tracks : List (SineTrack R))
    (hkeep : ∀ w, (∃ t ∈ st.tracks, t.trackId = w) → ∃ t ∈ tracks, t.trackId = w)
    (hv : ∃ t ∈ tracks, t.trackId = v) (last : Int) :
    SlotsBound { tracks := tracks, sinePeaks := st.sinePeaks.set p { q with assigned := true },
                 trackAssignment := st.trackAssignment.set p v, lastTrackId := last } := by
  intro p' v' hv' hpos
  by_cases hp : p = p'
  · subst hp
    have hvv : v' = v := getElem?_set_self_imp hv'
    subst hvv
    refine ⟨hv, fun q' hq' => ?_⟩
    have : q' = { q with assigned := true } := getElem?_set_self_imp hq'
    rw [this]
  · have hv'' : st.trackAssignment[p']? = some v' := by
      rw [← List.getElem?_set_ne hp]; exact hv'
    obtain ⟨h1, h2⟩ := h p' v' hv'' hpos
    refine ⟨hkeep v' h1, fun q' hq' => h2 q' ?_⟩
    rw [← List.getElem?_set_ne hp]; exact hq'

theorem slotsBound_extend {st st' : MunkresLoop R} (h : SlotsBound st) (k : Int) (p : Nat)
    (hst : extendTracks st k p = some st') : SlotsBound st' := by
  unfold extendTracks at hst
  cases hq : st.sinePeaks[p]? with
  | none => simp [hq] at hst
  | some q =>
    simp only [hq] at hst
    by_cases hany : (st.tracks.any fun t => t.trackId == k) = true
    · simp only [hany, if_true, Option.some.injEq] at hst
      subst hst
      have hkeep : ∀ w, (∃ t ∈ st.tracks, t.trackId = w) →
          ∃ t ∈ st.tracks.map (fun t => if t.trackId == k then
            { t with assigned := true, peaks := t.peaks ++ [{ q with assigned := true }] }
            else t), t.trackId = w := by
        rintro w ⟨t, ht, hw⟩
        refine ⟨_, List.mem_map.mpr ⟨t, ht, rfl⟩, ?_⟩
        split <;> exact hw
      refine slotsBound_bind h p k q _ hkeep (hkeep k ?_) _
      obtain ⟨t, ht, hk⟩ := List.any_eq_true.mp hany
      exact ⟨t, ht, by simpa using hk⟩
    · simp only [hany, Bool.false_eq_true, if_false, Option.some.injEq] at hst
      subst hst
      exact h

theorem slotsBound_birth [Sub R] (s : PartialTracking R) {st st' : MunkresLoop R}
    (h : SlotsBound st) (prev : SinePeak R) (p : Nat)
    (hst : birthFromPair s st prev p = some st') : SlotsBound st' := by
  unfold birthFromPair at hst
  cases hq : st.sinePeaks[p]? with
  | none => simp [hq] at hst
  | some q =>
    simp only [hq, Option.some.injEq] at hst
    subst hst
    refine slotsBound_bind h p (st.lastTrackId + 1) q _ ?_ ?_ _
    · rintro w ⟨t, ht, hw⟩
      exact ⟨t, List.mem_append_left _ ht, hw⟩
    · exact ⟨_, List.mem_append_right _ (List.mem_singleton.mpr rfl), rfl⟩

end SlotsBase

section SolverRuns

variable {R : Type} [NatCast R] [OfScientific R] [Add R] [Sub R] [Mul R] [Div R] [Neg R]
  [LT R] [DecidableRel (LT.lt : R → R → Prop)] [BEq R]

theorem slotsBound_row (env : Env R) (s : PartialTracking R) (sinePeaks : List (SinePeak R))
    (assignment : Nat → Int) {st st' : MunkresLoop R} (h : SlotsBound st) (i : Nat)
    (hrow : munkresRow env s sinePeaks assignment st i = some st') : SlotsBound st' := by
  unfold munkresRow at hrow
  cases hprev : s.mPrevPeaks[i]? with
  | none => simp [hprev] at hrow
  | some prev =>
    simp only [hprev] at hrow
    split at hrow
    · simp only [Option.some.injEq] at hrow; subst hrow; exact h
    · split at hrow
      · simp at hrow
      · cases hpk : sinePeaks[(assignment i).toNat]? with
        | none => simp [hpk] at hrow
        | some peak =>
          simp only [hpk] at hrow
          split at hrow
          · cases hk : s.mPrevTracks[i]? with
            | none => simp [hk] at hrow
            | some k =>
              simp only [hk] at hrow
              split at hrow
              · exact slotsBound_extend h _ _ hrow
              · split at hrow
                · exact slotsBound_birth s h _ _ hrow
                · simp only [Option.some.injEq] at hrow; subst hrow; exact h
          · simp only [Option.some.injEq] at hrow; subst hrow; exact h

theorem slotsBound_rows (env : Env R) (s : PartialTracking R) (sinePeaks : List (SinePeak R))
    (assignment : Nat → Int) :
    ∀ (rows : List Nat) (st st' : MunkresLoop R), SlotsBound st →
      munkresRows env s sinePeaks assignment rows st = some st' → SlotsBound st' := by
  intro rows
  induction rows with
  | nil =>
    intro st st' h hrows
    simp only [munkresRows, Option.some.injEq] at hrows
    subst hrows; exact h
  | cons i rest ih =>
    intro st st' h hrows
    rw [munkresRows] at hrows
    cases hrow : munkresRow env s sinePeaks assignment st i with
    | none => simp [hrow] at hrows
    | some st1 =>
      simp only [hrow] at hrows
      exact ih st1 st' (slotsBound_row env s sinePeaks assignment h i hrow) hrows

theorem slotsBound_start (tracks : List (SineTrack R)) (sinePeaks : List (SinePeak R))
    (last : Int) :
    SlotsBound { tracks := tracks, sinePeaks := sinePeaks,
                 trackAssignment := List.replicate sinePeaks.length (-1), lastTrackId := last } := by
  intro p v hv hpos
  have := List.getElem?_mem hv
  rw [List.mem_replicate] at this
  omega

theorem mem_dyingTracks_of {f : Int} {tracks : List (SineTrack R)} {w : Int}
    (h : ∃ t ∈ tracks, t.trackId = w) : ∃ t ∈ dyingTracks f tracks, t.trackId = w := by
  obtain ⟨t, ht, hw⟩ := h
  refine ⟨_, List.mem_map.mpr ⟨t, ht, rfl⟩, ?_⟩
  split <;> exact hw

/-- A call of `assignMunkres` that returns leaves every stored peak that it
binds to a track bound to a track of the collection, with its flag set. -/
theorem boundTracks_assignMunkres (env : Env R) (c c' : PartialTracking R)
    (sinePeaks : List (SinePeak R)) (maxAmp : R)
    (h : c.assignMunkres env sinePeaks maxAmp = some c') : BoundTracks c' := by
  unfold PartialTracking.assignMunkres at h
  by_cases hempty : c.mPrevPeaks.isEmpty = true
  · simp only [hempty, if_true, Option.some.injEq] at h
    subst h
    constructor
    · intro i k hk hpos
      have := List.getElem?_mem hk
      simp only [List.mem_replicate] at this
      omega
    · intro i k prev hk hpos
      have := List.getElem?_mem hk
      simp only [List.mem_replicate] at this
      omega
  · simp only [hempty, Bool.false_eq_true, if_false] at h
    have hfinish : ∀ st : MunkresLoop R, SlotsBound st →
        BoundTracks { c with
          mTracks := dyingTracks c.mCurrentFrame st.tracks
          mLastTrackId := st.lastTrackId
          mPrevTracks := st.trackAssignment
          mPrevPeaks := st.sinePeaks
          mPrevMaxAmp := maxAmp } := by
      intro st hst
      exact
        { present := fun i k hk hpos => mem_dyingTracks_of (hst i k hk hpos).1
          flagged := fun i k prev hk hpos hprev => (hst i k hk hpos).2 prev hprev }
    by_cases hM : sinePeaks.length > 0
    · simp only [hM, if_true] at h
      cases hrows : munkresRows env c sinePeaks
          (env.munkres c.mPrevPeaks.length sinePeaks.length (costMatrix env c sinePeaks))
          (List.range c.mPrevPeaks.length)
          { tracks := clearAssigned c.mTracks, sinePeaks := sinePeaks,
            trackAssignment := List.replicate sinePeaks.length (-1),
            lastTrackId := c.mLastTrackId } with
      | none => simp [hrows] at h
      | some st =>
        simp only [hrows, Option.some.injEq] at h
        subst h
        exact hfinish st (slotsBound_rows env c sinePeaks _ _ _ _ (slotsBound_start _ _ _) hrows)
    · simp only [hM, if_false, Option.some.injEq] at h
      subst h
      exact hfinish _ (slotsBound_start _ _ _)

/-- A call of `processFrame` that selects the solver-based strategy and returns
leaves every stored peak that it binds to a track bound to a track of the
collection, with its flag set. -/
theorem boundTracks_frame (env : Env R) (s s' : PartialTracking R) (a : FrameArgs R)
    (hm : a.method ≠ 0) (h : s.processFrameArgs env a = some s') : BoundTracks s' := by
  by_cases hinit : s.mInitialized = true
  · rw [processFrameArgs_eq env s a hinit, if_neg hm] at h
    simp only [Option.map_eq_some'] at h
    obtain ⟨s3, hg, rfl⟩ := h
    have hb := boundTracks_assignMunkres env _ s3 a.peaks a.maxAmp hg
    exact ⟨hb.present, hb.flagged⟩
  · simp [PartialTracking.processFrameArgs, PartialTracking.processFrame, hinit] at h

/-- Every state of a run after `init()` that uses only the solver-based strategy
(with `prune()` at arbitrary points and any `minTrackLength` in each call)
satisfies the invariant of the single-strategy runs, and the stored peaks that
are bound to a track are bound to a track of the collection. -/
theorem solver_run_bound (env : Env R) (s0 : PartialTracking R) {s : PartialTracking R}
    (hrun : Run env (fun a => a.method ≠ 0) s0.init s) :
    (∃ m, Sound false m s) ∧ BoundTracks s := by
  refine ⟨sound_run_any env false (fun h => by simp at h) _
    (fun a ha => ⟨fun h => absurd h ha, fun h => by simp at h⟩) s0 hrun, ?_⟩
  generalize hs : s0.init = start at hrun
  induction hrun with
  | refl =>
    subst hs
    exact ⟨fun i k hk => by simp [PartialTracking.init] at hk,
      fun i k prev hk => by simp [PartialTracking.init] at hk⟩
  | frame a _ hoka hstep _ => exact boundTracks_frame env _ _ a hoka hstep
  | @prune s1 hprev ih =>
    subst hs
    obtain ⟨m, hm⟩ := sound_run_any env false (fun h => by simp at h) _
      (fun a ha => ⟨fun h => absurd h ha, fun h => by simp at h⟩) s0 hprev
    refine ⟨fun i k hk hpos => ?_, ih.flagged⟩
    obtain ⟨t, ht, hid⟩ := ih.present i k hk hpos
    have hact := (hm.prev rfl).active i k hk hpos t ht hid
    have hend := hm.alive t ht hact
    exact ⟨t, mem_prune_of ht (by omega), hid⟩

end SolverRuns

section SolverExtensions

variable {R : Type} [NatCast R] [OfScientific R] [Add R] [Sub R] [Mul R] [Div R] [Neg R]
  [LT R] [DecidableRel (LT.lt : R → R → Prop)] [BEq R]

/-! ### The extensions of a frame of the solver-based strategy -/

/-- The condition `pairExtendTest` spelled out. -/
theorem pairExtendTest_iff (env : Env R) (s : PartialTracking R) (sinePeaks : List (SinePeak R))
    (assignment : Nat → Int) (i : Nat) :
    pairExtendTest env s sinePeaks assignment i = true ↔
      ∃ prev k peak, s.mPrevPeaks[i]? = some prev ∧ s.mPrevTracks[i]? = some k ∧
        0 ≤ assignment i ∧ assignment i < (sinePeaks.length : Int) ∧
        sinePeaks[(assignment i).toNat]? = some peak ∧
        usefulEntry env s prev peak = true ∧ 0 < k := by
  unfold pairExtendTest
  cases hprev : s.mPrevPeaks[i]? with
  | none => simp
  | some prev =>
    cases hk : s.mPrevTracks[i]? with
    | none => simp
    | some k =>
      simp only
      by_cases hcond : assignment i < 0 ∨ assignment i ≥ (sinePeaks.length : Int)
      · rw [if_pos hcond]
        constructor
        · intro h; cases h
        · rintro ⟨_, _, _, _, _, h0, hM, _⟩
          omega
      · rw [if_neg hcond]
        cases hpeak : sinePeaks[(assignment i).toNat]? with
        | none => simp
        | some peak =>
          simp only [Bool.and_eq_true, decide_eq_true_eq, gt_iff_lt, Option.some.injEq]
          constructor
          · rintro ⟨h1, h2⟩
            exact ⟨prev, k, peak, rfl, rfl, by omega, by omega, rfl, h1, h2⟩
          · rintro ⟨prev', k', peak', rfl, rfl, _, _, rfl, h1, h2⟩
            exact ⟨h1, h2⟩

theorem extendStep_skip {env : Env R} {s : PartialTracking R} {sinePeaks : List (SinePeak R)}
    {assignment : Nat → Int} {done : List Nat} {t0 t : SineTrack R} (i : Nat)
    (hnot : pairExtendTest env s sinePeaks assignment i = true →
      s.mPrevTracks[i]? ≠ some t0.trackId)
    (h : ExtendStep env s sinePeaks assignment done t0 t) :
    ExtendStep env s sinePeaks assignment (done ++ [i]) t0 t := by
  obtain ⟨hid, hcase⟩ := h
  refine ⟨hid, ?_⟩
  rcases hcase with ⟨hno, hp⟩ | ⟨j, hj, rest⟩
  · refine Or.inl ⟨fun j hj hext => ?_, hp⟩
    rcases List.mem_append.mp hj with hj | hj
    · exact hno j hj hext
    · rw [List.mem_singleton.mp hj] at hext ⊢
      exact hnot hext
  · exact Or.inr ⟨j, List.mem_append_left _ hj, rest⟩

/-- A row that does not meet `pairExtendTest` and leaves the tracks of the
collection as they are keeps the invariant. -/
theorem extendInv_skip {env : Env R} {s : PartialTracking R} {sinePeaks : List (SinePeak R)}
    {assignment : Nat → Int} {done : List Nat} {st : MunkresLoop R}
    (h : ExtendInv env s sinePeaks assignment done st) (i : Nat)
    (htest : pairExtendTest env s sinePeaks assignment i = false) :
    ExtendInv env s sinePeaks assignment (done ++ [i]) st where
  tracks := by
    obtain ⟨olds, news, hst, hold, hnew⟩ := h.tracks
    refine ⟨olds, news, hst, forall₂_imp_of_mem (fun t0 _ t ht => ?_) hold, hnew⟩
    exact extendStep_skip i (fun hext => by rw [htest] at hext; cases hext) ht
  lastId := h.lastId

/-- The branch that creates a track keeps the invariant. -/
theorem extendInv_birth {env : Env R} {s : PartialTracking R} {sinePeaks : List (SinePeak R)}
    {assignment : Nat → Int} {done : List Nat} {st st' : MunkresLoop R}
    (h : ExtendInv env s sinePeaks assignment done st) (i : Nat)
    (htest : pairExtendTest env s sinePeaks assignment i = false) (prev : SinePeak R) (p : Nat)
    (hst' : birthFromPair s st prev p = some st') :
    ExtendInv env s sinePeaks assignment (done ++ [i]) st' := by
  unfold birthFromPair at hst'
  cases hq : st.sinePeaks[p]? with
  | none => simp [hq] at hst'
  | some q =>
    simp only [hq, Option.some.injEq] at hst'
    subst hst'
    obtain ⟨olds, news, hst, hold, hnew⟩ := (extendInv_skip h i htest).tracks
    have hl := h.lastId
    refine ⟨⟨olds, news ++ [SineTrack.mk [prev, q] (s.mCurrentFrame - 1) (-1) true true
      (st.lastTrackId + 1)], ?_, hold, ?_⟩, ?_⟩
    · show st.tracks ++ _ = _
      rw [hst, List.append_assoc]
    · intro n hn
      rcases List.mem_append.mp hn with hn | hn
      · exact hnew n hn
      · rw [List.mem_singleton.mp hn]
        show s.mLastTrackId < st.lastTrackId + 1
        omega
    · show s.mLastTrackId ≤ st.lastTrackId + 1
      omega

/-- The branch that extends the track bound to the previous peak keeps the
invariant: the track of the collection with the id `k` receives the current
peak of the row. -/
theorem extendInv_extend {env : Env R} {s : PartialTracking R} {sinePeaks : List (SinePeak R)}
    {assignment : Nat → Int} {done : List Nat} {st st' : MunkresLoop R}
    (h : ExtendInv env s sinePeaks assignment done st)
    (hpair : PairInv env s sinePeaks assignment done st)
    (hdistinct : ∀ (i₁ i₂ : Nat) (k : Int), i₁ ≠ i₂ →
      s.mPrevTracks[i₁]? = some k → s.mPrevTracks[i₂]? = some k → k ≤ 0)
    (hgiven : ∀ (i : Nat) (k : Int), s.mPrevTracks[i]? = some k → k ≤ s.mLastTrackId)
    (i : Nat) (hdone : ∀ j ∈ done, j < i) (k : Int) (hk : s.mPrevTracks[i]? = some k)
    (hkpos : 0 < k) (hext : pairExtendTest env s sinePeaks assignment i = true)
    (hfresh : ∀ j ∈ done, (assignment j).toNat ≠ (assignment i).toNat)
    (hpresent : ∃ t ∈ s.mTracks, t.trackId = k)
    (hst' : extendTracks st k (assignment i).toNat = some st') :
    ExtendInv env s sinePeaks assignment (done ++ [i]) st' := by
  unfold extendTracks at hst'
  cases hq : st.sinePeaks[(assignment i).toNat]? with
  | none => simp [hq] at hst'
  | some q =>
    simp only [hq] at hst'
    obtain ⟨peak, hpeak, _, _, hsame⟩ := hpair.peaks _ q hq
    have hqp : q = peak := hsame hfresh
    subst hqp
    by_cases hany : (st.tracks.any fun t => t.trackId == k) = true
    · simp only [hany, if_true, Option.some.injEq] at hst'
      subst hst'
      obtain ⟨olds, news, hst, hold, hnew⟩ := h.tracks
      have hk' := hgiven i k hk
      have hnews : ∀ n ∈ news, (if n.trackId == k then
          { n with assigned := true, peaks := n.peaks ++ [{ q with assigned := true }] }
          else n) = n := by
        intro n hn
        have := hnew n hn
        have : ¬ (n.trackId = k) := by omega
        simp [this]
      refine ⟨⟨olds.map (fun t => if t.trackId == k then
            { t with assigned := true, peaks := t.peaks ++ [{ q with assigned := true }] }
            else t), news, ?_, ?_, hnew⟩, h.lastId⟩
      · show List.map _ st.tracks = _
        rw [hst, List.map_append, List.map_congr_left hnews, List.map_id']
      · rw [List.forall₂_map_right_iff]
        refine forall₂_imp_of_mem ?_ hold
        intro t0 _ t hstep
        by_cases hid : t.trackId = k
        · have hid0 : t0.trackId = k := by rw [← hstep.1]; exact hid
          simp only [hid, beq_self_eq_true, if_true]
          refine ⟨hstep.1.symm ▸ hid ▸ rfl, Or.inr ⟨i, by simp, hext, by rw [hid0]; exact hk,
            q, hpeak, ?_⟩⟩
          rcases hstep.2 with ⟨_, hp⟩ | ⟨j, hj, _, hkj, _⟩
          · show t.peaks ++ _ = _
            rw [hp]
          · exfalso
            rw [hid0] at hkj
            have := hdistinct j i k (by have := hdone j hj; omega) hkj hk
            omega
        · have hne : ¬ ((t.trackId == k) = true) := by simpa using hid
          rw [if_neg hne]
          refine extendStep_skip i (fun _ heq => ?_) hstep
          rw [hk] at heq
          apply hid
          rw [hstep.1]
          exact (Option.some.inj heq).symm
    · exfalso
      apply hany
      obtain ⟨olds, news, hst, hold, _⟩ := h.tracks
      obtain ⟨t0, ht0, hid0⟩ := hpresent
      obtain ⟨t, ht, hstep⟩ := forall₂_mem_left hold t0 ht0
      rw [List.any_eq_true]
      refine ⟨t, by rw [hst]; exact List.mem_append_left _ ht, ?_⟩
      rw [hstep.1, hid0]
      exact beq_self_eq_true k

/-- One turn of the loop over the rows keeps the invariant, when the solver's
result for the row is not the column of an earlier row. -/
theorem extendInv_row (env : Env R) {s : PartialTracking R} {sinePeaks : List (SinePeak R)}
    (assignment : Nat → Int) {done : List Nat} {st st' : MunkresLoop R}
    (h : ExtendInv env s sinePeaks assignment done st)
    (hpair : PairInv env s sinePeaks assignment done st) (hb : BoundTracks s)
    (hdistinct : ∀ (i₁ i₂ : Nat) (k : Int), i₁ ≠ i₂ →
      s.mPrevTracks[i₁]? = some k → s.mPrevTracks[i₂]? = some k → k ≤ 0)
    (hgiven : ∀ (i : Nat) (k : Int), s.mPrevTracks[i]? = some k → k ≤ s.mLastTrackId)
    (i : Nat) (hdone : ∀ j ∈ done, j < i)
    (hfresh : assignment i < (sinePeaks.length : Int) →
      ∀ j ∈ done, (assignment j).toNat ≠ (assignment i).toNat)
    (hrow : munkresRow env s sinePeaks assignment st i = some st') :
    ExtendInv env s sinePeaks assignment (done ++ [i]) st' := by
  unfold munkresRow at hrow
  cases hprev : s.mPrevPeaks[i]? with
  | none => simp [hprev] at hrow
  | some prev =>
    simp only [hprev] at hrow
    by_cases hge : assignment i ≥ (sinePeaks.length : Int)
    · rw [if_pos hge] at hrow
      cases hrow
      refine extendInv_skip h i ?_
      rw [Bool.eq_false_iff]
      intro hx
      obtain ⟨_, _, _, _, _, _, hM, _⟩ := (pairExtendTest_iff env s sinePeaks assignment i).mp hx
      omega
    · rw [if_neg hge] at hrow
      by_cases hneg : assignment i < 0
      · rw [if_pos hneg] at hrow
        cases hrow
      · rw [if_neg hneg] at hrow
        cases hpk : sinePeaks[(assignment i).toNat]? with
        | none => simp [hpk] at hrow
        | some peak =>
          simp only [hpk] at hrow
          by_cases hu : usefulEntry env s prev peak = true
          · simp only [hu, if_true] at hrow
            cases hk : s.mPrevTracks[i]? with
            | none => simp [hk] at hrow
            | some k =>
              simp only [hk] at hrow
              by_cases hc : (decide (k > 0) && prev.assigned) = true
              · rw [if_pos hc] at hrow
                simp only [Bool.and_eq_true, decide_eq_true_eq, gt_iff_lt] at hc
                exact extendInv_extend h hpair hdistinct hgiven i hdone k hk hc.1
                  ((pairExtendTest_iff env s sinePeaks assignment i).mpr
                    ⟨prev, k, peak, hprev, hk, by omega, by omega, hpk, hu, hc.1⟩)
                  (hfresh (by omega)) (hb.present i k hk hc.1) hrow
              · rw [if_neg hc] at hrow
                have hnot : pairExtendTest env s sinePeaks assignment i = false := by
                  rw [Bool.eq_false_iff]
                  intro hx
                  obtain ⟨prev', k', _, hp', hk', _, _, _, _, hpos⟩ :=
                    (pairExtendTest_iff env s sinePeaks assignment i).mp hx
                  rw [hprev] at hp'
                  rw [hk] at hk'
                  cases hp'
                  cases hk'
                  apply hc
                  simp only [Bool.and_eq_true, decide_eq_true_eq, gt_iff_lt]
                  exact ⟨hpos, hb.flagged i k prev hk hpos hprev⟩
                by_cases hbirth : (decide (prev.logMag > s.birthThreshold env prev s.mPrevMaxAmp) &&
                    !prev.assigned) = true
                · rw [if_pos hbirth] at hrow
                  exact extendInv_birth h i hnot prev _ hrow
                · rw [if_neg hbirth] at hrow
                  cases hrow
                  exact extendInv_skip h i hnot
          · simp only [hu, Bool.false_eq_true, if_false] at hrow
            cases hrow
            refine extendInv_skip h i ?_
            rw [Bool.eq_false_iff]
            intro hx
            obtain ⟨prev', _, peak', hp', _, _, _, hpk', hu', _⟩ :=
              (pairExtendTest_iff env s sinePeaks assignment i).mp hx
            rw [hprev] at hp'
            rw [hpk] at hpk'
            cases hp'
            cases hpk'
            exact hu hu'

/-- The loop over the rows returns and keeps both invariants, when the solver's
results are not negative and no two rows are given the same column. -/
theorem extendInv_rows (env : Env R) {s : PartialTracking R} {sinePeaks : List (SinePeak R)}
    (assignment : Nat → Int) (hpb : PrevBound s) (hb : BoundTracks s)
    (hdistinct : ∀ (i₁ i₂ : Nat) (k : Int), i₁ ≠ i₂ →
      s.mPrevTracks[i₁]? = some k → s.mPrevTracks[i₂]? = some k → k ≤ 0)
    (hcols : ∀ j, j < s.mPrevPeaks.length → 0 ≤ assignment j)
    (hinj : ∀ i j, i < s.mPrevPeaks.length → j < s.mPrevPeaks.length → i ≠ j →
      assignment i < (sinePeaks.length : Int) → assignment i ≠ assignment j) :
    ∀ (rows done : List Nat) (st : MunkresLoop R),
      PairInv env s sinePeaks assignment done st →
      ExtendInv env s sinePeaks assignment done st → rows.Pairwise (fun i j => i < j) →
      (∀ i ∈ rows, i < s.mPrevPeaks.length) → (∀ j ∈ done, ∀ i ∈ rows, j < i) →
      ∃ st', munkresRows env s sinePeaks assignment rows st = some st' ∧
        PairInv env s sinePeaks assignment (done ++ rows) st' ∧
        ExtendInv env s sinePeaks assignment (done ++ rows) st' := by
  intro rows
  induction rows with
  | nil =>
    intro done st h he _ _ _
    exact ⟨st, rfl, by simpa using h, by simpa using he⟩
  | cons i rest ih =>
    intro done st h he hpw hlt hdone
    have hi := hlt i (List.mem_cons_self _ _)
    have hdi : ∀ j ∈ done, j < i := fun j hj => hdone j hj i (List.mem_cons_self _ _)
    obtain ⟨st1, hrow, h1⟩ := pairInv_row env assignment h hpb i hi hdi
      (fun j hj => hcols j (by omega))
    have he1 := extendInv_row env assignment he h hb hdistinct hpb.given i hdi
      (fun hM j hj => by
        have hji := hdi j hj
        have h1 := hinj i j hi (by omega) (by omega) hM
        have h2 := hcols j (by omega)
        have h3 := hcols i hi
        omega) hrow
    obtain ⟨st', hrows, h', he'⟩ := ih (done ++ [i]) st1 h1 he1 (List.pairwise_cons.mp hpw).2
      (fun j hj => hlt j (List.mem_cons_of_mem _ hj))
      (by
        intro j hj i' hi'
        rcases List.mem_append.mp hj with hj | hj
        · exact hdone j hj i' (List.mem_cons_of_mem _ hi')
        · rw [List.mem_singleton.mp hj]
          exact (List.pairwise_cons.mp hpw).1 i' hi')
    refine ⟨st', ?_, ?_, ?_⟩
    · rw [munkresRows, hrow]
      exact hrows
    · rw [List.append_assoc] at h'
      exact h'
    · rw [List.append_assoc] at he'
      exact he'

theorem getElem?_dyingTracks (f : Int) (tracks : List (SineTrack R)) (idx : Nat)
    (t : SineTrack R) (h : tracks[idx]? = some t) :
    ∃ t', (dyingTracks f tracks)[idx]? = some t' ∧ t'.trackId = t.trackId ∧
      t'.peaks = t.peaks := by
  unfold dyingTracks
  rw [List.getElem?_map, h]
  refine ⟨_, rfl, ?_, ?_⟩
  · simp only []; split <;> rfl
  · simp only []; split <;> rfl

/-- What the loop over the rows has done to the tracks of the collection once
every row that meets `pairExtendTest` is processed, after the loop headed
`// diying tracks`. -/
theorem extendInv_dying {env : Env R} {s : PartialTracking R} {sinePeaks : List (SinePeak R)}
    {assignment : Nat → Int} {done : List Nat} {st : MunkresLoop R}
    (h : ExtendInv env s sinePeaks assignment done st)
    (hall : ∀ i, pairExtendTest env s sinePeaks assignment i = true → i ∈ done)
    (f : Int) (idx : Nat) (t0 : SineTrack R) (ht0 : s.mTracks[idx]? = some t0) :
    ∃ t', (dyingTracks f st.tracks)[idx]? = some t' ∧ t'.trackId = t0.trackId ∧
      (((∀ i, pairExtendTest env s sinePeaks assignment i = true →
          s.mPrevTracks[i]? ≠ some t0.trackId) ∧ t'.peaks = t0.peaks) ∨
       (∃ i, pairExtendTest env s sinePeaks assignment i = true ∧
          s.mPrevTracks[i]? = some t0.trackId ∧
          ∃ peak, sinePeaks[(assignment i).toNat]? = some peak ∧
            t'.peaks = t0.peaks ++ [{ peak with assigned := true }])) := by
  obtain ⟨olds, news, hst, hold, _⟩ := h.tracks
  have hlen := hold.length_eq
  have hidx : idx < olds.length := by
    rw [← hlen]; exact (List.getElem?_eq_some.mp ht0).1
  have ht : st.tracks[idx]? = some olds[idx] := by
    rw [hst, List.getElem?_append_left hidx, List.getElem?_eq_getElem hidx]
  obtain ⟨t', ht', hid', hp'⟩ := getElem?_dyingTracks f st.tracks idx _ ht
  have hstep : ExtendStep env s sinePeaks assignment done t0 olds[idx] := by
    have := List.forall₂_iff_get.mp hold
    have h2 := this.2 idx (by rw [hlen]; exact hidx) hidx
    have h3 : s.mTracks.get ⟨idx, by rw [hlen]; exact hidx⟩ = t0 := by
      have := List.getElem?_eq_some.mp ht0
      exact this.2
    rw [h3] at h2
    exact h2
  refine ⟨t', ht', by rw [hid', hstep.1], ?_⟩
  rcases hstep.2 with ⟨hno, hp⟩ | ⟨i, _, hext, hk, peak, hpeak, hp⟩
  · exact Or.inl ⟨fun i hext => hno i (hall i hext) hext, by rw [hp', hp]⟩
  · exact Or.inr ⟨i, hext, hk, peak, hpeak, by rw [hp', hp]⟩

/-- The tracks created by the loop over the rows, read after the tracks that the
collection held. -/
theorem pairInv_dying_drop {env : Env R} {s : PartialTracking R} {sinePeaks : List (SinePeak R)}
    {assignment : Nat → Int} {done : List Nat} {st : MunkresLoop R}
    (h : PairInv env s sinePeaks assignment done st) :
    List.Forall₂ (fun i n => PairBirth s sinePeaks assignment i n)
      (done.filter (pairBirthTest env s sinePeaks assignment))
      ((dyingTracks s.mCurrentFrame st.tracks).drop s.mTracks.length) := by
  obtain ⟨olds, news, hd, hold, hnew⟩ := pairInv_dying h
  rw [hd, hold.length_eq, List.drop_left]
  exact hnew

/-- A call of `assignMunkres` in a state in which the stored peaks bound to a
track are bound to one track of the collection each, when the solver gives no
negative result and no column to two rows: the call returns; a track of the
collection to which no row that meets `pairExtendTest` is bound keeps its
history, the others receive the current peak of their row; and the tracks that
follow them are the tracks created, one for each row that meets
`pairBirthTest`. -/
theorem assignMunkres_extends (env : Env R) (c : PartialTracking R)
    (sinePeaks : List (SinePeak R)) (maxAmp : R) (solver : Nat → Int)
    (hsolver : solver =
      env.munkres c.mPrevPeaks.length sinePeaks.length (costMatrix env c sinePeaks))
    (hpb : PrevBound c) (hb : BoundTracks c)
    (hdistinct : ∀ (i₁ i₂ : Nat) (k : Int), i₁ ≠ i₂ →
      c.mPrevTracks[i₁]? = some k → c.mPrevTracks[i₂]? = some k → k ≤ 0)
    (hcols : ∀ j, j < c.mPrevPeaks.length → 0 ≤ solver j)
    (hinj : ∀ i j, i < c.mPrevPeaks.length → j < c.mPrevPeaks.length → i ≠ j →
      solver i < (sinePeaks.length : Int) → solver i ≠ solver j) :
    ∃ c', c.assignMunkres env sinePeaks maxAmp = some c' ∧
      (∀ (idx : Nat) (t0 : SineTrack R), c.mTracks[idx]? = some t0 →
        ∃ t' : SineTrack R, c'.mTracks[idx]? = some t' ∧ t'.trackId = t0.trackId ∧
          (((∀ i, pairExtendTest env c sinePeaks solver i = true →
              c.mPrevTracks[i]? ≠ some t0.trackId) ∧ t'.peaks = t0.peaks) ∨
           (∃ i, pairExtendTest env c sinePeaks solver i = true ∧
              c.mPrevTracks[i]? = some t0.trackId ∧
              ∃ peak, sinePeaks[(solver i).toNat]? = some peak ∧
                t'.peaks = t0.peaks ++ [{ peak with assigned := true }]))) ∧
      List.Forall₂ (fun i n => PairBirth c sinePeaks solver i n)
        ((List.range c.mPrevPeaks.length).filter (pairBirthTest env c sinePeaks solver))
        (c'.mTracks.drop c.mTracks.length) := by
  subst hsolver
  unfold PartialTracking.assignMunkres
  by_cases hempty : c.mPrevPeaks.isEmpty = true
  · have hnil : c.mPrevPeaks = [] := List.isEmpty_iff.mp hempty
    simp only [hempty, if_true]
    refine ⟨_, rfl, ?_, ?_⟩
    · intro idx t0 ht0
      refine ⟨{ t0 with assigned := false }, ?_, rfl, Or.inl ⟨?_, rfl⟩⟩
      · show (clearAssigned c.mTracks)[idx]? = _
        unfold clearAssigned
        rw [List.getElem?_map, ht0]
        rfl
      · intro i hext
        obtain ⟨prev, _, _, hprev, _⟩ := (pairExtendTest_iff env c sinePeaks _ i).mp hext
        rw [hnil] at hprev
        simp at hprev
    · show List.Forall₂ _ _ ((clearAssigned c.mTracks).drop c.mTracks.length)
      rw [hnil]
      have : (clearAssigned c.mTracks).drop c.mTracks.length = [] := by
        apply List.drop_eq_nil_of_le
        simp [clearAssigned]
      rw [this]
      exact List.Forall₂.nil
  · simp only [hempty, Bool.false_eq_true, if_false]
    have hstart := pairInv_start env c hpb sinePeaks
      (env.munkres c.mPrevPeaks.length sinePeaks.length (costMatrix env c sinePeaks))
    have hestart : ExtendInv env c sinePeaks
        (env.munkres c.mPrevPeaks.length sinePeaks.length (costMatrix env c sinePeaks)) []
        { tracks := clearAssigned c.mTracks, sinePeaks := sinePeaks,
          trackAssignment := List.replicate sinePeaks.length (-1),
          lastTrackId := c.mLastTrackId } := by
      refine ⟨⟨clearAssigned c.mTracks, [], by simp, ?_, by simp⟩, le_refl _⟩
      unfold clearAssigned
      rw [List.forall₂_map_right_iff, List.forall₂_same]
      intro t _
      exact ⟨rfl, Or.inl ⟨by simp, rfl⟩⟩
    by_cases hM : sinePeaks.length > 0
    · simp only [hM, if_true]
      obtain ⟨st', hrows, hinv, hext⟩ := extendInv_rows env
        (env.munkres c.mPrevPeaks.length sinePeaks.length (costMatrix env c sinePeaks)) hpb hb
        hdistinct hcols hinj (List.range c.mPrevPeaks.length) [] _ hstart hestart
        (List.pairwise_lt_range _) (fun i hi => List.mem_range.mp hi) (fun j hj => by simp at hj)
      rw [hrows]
      rw [List.nil_append] at hinv hext
      refine ⟨_, rfl, ?_, pairInv_dying_drop hinv⟩
      intro idx t0 ht0
      refine extendInv_dying hext ?_ _ idx t0 ht0
      intro i hx
      obtain ⟨prev, _, _, hprev, _⟩ := (pairExtendTest_iff env c sinePeaks _ i).mp hx
      rw [List.mem_range]
      exact (List.getElem?_eq_some.mp hprev).1
    · simp only [hM, if_false]
      have hlen : sinePeaks.length = 0 := by omega
      have hnoext : ∀ i, pairExtendTest env c sinePeaks
          (env.munkres c.mPrevPeaks.length sinePeaks.length (costMatrix env c sinePeaks)) i =
            true → i ∈ ([] : List Nat) := by
        intro i hx
        obtain ⟨_, _, _, _, _, h0, hlt, _⟩ := (pairExtendTest_iff env c sinePeaks _ i).mp hx
        have hz : (sinePeaks.length : Int) = 0 := by rw [hlen]; rfl
        omega
      have hfilter : ([] : List Nat).filter (pairBirthTest env c sinePeaks
          (env.munkres c.mPrevPeaks.length sinePeaks.length (costMatrix env c sinePeaks))) =
          (List.range c.mPrevPeaks.length).filter (pairBirthTest env c sinePeaks
            (env.munkres c.mPrevPeaks.length sinePeaks.length (costMatrix env c sinePeaks))) := by
        symm
        rw [List.filter_nil, List.filter_eq_nil_iff]
        intro i _
        simp only [pairBirthTest, Bool.not_eq_true]
        cases c.mPrevPeaks[i]? with
        | none => rfl
        | some prev =>
          simp only
          rw [if_pos (by rw [hlen]; omega)]
      refine ⟨_, rfl, ?_, ?_⟩
      · intro idx t0 ht0
        exact extendInv_dying hestart hnoext _ idx t0 ht0
      · rw [← hfilter]
        exact pairInv_dying_drop hstart

theorem nodup_map_getElem?_inj {α β : Type} {l : List α} {f : α → β} (h : (l.map f).Nodup)
    {i j : Nat} {a b : α} (hi : l[i]? = some a) (hj : l[j]? = some b) (hab : f a = f b) :
    i = j := by
  have key : ∀ (i j : Nat) (a b : α), i < j → l[i]? = some a → l[j]? = some b → f a ≠ f b := by
    intro i j a b hij hi hj heq
    have hjl : j < (l.map f).length := by
      rw [List.length_map]; exact (List.getElem?_eq_some.mp hj).1
    have := (List.nodup_iff_getElem?_ne_getElem?.mp h) i j hij hjl
    rw [List.getElem?_map, List.getElem?_map, hi, hj] at this
    exact this (by simp [heq])
  rcases lt_trichotomy i j with hlt | heq | hgt
  · exact absurd hab (key i j a b hlt hi hj)
  · exact heq
  · exact absurd hab.symm (key j i b a hgt hj hi)

/-- Claim C24. In a state reached after `init()` by calls of `processFrame` that
all select the solver-based strategy (with `prune()` at arbitrary points), a
further such call, for which the solver gives no negative result and gives no
column of the matrix to two rows, returns, and:
every row `i` that meets `pairExtendTest` (useful match, previous peak bound to
the track `k = mPrevTracks[i] > 0`) appends the current peak matched to it,
flagged, to the history of the track with the id `k`, which is at one position
of the collection only;
every track that the collection held keeps its history or receives one peak,
the current peak of a row that meets `pairExtendTest` and is bound to it;
the tracks that follow are the tracks created, one for each row that meets
`pairBirthTest`, in order, with the history `[previous peak, current peak]`;
two different rows that extend a track or create one use different current
peaks, two different rows that meet `pairExtendTest` are bound to different
tracks, and no row does both. -/
theorem solver_frame_is_injective (env : Env R) (s0 s c : PartialTracking R) (a : FrameArgs R)
    (solver : Nat → Int) (hrun : Run env (fun b => b.method ≠ 0) s0.init s)
    (hm : a.method ≠ 0) (hc : c = s.configureArgs env a)
    (hsolver : solver =
      env.munkres s.mPrevPeaks.length a.peaks.length (costMatrix env c a.peaks))
    (hvalid : ∀ i, i < s.mPrevPeaks.length → 0 ≤ solver i)
    (hinj : ∀ i j, i < s.mPrevPeaks.length → j < s.mPrevPeaks.length → i ≠ j →
      solver i < (a.peaks.length : Int) → solver i ≠ solver j) :
    ∃ s', s.processFrameArgs env a = some s' ∧
      (∀ i, pairExtendTest env c a.peaks solver i = true →
        ∃ (k : Int) (peak : SinePeak R) (idx : Nat) (t t' : SineTrack R),
          s.mPrevTracks[i]? = some k ∧ a.peaks[(solver i).toNat]? = some peak ∧
          s.mTracks[idx]? = some t ∧ t.trackId = k ∧
          (∀ (idx2 : Nat) (t2 : SineTrack R), s.mTracks[idx2]? = some t2 → t2.trackId = k →
            idx2 = idx) ∧
          s'.mTracks[idx]? = some t' ∧
          t'.peaks = t.peaks ++ [{ peak with assigned := true }]) ∧
      (∀ (idx : Nat) (t : SineTrack R), s.mTracks[idx]? = some t →
        ∃ t' : SineTrack R, s'.mTracks[idx]? = some t' ∧
          (t'.peaks = t.peaks ∨
           ∃ (i : Nat) (peak : SinePeak R), pairExtendTest env c a.peaks solver i = true ∧
             s.mPrevTracks[i]? = some t.trackId ∧ a.peaks[(solver i).toNat]? = some peak ∧
             t'.peaks = t.peaks ++ [{ peak with assigned := true }])) ∧
      List.Forall₂
        (fun i n => ∃ prev peak, s.mPrevPeaks[i]? = some prev ∧
          a.peaks[(solver i).toNat]? = some peak ∧ n.peaks = [prev, peak])
        ((List.range s.mPrevPeaks.length).filter (pairBirthTest env c a.peaks solver))
        (s'.mTracks.drop s.mTracks.length) ∧
      (∀ i j, (pairExtendTest env c a.peaks solver i = true ∨
            pairBirthTest env c a.peaks solver i = true) →
          (pairExtendTest env c a.peaks solver j = true ∨
            pairBirthTest env c a.peaks solver j = true) →
          i ≠ j → solver i ≠ solver j) ∧
      (∀ i j, pairExtendTest env c a.peaks solver i = true →
          pairExtendTest env c a.peaks solver j = true → i ≠ j →
          s.mPrevTracks[i]? ≠ s.mPrevTracks[j]?) ∧
      (∀ i, ¬ (pairExtendTest env c a.peaks solver i = true ∧
          pairBirthTest env c a.peaks solver i = true)) := by
  obtain ⟨⟨m, hsound⟩, hbt⟩ := solver_run_bound env s0 hrun
  have hpb := (prevBound_run env _ s0 hrun).1
  obtain ⟨hT, hC, hL, _, hP, hPT, _⟩ := configureArgs_fields env s a
  rw [← hc] at hT hC hL hP hPT
  have hpbc : PrevBound c := by rw [hc]; exact prevBound_configureArgs env s a hpb
  have hbtc : BoundTracks c :=
    { present := by rw [hPT, hT]; exact hbt.present
      flagged := by rw [hPT, hP]; exact hbt.flagged }
  have hdist : ∀ (i₁ i₂ : Nat) (k : Int), i₁ ≠ i₂ →
      c.mPrevTracks[i₁]? = some k → c.mPrevTracks[i₂]? = some k → k ≤ 0 := by
    rw [hPT]; exact (hsound.prev rfl).distinct
  have hacts : ∀ i, (pairExtendTest env c a.peaks solver i = true ∨
      pairBirthTest env c a.peaks solver i = true) →
      i < s.mPrevPeaks.length ∧ 0 ≤ solver i ∧ solver i < (a.peaks.length : Int) := by
    intro i hi
    rcases hi with hx | hx
    · obtain ⟨prev, _, _, hprev, _, h0, hM, _⟩ := (pairExtendTest_iff env c a.peaks solver i).mp hx
      rw [hP] at hprev
      exact ⟨(List.getElem?_eq_some.mp hprev).1, h0, hM⟩
    · obtain ⟨prev, _, hprev, h0, hM, _⟩ := (pairBirthTest_iff env c a.peaks solver i).mp hx
      rw [hP] at hprev
      exact ⟨(List.getElem?_eq_some.mp hprev).1, h0, hM⟩
  obtain ⟨c', hc', hold, hnew⟩ := assignMunkres_extends env c a.peaks a.maxAmp solver
    (by rw [hP]; exact hsolver) hpbc hbtc hdist (by rw [hP]; exact hvalid)
    (by rw [hP]; exact hinj)
  rw [hT] at hold hnew
  rw [hPT] at hold
  rw [hP] at hnew
  refine ⟨{ c' with mCurrentFrame := c'.mCurrentFrame + 1 }, ?_, ?_, ?_, ?_, ?_, ?_, ?_⟩
  · rw [processFrameArgs_eq env s a hsound.initialized, if_neg hm, ← hc, hc']
    rfl
  · intro i hext
    obtain ⟨prev, k, peak, hprev, hk, h0, hM, hpeak, _, hkpos⟩ :=
      (pairExtendTest_iff env c a.peaks solver i).mp hext
    rw [hPT] at hk
    obtain ⟨t, ht, hid⟩ := hbt.present i k hk hkpos
    obtain ⟨idx, hidx⟩ := List.getElem?_of_mem ht
    obtain ⟨t', ht', _, hcase⟩ := hold idx t hidx
    refine ⟨k, peak, idx, t, t', hk, hpeak, hidx, hid, ?_, ht', ?_⟩
    · intro idx2 t2 h2 hid2
      exact nodup_map_getElem?_inj hsound.idsNodup h2 hidx (by rw [hid2, hid])
    · rcases hcase with ⟨hno, _⟩ | ⟨j, hj, hkj, peak', hpeak', hp⟩
      · exact absurd (by rw [hid]; exact hk) (hno i hext)
      · have hji : j = i := by
          by_contra hne
          rw [hid] at hkj
          have := (hsound.prev rfl).distinct j i k hne hkj hk
          omega
        subst hji
        rw [hpeak] at hpeak'
        cases hpeak'
        exact hp
  · intro idx t hidx
    obtain ⟨t', ht', _, hcase⟩ := hold idx t hidx
    refine ⟨t', ht', ?_⟩
    rcases hcase with ⟨_, hp⟩ | ⟨j, hj, hkj, peak, hpeak, hp⟩
    · exact Or.inl hp
    · exact Or.inr ⟨j, peak, hj, hkj, hpeak, hp⟩
  · refine forall₂_imp_of_mem ?_ hnew
    rintro i hi n ⟨prev, peak, q, p1, p2, p3, _, _, p6, _⟩
    rw [hP] at p1
    refine ⟨prev, peak, p1, p2, ?_⟩
    obtain ⟨hrange, htest⟩ := List.mem_filter.mp hi
    obtain ⟨hiN, _, hiM⟩ := hacts i (Or.inr htest)
    have hq : q = peak := p6 (fun j hj heq => hinj i j hiN (by omega) (by omega) hiM heq.symm)
    rw [p3, hq]
  · intro i j hi hj hne
    obtain ⟨hiN, _, hiM⟩ := hacts i hi
    obtain ⟨hjN, _, _⟩ := hacts j hj
    exact hinj i j hiN hjN hne hiM
  · intro i j hi hj hne heq
    obtain ⟨_, k, _, _, hk, _, _, _, _, hkpos⟩ := (pairExtendTest_iff env c a.peaks solver i).mp hi
    obtain ⟨_, k', _, _, hk', _, _, _, _, _⟩ := (pairExtendTest_iff env c a.peaks solver j).mp hj
    rw [hPT] at hk hk'
    rw [hk, hk'] at heq
    cases heq
    have := (hsound.prev rfl).distinct i j k hne hk hk'
    omega
  · rintro i ⟨hx, hb⟩
    obtain ⟨prev, k, _, hprev, hk, _, _, _, _, hkpos⟩ :=
      (pairExtendTest_iff env c a.peaks solver i).mp hx
    obtain ⟨prev', _, hprev', _, _, _, _, hclear, _⟩ :=
      (pairBirthTest_iff env c a.peaks solver i).mp hb
    rw [hprev] at hprev'
    cases hprev'
    have := hbtc.flagged i k prev hk hkpos hprev
    rw [this] at hclear
    cases hclear

end SolverExtensions

section StoredFrame

variable {R : Type} [NatCast R] [OfScientific R] [Add R] [Sub R] [Mul R] [Div R] [Neg R]
  [LT R] [DecidableRel (LT.lt : R → R → Prop)] [BEq R]

/-! ### The frame that `assignMunkres` stores for the next call -/

/-- What a call of `assignMunkres` that returns stores of the frame: when there
are stored peaks, the peak list of the frame (with the flags that the loop has
set) and the maximum of the frame; when there are none (early return), the
peak list of the frame, while the stored maximum is left as it was. -/
theorem assignMunkres_stored_frame (env : Env R) (c c' : PartialTracking R)
    (sinePeaks : List (SinePeak R)) (maxAmp : R)
    (h : c.assignMunkres env sinePeaks maxAmp = some c') :
    (c.mPrevPeaks ≠ [] → c'.mPrevMaxAmp = maxAmp ∧
      c'.mPrevPeaks.length = sinePeaks.length) ∧
    (c.mPrevPeaks = [] → c'.mPrevMaxAmp = c.mPrevMaxAmp ∧ c'.mPrevPeaks = sinePeaks) := by
  unfold PartialTracking.assignMunkres at h
  by_cases hempty : c.mPrevPeaks.isEmpty = true
  · have hnil : c.mPrevPeaks = [] := List.isEmpty_iff.mp hempty
    simp only [hempty, if_true, Option.some.injEq] at h
    subst h
    exact ⟨fun hne => absurd hnil hne, fun _ => ⟨rfl, rfl⟩⟩
  · have hne : c.mPrevPeaks ≠ [] := fun hnil => hempty (List.isEmpty_iff.mpr hnil)
    simp only [hempty, Bool.false_eq_true, if_false] at h
    refine ⟨fun _ => ?_, fun hnil => absurd hnil hne⟩
    by_cases hM : sinePeaks.length > 0
    · simp only [hM, if_true] at h
      cases hrows : munkresRows env c sinePeaks
          (env.munkres c.mPrevPeaks.length sinePeaks.length (costMatrix env c sinePeaks))
          (List.range c.mPrevPeaks.length)
          { tracks := clearAssigned c.mTracks, sinePeaks := sinePeaks,
            trackAssignment := List.replicate sinePeaks.length (-1),
            lastTrackId := c.mLastTrackId } with
      | none => simp [hrows] at h
      | some st =>
        simp only [hrows, Option.some.injEq] at h
        subst h
        exact ⟨rfl, munkresRows_sinePeaks_length env c sinePeaks _ _ _ _ hrows⟩
    · simp only [hM, if_false, Option.some.injEq] at h
      subst h
      exact ⟨rfl, rfl⟩

end StoredFrame

section UnboundRows

variable {R : Type} [NatCast R] [OfScientific R] [Add R] [Sub R] [Mul R] [Div R] [Neg R]
  [LT R] [DecidableRel (LT.lt : R → R → Prop)] [BEq R]

/-- The part of claim C12 that holds. When the flag of every stored peak is set
exactly when `mPrevTracks` binds the peak to a track (`FlagsBound`, which holds
in every state reached after `init()` by calls whose peaks come with their flag
clear), a call of `processFrame` that selects the solver-based strategy, the
solver giving no negative result, returns, and the tracks it creates are one
for each row `i` that the solver matches to a column `p` such that the pair is
useful, `mPrevTracks[i]` binds the previous peak to no track (entry `≤ 0`) and
its `logMag` exceeds the birth threshold; the track has the history
`[previous peak i, current peak p]`, `startFrame = currentFrame − 1`, no end
frame, and is active. -/
theorem solver_births_from_unbound_rows (env : Env R) (s c : PartialTracking R)
    (a : FrameArgs R) (solver : Nat → Int) (hc : c = s.configureArgs env a)
    (hsolver : solver =
      env.munkres s.mPrevPeaks.length a.peaks.length (costMatrix env c a.peaks))
    (hm : a.method ≠ 0) (hinit : s.mInitialized = true) (hb : PrevBound s)
    (hf : FlagsBound s) (hcols : ∀ i, i < s.mPrevPeaks.length → 0 ≤ solver i) :
    ∃ (s' : PartialTracking R) (olds news : List (SineTrack R)) (rows : List Nat),
      s.processFrameArgs env a = some s' ∧ s'.mTracks = olds ++ news ∧
      List.Forall₂ (fun t t' => t'.trackId = t.trackId ∧ t'.startFrame = t.startFrame)
        s.mTracks olds ∧
      rows.Pairwise (fun i j => i < j) ∧
      (∀ i, i ∈ rows ↔
        ∃ prev peak, s.mPrevPeaks[i]? = some prev ∧ 0 ≤ solver i ∧
          solver i < (a.peaks.length : Int) ∧ a.peaks[(solver i).toNat]? = some peak ∧
          usefulCost env c prev peak < spuriousCost env c prev peak ∧
          (∀ k, s.mPrevTracks[i]? = some k → k ≤ 0) ∧
          prev.logMag > c.birthThreshold env prev c.mPrevMaxAmp) ∧
      List.Forall₂
        (fun i n => ∃ prev peak q, s.mPrevPeaks[i]? = some prev ∧
          a.peaks[(solver i).toNat]? = some peak ∧ n.peaks = [prev, q] ∧
          q.freq = peak.freq ∧ q.logMag = peak.logMag ∧
          ((∀ j, j < i → solver j ≠ solver i) → q = peak) ∧
          n.startFrame = s.mCurrentFrame - 1 ∧ n.endFrame = -1 ∧ n.active = true)
        rows news := by
  obtain ⟨s', olds, news, rows, h1, h2, h3, h4, h5, h6⟩ :=
    solver_births_from_agreeing_pairs env s c a solver hc hsolver hm hinit hb hcols
  refine ⟨s', olds, news, rows, h1, h2, h3, h4, ?_, h6⟩
  intro i
  rw [h5 i]
  have hflag : ∀ prev, s.mPrevPeaks[i]? = some prev →
      (prev.assigned = false ↔ ∀ k, s.mPrevTracks[i]? = some k → k ≤ 0) := by
    intro prev hprev
    have := hf i prev hprev
    constructor
    · intro hclear k hk
      by_contra hpos
      have : prev.assigned = true := this.mpr ⟨k, hk, by omega⟩
      rw [hclear] at this
      cases this
    · intro hno
      cases hpa : prev.assigned with
      | false => rfl
      | true =>
        obtain ⟨k, hk, hpos⟩ := this.mp hpa
        have := hno k hk
        omega
  constructor
  · rintro ⟨prev, peak, p1, p2, p3, p4, p5, p6, p7⟩
    exact ⟨prev, peak, p1, p2, p3, p4, p5, (hflag prev p1).mp p6, p7⟩
  · rintro ⟨prev, peak, p1, p2, p3, p4, p5, p6, p7⟩
    exact ⟨prev, peak, p1, p2, p3, p4, p5, (hflag prev p1).mpr p6, p7⟩

end UnboundRows

section WorkedExample

/-! ### The worked example over the reals -/


theorem realEnv_exp (x : ℝ) : realEnv.exp x = Real.exp x := rfl
theorem realEnv_log (x : ℝ) : realEnv.log x = Real.log x := rfl
theorem realEnv_pow (x y : ℝ) : realEnv.pow x y = x ^ y := rfl
theorem realEnv_abs (x : ℝ) : realEnv.abs x = |x| := rfl
theorem realEnv_sort_nil : realEnv.sort [] = [] := rfl
theorem realEnv_sort_singleton (q : ℝ × Nat × Nat) : realEnv.sort [q] = [q] := rfl
theorem realEnv_munkres (N M : Nat) (cost : List (List ℝ)) (i : Nat) :
    realEnv.munkres N M cost i = if i < M then (i : Int) else (M : Int) := rfl

theorem realEnv_sort_mem (l : List (ℝ × Nat × Nat)) : ∀ q ∈ realEnv.sort l, q ∈ l := by
  intro q hq
  exact (List.perm_insertionSort _ l).subset hq

/-- The fields of the configured state of the worked example. -/
theorem exampleCfg_fields (m : Int) :
    (exampleCfg m).mInitialized = true ∧ (exampleCfg m).mMinTrackLength = m ∧
    (exampleCfg m).mCurrentFrame = 0 ∧ (exampleCfg m).mTracks = [] ∧
    (exampleCfg m).mPrevPeaks = [] ∧ (exampleCfg m).mPrevTracks = [] ∧
    (exampleCfg m).mLastTrackId = 1 ∧ (exampleCfg m).mPrevMaxAmp = 0 ∧
    (exampleCfg m).mBirthLowThreshold = -24 ∧ (exampleCfg m).mBirthHighThreshold = -60 ∧
    (exampleCfg m).mBirthRange = 36 ∧
    (exampleCfg m).mZetaA = 1 ∧ (exampleCfg m).mZetaF = 1 ∧ (exampleCfg m).mDelta = 1 / 2 := by
  simp only [exampleCfg, PartialTracking.configureArgs, PartialTracking.configure, exampleArgs,
    exampleInit, PartialTracking.init, PartialTracking.fresh]
  norm_num [PartialTracking.updateVariances]

/-- Storing the configuration of the worked example again changes nothing. -/
theorem configureArgs_example (m method : Int) (peaks : List (SinePeak ℝ)) (s : PartialTracking ℝ)
    (h1 : s.mMinTrackLength = m) (h2 : s.mBirthLowThreshold = -24)
    (h3 : s.mBirthHighThreshold = -60) (h4 : s.mBirthRange = 36) (h5 : s.mZetaA = 1)
    (h6 : s.mZetaF = 1) (h7 : s.mDelta = 1 / 2) :
    s.configureArgs realEnv (exampleArgs method m peaks) = s := by
  have hc : ¬ (((1 : ℝ) != s.mZetaA || (1 : ℝ) != s.mZetaF || (1 / 2 : ℝ) != s.mDelta) = true) := by
    simp [h5, h6, h7]
  simp only [PartialTracking.configureArgs, PartialTracking.configure, exampleArgs]
  rw [if_neg hc]
  apply PartialTracking.ext <;> first | rfl | exact h1.symm | exact h2.symm | exact h3.symm | (rw [h4]; norm_num)


theorem example_birth (s : PartialTracking ℝ) (maxAmp : ℝ) (h2 : s.mBirthLowThreshold = -24)
    (h4 : s.mBirthRange = 36) (hmax : maxAmp < 14) :
    examplePeak.logMag > s.birthThreshold realEnv examplePeak maxAmp := by
  simp only [PartialTracking.birthThreshold, h2, h4, realEnv_pow]
  have h1 : (0.0075 : ℝ) ^ (examplePeak.freq / 20000.0) ≤ 1 := by
    apply Real.rpow_le_one <;> norm_num [examplePeak]
  have h2 : examplePeak.logMag = -10 := rfl
  rw [h2]
  linarith

theorem example_useful (s : PartialTracking ℝ) (h7 : s.mDelta = 1 / 2) :
    usefulVsSpurious s (greedyDist realEnv s examplePeak examplePeak) = true := by
  simp only [usefulVsSpurious, greedyDist, h7, realEnv_pow, realEnv_exp, sub_self]
  norm_num

theorem example_step1 (m : Int) :
    (exampleCfg m).processFrameArgs realEnv (exampleArgs 0 m [examplePeak]) =
      some (greedyState1 m) := by
  obtain ⟨f1, f2, f3, f4, f5, f6, f7, f8, f9, f10, f11, f12, f13, f14⟩ := exampleCfg_fields m
  rw [processFrameArgs_eq _ _ _ f1,
    configureArgs_example m 0 _ _ f2 f9 f10 f11 f12 f13 f14]
  have hb := example_birth (exampleCfg m) (-10) f9 f11 (by norm_num)
  have e1 : (exampleArgs 0 m [examplePeak]).method = 0 := rfl
  have e3 : (exampleArgs 0 m [examplePeak]).peaks = [examplePeak] := rfl
  have e4 : (exampleArgs 0 m [examplePeak]).maxAmp = -10 := rfl
  have e5 : examplePeak.assigned = false := rfl
  simp only [e1, e3, e4, if_true, PartialTracking.assignGreedy, f4, clearAssigned, List.map_nil,
    trackDistances, realEnv_sort_nil, List.foldl_nil, List.foldl_cons, birthStep, e5, hb,
    Bool.not_false, Bool.true_and, decide_True, if_true, dyingTracks, List.nil_append,
    List.map_cons, List.map_nil, Option.map_some', f3, f7, staticCastInt, greedyState1]
  simp


theorem greedyState1_fields (m : Int) :
    (greedyState1 m).mInitialized = true ∧ (greedyState1 m).mMinTrackLength = m ∧
    (greedyState1 m).mBirthLowThreshold = -24 ∧ (greedyState1 m).mBirthHighThreshold = -60 ∧
    (greedyState1 m).mBirthRange = 36 ∧
    (greedyState1 m).mZetaA = 1 ∧ (greedyState1 m).mZetaF = 1 ∧ (greedyState1 m).mDelta = 1 / 2 := by
  obtain ⟨f1, f2, f3, f4, f5, f6, f7, f8, f9, f10, f11, f12, f13, f14⟩ := exampleCfg_fields m
  exact ⟨f1, f2, f9, f10, f11, f12, f13, f14⟩

theorem example_step2 (m : Int) :
    (greedyState1 m).processFrameArgs realEnv (exampleArgs 0 m [examplePeak]) =
      some (greedyState2 m) := by
  obtain ⟨f1, f2, f9, f10, f11, f12, f13, f14⟩ := greedyState1_fields m
  rw [processFrameArgs_eq _ _ _ f1,
    configureArgs_example m 0 _ _ f2 f9 f10 f11 f12 f13 f14]
  have hu := example_useful (greedyState1 m) f14
  have e1 : (exampleArgs 0 m [examplePeak]).method = 0 := rfl
  have e3 : (exampleArgs 0 m [examplePeak]).peaks = [examplePeak] := rfl
  have e4 : (exampleArgs 0 m [examplePeak]).maxAmp = -10 := rfl
  have e5 : examplePeak.assigned = false := rfl
  have eT : (greedyState1 m).mTracks =
      ([⟨[examplePeak], 0, -1, true, true, 1⟩] : List (SineTrack ℝ)) := rfl
  have eC : (greedyState1 m).mCurrentFrame = 1 := rfl
  have eL : (greedyState1 m).mLastTrackId = 2 := rfl
  simp only [e1, e3, e4, if_true, PartialTracking.assignGreedy, eT, clearAssigned, List.map_cons, List.map_nil,
    trackDistances, peakDistances, List.getLast?_singleton, List.append_nil, realEnv_sort_singleton,
    List.foldl_nil, List.foldl_cons, acceptPairing, List.getElem?_cons_zero, pairingTest, hu, e5,
    Bool.not_false, Bool.true_and, Bool.and_self, if_true, List.set_cons_zero, birthStep,
    Bool.not_true, Bool.false_and, Bool.false_eq_true, if_false, dyingTracks, List.singleton_append,
    Option.map_some', greedyState2, Bool.and_false]
  apply congrArg some
  apply PartialTracking.ext <;> rfl


/-- Witness of claim C4: in `greedyState1 15` the frame counter is 1 and
`minTrackLength` is 15. -/
theorem getActivePeaks_empty_before_latency_witness :
    (greedyState1 15).mCurrentFrame < (greedyState1 15).mMinTrackLength ∧
    (greedyState1 15).getActivePeaks = some [] :=
  ⟨by rw [(greedyState1_fields 15).2.1]; decide,
   getActivePeaks_empty_before_latency (greedyState1 15)
     (by rw [(greedyState1_fields 15).2.1]; decide)⟩

theorem greedyState1_hist (m : Int) :
    ∀ t ∈ (greedyState1 m).mTracks, t.active = true → t.peaks ≠ [] := by
  intro t ht _
  simp only [greedyState1, List.mem_singleton] at ht
  subst ht
  simp

theorem greedyState1_end (m : Int) :
    ∀ t ∈ (greedyState1 m).mTracks, t.active = true → t.endUnset := by
  intro t ht _
  simp only [greedyState1, List.mem_singleton] at ht
  subst ht
  simp [SineTrack.endUnset]

/-- Witness of claim C7: a greedy frame holding `examplePeak` in the state
`greedyState1 1`. -/
theorem greedy_matching_injective_witness :
    (exampleArgs 0 1 [examplePeak]).method = 0 ∧ (greedyState1 1).mInitialized = true ∧
    (∀ t ∈ (greedyState1 1).mTracks, t.active = true → t.peaks ≠ []) ∧
    ∃ s', (greedyState1 1).processFrameArgs realEnv (exampleArgs 0 1 [examplePeak]) = some s' ∧
      ((greedyMatching realEnv ((greedyState1 1).configureArgs realEnv
        (exampleArgs 0 1 [examplePeak])) (exampleArgs 0 1 [examplePeak]).peaks).map
          (fun q => q.2.1)).Nodup :=
  ⟨rfl, (greedyState1_fields 1).1, greedyState1_hist 1,
   (greedy_matching_injective realEnv (greedyState1 1) (exampleArgs 0 1 [examplePeak]) rfl
      (greedyState1_fields 1).1 (greedyState1_hist 1)).imp (fun _ h => ⟨h.1, h.2.1⟩)⟩

/-- Witness of claim C10: a greedy frame holding `examplePeak` in the state
`greedyState1 1`. -/
theorem greedy_unextended_die_extended_live_witness :
    (∀ l, ∀ q ∈ realEnv.sort l, q ∈ l) ∧
    (exampleArgs 0 1 [examplePeak]).method = 0 ∧ (greedyState1 1).mInitialized = true ∧
    (∀ t ∈ (greedyState1 1).mTracks, t.active = true → t.peaks ≠ []) ∧
    (∀ t ∈ (greedyState1 1).mTracks, t.active = true → t.endUnset) ∧
    ∃ s', (greedyState1 1).processFrameArgs realEnv (exampleArgs 0 1 [examplePeak]) = some s' :=
  ⟨realEnv_sort_mem, rfl, (greedyState1_fields 1).1, greedyState1_hist 1, greedyState1_end 1,
   (greedy_unextended_die_extended_live realEnv realEnv_sort_mem (greedyState1 1)
      (exampleArgs 0 1 [examplePeak]) rfl (greedyState1_fields 1).1 (greedyState1_hist 1)
      (greedyState1_end 1)).imp (fun _ h => h.1)⟩

/-- A configured state of the worked example: `init()` has been called and the
configuration of `exampleArgs` is stored. -/
theorem exampleCfg_update_fields (m : Int) (s : PartialTracking ℝ)
    (h : s.mInitialized = (exampleCfg m).mInitialized ∧
      s.mMinTrackLength = (exampleCfg m).mMinTrackLength ∧
      s.mBirthLowThreshold = (exampleCfg m).mBirthLowThreshold ∧
      s.mBirthHighThreshold = (exampleCfg m).mBirthHighThreshold ∧
      s.mBirthRange = (exampleCfg m).mBirthRange ∧ s.mZetaA = (exampleCfg m).mZetaA ∧
      s.mZetaF = (exampleCfg m).mZetaF ∧ s.mDelta = (exampleCfg m).mDelta) :
    s.mInitialized = true ∧ s.mMinTrackLength = m ∧ s.mBirthLowThreshold = -24 ∧
    s.mBirthHighThreshold = -60 ∧ s.mBirthRange = 36 ∧ s.mZetaA = 1 ∧ s.mZetaF = 1 ∧
    s.mDelta = 1 / 2 := by
  obtain ⟨f1, f2, f3, f4, f5, f6, f7, f8, f9, f10, f11, f12, f13, f14⟩ := exampleCfg_fields m
  obtain ⟨h1, h2, h3, h4, h5, h6, h7, h8⟩ := h
  exact ⟨h1.trans f1, h2.trans f2, h3.trans f9, h4.trans f10, h5.trans f11, h6.trans f12,
    h7.trans f13, h8.trans f14⟩

/-- A call of `processFrame` with the arguments of the worked example in a
state that holds its configuration. -/
theorem processFrameArgs_example (m method : Int) (peaks : List (SinePeak ℝ))
    (s : PartialTracking ℝ)
    (h : s.mInitialized = (exampleCfg m).mInitialized ∧
      s.mMinTrackLength = (exampleCfg m).mMinTrackLength ∧
      s.mBirthLowThreshold = (exampleCfg m).mBirthLowThreshold ∧
      s.mBirthHighThreshold = (exampleCfg m).mBirthHighThreshold ∧
      s.mBirthRange = (exampleCfg m).mBirthRange ∧ s.mZetaA = (exampleCfg m).mZetaA ∧
      s.mZetaF = (exampleCfg m).mZetaF ∧ s.mDelta = (exampleCfg m).mDelta) :
    s.processFrameArgs realEnv (exampleArgs method m peaks) =
      (if method = 0 then s.assignGreedy realEnv peaks (-10)
       else s.assignMunkres realEnv peaks (-10)).map
        (fun s3 => { s3 with mCurrentFrame := s3.mCurrentFrame + 1 }) := by
  obtain ⟨f1, f2, f9, f10, f11, f12, f13, f14⟩ := exampleCfg_update_fields m s h
  rw [processFrameArgs_eq _ _ _ f1, configureArgs_example m method _ _ f2 f9 f10 f11 f12 f13 f14]
  rfl

theorem example_init_step (m method : Int) (peaks : List (SinePeak ℝ)) :
    exampleInit.processFrameArgs realEnv (exampleArgs method m peaks) =
      (exampleCfg m).processFrameArgs realEnv (exampleArgs method m peaks) := by
  have h1 : exampleInit.mInitialized = true := rfl
  have h2 : (exampleCfg m).mInitialized = true := (exampleCfg_fields m).1
  rw [processFrameArgs_eq _ _ _ h1, processFrameArgs_eq _ _ _ h2]
  have : (exampleCfg m).configureArgs realEnv (exampleArgs method m peaks) = exampleCfg m := by
    obtain ⟨f1, f2, f3, f4, f5, f6, f7, f8, f9, f10, f11, f12, f13, f14⟩ := exampleCfg_fields m
    exact configureArgs_example m method _ _ f2 f9 f10 f11 f12 f13 f14
  rw [this]
  rfl

theorem example_usefulEntry (s : PartialTracking ℝ) (h7 : s.mDelta = 1 / 2) (b : Bool) :
    usefulEntry realEnv s examplePeak { examplePeak with assigned := b } = true := by
  simp only [usefulEntry, usefulCost, spuriousCost, h7, realEnv_exp, sub_self]
  norm_num

/-- Greedy frame without peaks: the track of `greedyState1` dies. -/
theorem example_step_dies (m : Int) :
    (greedyState1 m).processFrameArgs realEnv (exampleArgs 0 m []) = some (greedyDead2 m) := by
  rw [processFrameArgs_example m 0 [] (greedyState1 m) ⟨rfl, rfl, rfl, rfl, rfl, rfl, rfl, rfl⟩]
  have eT : (greedyState1 m).mTracks =
      ([⟨[examplePeak], 0, -1, true, true, 1⟩] : List (SineTrack ℝ)) := rfl
  simp only [if_true, PartialTracking.assignGreedy, eT, clearAssigned, List.map_cons,
    List.map_nil, trackDistances, peakDistances, List.append_nil, realEnv_sort_nil,
    List.foldl_nil, dyingTracks, Bool.not_false, Bool.and_self, if_true, Option.map_some']
  rfl

/-- Frame without peaks processed by the solver-based strategy in
`greedyState1`: early return. -/
theorem example_step_stale (m : Int) :
    (greedyState1 m).processFrameArgs realEnv (exampleArgs 1 m []) = some (staleState m) := by
  rw [processFrameArgs_example m 1 [] (greedyState1 m) ⟨rfl, rfl, rfl, rfl, rfl, rfl, rfl, rfl⟩]
  have eT : (greedyState1 m).mTracks =
      ([⟨[examplePeak], 0, -1, true, true, 1⟩] : List (SineTrack ℝ)) := rfl
  have eP : (greedyState1 m).mPrevPeaks = [] := (exampleCfg_fields m).2.2.2.2.1
  simp only [show ¬ ((1 : Int) = 0) by decide, if_false, PartialTracking.assignMunkres, eP,
    List.isEmpty_nil, if_true, eT, clearAssigned, List.map_cons, List.map_nil,
    Option.map_some', List.length_nil, List.replicate_zero]
  apply congrArg some
  apply PartialTracking.ext <;> first | rfl | simp [staleState, greedyState1, exampleCfg_fields]

/-- First frame of the solver-based strategy: the peaks are stored. -/
theorem example_munkres_step1 (m : Int) :
    (exampleCfg m).processFrameArgs realEnv (exampleArgs 1 m [examplePeak]) =
      some (munkresState1 m) := by
  rw [processFrameArgs_example m 1 [examplePeak] (exampleCfg m)
    ⟨rfl, rfl, rfl, rfl, rfl, rfl, rfl, rfl⟩]
  obtain ⟨f1, f2, f3, f4, f5, f6, f7, f8, f9, f10, f11, f12, f13, f14⟩ := exampleCfg_fields m
  simp only [show ¬ ((1 : Int) = 0) by decide, if_false, PartialTracking.assignMunkres, f5,
    List.isEmpty_nil, if_true, f4, clearAssigned, List.map_nil, Option.map_some',
    List.length_singleton, List.replicate_one, List.replicate_zero]
  apply congrArg some
  apply PartialTracking.ext <;> first | rfl | simp [munkresState1, exampleCfg_fields]

/-- Second frame of the solver-based strategy: a track is born from the stored
peak and the new one. -/
theorem example_munkres_step2 (m : Int) :
    (munkresState1 m).processFrameArgs realEnv (exampleArgs 1 m [examplePeak]) =
      some (munkresState2 m) := by
  rw [processFrameArgs_example m 1 [examplePeak] (munkresState1 m)
    ⟨rfl, rfl, rfl, rfl, rfl, rfl, rfl, rfl⟩]
  obtain ⟨f1, f2, f3, f4, f5, f6, f7, f8, f9, f10, f11, f12, f13, f14⟩ := exampleCfg_fields m
  have eP : (munkresState1 m).mPrevPeaks = [examplePeak] := rfl
  have ePT : (munkresState1 m).mPrevTracks = [0] := rfl
  have eT : (munkresState1 m).mTracks = [] := f4
  have eA : (munkresState1 m).mPrevMaxAmp = 0 := f8
  have eL : (munkresState1 m).mLastTrackId = 1 := f7
  have eC : (munkresState1 m).mCurrentFrame = 1 := rfl
  have hu := example_usefulEntry (munkresState1 m) f14 false
  have hb := example_birth (munkresState1 m) 0 f9 f11 (by norm_num)
  have e5 : examplePeak.assigned = false := rfl
  have hu' : usefulEntry realEnv (munkresState1 m) examplePeak examplePeak = true := hu
  simp only [show ¬ ((1 : Int) = 0) by decide, if_false, PartialTracking.assignMunkres, eP,
    List.isEmpty_cons, Bool.false_eq_true, eT, clearAssigned, List.map_nil,
    List.length_singleton, List.replicate_one, Nat.lt_irrefl, gt_iff_lt, Nat.zero_lt_one,
    if_true, show List.range 1 = [0] from rfl, munkresRows, munkresRow, List.getElem?_cons_zero, realEnv_munkres,
    Nat.cast_zero, Nat.cast_one, Int.toNat_zero, hu', ePT, eA]
  simp only [show ¬ ((0 : Int) ≥ 1) by decide, show ¬ ((0 : Int) < 0) by decide,
    show ¬ ((0 : Int) > 0) by decide, if_false, decide_False, Bool.false_and,
    Bool.false_eq_true, hb, decide_True, e5, Bool.not_false, Bool.and_self, if_true,
    birthFromPair, List.getElem?_cons_zero, List.nil_append, List.set_cons_zero, eL, eC,
    dyingTracks, List.map_cons, List.map_nil, Bool.not_true, Bool.and_false, Option.map_some']
  apply congrArg some
  apply PartialTracking.ext <;> rfl

/-- Greedy frame without peaks in `munkresState2`: the track dies. -/
theorem example_mixed_step3 (m : Int) :
    (munkresState2 m).processFrameArgs realEnv (exampleArgs 0 m []) = some (mixedState3 m) := by
  rw [processFrameArgs_example m 0 [] (munkresState2 m) ⟨rfl, rfl, rfl, rfl, rfl, rfl, rfl, rfl⟩]
  have eT : (munkresState2 m).mTracks =
      ([⟨[examplePeak, examplePeak], 0, -1, true, true, 2⟩] : List (SineTrack ℝ)) := rfl
  simp only [if_true, PartialTracking.assignGreedy, eT, clearAssigned, List.map_cons,
    List.map_nil, trackDistances, peakDistances, List.append_nil, realEnv_sort_nil,
    List.foldl_nil, dyingTracks, Bool.not_false, Bool.and_self, if_true, Option.map_some']
  rfl

/-- Greedy frame holding `examplePeak` in `mixedState3`: a track is born with
the id that `mLastTrackId` holds, which is the id of the dead track. -/
theorem example_mixed_step4 (m : Int) :
    (mixedState3 m).processFrameArgs realEnv (exampleArgs 0 m [examplePeak]) =
      some (mixedState4 m) := by
  rw [processFrameArgs_example m 0 [examplePeak] (mixedState3 m)
    ⟨rfl, rfl, rfl, rfl, rfl, rfl, rfl, rfl⟩]
  obtain ⟨f1, f2, f3, f4, f5, f6, f7, f8, f9, f10, f11, f12, f13, f14⟩ := exampleCfg_fields m
  have eT : (mixedState3 m).mTracks =
      ([⟨[examplePeak, examplePeak], 0, 2, false, false, 2⟩] : List (SineTrack ℝ)) := rfl
  have eC : (mixedState3 m).mCurrentFrame = 3 := rfl
  have eL : (mixedState3 m).mLastTrackId = 2 := rfl
  have hb := example_birth (mixedState3 m) (-10) f9 f11 (by norm_num)
  have e5 : examplePeak.assigned = false := rfl
  simp only [if_true, PartialTracking.assignGreedy, eT, clearAssigned, List.map_cons,
    List.map_nil, trackDistances, Bool.false_eq_true, if_false, realEnv_sort_nil,
    List.foldl_nil, List.foldl_cons, birthStep, e5, hb, Bool.not_false, Bool.true_and,
    decide_True, if_true, dyingTracks, List.singleton_append, Bool.false_and,
    Bool.not_true, Bool.and_false, Option.map_some', eC, eL, staticCastInt]
  apply congrArg some
  apply PartialTracking.ext <;> rfl

/-- A greedy frame without peaks in a state without tracks only increments the
frame counter. -/
theorem example_idle_step (n : Nat) :
    (idleState n).processFrameArgs realEnv (exampleArgs 0 1 []) = some (idleState (n + 1)) := by
  rw [processFrameArgs_example 1 0 [] (idleState n) ⟨rfl, rfl, rfl, rfl, rfl, rfl, rfl, rfl⟩]
  have eT : (idleState n).mTracks = [] := (exampleCfg_fields 1).2.2.2.1
  simp only [if_true, PartialTracking.assignGreedy, eT, clearAssigned, List.map_nil,
    trackDistances, realEnv_sort_nil, List.foldl_nil, dyingTracks, Option.map_some']
  apply congrArg some
  apply PartialTracking.ext <;> first | rfl | simp [idleState, exampleCfg_fields]

theorem example_idle_first :
    exampleInit.processFrameArgs realEnv (exampleArgs 0 1 []) = some (idleState 0) := by
  rw [example_init_step,
    processFrameArgs_example 1 0 [] (exampleCfg 1) ⟨rfl, rfl, rfl, rfl, rfl, rfl, rfl, rfl⟩]
  have eT : (exampleCfg 1).mTracks = [] := (exampleCfg_fields 1).2.2.2.1
  simp only [if_true, PartialTracking.assignGreedy, eT, clearAssigned, List.map_nil,
    trackDistances, realEnv_sort_nil, List.foldl_nil, dyingTracks, Option.map_some']
  apply congrArg some
  apply PartialTracking.ext <;> first | rfl | simp [idleState, exampleCfg_fields]

/-- A greedy frame holding `examplePeak` after `n + 1` frames without peaks: the
track starts at `static_cast<int>(n + 1)`. -/
theorem example_late_birth (n : Nat) :
    (idleState n).processFrameArgs realEnv (exampleArgs 0 1 [examplePeak]) =
      some (lateBirthState n) := by
  rw [processFrameArgs_example 1 0 [examplePeak] (idleState n)
    ⟨rfl, rfl, rfl, rfl, rfl, rfl, rfl, rfl⟩]
  obtain ⟨f1, f2, f3, f4, f5, f6, f7, f8, f9, f10, f11, f12, f13, f14⟩ := exampleCfg_fields 1
  have eT : (idleState n).mTracks = [] := f4
  have eC : (idleState n).mCurrentFrame = (n : Int) + 1 := rfl
  have eL : (idleState n).mLastTrackId = 1 := f7
  have hb := example_birth (idleState n) (-10) f9 f11 (by norm_num)
  have e5 : examplePeak.assigned = false := rfl
  simp only [if_true, PartialTracking.assignGreedy, eT, clearAssigned, List.map_nil,
    trackDistances, realEnv_sort_nil, List.foldl_nil, List.foldl_cons, birthStep, e5, hb,
    Bool.not_false, Bool.true_and, decide_True, if_true, dyingTracks, List.nil_append,
    List.map_cons, List.map_nil, Bool.not_true, Bool.and_false, Bool.false_eq_true, if_false,
    Option.map_some', eC, eL]
  apply congrArg some
  apply PartialTracking.ext <;> rfl

theorem runFrames_append (env : Env ℝ) :
    ∀ (l₁ l₂ : List (FrameArgs ℝ)) (s : PartialTracking ℝ),
      s.runFrames env (l₁ ++ l₂) = (s.runFrames env l₁).bind (fun s' => s'.runFrames env l₂) := by
  intro l₁
  induction l₁ with
  | nil => intro l₂ s; simp [PartialTracking.runFrames]
  | cons a rest ih =>
    intro l₂ s
    simp only [List.cons_append, PartialTracking.runFrames]
    cases s.processFrameArgs env a with
    | none => simp
    | some s' => simp [ih]

/-- The worked example after `n + 1` greedy frames without peaks. -/
theorem example_idle_run (n : Nat) :
    exampleInit.runFrames realEnv (List.replicate (n + 1) (exampleArgs 0 1 [])) =
      some (idleState n) := by
  induction n with
  | zero => simp [PartialTracking.runFrames, example_idle_first]
  | succ k ih =>
    rw [List.replicate_succ', runFrames_append, ih]
    simp [PartialTracking.runFrames, example_idle_step]

/-! ### The claims about runs, on the worked example -/

theorem singleStrategy_greedy_example (m : Int) (peaks : List (SinePeak ℝ)) :
    singleStrategy true m (exampleArgs 0 m peaks) :=
  ⟨⟨fun _ => rfl, fun _ => rfl⟩, rfl⟩

theorem singleStrategy_munkres_example (m : Int) (peaks : List (SinePeak ℝ)) :
    singleStrategy false m (exampleArgs 1 m peaks) :=
  ⟨⟨fun h => absurd (show (1 : Int) = 0 from h) (by decide),
    fun h => absurd h (by decide)⟩, rfl⟩

theorem run_greedyState1 (m : Int) :
    Run realEnv (singleStrategy true m) (PartialTracking.init PartialTracking.fresh)
      (greedyState1 m) :=
  Run.frame (exampleArgs 0 m [examplePeak]) (Run.refl _) (singleStrategy_greedy_example m _)
    ((example_init_step m 0 [examplePeak]).trans (example_step1 m))

theorem run_greedyState2 (m : Int) :
    Run realEnv (singleStrategy true m) (greedyState1 m) (greedyState2 m) :=
  Run.frame (exampleArgs 0 m [examplePeak]) (Run.refl _) (singleStrategy_greedy_example m _)
    (example_step2 m)

theorem run_greedyDead2 (m : Int) :
    Run realEnv (singleStrategy true m) (greedyState1 m) (greedyDead2 m) :=
  Run.frame (exampleArgs 0 m []) (Run.refl _) (singleStrategy_greedy_example m _)
    (example_step_dies m)

theorem run_munkresState1 (m : Int) :
    Run realEnv (singleStrategy false m) (PartialTracking.init PartialTracking.fresh)
      (munkresState1 m) :=
  Run.frame (exampleArgs 1 m [examplePeak]) (Run.refl _) (singleStrategy_munkres_example m _)
    ((example_init_step m 1 [examplePeak]).trans (example_munkres_step1 m))

theorem run_munkresState2 (m : Int) :
    Run realEnv (singleStrategy false m) (munkresState1 m) (munkresState2 m) :=
  Run.frame (exampleArgs 1 m [examplePeak]) (Run.refl _) (singleStrategy_munkres_example m _)
    (example_munkres_step2 m)

/-- Counterexample to claim C2 as stated: solver-based strategy, `m = 1`.  After
`init()` two frames holding `examplePeak` are processed.  The second call
creates a track with `startFrame = 0` whose entry for frame 0 is `examplePeak`;
the track is alive.  The call of `getActivePeaks()` made when the frame counter
is `0 + 1`, that is between the two frames, returns the empty sequence. -/
theorem solver_strategy_first_peak_not_surfaced :
    Run realEnv (singleStrategy false 1) (PartialTracking.init PartialTracking.fresh)
      (munkresState1 1) ∧
    Run realEnv (singleStrategy false 1) (munkresState1 1) (munkresState2 1) ∧
    (munkresState2 1).mTracks =
      [(⟨[examplePeak, examplePeak], 0, -1, true, true, 2⟩ : SineTrack ℝ)] ∧
    (⟨[examplePeak, examplePeak], 0, -1, true, true, 2⟩ : SineTrack ℝ).endUnset ∧
    (⟨[examplePeak, examplePeak], 0, -1, true, true, 2⟩ : SineTrack ℝ).peakAt 0 =
      some examplePeak ∧
    (munkresState1 1).mCurrentFrame = 0 + 1 ∧
    (munkresState1 1).getActivePeaks = some [] := by
  refine ⟨run_munkresState1 1, run_munkresState2 1, rfl, ?_, ?_, rfl, ?_⟩
  · simp [SineTrack.endUnset]
  · simp [SineTrack.peakAt]
  · have hT : (munkresState1 1).mTracks = [] := (exampleCfg_fields 1).2.2.2.1
    have hM : (munkresState1 1).mMinTrackLength = 1 := (exampleCfg_fields 1).2.1
    have hC : (munkresState1 1).mCurrentFrame = 1 := rfl
    simp [PartialTracking.getActivePeaks, hT, hM, hC, getActivePeaksLoop]

/-- Witness of claim C2 (amended): greedy strategy, `m = 1`; the track of
`greedyState2 1`, alive, and its entry for frame 0, reported in
`greedyState1 1`. -/
theorem long_lived_track_surfaced_at_latency_witness :
    ∃ out peak, (greedyState1 1).getActivePeaks = some out ∧
      (⟨[examplePeak, examplePeak], 0, -1, true, true, 1⟩ : SineTrack ℝ).peakAt 0 = some peak ∧
      peak ∈ out :=
  (long_lived_track_surfaced_at_latency realEnv realEnv_sort_mem true 1 (by decide)
    (fun h => absurd h (by decide)) PartialTracking.fresh (greedyState1 1) (greedyState2 1)
    (run_greedyState1 1) (run_trans _ _ (run_greedyState1 1) (run_greedyState2 1))
    (fun _ => ⟨by show (1 : Int) ≤ 2147483648; decide, by show (2 : Int) ≤ 2147483648; decide⟩)
    ⟨[examplePeak, examplePeak], 0, -1, true, true, 1⟩ (List.mem_singleton.mpr rfl)
    (Or.inl (run_greedyState2 1)) 0 (le_refl _) (by show (1 : Int) = 0 + 1; decide)
    (by show (0 : Int) ≤ 0; decide)
    (Or.inl (by show (-1 : Int) < 0; decide))).imp
    (fun _ h => h.imp (fun _ h' => ⟨h'.1, h'.2.1, h'.2.2.1⟩))

/-- Witness of claim C3: greedy strategy, `m = 15`; the track of `greedyDead2 15`
lived one frame and is not reported in `greedyState1 15`. -/
theorem short_lived_track_never_surfaced_witness :
    ¬ surfaced (greedyState1 15)
      (⟨[examplePeak], 0, -1, true, true, 1⟩ : SineTrack ℝ) :=
  short_lived_track_never_surfaced realEnv realEnv_sort_mem true 15
    PartialTracking.fresh (greedyState1 15) (greedyDead2 15)
    (run_greedyState1 15) (run_trans _ _ (run_greedyState1 15) (run_greedyDead2 15))
    (Or.inl (run_greedyDead2 15))
    ⟨[examplePeak], 0, 1, false, false, 1⟩ (List.mem_singleton.mpr rfl)
    (by show ¬ ((1 : Int) < 0); decide) (by show (1 : Int) - 0 < 15; decide)
    ⟨[examplePeak], 0, -1, true, true, 1⟩ (List.mem_singleton.mpr rfl) rfl

/-- Claim C5, the code at the failing input. After `init()`: two frames holding
`examplePeak` processed by the solver-based strategy (a track is born with id
2), a greedy frame without peaks (the track dies), a greedy frame holding
`examplePeak` (a track is born).  The collection then holds two tracks with
the id 2. -/
theorem mixed_strategies_reuse_track_id :
    (exampleInit.runFrames realEnv
      [exampleArgs 1 1 [examplePeak], exampleArgs 1 1 [examplePeak], exampleArgs 0 1 [],
       exampleArgs 0 1 [examplePeak]]).map (fun s => s.mTracks.map (fun t => t.trackId)) =
      some [2, 2] := by
  simp only [PartialTracking.runFrames, example_init_step, example_munkres_step1,
    example_munkres_step2, example_mixed_step3, example_mixed_step4, Option.map_some']
  rfl

/-- Claim C6, the code at the failing input. After `init()`: a greedy frame
holding `examplePeak` (a track is born at frame 0), then a frame without peaks
processed by the solver-based strategy.  The second call returns early: the
track is still active, with no end frame, its history has 1 entry and
`currentFrame − startFrame` is 2. -/
theorem strategy_switch_breaks_history_length :
    (exampleInit.runFrames realEnv [exampleArgs 0 1 [examplePeak], exampleArgs 1 1 []]).map
      (fun s => s.mTracks.map (fun t =>
        (t.active, t.endFrame, (t.peaks.length : Int), s.mCurrentFrame - t.startFrame))) =
      some [(true, -1, 1, 2)] := by
  simp only [PartialTracking.runFrames, example_init_step, example_step1, example_step_stale,
    Option.map_some']
  rfl

/-- Claim C9, the code at the failing input. After `init()` and `2^31` greedy
frames without peaks, a greedy frame holding `examplePeak`, whose flag is
clear: the call runs on frame `f = 2147483648` and creates one track, whose
`startFrame` is `−2147483648`. -/
theorem greedy_birth_start_frame_wraps :
    (exampleInit.runFrames realEnv
      (List.replicate 2147483648 (exampleArgs 0 1 []) ++ [exampleArgs 0 1 [examplePeak]])).map
      (fun s => s.mTracks.map (fun t => (t.startFrame, s.mCurrentFrame - 1))) =
      some [(-2147483648, 2147483648)] := by
  have h : (2147483648 : Nat) = 2147483647 + 1 := by norm_num
  rw [h, runFrames_append, example_idle_run]
  simp only [Option.some_bind, PartialTracking.runFrames, example_late_birth, Option.map_some']
  simp only [lateBirthState, List.map_cons, List.map_nil, staticCastInt]
  norm_num


/-- Claim C11, the code at the failing input. After `init()`, a greedy frame
holding `examplePeak` creates a track, which is active; the next call has an
empty peak list and selects the solver-based strategy.  It returns early (no
previous peaks are stored), and the track is still active after it, with no
end frame. -/
theorem empty_frame_after_strategy_switch_keeps_track_active :
    (exampleInit.runFrames realEnv [exampleArgs 0 1 [examplePeak]]).map
      (fun s => s.mTracks.map (fun t => (t.trackId, t.active))) = some [(1, true)] ∧
    (exampleArgs 1 1 []).peaks = [] ∧
    (exampleInit.runFrames realEnv [exampleArgs 0 1 [examplePeak], exampleArgs 1 1 []]).map
      (fun s => s.mTracks.map (fun t => (t.trackId, t.active, t.endFrame))) =
      some [(1, true, -1)] := by
  refine ⟨?_, rfl, ?_⟩
  · simp only [PartialTracking.runFrames, example_init_step, example_step1, Option.map_some']
    rfl
  · simp only [PartialTracking.runFrames, example_init_step, example_step1, example_step_stale,
      Option.map_some']
    rfl

/-! ### Thresholds and tolerances over the reals -/

theorem configureArgs_birth_fields {R : Type} [NatCast R] [Sub R] [Mul R] [Div R] [Neg R] [BEq R]
    (env : Env R) (s : PartialTracking R) (a : FrameArgs R) :
    (s.configureArgs env a).mBirthLowThreshold = a.birthLowThreshold ∧
    (s.configureArgs env a).mBirthHighThreshold = a.birthHighThreshold ∧
    (s.configureArgs env a).mBirthRange = a.birthLowThreshold - a.birthHighThreshold := by
  simp only [PartialTracking.configureArgs, PartialTracking.configure]
  split <;> simp [PartialTracking.updateVariances]

/-- Claim C19. Over the reals, in the state in which the strategy of a call
of `processFrame` runs, `birthThreshold(peak, maxAmp)` is
`maxAmp + birthLow − birthRange + birthRange · 0.0075^(freq/20000)` with
`birthRange = birthLow − birthHigh`; when `birthLow ≥ birthHigh` it does not
increase with the frequency of the peak, when `birthLow > birthHigh` it
decreases strictly, and at 0 Hz it is `maxAmp + birthLow`. -/
theorem birthThreshold_tapers_with_frequency (s : PartialTracking ℝ) (a : FrameArgs ℝ)
    (maxAmp : ℝ) :
    (∀ peak : SinePeak ℝ,
      (s.configureArgs realEnv a).birthThreshold realEnv peak maxAmp =
        maxAmp + a.birthLowThreshold - (a.birthLowThreshold - a.birthHighThreshold) +
          (a.birthLowThreshold - a.birthHighThreshold) * (0.0075 : ℝ) ^ (peak.freq / 20000)) ∧
    (a.birthLowThreshold ≥ a.birthHighThreshold → ∀ p q : SinePeak ℝ, p.freq ≤ q.freq →
      (s.configureArgs realEnv a).birthThreshold realEnv q maxAmp ≤
        (s.configureArgs realEnv a).birthThreshold realEnv p maxAmp) ∧
    (a.birthLowThreshold > a.birthHighThreshold → ∀ p q : SinePeak ℝ, p.freq < q.freq →
      (s.configureArgs realEnv a).birthThreshold realEnv q maxAmp <
        (s.configureArgs realEnv a).birthThreshold realEnv p maxAmp) ∧
    (∀ peak : SinePeak ℝ, peak.freq = 0 →
      (s.configureArgs realEnv a).birthThreshold realEnv peak maxAmp =
        maxAmp + a.birthLowThreshold) := by
  obtain ⟨hl, _, hr⟩ := configureArgs_birth_fields realEnv s a
  have hform : ∀ peak : SinePeak ℝ,
      (s.configureArgs realEnv a).birthThreshold realEnv peak maxAmp =
        maxAmp + a.birthLowThreshold - (a.birthLowThreshold - a.birthHighThreshold) +
          (a.birthLowThreshold - a.birthHighThreshold) * (0.0075 : ℝ) ^ (peak.freq / 20000) := by
    intro peak
    simp only [PartialTracking.birthThreshold, hl, hr, realEnv_pow]
    norm_num
  have hbase0 : (0 : ℝ) < 0.0075 := by norm_num
  have hbase1 : (0.0075 : ℝ) < 1 := by norm_num
  refine ⟨hform, ?_, ?_, ?_⟩
  · intro hge p q hpq
    rw [hform p, hform q]
    have hexp : p.freq / 20000 ≤ q.freq / 20000 := by linarith
    have hpow := Real.rpow_le_rpow_of_exponent_ge hbase0 hbase1.le hexp
    have hrange : 0 ≤ a.birthLowThreshold - a.birthHighThreshold := by linarith
    have := mul_le_mul_of_nonneg_left hpow hrange
    linarith
  · intro hgt p q hpq
    rw [hform p, hform q]
    have hexp : p.freq / 20000 < q.freq / 20000 := by linarith
    have hpow := Real.rpow_lt_rpow_of_exponent_gt hbase0 hbase1 hexp
    have hrange : 0 < a.birthLowThreshold - a.birthHighThreshold := by linarith
    have := mul_lt_mul_of_pos_left hpow hrange
    linarith
  · intro peak h0
    rw [hform peak, h0]
    simp

/-- Witness of claim C19: with the thresholds −24 and −60 of the worked example
the bar is lower at 880 Hz than at 440 Hz. -/
theorem birthThreshold_tapers_with_frequency_witness :
    (exampleInit.configureArgs realEnv (exampleArgs 0 1 [])).birthThreshold realEnv
        (⟨880, -10, false⟩ : SinePeak ℝ) (-10) <
      (exampleInit.configureArgs realEnv (exampleArgs 0 1 [])).birthThreshold realEnv
        examplePeak (-10) :=
  (birthThreshold_tapers_with_frequency exampleInit (exampleArgs 0 1 []) (-10)).2.2.1
    (by show (-24 : ℝ) > -60; norm_num) examplePeak ⟨880, -10, false⟩
    (by show (440 : ℝ) < 880; norm_num)

theorem singleStrategy_toleranceArgs (zetaA zetaF delta : ℝ) :
    singleStrategy true 1 (toleranceArgs zetaA zetaF delta) :=
  ⟨⟨fun _ => rfl, fun _ => rfl⟩, rfl⟩

theorem closedFormVariance_example : closedFormVariance realEnv 1 (1 / 2) = Real.log 3 := by
  simp only [closedFormVariance, realEnv_pow, realEnv_log]
  have h : ((1 / 2 : ℝ) - ((1 : Nat) : ℝ)) / (1 / 2 - ((2 : Nat) : ℝ)) = 3⁻¹ := by norm_num
  rw [h, Real.log_inv]
  simp

theorem closedFormVariance_zero : closedFormVariance realEnv 0 0 = 0 := by
  simp [closedFormVariance, realEnv_pow, realEnv_log]

/-- Counterexample to claim C18 as stated. After `init()` and a greedy frame with
the tolerances `zetaA = zetaF = 1`, `delta = 1/2`, a greedy frame is processed
with the degenerate `zetaA = −1`.  The call returns and the stored `zetaA` is
−1 after it, where it was 1 before. -/
theorem degenerate_tolerance_is_stored :
    (exampleInit.runFrames realEnv [toleranceArgs 1 1 (1 / 2)]).map
      (fun s => (s.mZetaA, s.mZetaF, s.mDelta)) = some (1, 1, 1 / 2) ∧
    (exampleInit.runFrames realEnv [toleranceArgs 1 1 (1 / 2), toleranceArgs (-1) 1 (1 / 2)]).map
      (fun s => (s.mZetaA, s.mZetaF, s.mDelta)) = some (-1, 1, 1 / 2) := by
  have hs0 : Sound true 1 exampleInit := sound_init true 1 PartialTracking.fresh
  obtain ⟨s1, h1, hs1⟩ := greedy_step_isSome realEnv realEnv_sort_mem 1 exampleInit
    (toleranceArgs 1 1 (1 / 2)) hs0 (singleStrategy_toleranceArgs _ _ _)
  obtain ⟨s2, h2, _⟩ := greedy_step_isSome realEnv realEnv_sort_mem 1 s1
    (toleranceArgs (-1) 1 (1 / 2)) hs1 (singleStrategy_toleranceArgs _ _ _)
  obtain ⟨a1, a2, a3, _, _⟩ := processFrameArgs_tolerances realEnv _ _ _ h1
  obtain ⟨b1, b2, b3, _, _⟩ := processFrameArgs_tolerances realEnv _ _ _ h2
  obtain ⟨c1, c2, c3, _, _⟩ := configure_tolerances realEnv exampleInit 1 (-24) (-60) 1 1 (1 / 2)
  obtain ⟨d1, d2, d3, _, _⟩ := configure_tolerances realEnv s1 1 (-24) (-60) (-1) 1 (1 / 2)
  simp only [PartialTracking.runFrames, h1, h2, Option.map_some', Option.some.injEq, Prod.mk.injEq]
  exact ⟨⟨a1.trans c1, a2.trans c2, a3.trans c3⟩, b1.trans d1, b2.trans d2, b3.trans d3⟩

/-- Witness of claim C18 (amended): after `init()`, a greedy call with the
degenerate `zetaA = −1` returns a state. -/
theorem processFrame_stores_tolerances_unexamined_witness :
    ∃ s', exampleInit.processFrameArgs realEnv (toleranceArgs (-1) 1 (1 / 2)) = some s' :=
  (processFrame_stores_tolerances_unexamined realEnv exampleInit (toleranceArgs (-1) 1 (1 / 2))
    rfl).1 rfl (fun t ht => absurd ht (List.not_mem_nil t))

/-- Claim C20, the code at the failing input. After `init()` a greedy frame is
processed with `zetaA = zetaF = 1`, `delta = 1/2` (the variances become
`ln 3`); then `init()` is called again and a greedy frame is processed with
`zetaA = zetaF = delta = 0`.  `init()` has reset the stored parameters to 0 but
not the variances, so the second call finds its parameters equal to the stored
ones and runs with the variances `ln 3`, which are still stored after it; the
closed form on the parameters passed to that call is 0. -/
theorem init_keeps_stale_variances :
    ((exampleInit.processFrameArgs realEnv (toleranceArgs 1 1 (1 / 2))).bind
      (fun s => s.init.processFrameArgs realEnv (toleranceArgs 0 0 0))).map
        (fun s => (s.mVarA, s.mVarF)) = some (Real.log 3, Real.log 3) ∧
    closedFormVariance realEnv 0 0 = 0 ∧ Real.log 3 ≠ 0 := by
  have hs0 : Sound true 1 exampleInit := sound_init true 1 PartialTracking.fresh
  obtain ⟨s1, h1, _⟩ := greedy_step_isSome realEnv realEnv_sort_mem 1 exampleInit
    (toleranceArgs 1 1 (1 / 2)) hs0 (singleStrategy_toleranceArgs _ _ _)
  obtain ⟨s2, h2, _⟩ := greedy_step_isSome realEnv realEnv_sort_mem 1 s1.init
    (toleranceArgs 0 0 0) (sound_init true 1 s1) (singleStrategy_toleranceArgs _ _ _)
  obtain ⟨_, _, _, a4, a5⟩ := processFrameArgs_tolerances realEnv _ _ _ h1
  obtain ⟨_, _, _, b4, b5⟩ := processFrameArgs_tolerances realEnv _ _ _ h2
  obtain ⟨_, _, _, c4, _⟩ := configure_tolerances realEnv exampleInit 1 (-24) (-60) 1 1 (1 / 2)
  obtain ⟨_, _, _, _, d5⟩ := configure_tolerances realEnv s1.init 1 (-24) (-60) 0 0 0
  have hne : (1 : ℝ) ≠ exampleInit.mZetaA ∨ (1 : ℝ) ≠ exampleInit.mZetaF ∨
      (1 / 2 : ℝ) ≠ exampleInit.mDelta := by
    left
    show (1 : ℝ) ≠ ((0 : Nat) : ℝ)
    norm_num
  have hsame : (0 : ℝ) = s1.init.mZetaA ∧ (0 : ℝ) = s1.init.mZetaF ∧ (0 : ℝ) = s1.init.mDelta := by
    refine ⟨?_, ?_, ?_⟩ <;> · show (0 : ℝ) = ((0 : Nat) : ℝ); norm_num
  obtain ⟨v1, v2⟩ := c4 hne
  obtain ⟨w1, w2⟩ := d5 hsame
  have i1 : s1.init.mVarA = s1.mVarA := rfl
  have i2 : s1.init.mVarF = s1.mVarF := rfl
  refine ⟨?_, closedFormVariance_zero, ?_⟩
  · simp only [h1, Option.some_bind, h2, Option.map_some', Option.some.injEq, Prod.mk.injEq]
    constructor
    · rw [b4]
      exact (w1.trans (i1.trans (a4.trans v1))).trans closedFormVariance_example
    · rw [b5]
      exact (w2.trans (i2.trans (a5.trans v2))).trans closedFormVariance_example
  · have : (0 : ℝ) < Real.log 3 := Real.log_pos (by norm_num)
    exact ne_of_gt this

/-- Counterexample to claim C15 as stated. After `init()`, a greedy frame holding
`examplePeak` and a greedy frame without peaks, with `minTrackLength = 1`: the
track has died at frame 1 and the frame counter is 2, so that
`currentFrame − endFrame` is 1, which is not more than `minTrackLength`;
`prune()` removes the track. -/
theorem prune_removes_track_dead_for_exactly_latency :
    exampleInit.runFrames realEnv [exampleArgs 0 1 [examplePeak], exampleArgs 0 1 []] =
      some (greedyDead2 1) ∧
    (greedyDead2 1).mTracks = [(⟨[examplePeak], 0, 1, false, false, 1⟩ : SineTrack ℝ)] ∧
    ¬ ((greedyDead2 1).mCurrentFrame - 1 > (greedyDead2 1).mMinTrackLength) ∧
    (greedyDead2 1).prune.mTracks = [] := by
  have hM : (greedyDead2 1).mMinTrackLength = 1 := (exampleCfg_fields 1).2.1
  have hC : (greedyDead2 1).mCurrentFrame = 2 := rfl
  refine ⟨?_, rfl, ?_, ?_⟩
  · simp only [PartialTracking.runFrames, example_init_step, example_step1, example_step_dies]
  · rw [hM, hC]; decide
  · have hT : (greedyDead2 1).mTracks =
        [(⟨[examplePeak], 0, 1, false, false, 1⟩ : SineTrack ℝ)] := rfl
    simp [PartialTracking.prune, pruneTest, hT, hM, hC]

/-! ### The solver-based strategy on the worked example -/

theorem prevBound_munkresState1 (m : Int) : PrevBound (munkresState1 m) where
  sameLength := rfl
  given := fun i k hk => by
    have hk' : ([0] : List Int)[i]? = some k := hk
    have hl : (munkresState1 m).mLastTrackId = 1 := (exampleCfg_fields m).2.2.2.2.2.2.1
    have := List.getElem?_mem hk'
    simp only [List.mem_singleton] at this
    rw [hl, this]
    decide
  lastId := by
    have hl : (munkresState1 m).mLastTrackId = 1 := (exampleCfg_fields m).2.2.2.2.2.2.1
    rw [hl]
    decide

/-- An instance of `solver_births_from_agreeing_pairs`: the second frame of the
worked example processed by the solver-based strategy; the stored peak and the
peak of the frame are at 440 Hz and the solver matches row 0 to column 0. -/
theorem solver_births_from_agreeing_pairs_witness :
    ∃ s', (munkresState1 1).processFrameArgs realEnv (exampleArgs 1 1 [examplePeak]) = some s' := by
  obtain ⟨s', _, _, _, h, _⟩ := solver_births_from_agreeing_pairs realEnv (munkresState1 1) _
    (exampleArgs 1 1 [examplePeak]) _ rfl rfl (by show (1 : Int) ≠ 0; decide)
    (exampleCfg_fields 1).1 (prevBound_munkresState1 1)
    (fun i _ => by
      rw [realEnv_munkres]
      split
      · exact Int.natCast_nonneg i
      · exact Int.natCast_nonneg _)
  exact ⟨s', h⟩

/-- Witness of claim C13 (amended): in the state `munkresState1 1`, a frame with
one peak (one column) and a solver result 1 for row 0. -/
theorem row_matched_beyond_columns_is_unmatched_witness :
    munkresRow realEnv (munkresState1 1) [examplePeak] (fun _ => 1)
      ⟨[], [examplePeak], [-1], 1⟩ 0 = some ⟨[], [examplePeak], [-1], 1⟩ :=
  (row_matched_beyond_columns_is_unmatched realEnv (munkresState1 1) [examplePeak] (fun _ => 1)
    ⟨[], [examplePeak], [-1], 1⟩).1 0 (by show 0 < [examplePeak].length; decide)
    (by show (1 : Int) ≥ ([examplePeak].length : Int); decide)

/-- Storing the configuration of the worked example again changes nothing,
whatever the environment. -/
theorem configureArgs_stored (env : Env ℝ) (m method : Int) (peaks : List (SinePeak ℝ))
    (s : PartialTracking ℝ) (h1 : s.mMinTrackLength = m) (h2 : s.mBirthLowThreshold = -24)
    (h3 : s.mBirthHighThreshold = -60) (h4 : s.mBirthRange = 36) (h5 : s.mZetaA = 1)
    (h6 : s.mZetaF = 1) (h7 : s.mDelta = 1 / 2) :
    s.configureArgs env (exampleArgs method m peaks) = s := by
  have hc : ¬ (((1 : ℝ) != s.mZetaA || (1 : ℝ) != s.mZetaF || (1 / 2 : ℝ) != s.mDelta) = true) := by
    simp [h5, h6, h7]
  simp only [PartialTracking.configureArgs, PartialTracking.configure, exampleArgs]
  rw [if_neg hc]
  apply PartialTracking.ext <;> first | rfl | exact h1.symm | exact h2.symm | exact h3.symm | (rw [h4]; norm_num)

/-- Counterexample to claim C13 as stated. The state `munkresState1 1` stores one
previous peak; a frame with one peak is processed by the solver-based strategy
and the solver gives −1 for row 0 (`N = M = 1`).  The guard
`assignment(i) >= useful.cols()` lets the value pass and the turn of the loop
reads `useful(0, −1)`: the row is not treated as unmatched, the mask is read
at that index, outside the matrix, and the call has no defined result. -/
theorem negative_solver_result_is_read_as_column :
    munkresRow realEnv (munkresState1 1) [examplePeak] (fun _ => -1)
      ⟨[], [examplePeak], [-1], 1⟩ 0 = none ∧
    (munkresState1 1).processFrameArgs negativeSolverEnv (exampleArgs 1 1 [examplePeak]) = none := by
  obtain ⟨f1, f2, f3, f4, f5, f6, f7, f8, f9, f10, f11, f12, f13, f14⟩ := exampleCfg_fields 1
  have eP : (munkresState1 1).mPrevPeaks = [examplePeak] := rfl
  constructor
  · simp [munkresRow, eP]
  · have hinit : (munkresState1 1).mInitialized = true := f1
    rw [processFrameArgs_eq _ _ _ hinit,
      configureArgs_stored negativeSolverEnv 1 1 _ (munkresState1 1) f2 f9 f10 f11 f12 f13 f14]
    have e1 : (exampleArgs 1 1 [examplePeak]).method = 1 := rfl
    have e3 : (exampleArgs 1 1 [examplePeak]).peaks = [examplePeak] := rfl
    have hs : ∀ N M cost i, negativeSolverEnv.munkres N M cost i = -1 := fun _ _ _ _ => rfl
    simp [e1, e3, PartialTracking.assignMunkres, eP, munkresRows, munkresRow, hs,
      List.range_succ]

/-! ### Eviction cadence on the worked example -/

theorem realEnv_sortIgnoresTracks : SortIgnoresTracks realEnv := by
  intro g l
  show List.insertionSort (fun p q => p.1 ≤ q.1) (l.map (relabelTrack g)) =
    (List.insertionSort (fun p q => p.1 ≤ q.1) l).map (relabelTrack g)
  exact (List.map_insertionSort (fun p q : ℝ × Nat × Nat => p.1 ≤ q.1)
    (fun p q : ℝ × Nat × Nat => p.1 ≤ q.1) (relabelTrack g) l (fun _ _ _ _ => Iff.rfl)).symm

/-- Witness of claim C17: the worked example with `minTrackLength = 1`, a frame
holding `examplePeak`, a frame without peaks, `prune()`, and a frame holding
`examplePeak`. -/
theorem eviction_cadence_unobservable_witness :
    ∃ su sp,
      exampleInit.runFrames realEnv
        (framesOf [Call.frame (exampleArgs 0 1 [examplePeak]), Call.frame (exampleArgs 0 1 []),
          Call.prune, Call.frame (exampleArgs 0 1 [examplePeak])]) = some su ∧
      exampleInit.runCalls realEnv
        [Call.frame (exampleArgs 0 1 [examplePeak]), Call.frame (exampleArgs 0 1 []),
          Call.prune, Call.frame (exampleArgs 0 1 [examplePeak])] = some sp ∧
      sp.getActivePeaks = su.getActivePeaks :=
  eviction_cadence_unobservable realEnv realEnv_sort_mem realEnv_sortIgnoresTracks 1
    PartialTracking.fresh _ (by
      intro a ha
      simp only [framesOf, List.mem_cons, List.mem_singleton, List.not_mem_nil, or_false] at ha
      rcases ha with rfl | rfl | rfl <;> exact ⟨rfl, rfl⟩)

/-! ### The useful-vs-spurious test over the reals -/

/-- The threshold of the test: `K = ln((2 − delta)/(1 − delta))` is positive
for `0 < delta < 1`, and the closed form of a variance is `zeta² · K`. -/
theorem closedFormVariance_real (zeta delta : ℝ) (h0 : 0 < delta) (h1 : delta < 1) :
    0 < Real.log ((2 - delta) / (1 - delta)) ∧
    closedFormVariance realEnv zeta delta =
      zeta ^ 2 * Real.log ((2 - delta) / (1 - delta)) := by
  have hd1 : 0 < 1 - delta := by linarith
  constructor
  · apply Real.log_pos
    rw [lt_div_iff₀ hd1]
    linarith
  · simp only [closedFormVariance, realEnv_pow, realEnv_log, Nat.cast_ofNat, Nat.cast_one]
    have h : (delta - 1) / (delta - 2) = ((2 - delta) / (1 - delta))⁻¹ := by
      rw [inv_div]
      have h2 : delta - 2 ≠ 0 := by linarith
      have h3 : 1 - delta ≠ 0 := by linarith
      have h4 : 2 - delta ≠ 0 := by linarith
      field_simp
      ring
    rw [h, Real.log_inv, Real.rpow_two]
    ring

/-- The test `cost < 1 − (1 − delta) · cost` on a cost `1 − exp(−X / K)`, where
`K = ln((2 − delta)/(1 − delta))`: it holds exactly when `X < K²`. -/
theorem useful_iff_of_cost (delta X : ℝ) (h0 : 0 < delta) (h1 : delta < 1) :
    (1 - Real.exp (-X / Real.log ((2 - delta) / (1 - delta))) <
      1 - (1 - delta) * (1 - Real.exp (-X / Real.log ((2 - delta) / (1 - delta))))) ↔
      X < Real.log ((2 - delta) / (1 - delta)) ^ 2 := by
  have hd1 : 0 < 1 - delta := by linarith
  have hd2 : 0 < 2 - delta := by linarith
  have hq : 0 < (2 - delta) / (1 - delta) := div_pos hd2 hd1
  have hK : 0 < Real.log ((2 - delta) / (1 - delta)) := by
    apply Real.log_pos
    rw [lt_div_iff₀ hd1]
    linarith
  generalize hKdef : Real.log ((2 - delta) / (1 - delta)) = K at hK ⊢
  have hexpK : Real.exp (-K) = (1 - delta) / (2 - delta) := by
    rw [← hKdef, Real.exp_neg, Real.exp_log hq, inv_div]
  have step1 : (1 - Real.exp (-X / K) < 1 - (1 - delta) * (1 - Real.exp (-X / K))) ↔
      Real.exp (-K) < Real.exp (-X / K) := by
    rw [hexpK, div_lt_iff₀ hd2]
    constructor <;> intro h <;> nlinarith
  rw [step1, Real.exp_lt_exp]
  constructor
  · intro h
    have := (lt_div_iff₀ hK).mp h
    nlinarith
  · intro h
    rw [lt_div_iff₀ hK]
    nlinarith

theorem greedyDist_real (s : PartialTracking ℝ) (h0 : 0 < s.mDelta) (h1 : s.mDelta < 1)
    (hF : 0 < s.mZetaF) (hA : 0 < s.mZetaA) (hcur : VariancesCurrent realEnv s)
    (prev peak : SinePeak ℝ) :
    greedyDist realEnv s prev peak =
      1 - Real.exp (-(((prev.freq - peak.freq) / s.mZetaF) ^ 2 +
        ((prev.logMag - peak.logMag) / s.mZetaA) ^ 2) /
          Real.log ((2 - s.mDelta) / (1 - s.mDelta))) ∧
    usefulCost realEnv s prev peak = greedyDist realEnv s prev peak := by
  obtain ⟨hK, hvA⟩ := closedFormVariance_real s.mZetaA s.mDelta h0 h1
  obtain ⟨_, hvF⟩ := closedFormVariance_real s.mZetaF s.mDelta h0 h1
  have hA' : s.mVarA = s.mZetaA ^ 2 * Real.log ((2 - s.mDelta) / (1 - s.mDelta)) :=
    hcur.1.trans hvA
  have hF' : s.mVarF = s.mZetaF ^ 2 * Real.log ((2 - s.mDelta) / (1 - s.mDelta)) :=
    hcur.2.trans hvF
  have hKne := ne_of_gt hK
  have hAne := ne_of_gt hA
  have hFne := ne_of_gt hF
  constructor
  · simp only [greedyDist, realEnv_pow, realEnv_exp, Nat.cast_ofNat, Nat.cast_one, hA', hF',
      Real.rpow_two]
    congr 2
    field_simp
    ring
  · simp only [usefulCost, greedyDist, realEnv_pow, realEnv_exp, Nat.cast_ofNat, Nat.cast_one,
      Real.rpow_two]
    congr 3 <;> ring

/-- The test of the greedy strategy in a state whose variances are current. -/
theorem usefulVsSpurious_greedy_iff (s : PartialTracking ℝ) (h0 : 0 < s.mDelta)
    (h1 : s.mDelta < 1) (hF : 0 < s.mZetaF) (hA : 0 < s.mZetaA)
    (hcur : VariancesCurrent realEnv s) (prev peak : SinePeak ℝ) :
    usefulVsSpurious s (greedyDist realEnv s prev peak) = true ↔
      ((prev.freq - peak.freq) / s.mZetaF) ^ 2 + ((prev.logMag - peak.logMag) / s.mZetaA) ^ 2 <
        Real.log ((2 - s.mDelta) / (1 - s.mDelta)) ^ 2 := by
  simp only [usefulVsSpurious, decide_eq_true_eq, Nat.cast_one,
    (greedyDist_real s h0 h1 hF hA hcur prev peak).1]
  exact useful_iff_of_cost s.mDelta _ h0 h1

/-- Claim C29. Over the reals, in a state whose variances are those that
`updateVariances()` gives for the stored `zetaF > 0`, `zetaA > 0` and `delta`
with `0 < delta < 1`: a pair (previous peak, candidate peak) passes the test
`cost < 1 − (1 − delta) · cost`, in the greedy strategy (cost computed with
`pow`) and in the solver-based strategy (the entry `useful(i, j)`), exactly
when `(Δfreq/zetaF)² + (Δamp/zetaA)² < (ln((2 − delta)/(1 − delta)))²`. -/
theorem useful_test_is_an_ellipse (s : PartialTracking ℝ) (h0 : 0 < s.mDelta)
    (h1 : s.mDelta < 1) (hF : 0 < s.mZetaF) (hA : 0 < s.mZetaA)
    (hcur : VariancesCurrent realEnv s) (prev peak : SinePeak ℝ) :
    (usefulVsSpurious s (greedyDist realEnv s prev peak) = true ↔
      ((prev.freq - peak.freq) / s.mZetaF) ^ 2 + ((prev.logMag - peak.logMag) / s.mZetaA) ^ 2 <
        Real.log ((2 - s.mDelta) / (1 - s.mDelta)) ^ 2) ∧
    (usefulEntry realEnv s prev peak = true ↔
      ((prev.freq - peak.freq) / s.mZetaF) ^ 2 + ((prev.logMag - peak.logMag) / s.mZetaA) ^ 2 <
        Real.log ((2 - s.mDelta) / (1 - s.mDelta)) ^ 2) := by
  obtain ⟨hg, hu⟩ := greedyDist_real s h0 h1 hF hA hcur prev peak
  have key := useful_iff_of_cost s.mDelta
    (((prev.freq - peak.freq) / s.mZetaF) ^ 2 + ((prev.logMag - peak.logMag) / s.mZetaA) ^ 2)
    h0 h1
  constructor
  · simp only [usefulVsSpurious, decide_eq_true_eq, Nat.cast_one, hg]
    exact key
  · simp only [usefulEntry, spuriousCost, decide_eq_true_eq, Nat.cast_one, hu, hg]
    exact key

/-- Witness of claim C29: the state in which `updateVariances()` has run with
`zetaA = zetaF = 1` and `delta = 1/2`, and two equal peaks. -/
theorem useful_test_is_an_ellipse_witness :
    usefulEntry realEnv (PartialTracking.updateVariances realEnv
      { exampleInit with mZetaA := 1, mZetaF := 1, mDelta := 1 / 2 }) examplePeak examplePeak =
      true ↔
    ((examplePeak.freq - examplePeak.freq) / 1) ^ 2 +
      ((examplePeak.logMag - examplePeak.logMag) / 1) ^ 2 <
        Real.log ((2 - 1 / 2) / (1 - 1 / 2)) ^ 2 :=
  (useful_test_is_an_ellipse (PartialTracking.updateVariances realEnv
      { exampleInit with mZetaA := 1, mZetaF := 1, mDelta := 1 / 2 })
    (by show (0 : ℝ) < 1 / 2; norm_num) (by show (1 / 2 : ℝ) < 1; norm_num)
    (by show (0 : ℝ) < 1; norm_num) (by show (0 : ℝ) < 1; norm_num) ⟨rfl, rfl⟩
    examplePeak examplePeak).2

/-! ### Greedy frames with one track and one peak, over the reals -/

/-- A greedy frame with one peak in a state without tracks: a track is born
when the peak comes with its flag clear and clears the birth threshold. -/
theorem assignGreedy_first_peak (c : PartialTracking ℝ) (peak : SinePeak ℝ) (maxAmp : ℝ)
    (hT : c.mTracks = []) (hflag : peak.assigned = false)
    (hb : peak.logMag > c.birthThreshold realEnv peak maxAmp) :
    c.assignGreedy realEnv [peak] maxAmp =
      some { c with
        mTracks := [SineTrack.mk [peak] (staticCastInt c.mCurrentFrame) (-1) true true
          c.mLastTrackId]
        mLastTrackId := c.mLastTrackId + 1 } := by
  simp only [PartialTracking.assignGreedy, hT, clearAssigned, List.map_nil, trackDistances,
    realEnv_sort_nil, List.foldl_nil, List.foldl_cons, birthStep, hflag, hb, Bool.not_false,
    Bool.true_and, decide_True, if_true, dyingTracks, List.nil_append, List.map_cons,
    Bool.not_true, Bool.and_false, Bool.false_eq_true, if_false]

/-- A greedy frame with one peak in a state with one active track whose
history has one peak, when the pair passes the test: the track is extended. -/
theorem assignGreedy_continue (c : PartialTracking ℝ) (back peak : SinePeak ℝ) (maxAmp : ℝ)
    (sf id : Int) (b : Bool) (hT : c.mTracks = [SineTrack.mk [back] sf (-1) true b id])
    (hflag : peak.assigned = false)
    (hu : usefulVsSpurious c (greedyDist realEnv c back peak) = true) :
    c.assignGreedy realEnv [peak] maxAmp =
      some { c with mTracks := [SineTrack.mk [back, peak] sf (-1) true true id] } := by
  simp only [PartialTracking.assignGreedy, hT, clearAssigned, List.map_cons, List.map_nil,
    trackDistances, peakDistances, List.getLast?_singleton, List.append_nil,
    realEnv_sort_singleton, List.foldl_nil, List.foldl_cons, acceptPairing,
    List.getElem?_cons_zero, pairingTest, hu, hflag, Bool.not_false, Bool.true_and,
    Bool.and_self, if_true, List.set_cons_zero, birthStep, Bool.not_true, Bool.false_and,
    Bool.false_eq_true, if_false, dyingTracks, List.singleton_append, Bool.and_false]

/-- A greedy frame with one peak in a state with one active track whose
history has one peak, when the pair fails the test and the peak clears the
birth threshold: the track dies and a track is born. -/
theorem assignGreedy_break (c : PartialTracking ℝ) (back peak : SinePeak ℝ) (maxAmp : ℝ)
    (sf id : Int) (b : Bool) (hT : c.mTracks = [SineTrack.mk [back] sf (-1) true b id])
    (hflag : peak.assigned = false)
    (hu : usefulVsSpurious c (greedyDist realEnv c back peak) = false)
    (hb : peak.logMag > c.birthThreshold realEnv peak maxAmp) :
    c.assignGreedy realEnv [peak] maxAmp =
      some { c with
        mTracks := [SineTrack.mk [back] sf c.mCurrentFrame false false id,
          SineTrack.mk [peak] (staticCastInt c.mCurrentFrame) (-1) true true c.mLastTrackId]
        mLastTrackId := c.mLastTrackId + 1 } := by
  simp only [PartialTracking.assignGreedy, hT, clearAssigned, List.map_cons, List.map_nil,
    trackDistances, peakDistances, List.getLast?_singleton, List.append_nil,
    realEnv_sort_singleton, List.foldl_nil, List.foldl_cons, acceptPairing,
    List.getElem?_cons_zero, pairingTest, hu, hflag, Bool.not_false, Bool.true_and,
    Bool.and_self, if_true, List.set_cons_zero, birthStep, Bool.not_true, Bool.false_and,
    Bool.false_eq_true, if_false, dyingTracks, List.singleton_append, Bool.and_false, hb,
    decide_True, List.cons_append, List.nil_append, Bool.and_true]

/-- A peak whose `logMag` exceeds `maxAmp + birthLow` clears the birth
threshold when `birthRange ≥ 0` and its frequency is not negative. -/
theorem birthThreshold_le (c : PartialTracking ℝ) (peak : SinePeak ℝ) (maxAmp : ℝ)
    (hr : 0 ≤ c.mBirthRange) (hf : 0 ≤ peak.freq) :
    c.birthThreshold realEnv peak maxAmp ≤ maxAmp + c.mBirthLowThreshold := by
  simp only [PartialTracking.birthThreshold, realEnv_pow]
  have h1 : (0.0075 : ℝ) ^ (peak.freq / 20000.0) ≤ 1 := by
    apply Real.rpow_le_one
    · norm_num
    · norm_num
    · apply div_nonneg hf; norm_num
  nlinarith

/-- The first frame of the scenario: a greedy call after `init()` with the
single peak `examplePeak`, which clears the birth threshold, and positive
tolerances.  The call returns; the collection holds one track, born at frame
0 with the id 1, and the variances are those of the parameters passed. -/
theorem scenario_first_frame (s0 : PartialTracking ℝ) (a1 : FrameArgs ℝ)
    (hp1 : a1.peaks = [examplePeak]) (hm1 : a1.method = 0) (hA : 0 < a1.zetaA)
    (hbirth : examplePeak.logMag >
      (s0.init.configureArgs realEnv a1).birthThreshold realEnv examplePeak a1.maxAmp) :
    ∃ s1, s0.init.processFrameArgs realEnv a1 = some s1 ∧
      s1.mTracks = [SineTrack.mk [examplePeak] 0 (-1) true true 1] ∧
      s1.mLastTrackId = 2 ∧ s1.mCurrentFrame = 1 ∧ s1.mInitialized = true ∧
      VariancesCurrent realEnv s1 ∧ s1.mZetaA = a1.zetaA ∧ s1.mZetaF = a1.zetaF ∧
      s1.mDelta = a1.delta := by
  obtain ⟨hT1, hC1, hL1, _, _, _, hI1⟩ := configureArgs_fields realEnv s0.init a1
  have hT1' : (s0.init.configureArgs realEnv a1).mTracks = [] := hT1
  have hC1' : (s0.init.configureArgs realEnv a1).mCurrentFrame = 0 := hC1
  have hL1' : (s0.init.configureArgs realEnv a1).mLastTrackId = 1 := hL1
  obtain ⟨t1, t2, t3, t4, _⟩ := configure_tolerances realEnv s0.init a1.minTrackLength
    a1.birthLowThreshold a1.birthHighThreshold a1.zetaA a1.zetaF a1.delta
  have hne : a1.zetaA ≠ s0.init.mZetaA ∨ a1.zetaF ≠ s0.init.mZetaF ∨
      a1.delta ≠ s0.init.mDelta := by
    left
    show a1.zetaA ≠ ((0 : Nat) : ℝ)
    rw [Nat.cast_zero]
    exact ne_of_gt hA
  obtain ⟨v1, v2⟩ := t4 hne
  have e1 := assignGreedy_first_peak (s0.init.configureArgs realEnv a1) examplePeak a1.maxAmp
    hT1' rfl hbirth
  have hstep1 := processFrameArgs_eq realEnv s0.init a1 rfl
  rw [if_pos hm1, hp1, e1, Option.map_some'] at hstep1
  obtain ⟨p1, p2, p3, p4, p5⟩ := processFrameArgs_tolerances realEnv _ _ _ hstep1
  refine ⟨_, hstep1, ?_, ?_, ?_, hI1, ⟨?_, ?_⟩, p1.trans t1, p2.trans t2, p3.trans t3⟩
  · show [SineTrack.mk [examplePeak] (staticCastInt
      (s0.init.configureArgs realEnv a1).mCurrentFrame) (-1) true true
      (s0.init.configureArgs realEnv a1).mLastTrackId] = _
    rw [hC1', hL1']
    rfl
  · show (s0.init.configureArgs realEnv a1).mLastTrackId + 1 = 2
    rw [hL1']
    rfl
  · show (s0.init.configureArgs realEnv a1).mCurrentFrame + 1 = 1
    rw [hC1']
    rfl
  · rw [p4, p1, p3]
    unfold PartialTracking.configureArgs
    rw [t1, t3]
    exact v1
  · rw [p5, p2, p3]
    unfold PartialTracking.configureArgs
    rw [t2, t3]
    exact v2

/-- The state in which the strategy of the second frame of the scenario runs,
when the call passes the tolerance parameters of the first. -/
theorem scenario_second_config (s1 : PartialTracking ℝ) (a2 : FrameArgs ℝ)
    (hcur1 : VariancesCurrent realEnv s1) (hzA : a2.zetaA = s1.mZetaA)
    (hzF : a2.zetaF = s1.mZetaF) (hd : a2.delta = s1.mDelta) :
    (s1.configureArgs realEnv a2).mTracks = s1.mTracks ∧
    (s1.configureArgs realEnv a2).mCurrentFrame = s1.mCurrentFrame ∧
    (s1.configureArgs realEnv a2).mLastTrackId = s1.mLastTrackId ∧
    (s1.configureArgs realEnv a2).mZetaA = s1.mZetaA ∧
    (s1.configureArgs realEnv a2).mZetaF = s1.mZetaF ∧
    (s1.configureArgs realEnv a2).mDelta = s1.mDelta ∧
    VariancesCurrent realEnv (s1.configureArgs realEnv a2) := by
  obtain ⟨hT2, hC2, hL2, _, _, _, _⟩ := configureArgs_fields realEnv s1 a2
  obtain ⟨u1, u2, u3, _, _⟩ := configure_tolerances realEnv s1 a2.minTrackLength
    a2.birthLowThreshold a2.birthHighThreshold a2.zetaA a2.zetaF a2.delta
  obtain ⟨w1, w2, _⟩ := variancesCurrent_frame realEnv s1 a2 hcur1
  refine ⟨hT2, hC2, hL2, u1.trans hzA, u2.trans hzF, u3.trans hd, ?_, ?_⟩
  · rw [w1]; unfold PartialTracking.configureArgs; rw [u1, u3]
  · rw [w2]; unfold PartialTracking.configureArgs; rw [u2, u3]

/-- Claim C21, amended. Over the reals, greedy strategy, after `init()`: for
every `delta` with `0 < delta < 1` and every tolerance pair `zetaF > 0`,
`zetaA > 0` that covers the differences in the sense of the test of the code,
`(2/zetaF)² + (0.2/zetaA)² < (ln((2 − delta)/(1 − delta)))²`, if frame 1 holds
the single peak (440 Hz, −10), which clears the birth threshold, and frame 2
holds the single peak (442 Hz, −10.2), both with their flag clear, then the
two calls return and the collection holds exactly one track; it is alive
(active, no end frame), starts at frame 0 and its history is the two peaks in
order. -/
theorem scenario_one_track_spans_both_frames (s0 : PartialTracking ℝ) (a1 a2 : FrameArgs ℝ)
    (hp1 : a1.peaks = [examplePeak]) (hp2 : a2.peaks = [scenarioPeak])
    (hm1 : a1.method = 0) (hm2 : a2.method = 0)
    (hzA : a2.zetaA = a1.zetaA) (hzF : a2.zetaF = a1.zetaF) (hd : a2.delta = a1.delta)
    (h0 : 0 < a1.delta) (h1 : a1.delta < 1) (hF : 0 < a1.zetaF) (hA : 0 < a1.zetaA)
    (hcover : (2 / a1.zetaF) ^ 2 + ((1 / 5) / a1.zetaA) ^ 2 <
      Real.log ((2 - a1.delta) / (1 - a1.delta)) ^ 2)
    (hbirth : examplePeak.logMag >
      (s0.init.configureArgs realEnv a1).birthThreshold realEnv examplePeak a1.maxAmp) :
    ∃ s2, s0.init.runFrames realEnv [a1, a2] = some s2 ∧
      s2.mTracks = [SineTrack.mk [examplePeak, scenarioPeak] 0 (-1) true true 1] := by
  obtain ⟨s1, hstep1, hs1T, _, _, hs1I, hcur1, z1, z2, z3⟩ :=
    scenario_first_frame s0 a1 hp1 hm1 hA hbirth
  obtain ⟨hT2, _, _, hzA2, hzF2, hd2, hcur2⟩ := scenario_second_config s1 a2 hcur1
    (hzA.trans z1.symm) (hzF.trans z2.symm) (hd.trans z3.symm)
  rw [z1] at hzA2
  rw [z2] at hzF2
  rw [z3] at hd2
  have hu : usefulVsSpurious (s1.configureArgs realEnv a2)
      (greedyDist realEnv (s1.configureArgs realEnv a2) examplePeak scenarioPeak) = true := by
    rw [usefulVsSpurious_greedy_iff _ (by rw [hd2]; exact h0) (by rw [hd2]; exact h1)
      (by rw [hzF2]; exact hF) (by rw [hzA2]; exact hA) hcur2, hzA2, hzF2, hd2]
    have e : ((examplePeak.freq - scenarioPeak.freq) / a1.zetaF) ^ 2 +
        ((examplePeak.logMag - scenarioPeak.logMag) / a1.zetaA) ^ 2 =
        (2 / a1.zetaF) ^ 2 + ((1 / 5) / a1.zetaA) ^ 2 := by
      simp only [examplePeak, scenarioPeak]
      have hA' := ne_of_gt hA
      have hF' := ne_of_gt hF
      field_simp
      ring
    rw [e]
    exact hcover
  have e2 := assignGreedy_continue (s1.configureArgs realEnv a2) examplePeak scenarioPeak
    a2.maxAmp 0 1 true (hT2.trans hs1T) rfl hu
  have hstep2 := processFrameArgs_eq realEnv s1 a2 hs1I
  rw [if_pos hm2, hp2, e2, Option.map_some'] at hstep2
  obtain ⟨s2, hs2, hs2T⟩ : ∃ s2, s1.processFrameArgs realEnv a2 = some s2 ∧
      s2.mTracks = [SineTrack.mk [examplePeak, scenarioPeak] 0 (-1) true true 1] :=
    ⟨_, hstep2, rfl⟩
  exact ⟨s2, by simp only [PartialTracking.runFrames, hstep1, hs2], hs2T⟩

theorem log_three_bounds : 0.69 < Real.log 3 ∧ Real.log 3 < 1.2 := by
  have h2lt := Real.log_two_lt_d9
  have h2gt := Real.log_two_gt_d9
  have h3 : Real.log 3 = Real.log 2 + Real.log (3 / 2) := by
    rw [← Real.log_mul (by norm_num) (by norm_num)]
    norm_num
  have h32 : Real.log (3 / 2) ≤ 3 / 2 - 1 := Real.log_le_sub_one_of_pos (by norm_num)
  have h32' : 0 ≤ Real.log (3 / 2) := Real.log_nonneg (by norm_num)
  constructor
  · rw [h3]; norm_num at h2gt ⊢; linarith
  · rw [h3]; norm_num at h2lt ⊢; linarith

theorem scenario_birth (s : PartialTracking ℝ) (a : FrameArgs ℝ)
    (hbl : a.birthLowThreshold = -24) (hbh : a.birthHighThreshold = -60) (peak : SinePeak ℝ)
    (hf : 0 ≤ peak.freq) (hl : -34 < peak.logMag) :
    peak.logMag > (s.configureArgs realEnv a).birthThreshold realEnv peak (-10) := by
  obtain ⟨b1, _, b3⟩ := configureArgs_birth_fields realEnv s a
  have hr : 0 ≤ (s.configureArgs realEnv a).mBirthRange := by
    rw [b3, hbl, hbh]; norm_num
  have := birthThreshold_le (s.configureArgs realEnv a) peak (-10) hr hf
  rw [b1, hbl] at this
  linarith

/-- Counterexample to claim C21 as stated. Greedy strategy, `delta = 1/2`,
`zetaF = 2` and `zetaA = 0.2` (the least tolerances that the claim admits),
frame maximum −10 and birth thresholds −24 and −60, so that both peaks clear
the birth threshold.  After `init()`, frame 1 holds (440 Hz, −10) and frame 2
holds (442 Hz, −10.2).  The pair fails the test of the code,
`(2/2)² + (0.2/0.2)² = 2` being more than `(ln 3)²`: after the two frames the
collection holds two tracks, the first dead at frame 1 with the history
`[(440, −10)]`, the second born at frame 1 with the history `[(442, −10.2)]`. -/
theorem scenario_minimal_tolerances_give_two_tracks :
    (0 : ℝ) < (scenarioArgs examplePeak).delta ∧ (scenarioArgs examplePeak).delta < 1 ∧
    (scenarioArgs examplePeak).zetaF ≥ 2 ∧ (scenarioArgs examplePeak).zetaA ≥ 1 / 5 ∧
    (exampleInit.runFrames realEnv [scenarioArgs examplePeak, scenarioArgs scenarioPeak]).map
      (fun s => s.mTracks) =
      some [SineTrack.mk [examplePeak] 0 1 false false 1,
        SineTrack.mk [scenarioPeak] 1 (-1) true true 2] := by
  refine ⟨by show (0 : ℝ) < 1 / 2; norm_num, by show (1 / 2 : ℝ) < 1; norm_num,
    by show (2 : ℝ) ≥ 2; norm_num, by show (1 / 5 : ℝ) ≥ 1 / 5; norm_num, ?_⟩
  have hb1 := scenario_birth PartialTracking.fresh.init (scenarioArgs examplePeak) rfl rfl
    examplePeak (by show (0 : ℝ) ≤ 440; norm_num) (by show (-34 : ℝ) < -10; norm_num)
  obtain ⟨s1, hstep1, hs1T, hs1L, hs1C, hs1I, hcur1, z1, z2, z3⟩ :=
    scenario_first_frame PartialTracking.fresh (scenarioArgs examplePeak) rfl rfl
      (by show (0 : ℝ) < 1 / 5; norm_num) hb1
  obtain ⟨hT2, hC2, hL2, hzA2, hzF2, hd2, hcur2⟩ := scenario_second_config s1
    (scenarioArgs scenarioPeak) hcur1 z1.symm z2.symm z3.symm
  rw [z1] at hzA2
  rw [z2] at hzF2
  rw [z3] at hd2
  have ezA : (scenarioArgs examplePeak).zetaA = 1 / 5 := rfl
  have ezF : (scenarioArgs examplePeak).zetaF = 2 := rfl
  have ed : (scenarioArgs examplePeak).delta = 1 / 2 := rfl
  rw [ezA] at hzA2
  rw [ezF] at hzF2
  rw [ed] at hd2
  have hu : usefulVsSpurious (s1.configureArgs realEnv (scenarioArgs scenarioPeak))
      (greedyDist realEnv (s1.configureArgs realEnv (scenarioArgs scenarioPeak)) examplePeak
        scenarioPeak) = false := by
    rw [Bool.eq_false_iff, Ne, usefulVsSpurious_greedy_iff _ (by rw [hd2]; norm_num)
      (by rw [hd2]; norm_num) (by rw [hzF2]; norm_num) (by rw [hzA2]; norm_num) hcur2,
      hzA2, hzF2, hd2]
    have e : ((examplePeak.freq - scenarioPeak.freq) / 2) ^ 2 +
        ((examplePeak.logMag - scenarioPeak.logMag) / (1 / 5)) ^ 2 = (2 : ℝ) := by
      simp only [examplePeak, scenarioPeak]
      norm_num
    have eK : ((2 : ℝ) - 1 / 2) / (1 - 1 / 2) = 3 := by norm_num
    rw [e, eK]
    obtain ⟨hlo, hhi⟩ := log_three_bounds
    nlinarith
  have hb2 := scenario_birth s1 (scenarioArgs scenarioPeak) rfl rfl scenarioPeak
    (by show (0 : ℝ) ≤ 442; norm_num) (by show (-34 : ℝ) < -51 / 5; norm_num)
  have e2 := assignGreedy_break (s1.configureArgs realEnv (scenarioArgs scenarioPeak))
    examplePeak scenarioPeak (-10) 0 1 true (hT2.trans hs1T) rfl hu hb2
  have hstep2 := processFrameArgs_eq realEnv s1 (scenarioArgs scenarioPeak) hs1I
  have em : (scenarioArgs scenarioPeak).method = 0 := rfl
  have ep : (scenarioArgs scenarioPeak).peaks = [scenarioPeak] := rfl
  have ea : (scenarioArgs scenarioPeak).maxAmp = -10 := rfl
  rw [if_pos em, ep, ea, e2, Option.map_some'] at hstep2
  obtain ⟨s2, hs2, hs2T⟩ : ∃ s2,
      s1.processFrameArgs realEnv (scenarioArgs scenarioPeak) = some s2 ∧
      s2.mTracks = [SineTrack.mk [examplePeak] 0 1 false false 1,
        SineTrack.mk [scenarioPeak] 1 (-1) true true 2] := by
    refine ⟨_, hstep2, ?_⟩
    show [SineTrack.mk [examplePeak] 0
        (s1.configureArgs realEnv (scenarioArgs scenarioPeak)).mCurrentFrame false false 1,
      SineTrack.mk [scenarioPeak]
        (staticCastInt (s1.configureArgs realEnv (scenarioArgs scenarioPeak)).mCurrentFrame)
        (-1) true true (s1.configureArgs realEnv (scenarioArgs scenarioPeak)).mLastTrackId] = _
    rw [hC2, hL2, hs1C, hs1L]
    rfl
  have hrun : exampleInit.runFrames realEnv
      [scenarioArgs examplePeak, scenarioArgs scenarioPeak] = some s2 := by
    show PartialTracking.fresh.init.runFrames realEnv _ = _
    simp only [PartialTracking.runFrames, hstep1, hs2]
  rw [hrun, Option.map_some', hs2T]

/-- Witness of claim C21 (amended): `delta = 1/2`, `zetaF = 20`, `zetaA = 2`, for
which `(2/20)² + (0.2/2)² = 0.02 < (ln 3)²`; frame maximum −10 and birth
thresholds −24 and −60. -/
theorem scenario_one_track_spans_both_frames_witness :
    ∃ s2, PartialTracking.fresh.init.runFrames realEnv
        [wideArgs examplePeak, wideArgs scenarioPeak] = some s2 ∧
      s2.mTracks = [SineTrack.mk [examplePeak, scenarioPeak] 0 (-1) true true 1] :=
  scenario_one_track_spans_both_frames PartialTracking.fresh (wideArgs examplePeak)
    (wideArgs scenarioPeak) rfl rfl rfl rfl rfl rfl rfl
    (by show (0 : ℝ) < 1 / 2; norm_num) (by show (1 / 2 : ℝ) < 1; norm_num)
    (by show (0 : ℝ) < 20; norm_num) (by show (0 : ℝ) < 2; norm_num)
    (by
      show ((2 : ℝ) / 20) ^ 2 + ((1 / 5) / 2) ^ 2 < Real.log ((2 - 1 / 2) / (1 - 1 / 2)) ^ 2
      have eK : ((2 : ℝ) - 1 / 2) / (1 - 1 / 2) = 3 := by norm_num
      rw [eK]
      obtain ⟨hlo, _⟩ := log_three_bounds
      nlinarith)
    (scenario_birth PartialTracking.fresh.init (wideArgs examplePeak) rfl rfl examplePeak
      (by show (0 : ℝ) ≤ 440; norm_num) (by show (-34 : ℝ) < -10; norm_num))

/-! ### More frames of the worked example -/

/-- Greedy frame after `init()` holding `examplePeak` with its flag set: no
pairing, no birth. -/
theorem example_flagged_first :
    exampleInit.processFrameArgs realEnv (exampleArgs 0 1 [{ examplePeak with assigned := true }]) =
      some (idleState 0) := by
  rw [example_init_step,
    processFrameArgs_example 1 0 _ (exampleCfg 1) ⟨rfl, rfl, rfl, rfl, rfl, rfl, rfl, rfl⟩]
  have eT : (exampleCfg 1).mTracks = [] := (exampleCfg_fields 1).2.2.2.1
  simp only [if_true, PartialTracking.assignGreedy, eT, clearAssigned, List.map_nil,
    trackDistances, realEnv_sort_nil, List.foldl_nil, List.foldl_cons, birthStep, Bool.not_true,
    Bool.false_and, Bool.false_eq_true, if_false, dyingTracks, Option.map_some']
  apply congrArg some
  apply PartialTracking.ext <;> first | rfl | simp [idleState, exampleCfg_fields]

/-- Claim C22, the code at the failing input. After `init()`, a greedy frame holds
the single peak (440 Hz, −10): when the peak comes with `assigned = false` a
track is born (id 1, start frame 0, history `[(440, −10)]`); when it comes
with `assigned = true`, the same frequency and log-magnitude, no track is
born. -/
theorem incoming_flag_changes_births :
    (exampleInit.runFrames realEnv [exampleArgs 0 1 [examplePeak]]).map
      (fun s => s.mTracks.map (fun t =>
        (t.trackId, t.startFrame, t.endFrame, t.peaks.map (fun p => (p.freq, p.logMag))))) =
      some [(1, 0, -1, [(440, -10)])] ∧
    (exampleInit.runFrames realEnv [exampleArgs 0 1 [{ examplePeak with assigned := true }]]).map
      (fun s => s.mTracks.map (fun t =>
        (t.trackId, t.startFrame, t.endFrame, t.peaks.map (fun p => (p.freq, p.logMag))))) =
      some [] := by
  constructor
  · simp only [PartialTracking.runFrames, example_init_step, example_step1, Option.map_some']
    rfl
  · simp only [PartialTracking.runFrames, example_flagged_first, Option.map_some']
    have eT : (idleState 0).mTracks = [] := (exampleCfg_fields 1).2.2.2.1
    rw [eT]
    rfl

theorem example_usefulEntry_flagged (s : PartialTracking ℝ) (h7 : s.mDelta = 1 / 2) :
    usefulEntry realEnv s { examplePeak with assigned := true } examplePeak = true := by
  simp only [usefulEntry, usefulCost, spuriousCost, h7, realEnv_exp, sub_self]
  norm_num

/-- Frame holding `examplePeak` processed by the solver-based strategy in
`mixedState3`: the stored peak is bound to the id 2, the track with that id is
dead, and it receives the peak. -/
theorem example_mixed_extend (m : Int) :
    (mixedState3 m).processFrameArgs realEnv (exampleArgs 1 m [examplePeak]) =
      some (deadExtendedState m) := by
  rw [processFrameArgs_example m 1 [examplePeak] (mixedState3 m)
    ⟨rfl, rfl, rfl, rfl, rfl, rfl, rfl, rfl⟩]
  obtain ⟨f1, f2, f3, f4, f5, f6, f7, f8, f9, f10, f11, f12, f13, f14⟩ := exampleCfg_fields m
  have eP : (mixedState3 m).mPrevPeaks = [{ examplePeak with assigned := true }] := rfl
  have ePT : (mixedState3 m).mPrevTracks = [2] := rfl
  have eT : (mixedState3 m).mTracks =
      ([⟨[examplePeak, examplePeak], 0, 2, false, false, 2⟩] : List (SineTrack ℝ)) := rfl
  have eL : (mixedState3 m).mLastTrackId = 2 := rfl
  have eC : (mixedState3 m).mCurrentFrame = 3 := rfl
  have hu := example_usefulEntry_flagged (mixedState3 m) f14
  simp only [show ¬ ((1 : Int) = 0) by decide, if_false, PartialTracking.assignMunkres, eP,
    List.isEmpty_cons, Bool.false_eq_true, eT, clearAssigned, List.map_cons, List.map_nil,
    List.length_singleton, List.replicate_one, gt_iff_lt, Nat.zero_lt_one,
    if_true, show List.range 1 = [0] from rfl, munkresRows, munkresRow, List.getElem?_cons_zero,
    realEnv_munkres, Nat.cast_zero, Nat.cast_one, Int.toNat_zero, hu, ePT]
  simp only [show ¬ ((0 : Int) ≥ 1) by decide, show ¬ ((0 : Int) < 0) by decide,
    show ((2 : Int) > 0) by decide, if_false, decide_True, Bool.true_and, Bool.and_self,
    if_true, extendTracks, List.getElem?_cons_zero, List.any_cons, List.any_nil, beq_self_eq_true,
    Bool.or_false, List.map_cons, List.map_nil, List.set_cons_zero, eL, eC, dyingTracks,
    Bool.false_and, Bool.false_eq_true, Option.map_some', List.cons_append, List.nil_append]
  apply congrArg some
  apply PartialTracking.ext <;> rfl

/-- Claim C25, the code at the failing input. After `init()`: two frames holding
`examplePeak` processed by the solver-based strategy (a track is born with id
2 and the stored peak is bound to it), a greedy frame without peaks (the track
dies at frame 2, with 2 peaks in its history), then a frame holding
`examplePeak` processed by the solver-based strategy.  The last call appends
the peak to the dead track: its history has 3 peaks, while it is still
inactive with `endFrame = 2`. -/
theorem dead_track_extended_after_strategy_switch :
    (exampleInit.runFrames realEnv
      [exampleArgs 1 1 [examplePeak], exampleArgs 1 1 [examplePeak], exampleArgs 0 1 []]).map
      (fun s => s.mTracks.map (fun t => (t.trackId, t.active, t.endFrame, t.peaks.length))) =
      some [(2, false, 2, 2)] ∧
    (exampleInit.runFrames realEnv
      [exampleArgs 1 1 [examplePeak], exampleArgs 1 1 [examplePeak], exampleArgs 0 1 [],
       exampleArgs 1 1 [examplePeak]]).map
      (fun s => s.mTracks.map (fun t => (t.trackId, t.active, t.endFrame, t.peaks.length))) =
      some [(2, false, 2, 3)] := by
  constructor
  · simp only [PartialTracking.runFrames, example_init_step, example_munkres_step1,
      example_munkres_step2, example_mixed_step3, Option.map_some']
    rfl
  · simp only [PartialTracking.runFrames, example_init_step, example_munkres_step1,
      example_munkres_step2, example_mixed_step3, example_mixed_extend, Option.map_some']
    rfl

/-- Claim C28, the code at the failing input. After `init()`, a frame holding
`examplePeak` with the frame maximum −10 is processed by the solver-based
strategy.  The call returns early: it stores the peak list of the frame but
not its maximum, and the stored previous maximum is still the 0 that `init()`
wrote.  The next call tests the stored peak against a threshold computed with
0. -/
theorem early_return_keeps_previous_max_amp :
    (exampleArgs 1 1 [examplePeak]).maxAmp = -10 ∧
    (exampleInit.runFrames realEnv [exampleArgs 1 1 [examplePeak]]).map
      (fun s => (s.mPrevPeaks, s.mPrevMaxAmp)) = some ([examplePeak], 0) := by
  refine ⟨rfl, ?_⟩
  simp only [PartialTracking.runFrames, example_init_step, example_munkres_step1,
    Option.map_some']
  have eA : (munkresState1 1).mPrevMaxAmp = 0 := (exampleCfg_fields 1).2.2.2.2.2.2.2.1
  rw [eA]
  rfl

theorem example_wrapped_run :
    exampleInit.runFrames realEnv
      (List.replicate 2147483648 (exampleArgs 0 1 []) ++ [exampleArgs 0 1 [examplePeak]]) =
      some (lateBirthState 2147483647) := by
  have h : (2147483648 : Nat) = 2147483647 + 1 := by norm_num
  rw [h, runFrames_append, example_idle_run]
  simp only [Option.some_bind, PartialTracking.runFrames, example_late_birth]

theorem lateBirthState_wrapped :
    (lateBirthState 2147483647).mTracks =
      [SineTrack.mk [examplePeak] (-2147483648) (-1) true true 1] ∧
    (lateBirthState 2147483647).mCurrentFrame = 2147483649 ∧
    (lateBirthState 2147483647).mMinTrackLength = 1 := by
  refine ⟨?_, ?_, (exampleCfg_fields 1).2.1⟩
  · show [SineTrack.mk [examplePeak] (staticCastInt (((2147483647 : Nat) : Int) + 1)) (-1) true
      true 1] = _
    simp only [staticCastInt]
    norm_num
  · show ((2147483647 : Nat) : Int) + 2 = 2147483649
    norm_num

/-- Claim C27, the code at the failing input. After `init()` and `2^31` greedy
frames without peaks, a greedy frame holding `examplePeak`: the track that the
call creates is alive with 1 peak in its history, and
`currentFrame − startFrame` is `2^32 + 1`, the start frame having wrapped to
`−2^31`. -/
theorem greedy_history_length_breaks_after_wrap :
    (exampleInit.runFrames realEnv
      (List.replicate 2147483648 (exampleArgs 0 1 []) ++ [exampleArgs 0 1 [examplePeak]])).map
      (fun s => s.mTracks.map (fun t =>
        (t.active, (t.peaks.length : Int), s.mCurrentFrame - t.startFrame))) =
      some [(true, 1, 4294967297)] := by
  obtain ⟨hT, hC, _⟩ := lateBirthState_wrapped
  rw [example_wrapped_run, Option.map_some', hT, hC]
  simp only [List.map_cons, List.map_nil, List.length_singleton, Nat.cast_one]
  norm_num

/-- Claim C26, the code at the failing input. After `init()` and `2^31` greedy
frames without peaks, a greedy frame holding `examplePeak`, all with
`minTrackLength = 1`: the track that the last call creates has 1 peak in its
history and `startFrame = −2^31`, so that `getActivePeaks()` reads its history
at the index `currentFrame − minTrackLength − startFrame = 2^32`, out of
range. -/
theorem getActivePeaks_reads_out_of_range_after_wrap :
    (exampleInit.runFrames realEnv
      (List.replicate 2147483648 (exampleArgs 0 1 []) ++ [exampleArgs 0 1 [examplePeak]])).map
      (fun s => (s.mTracks.map (fun t =>
        (s.mCurrentFrame - s.mMinTrackLength - t.startFrame, (t.peaks.length : Int))),
        s.getActivePeaks)) =
      some ([(4294967296, 1)], none) := by
  obtain ⟨hT, hC, hM⟩ := lateBirthState_wrapped
  rw [example_wrapped_run, Option.map_some']
  have hget : (lateBirthState 2147483647).getActivePeaks = none := by
    unfold PartialTracking.getActivePeaks
    simp only [hT, hC, hM, getActivePeaksLoop]
    norm_num [staticCastInt]
    have hidx : ([examplePeak] : List (SinePeak ℝ))[Int.toNat 4294967296]? = none := by
      apply List.getElem?_eq_none
      have h : Int.toNat 4294967296 = 4294967296 := rfl
      rw [h, List.length_singleton]
      norm_num
    rw [hidx]
  rw [hget, hT, hC, hM]
  simp only [List.map_cons, List.map_nil, List.length_singleton, Nat.cast_one]
  norm_num

/-- The sort of `realEnv` returns every candidate it was given, in ascending
order of cost. -/
theorem realEnv_sort_ascending (l : List (ℝ × Nat × Nat)) :
    (∀ q ∈ l, q ∈ realEnv.sort l) ∧ (realEnv.sort l).Pairwise (fun p q => ¬ q.1 < p.1) := by
  constructor
  · intro q hq
    exact (List.perm_insertionSort _ l).symm.subset hq
  · haveI : IsTotal (ℝ × Nat × Nat) (fun p q => p.1 ≤ q.1) := ⟨fun a b => le_total a.1 b.1⟩
    haveI : IsTrans (ℝ × Nat × Nat) (fun p q => p.1 ≤ q.1) := ⟨fun a b c h1 h2 => le_trans h1 h2⟩
    have h : (List.insertionSort (fun (p q : ℝ × Nat × Nat) => p.1 ≤ q.1) l).Pairwise
        (fun p q => p.1 ≤ q.1) := List.sorted_insertionSort _ l
    exact h.imp (fun hpq => not_lt.mpr hpq)

theorem example_dist_flagged (s : PartialTracking ℝ) :
    greedyDist realEnv s examplePeak { examplePeak with assigned := true } = 0 := by
  simp only [greedyDist, realEnv_pow, realEnv_exp, sub_self]
  norm_num

/-- Claim C23, the code at the failing input. After `init()` and a greedy frame
holding `examplePeak` (one active track, its history `[examplePeak]`), a greedy
frame holds the same peak with `assigned = true`.  The frame has one candidate
pairing, between that track and that peak, with cost 0; it passes the
useful-vs-spurious test; it is not accepted, and no pairing is: the frame has
no accepted pairing at all.  The track dies and its history has not grown. -/
theorem flagged_peak_candidate_rejected_without_rival :
    exampleInit.runFrames realEnv [exampleArgs 0 1 [examplePeak]] = some (greedyState1 1) ∧
    trackDistances realEnv
      ((greedyState1 1).configureArgs realEnv
        (exampleArgs 0 1 [{ examplePeak with assigned := true }]))
      [{ examplePeak with assigned := true }] 0
      (clearAssigned ((greedyState1 1).configureArgs realEnv
        (exampleArgs 0 1 [{ examplePeak with assigned := true }])).mTracks) = some [(0, 0, 0)] ∧
    usefulVsSpurious ((greedyState1 1).configureArgs realEnv
      (exampleArgs 0 1 [{ examplePeak with assigned := true }])) 0 = true ∧
    greedyMatching realEnv
      ((greedyState1 1).configureArgs realEnv
        (exampleArgs 0 1 [{ examplePeak with assigned := true }]))
      [{ examplePeak with assigned := true }] = [] ∧
    ((greedyState1 1).processFrameArgs realEnv
      (exampleArgs 0 1 [{ examplePeak with assigned := true }])).map
      (fun s => s.mTracks.map (fun t => (t.trackId, t.active, t.endFrame, t.peaks.length))) =
      some [(1, false, 1, 1)] := by
  obtain ⟨f1, f2, f9, f10, f11, f12, f13, f14⟩ := greedyState1_fields 1
  have hcfg : (greedyState1 1).configureArgs realEnv
      (exampleArgs 0 1 [{ examplePeak with assigned := true }]) = greedyState1 1 :=
    configureArgs_example 1 0 _ _ f2 f9 f10 f11 f12 f13 f14
  have eT : (greedyState1 1).mTracks =
      ([⟨[examplePeak], 0, -1, true, true, 1⟩] : List (SineTrack ℝ)) := rfl
  have hdist : trackDistances realEnv (greedyState1 1) [{ examplePeak with assigned := true }] 0
      (clearAssigned (greedyState1 1).mTracks) = some [(0, 0, 0)] := by
    simp only [eT, clearAssigned, List.map_cons, List.map_nil, trackDistances, peakDistances,
      List.getLast?_singleton, List.append_nil, if_true, example_dist_flagged]
  have huse : usefulVsSpurious (greedyState1 1) 0 = true := by
    simp only [usefulVsSpurious, f14]
    norm_num
  rw [hcfg]
  refine ⟨?_, hdist, huse, ?_, ?_⟩
  · simp only [PartialTracking.runFrames, example_init_step, example_step1]
  · unfold greedyMatching
    rw [hdist]
    simp only [realEnv_sort_singleton, acceptedPairings, eT, clearAssigned, List.map_cons,
      List.map_nil, List.getElem?_cons_zero, acceptPairing, pairingTest, Bool.not_true,
      Bool.and_false, Bool.false_and, Bool.false_eq_true, if_false]
  · rw [processFrameArgs_example 1 0 _ (greedyState1 1) ⟨rfl, rfl, rfl, rfl, rfl, rfl, rfl, rfl⟩]
    simp only [if_true, PartialTracking.assignGreedy, hdist, realEnv_sort_singleton,
      List.foldl_cons, List.foldl_nil, eT, clearAssigned, List.map_cons, List.map_nil,
      List.getElem?_cons_zero, acceptPairing, pairingTest, Bool.not_true,
      Bool.and_false, Bool.false_and, Bool.false_eq_true, if_false, birthStep, dyingTracks,
      Bool.not_false, Bool.and_self, if_true, Option.map_some', List.length_singleton]
    rfl

/-- Witness of claim C24: the third frame of the worked example processed by the
solver-based strategy, in the state `munkresState2 1` reached after `init()` by
two such frames; the solver of `realEnv` matches row 0 to column 0. -/
theorem solver_frame_is_injective_witness :
    ∃ s', (munkresState2 1).processFrameArgs realEnv (exampleArgs 1 1 [examplePeak]) =
      some s' :=
  (solver_frame_is_injective realEnv PartialTracking.fresh (munkresState2 1) _
    (exampleArgs 1 1 [examplePeak]) _
    (Run.frame (exampleArgs 1 1 [examplePeak])
      (Run.frame (exampleArgs 1 1 [examplePeak]) (Run.refl _)
        (by show (1 : Int) ≠ 0; decide)
        ((example_init_step 1 1 [examplePeak]).trans (example_munkres_step1 1)))
      (by show (1 : Int) ≠ 0; decide) (example_munkres_step2 1))
    (by show (1 : Int) ≠ 0; decide) rfl rfl
    (fun i _ => by
      rw [realEnv_munkres]
      split
      · exact Int.natCast_nonneg i
      · exact Int.natCast_nonneg _)
    (fun i j _ _ hne hlt => by
      have hM : (exampleArgs 1 1 [examplePeak]).peaks.length = 1 := rfl
      rw [realEnv_munkres, hM] at hlt
      rw [realEnv_munkres, realEnv_munkres, hM]
      by_cases hi : i < 1
      · by_cases hj : j < 1
        · rw [if_pos hi, if_pos hj]; omega
        · rw [if_pos hi, if_neg hj]; push_cast; omega
      · rw [if_neg hi] at hlt
        simp at hlt)).imp (fun _ h => h.1)

/-- First frame of the solver-based strategy, the peak coming with its flag set:
the peak is stored as it came. -/
theorem example_flagged_store (m : Int) :
    (exampleCfg m).processFrameArgs realEnv
      (exampleArgs 1 m [{ examplePeak with assigned := true }]) =
      some (flaggedStoredState m) := by
  rw [processFrameArgs_example m 1 _ (exampleCfg m) ⟨rfl, rfl, rfl, rfl, rfl, rfl, rfl, rfl⟩]
  obtain ⟨f1, f2, f3, f4, f5, f6, f7, f8, f9, f10, f11, f12, f13, f14⟩ := exampleCfg_fields m
  simp only [show ¬ ((1 : Int) = 0) by decide, if_false, PartialTracking.assignMunkres, f5,
    List.isEmpty_nil, if_true, f4, clearAssigned, List.map_nil, Option.map_some',
    List.length_singleton, List.replicate_one, List.replicate_zero]
  apply congrArg some
  apply PartialTracking.ext <;> first | rfl | simp [flaggedStoredState, exampleCfg_fields]

theorem example_birth_flagged (s : PartialTracking ℝ) (maxAmp : ℝ)
    (h2 : s.mBirthLowThreshold = -24) (h4 : s.mBirthRange = 36) (hmax : maxAmp < 14) :
    ({ examplePeak with assigned := true } : SinePeak ℝ).logMag >
      s.birthThreshold realEnv { examplePeak with assigned := true } maxAmp :=
  example_birth s maxAmp h2 h4 hmax

/-- Second frame of the solver-based strategy after a peak stored with its flag
set: the pair is useful and the stored peak is above the birth threshold, but
no track is created. -/
theorem example_flagged_unborn (m : Int) :
    (flaggedStoredState m).processFrameArgs realEnv (exampleArgs 1 m [examplePeak]) =
      some (flaggedUnbornState m) := by
  rw [processFrameArgs_example m 1 [examplePeak] (flaggedStoredState m)
    ⟨rfl, rfl, rfl, rfl, rfl, rfl, rfl, rfl⟩]
  obtain ⟨f1, f2, f3, f4, f5, f6, f7, f8, f9, f10, f11, f12, f13, f14⟩ := exampleCfg_fields m
  have eP : (flaggedStoredState m).mPrevPeaks = [{ examplePeak with assigned := true }] := rfl
  have ePT : (flaggedStoredState m).mPrevTracks = [0] := rfl
  have eT : (flaggedStoredState m).mTracks = [] := f4
  have eA : (flaggedStoredState m).mPrevMaxAmp = 0 := f8
  have eL : (flaggedStoredState m).mLastTrackId = 1 := f7
  have eC : (flaggedStoredState m).mCurrentFrame = 1 := rfl
  have hu := example_usefulEntry_flagged (flaggedStoredState m) f14
  simp only [show ¬ ((1 : Int) = 0) by decide, if_false, PartialTracking.assignMunkres, eP,
    List.isEmpty_cons, Bool.false_eq_true, eT, clearAssigned, List.map_nil,
    List.length_singleton, List.replicate_one, Nat.lt_irrefl, gt_iff_lt, Nat.zero_lt_one,
    if_true, show List.range 1 = [0] from rfl, munkresRows, munkresRow, List.getElem?_cons_zero,
    realEnv_munkres, Nat.cast_zero, Nat.cast_one, Int.toNat_zero, hu, ePT, eA]
  simp only [show ¬ ((0 : Int) ≥ 1) by decide, show ¬ ((0 : Int) < 0) by decide,
    show ¬ ((0 : Int) > 0) by decide, if_false, decide_False, Bool.false_and,
    Bool.false_eq_true, Bool.not_true, Bool.and_false, dyingTracks, List.map_nil,
    Option.map_some', eL, eC]
  apply congrArg some
  apply PartialTracking.ext <;> first | rfl | simp [flaggedUnbornState, exampleCfg_fields]

/-- Claim C12, the code at the failing input. After `init()`, a frame holding
the single peak (440 Hz, −10), supplied with `assigned = true`, is processed by
the solver-based strategy: the peak is stored as it came and is bound to no
track (`mPrevTracks = [0]`, the collection is empty).  A second frame holds
(440 Hz, −10): the solver of `realEnv` matches row 0 to column 0, the pair is
useful and the `logMag` of the stored peak exceeds the birth threshold, yet the
call creates no track.  With the first peak supplied with `assigned = false`
the same two calls create one track. -/
theorem unbound_flagged_peak_seeds_no_track :
    exampleInit.runFrames realEnv [exampleArgs 1 1 [{ examplePeak with assigned := true }]] =
      some (flaggedStoredState 1) ∧
    (flaggedStoredState 1).mPrevPeaks = [{ examplePeak with assigned := true }] ∧
    (flaggedStoredState 1).mPrevTracks = [0] ∧ (flaggedStoredState 1).mTracks = [] ∧
    (flaggedStoredState 1).configureArgs realEnv (exampleArgs 1 1 [examplePeak]) =
      flaggedStoredState 1 ∧
    realEnv.munkres 1 1 (costMatrix realEnv (flaggedStoredState 1) [examplePeak]) 0 = 0 ∧
    usefulCost realEnv (flaggedStoredState 1) { examplePeak with assigned := true } examplePeak <
      spuriousCost realEnv (flaggedStoredState 1) { examplePeak with assigned := true }
        examplePeak ∧
    ({ examplePeak with assigned := true } : SinePeak ℝ).logMag >
      (flaggedStoredState 1).birthThreshold realEnv { examplePeak with assigned := true }
        (flaggedStoredState 1).mPrevMaxAmp ∧
    (exampleInit.runFrames realEnv
      [exampleArgs 1 1 [{ examplePeak with assigned := true }],
       exampleArgs 1 1 [examplePeak]]).map (fun s => s.mTracks) = some [] ∧
    (exampleInit.runFrames realEnv
      [exampleArgs 1 1 [examplePeak], exampleArgs 1 1 [examplePeak]]).map
      (fun s => s.mTracks.map (fun t => t.peaks)) = some [[examplePeak, examplePeak]] := by
  obtain ⟨f1, f2, f3, f4, f5, f6, f7, f8, f9, f10, f11, f12, f13, f14⟩ := exampleCfg_fields 1
  refine ⟨?_, rfl, rfl, f4, ?_, ?_, ?_, ?_, ?_, ?_⟩
  · simp only [PartialTracking.runFrames, example_init_step, example_flagged_store]
  · exact configureArgs_example 1 1 _ _ f2 f9 f10 f11 f12 f13 f14
  · rw [realEnv_munkres]
    simp
  · have hu := example_usefulEntry_flagged (flaggedStoredState 1) f14
    simpa [usefulEntry] using hu
  · exact example_birth_flagged (flaggedStoredState 1) _ f9 f11
      (by rw [show (flaggedStoredState 1).mPrevMaxAmp = 0 from f8]; norm_num)
  · simp only [PartialTracking.runFrames, example_init_step, example_flagged_store,
      example_flagged_unborn, Option.map_some']
    exact congrArg some f4
  · simp only [PartialTracking.runFrames, example_init_step, example_munkres_step1,
      example_munkres_step2, Option.map_some']
    rfl

end WorkedExample

end fluid.algorithm
